import Mathlib

/-!
Verification development for the data-compactor crate
(rust-analysis-tools/data-compactor).  The three compactors
(DataCompactor in lib.rs, EfficientCompactor in efficient_compactor.rs,
TrulyEfficientCompactor in truly_efficient_compactor.rs) are shallowly
embedded below.

Modelling conventions, fixed once here:
* serde_json::Value is the inductive JValue; its Number arm is split into
  int (the i64/u64 backed arms, modelled as unbounded Int with explicit
  range checks where the source checks is_i64/is_u64) and float (the f64
  arm, modelled as an exact rational; f64 rounding is not modelled, and
  serde's shortest-decimal f64 printing is modelled by exact shortest
  decimal rendering, which agrees with ryu for decimally representable
  magnitudes printed without scientific notation).
* serde_json::Map (a BTreeMap by default) is an association list; inputs
  are well formed when their keys are strictly sorted, which is what the
  BTreeMap guarantees; map insertion is order-preserving sorted insertion.
* Rust HashMap iteration order is arbitrary in the source; the model uses
  first-insertion order.  No theorem below depends on a particular
  iteration order for its claim content.
* Rust usize/u8/u16/u32 counters are modelled as Nat; where the width is
  semantically load bearing (the u8 saturating_add of the aggressive
  compactor, the usize subtraction of DataCompactor) the width behaviour
  is modelled explicitly.
* String length is the character count; the source measures UTF-8 bytes,
  which agrees on the ASCII data exercised here.
-/

/-- Model of serde_json::Value. -/
inductive JValue where
  | null : JValue
  | bool (b : Bool) : JValue
  | int (n : Int) : JValue
  | float (q : Rat) : JValue
  | str (s : String) : JValue
  | arr (l : List JValue) : JValue
  | obj (o : List (String × JValue)) : JValue
  deriving Repr

mutual

def JValue.deq : (a b : JValue) → Decidable (a = b)
  | .null, .null => isTrue rfl
  | .bool a, .bool b =>
    match decEq a b with
    | isTrue h => isTrue (by rw [h])
    | isFalse h => isFalse (by intro hh; cases hh; exact h rfl)
  | .int a, .int b =>
    match decEq a b with
    | isTrue h => isTrue (by rw [h])
    | isFalse h => isFalse (by intro hh; cases hh; exact h rfl)
  | .float a, .float b =>
    match decEq a b with
    | isTrue h => isTrue (by rw [h])
    | isFalse h => isFalse (by intro hh; cases hh; exact h rfl)
  | .str a, .str b =>
    match decEq a b with
    | isTrue h => isTrue (by rw [h])
    | isFalse h => isFalse (by intro hh; cases hh; exact h rfl)
  | .arr a, .arr b =>
    match JValue.deqArr a b with
    | isTrue h => isTrue (by rw [h])
    | isFalse h => isFalse (by intro hh; cases hh; exact h rfl)
  | .obj a, .obj b =>
    match JValue.deqObj a b with
    | isTrue h => isTrue (by rw [h])
    | isFalse h => isFalse (by intro hh; cases hh; exact h rfl)
  | .null, .bool _ | .null, .int _ | .null, .float _ | .null, .str _
  | .null, .arr _ | .null, .obj _ => isFalse (by intro h; cases h)
  | .bool _, .null | .bool _, .int _ | .bool _, .float _ | .bool _, .str _
  | .bool _, .arr _ | .bool _, .obj _ => isFalse (by intro h; cases h)
  | .int _, .null | .int _, .bool _ | .int _, .float _ | .int _, .str _
  | .int _, .arr _ | .int _, .obj _ => isFalse (by intro h; cases h)
  | .float _, .null | .float _, .bool _ | .float _, .int _ | .float _, .str _
  | .float _, .arr _ | .float _, .obj _ => isFalse (by intro h; cases h)
  | .str _, .null | .str _, .bool _ | .str _, .int _ | .str _, .float _
  | .str _, .arr _ | .str _, .obj _ => isFalse (by intro h; cases h)
  | .arr _, .null | .arr _, .bool _ | .arr _, .int _ | .arr _, .float _
  | .arr _, .str _ | .arr _, .obj _ => isFalse (by intro h; cases h)
  | .obj _, .null | .obj _, .bool _ | .obj _, .int _ | .obj _, .float _
  | .obj _, .str _ | .obj _, .arr _ => isFalse (by intro h; cases h)

def JValue.deqArr : (a b : List JValue) → Decidable (a = b)
  | [], [] => isTrue rfl
  | [], _ :: _ => isFalse (by intro h; cases h)
  | _ :: _, [] => isFalse (by intro h; cases h)
  | x :: xs, y :: ys =>
    match JValue.deq x y with
    | isTrue h1 =>
      match JValue.deqArr xs ys with
      | isTrue h2 => isTrue (by rw [h1, h2])
      | isFalse h2 => isFalse (by intro hh; cases hh; exact h2 rfl)
    | isFalse h1 => isFalse (by intro hh; cases hh; exact h1 rfl)

def JValue.deqObj : (a b : List (String × JValue)) → Decidable (a = b)
  | [], [] => isTrue rfl
  | [], _ :: _ => isFalse (by intro h; cases h)
  | _ :: _, [] => isFalse (by intro h; cases h)
  | (k, x) :: xs, (k2, y) :: ys =>
    match decEq k k2 with
    | isTrue hk =>
      match JValue.deq x y with
      | isTrue h1 =>
        match JValue.deqObj xs ys with
        | isTrue h2 => isTrue (by rw [hk, h1, h2])
        | isFalse h2 => isFalse (by intro hh; cases hh; exact h2 rfl)
      | isFalse h1 => isFalse (by intro hh; cases hh; exact h1 rfl)
    | isFalse hk => isFalse (by intro hh; cases hh; exact hk rfl)

end

instance : DecidableEq JValue := JValue.deq

/-- Value::get(key): Some only on objects; first binding of the key wins
(serde maps carry each key once). -/
def JValue.get? : JValue → String → Option JValue
  | .obj o, k => o.lookup k
  | _, _ => none

/-- Value::as_str. -/
def JValue.asStr : JValue → Option String
  | .str s => some s
  | _ => none

/-- Value::as_array. -/
def JValue.asArray : JValue → Option (List JValue)
  | .arr l => some l
  | _ => none

/-- Value::as_object. -/
def JValue.asObject : JValue → Option (List (String × JValue))
  | .obj o => some o
  | _ => none

/-- Value::as_bool. -/
def JValue.asBool : JValue → Option Bool
  | .bool b => some b
  | _ => none

/-- Number::is_i64 semantics on the integer arms: the value fits in i64.
The float arm is never an i64. -/
def JValue.asI64 : JValue → Option Int
  | .int n => if -(2 ^ 63) ≤ n ∧ n < 2 ^ 63 then some n else none
  | _ => none

/-- Value::as_f64: both integer arms convert (modelled exactly) and the
float arm projects. -/
def JValue.asF64 : JValue → Option Rat
  | .int n => some (n : Rat)
  | .float q => some q
  | _ => none

/-- Number::is_u64 semantics: a non-negative integer arm below 2^64. -/
def JValue.isU64 : JValue → Bool
  | .int n => decide (0 ≤ n ∧ n < 2 ^ 64)
  | _ => false

/-- Replace the binding of a key if present (in place), else append: the
update behaviour of HashMap::insert with first-insertion iteration
order. -/
def aupdate {α : Type} (k : String) (v : α) : List (String × α) → List (String × α)
  | [] => [(k, v)]
  | (k', v') :: tl => if k = k' then (k, v) :: tl else (k', v') :: aupdate k v tl

/-- Lexicographic order on character lists by code point (equal to the
UTF-8 byte order a BTreeMap of Strings sorts by). -/
def charListLt : List Char → List Char → Bool
  | [], [] => false
  | [], _ :: _ => true
  | _ :: _, [] => false
  | a :: as, b :: bs =>
    if a.toNat < b.toNat then true
    else if b.toNat < a.toNat then false
    else charListLt as bs

/-- String order of the BTreeMap backing serde_json::Map. -/
def strLt (a b : String) : Bool := charListLt a.data b.data

/-- Sorted insertion into an association list with strictly sorted keys:
the insert of a BTreeMap (serde_json::Map). -/
def objInsert (k : String) (v : JValue) : List (String × JValue) → List (String × JValue)
  | [] => [(k, v)]
  | (k', v') :: tl =>
    if k = k' then (k, v) :: tl
    else if strLt k k' then (k, v) :: (k', v') :: tl
    else (k', v') :: objInsert k v tl

/-- Decimal digit to character. -/
def digitChar (n : Nat) : Char := Char.ofNat (48 + n)

/-- Fuel-driven decimal rendering of a natural number (fuel variant keeps
the definition kernel-reducible). -/
def natDigitsFuel : Nat → Nat → List Char
  | 0, _ => []
  | fuel + 1, n => if n < 10 then [digitChar n] else natDigitsFuel fuel (n / 10) ++ [digitChar (n % 10)]

/-- Decimal digits of a natural number, most significant first. -/
def natDigits (n : Nat) : List Char := natDigitsFuel (n + 1) n

/-- Decimal rendering of a natural number. -/
def natStr (n : Nat) : String := String.mk (natDigits n)

/-- Decimal rendering of an integer (itoa / serde integer output). -/
def intStr (i : Int) : String :=
  if i < 0 then "-" ++ natStr (-i).toNat else natStr i.toNat

/-- str::starts_with, computed on character lists. -/
def strIsPrefix (p s : String) : Bool := p.data.isPrefixOf s.data

/-- Substring containment on character lists (str::contains with a str
pattern). -/
def listContainsSub (pat : List Char) : List Char → Bool
  | [] => pat.isPrefixOf []
  | l@(_ :: rest) => pat.isPrefixOf l || listContainsSub pat rest

/-- Fuel-driven splitter over a string pattern: non-overlapping matches,
scanned left to right, keeping empty pieces (str::split semantics). -/
def splitOnFuel (pat : List Char) : Nat → List Char → List Char → List (List Char)
  | 0, l, acc => [acc.reverse ++ l]
  | _ + 1, [], acc => [acc.reverse]
  | fuel + 1, l@(c :: rest), acc =>
    if pat.isPrefixOf l then acc.reverse :: splitOnFuel pat fuel (l.drop pat.length) []
    else splitOnFuel pat fuel rest (c :: acc)

/-- str::split with a string (or single character) pattern. -/
def rustSplit (pat l : List Char) : List (List Char) := splitOnFuel pat (l.length + 1) l []

/-- str::replace: split on the pattern, join with the replacement. -/
def rustReplace (l pat rep : List Char) : List Char := List.intercalate rep (rustSplit pat l)

/-- str::replace on String values. -/
def rustReplaceS (s pat rep : String) : String := String.mk (rustReplace s.data pat.data rep.data)

/-- Lowercase hexadecimal digit (serde_json's escape table). -/
def hexDigit (n : Nat) : Char := if n < 10 then digitChar n else Char.ofNat (87 + n)

/-- serde_json string escaping of one character: quote, backslash, the
five short control escapes, \u00xx for the remaining control characters,
everything else raw. -/
def escapeChar (c : Char) : List Char :=
  if c = '"' then ['\\', '"']
  else if c = '\\' then ['\\', '\\']
  else if c = '\x08' then ['\\', 'b']
  else if c = '\x09' then ['\\', 't']
  else if c = '\x0a' then ['\\', 'n']
  else if c = '\x0c' then ['\\', 'f']
  else if c = '\x0d' then ['\\', 'r']
  else if c.toNat < 0x20 then
    ['\\', 'u', '0', '0', hexDigit (c.toNat / 16), hexDigit (c.toNat % 16)]
  else [c]

/-- serde_json string escaping. -/
def escapeStr (s : String) : String := String.mk (s.data.flatMap escapeChar)

/-- Quoted, escaped JSON string literal. -/
def jstr (s : String) : String := "\"" ++ escapeStr s ++ "\""

/-- Smallest exponent k with q * 10^k integral, searched up to 1100 (every
f64 value has such a k below 1075); none only for rationals unreachable
from f64. -/
def ratDecExp (q : Rat) : Option Nat :=
  (List.range 1101).find? (fun k => (q * (10 ^ k : Rat)).den = 1)

/-- Zero-padded fixed-width decimal rendering. -/
def padZeros (width : Nat) (n : Nat) : List Char :=
  List.replicate (width - (natDigits n).length) '0' ++ natDigits n

/-- Shortest-decimal rendering of a non-negative rational, with ".0" for
integral values: the model of ryu output for the f64 arm. -/
def floatRenderPos (p : Rat) : String :=
  match ratDecExp p with
  | some k =>
    if k = 0 then natStr (p.num.toNat) ++ ".0"
    else
      let m := (p * (10 ^ k : Rat)).num.toNat
      natStr (m / 10 ^ k) ++ "." ++ String.mk (padZeros k (m % 10 ^ k))
  | none => "unrepresentable"

/-- Shortest-decimal rendering of a rational (model of serde's f64
output). -/
def floatRender (q : Rat) : String :=
  if q < 0 then "-" ++ floatRenderPos (-q) else floatRenderPos q

mutual

def jser : JValue → String
  | .null => "null"
  | .bool b => if b then "true" else "false"
  | .int n => intStr n
  | .float q => floatRender q
  | .str s => jstr s
  | .arr l => "[" ++ jserArr l ++ "]"
  | .obj o => "\x7b" ++ jserObj o ++ "\x7d"

def jserArr : List JValue → String
  | [] => ""
  | [v] => jser v
  | v :: vs => jser v ++ "," ++ jserArr vs

def jserObj : List (String × JValue) → String
  | [] => ""
  | [(k, v)] => jstr k ++ ":" ++ jser v
  | (k, v) :: kvs => jstr k ++ ":" ++ jser v ++ "," ++ jserObj kvs

end

/-- serde_json::to_string length of a value (the size the compactors
measure). -/
def jlen (v : JValue) : Nat := (jser v).length

namespace DC

/-! Model of DataCompactor (lib.rs): the naive structural compactor. -/

/-- Mutable compactor state (url_mappings, string_mappings, next_id). -/
structure State where
  urlMappings : List (String × Nat)
  stringMappings : List (String × Nat)
  nextId : Nat
  deriving Repr, DecidableEq

/-- CompressionStats of lib.rs (counters as Nat, f32 ratio as Rat). -/
structure Stats where
  originalSize : Nat
  compactedSize : Nat
  ratioVal : Rat
  urlsCompressed : Nat
  stringsCompressed : Nat
  propertiesAbbreviated : Nat
  deriving Repr, DecidableEq

/-- DataCompactor::new. -/
def new : State := ⟨[], [], 1⟩

/-- initialize_property_mappings, in source insertion order. -/
def propertyMappings : List (String × String) :=
  [ ("https://atomicdata.dev/properties/isA", "isA"),
    ("https://atomicdata.dev/properties/parent", "parent"),
    ("https://atomicdata.dev/properties/lastCommit", "lastCommit"),
    ("https://atomicdata.dev/properties/subresources", "subresources"),
    ("https://common.terraphim.io/01jxw2jx8qze6yakh4fz24mnhy/property/company-name", "companyName"),
    ("https://common.terraphim.io/01jxw2jx8qze6yakh4fz24mnhy/property/company-description", "companyDesc"),
    ("https://common.terraphim.io/01jxw2jx8qze6yakh4fz24mnhy/property/business-website", "website"),
    ("https://common.terraphim.io/01jxw2jx8qze6yakh4fz24mnhy/property/company-registration-number", "regNumber"),
    ("https://common.terraphim.io/01jxw2jx8qze6yakh4fz24mnhy/property/year-of-incorporation", "yearInc"),
    ("https://common.terraphim.io/01jxw2jx8qze6yakh4fz24mnhy/property/country-of-registration", "country"),
    ("https://common.terraphim.io/01jxw2jx8qze6yakh4fz24mnhy/property/trading-name", "tradingName"),
    ("https://common.terraphim.io/01jxw2jx8qze6yakh4fz24mnhy/property/business-type", "bizType"),
    ("https://common.terraphim.io/01jxw2jx8qze6yakh4fz24mnhy/property/annual-revenue", "revenue"),
    ("https://common.terraphim.io/01jxw2jx8qze6yakh4fz24mnhy/property/number-of-employees", "employees"),
    ("https://common.terraphim.io/01jxw2jx8qze6yakh4fz24mnhy/property/years-in-business", "yearsInBiz"),
    ("https://common.terraphim.io/01jxw2jx8qze6yakh4fz24mnhy/property/is-business-female-lead", "femaleLed"),
    ("https://common.terraphim.io/01jxw2jx8qze6yakh4fz24mnhy/property/board-of-directors", "board"),
    ("https://common.terraphim.io/01jxw2jx8qze6yakh4fz24mnhy/property/key-management-personnel", "management"),
    ("https://common.terraphim.io/01jxw2jx8qze6yakh4fz24mnhy/property/business-owners", "owners"),
    ("https://common.terraphim.io/01jxw2jx8qze6yakh4fz24mnhy/property/business-auditors", "auditors") ]

/-- is_url. -/
def isUrl (s : String) : Bool := strIsPrefix "http://" s || strIsPrefix "https://" s

/-- compress_string: only strings over 50 characters or already interned
are encoded; the rest pass through. -/
def compressString (st : State) (stats : Stats) (s : String) : State × Stats × JValue :=
  if s.length > 50 || (st.stringMappings.lookup s).isSome then
    match st.stringMappings.lookup s with
    | some id => (st, stats, .int id)
    | none =>
      ({ st with stringMappings := st.stringMappings ++ [(s, st.nextId)], nextId := st.nextId + 1 },
       { stats with stringsCompressed := stats.stringsCompressed + 1 }, .int st.nextId)
  else (st, stats, .str s)

/-- Round half to even (the rounding used by Rust float formatting). -/
def roundHE (x : Rat) : Int :=
  let fl : Int := ⌊x⌋
  let r : Rat := x - fl
  if r < 1 / 2 then fl
  else if r > 1 / 2 then fl + 1
  else if 2 ∣ fl then fl else fl + 1

/-- Integer part of log10 of a positive rational, searched over f64-sized
exponent ranges. -/
def ilog10 (a : Rat) : Int :=
  if a ≥ 1 then ((natDigits (⌊a⌋).toNat).length : Int) - 1
  else
    match (List.range 1200).find? (fun j => a * ((10 : Rat) ^ (j + 1)) ≥ 1) with
    | some j => -(j + 1 : Int)
    | none => 0

/-- Value of format "{:.2e}" of f followed by reparse: the mantissa
rounded to two decimals (modelled exactly on the rational value). -/
def sciRound2 (f : Rat) : Rat :=
  if f = 0 then 0
  else
    let a := |f|
    let e := ilog10 a
    let m2 : Rat := (roundHE (a / (10 : Rat) ^ e * 100) : Rat) / 100
    (if f < 0 then -m2 else m2) * (10 : Rat) ^ e

/-- compress_number: every number passes through as_f64, is formatted
with two significant decimals ("{:.2e}" outside [0.01, 1000], "{:.2}"
inside) and reparsed; the reparse always succeeds, so the result is the
rounded float (from_f64 never fails on these values). -/
def compressNumber (f : Rat) : JValue :=
  if |f| > 1000 ∨ |f| < 1 / 100 then .float (sciRound2 f)
  else .float ((roundHE (f * 100) : Rat) / 100)

mutual

def compactValue (st : State) (stats : Stats) : JValue → State × Stats × JValue
  | .obj o => compactObjFields st stats o []
  | .arr l =>
    let (st', stats', l') := compactArr st stats l
    (st', stats', .arr l')
  | .str s =>
    if isUrl s then
      match st.urlMappings.lookup s with
      | some id => (st, stats, .int id)
      | none =>
        ({ st with urlMappings := st.urlMappings ++ [(s, st.nextId)], nextId := st.nextId + 1 },
         { stats with urlsCompressed := stats.urlsCompressed + 1 }, .int st.nextId)
    else compressString st stats s
  | .int n => (st, stats, compressNumber (n : Rat))
  | .float q => (st, stats, compressNumber q)
  | .bool b => (st, stats, .str (if b then "T" else "F"))
  | .null => (st, stats, .null)

def compactArr (st : State) (stats : Stats) : List JValue → State × Stats × List JValue
  | [] => (st, stats, [])
  | v :: vs =>
    let (st', stats', v') := compactValue st stats v
    let (st'', stats'', vs') := compactArr st' stats' vs
    (st'', stats'', v' :: vs')

def compactObjFields (st : State) (stats : Stats) :
    List (String × JValue) → List (String × JValue) → State × Stats × JValue
  | [], acc => (st, stats, .obj acc)
  | (k, v) :: kvs, acc =>
    let (stats', k') :=
      match propertyMappings.lookup k with
      | some abbreviated => ({ stats with propertiesAbbreviated := stats.propertiesAbbreviated + 1 }, abbreviated)
      | none => (stats, k)
    let (st', stats'', v') := compactValue st stats' v
    compactObjFields st' stats'' kvs (objInsert k' v' acc)

end

/-- The last path segment of a type url (split('/') with last /
next_back), with the unwrap_or default. -/
def lastSegD (dflt : String) (s : String) : String :=
  match (rustSplit ['/'] s.data).getLast? with
  | some p => String.mk p
  | none => dflt

/-- Type name extraction of apply_structural_compaction: last path
segment, replace("-step", ""), replace("-", "_") (string patterns). -/
def typeNameOf (s : String) : String :=
  rustReplaceS (rustReplaceS (lastSegD "unknown" s) "-step" "") "-" "_"

/-- Append a subresource to the array stored under the key of a
serde_json::Map (entry().or_insert(Array) followed by push). -/
def mapPush (k : String) (sub : JValue) (m : List (String × JValue)) : List (String × JValue) :=
  match m.lookup k with
  | some (.arr a) => objInsert k (.arr (a ++ [sub])) m
  | some _ => m
  | none => objInsert k (.arr [sub]) m

/-- Grouping loop of apply_structural_compaction over subresources. -/
def groupSubs : List JValue → List (String × JValue) → List (String × JValue)
  | [], grouped => grouped
  | sub :: rest, grouped =>
    match sub with
    | .obj so =>
      match so.lookup "resource_type" with
      | some (.str rt) => groupSubs rest (mapPush (typeNameOf rt) sub grouped)
      | _ => groupSubs rest grouped
    | _ => groupSubs rest grouped

/-- apply_structural_compaction: replace the subresources array by a map
grouped by type name, leaving inputs without a subresources array
untouched. -/
def applyStructuralCompaction (v : JValue) : JValue :=
  match v with
  | .obj o =>
    match o.lookup "subresources" with
    | some (.arr subs) =>
      .obj (((objInsert "subresources_grouped" (.obj (groupSubs subs [])) o)).filter
        (fun kv => kv.1 ≠ "subresources"))
    | _ => v
  | _ => v

/-- CompactedData of lib.rs. -/
structure CompactedData where
  data : JValue
  urlLookup : List (Nat × String)
  stringLookup : List (Nat × String)
  propertyLookup : List (String × String)
  stats : Stats
  deriving Repr, DecidableEq

/-- create_reverse_url_lookup / create_reverse_string_lookup. -/
def reverseLookupOf (m : List (String × Nat)) : List (Nat × String) :=
  m.map (fun p => (p.2, p.1))

/-- compact_comprehensive_data.  The final compression_ratio is the usize
difference original_size - compacted_size cast to float; when the
compacted output is larger than the original, that usize subtraction
underflows (a panic in debug builds, a wrap to a huge positive value in
release builds); the model returns none in that case. -/
def compactComprehensiveData (x : JValue) : Option CompactedData :=
  let originalSize := jlen x
  let stats0 : Stats := ⟨originalSize, 0, 0, 0, 0, 0⟩
  let structurallyCompacted := applyStructuralCompaction x
  let (st, stats1, compactedData) := compactValue new stats0 structurallyCompacted
  let compactedSize := jlen compactedData
  if compactedSize ≤ originalSize then
    some { data := compactedData,
           urlLookup := reverseLookupOf st.urlMappings,
           stringLookup := reverseLookupOf st.stringMappings,
           propertyLookup := propertyMappings,
           stats := { stats1 with
                       compactedSize := compactedSize,
                       ratioVal := ((originalSize - compactedSize : Nat) : Rat) / (originalSize : Rat) } }
  else none

mutual

def decompressValue (urlLookup stringLookup : List (Nat × String)) : JValue → JValue
  | .obj o => .obj (decompressObjFields urlLookup stringLookup o [])
  | .arr l => .arr (decompressArr urlLookup stringLookup l)
  | .int n =>
    if 0 ≤ n ∧ n < 2 ^ 64 then
      let id := (n % 2 ^ 32).toNat
      match urlLookup.lookup id with
      | some url => .str url
      | none =>
        match stringLookup.lookup id with
        | some s => .str s
        | none => .int n
    else .int n
  | .str s => if s = "T" then .bool true else if s = "F" then .bool false else .str s
  | v => v

def decompressArr (urlLookup stringLookup : List (Nat × String)) : List JValue → List JValue
  | [] => []
  | v :: vs => decompressValue urlLookup stringLookup v :: decompressArr urlLookup stringLookup vs

def decompressObjFields (urlLookup stringLookup : List (Nat × String)) :
    List (String × JValue) → List (String × JValue) → List (String × JValue)
  | [], acc => acc
  | (k, v) :: kvs, acc =>
    let origKey := ((propertyMappings.find? (fun p => p.2 = k)).map (fun p => p.1)).getD k
    decompressObjFields urlLookup stringLookup kvs
      (objInsert origKey (decompressValue urlLookup stringLookup v) acc)

end

/-- DataCompactor::decompress. -/
def decompress (cd : CompactedData) : JValue :=
  decompressValue cd.urlLookup cd.stringLookup cd.data

end DC

/-- Single-character replacement (str::replace with a char pattern and a
one-character replacement). -/
def charReplace (s : String) (a b : Char) : String :=
  String.mk (s.data.map (fun c => if c = a then b else c))

namespace TC

/-! Model of TrulyEfficientCompactor (truly_efficient_compactor.rs): the
aggressive byte-coded columnar compactor.  Dictionary ids are u8 in the
source; next_url_id/next_string_id grow with saturating_add(1), modelled
exactly. -/

/-- Compactor state: u8-coded url and string dictionaries. -/
structure State where
  urlDict : List (String × Nat)
  stringDict : List (String × Nat)
  nextUrlId : Nat
  nextStringId : Nat
  deriving Repr, DecidableEq

/-- TrulyEfficientCompactor::new. -/
def new : State := ⟨[], [], 1, 1⟩

/-- u8::saturating_add(1). -/
def satAdd1 (n : Nat) : Nat := min (n + 1) 255

/-- Minimal schema: field types (s,i,f,b,u,j) and field order. -/
structure Schema where
  types : List (String × Char)
  order : List String
  deriving Repr, DecidableEq

/-- TabularData: row count and column arrays (stored as Value arrays). -/
structure TabularData where
  n : Nat
  c : List (String × JValue)
  deriving Repr, DecidableEq

/-- CompactStats (f32 ratio as Rat). -/
structure CompactStats where
  orig : Nat
  comp : Nat
  ratioVal : Rat
  deriving Repr, DecidableEq

/-- CompactFormat. -/
structure CompactFormat where
  s : Schema
  d : List (String × TabularData)
  u : Option (List (Nat × String))
  t : Option (List (Nat × String))
  stats : CompactStats
  deriving Repr, DecidableEq

/-- shorten_resource_type: last path segment, all "-step" occurrences
removed, hyphens to underscores, truncated to 8 characters. -/
def shortenResourceType (s : String) : String :=
  String.mk ((charReplace (rustReplaceS (DC.lastSegD "unk" s) "-step" "") '-' '_').data.take 8)

/-- abbreviate_field, with the source's match arms in order. -/
def abbreviateField (field : String) : String :=
  if field = "https://atomicdata.dev/properties/isA" then "t"
  else if field = "https://atomicdata.dev/properties/parent" then "p"
  else if field = "https://atomicdata.dev/properties/lastCommit" then "lc"
  else if field = "url" then "u"
  else if field = "resource_type" then "rt"
  else if field = "json_format" then "jf"
  else if field = "json_ad_format" then "jaf"
  else if field = "turtle_format" then "tf"
  else if field = "fetch_errors" then "fe"
  else if listContainsSub "company-name".data field.data then "cn"
  else if listContainsSub "company-description".data field.data then "cd"
  else if listContainsSub "business-website".data field.data then "bw"
  else if listContainsSub "year-of-incorporation".data field.data then "yi"
  else if listContainsSub "country-of-registration".data field.data then "cr"
  else if listContainsSub "registration-number".data field.data then "rn"
  else if listContainsSub "/property/".data field.data then
    String.mk
      (((rustSplit "/property/".data field.data).getLast?.getD field.data
          |> rustSplit ['-']).map (fun w => w.headD 'x') |>.take 4)
  else if field.length ≤ 4 then field
  else String.mk (field.data.take 4)

/-- infer_compact_type. -/
def inferCompactType : JValue → Char
  | .str s => if strIsPrefix "http" s then 'u' else 's'
  | .int n => if -(2 ^ 63) ≤ n ∧ n < 2 ^ 63 then 'i' else 'f'
  | .float _ => 'f'
  | .bool _ => 'b'
  | .arr _ => 'j'
  | .obj _ => 'j'
  | .null => 's'

mutual

def compressValue (st : State) : JValue → State × JValue
  | .str s =>
    if strIsPrefix "http" s then
      match st.urlDict.lookup s with
      | some id => (st, .int id)
      | none =>
        ({ st with urlDict := st.urlDict ++ [(s, st.nextUrlId)], nextUrlId := satAdd1 st.nextUrlId },
         .int st.nextUrlId)
    else if s.length > 50 then
      match st.stringDict.lookup s with
      | some id => (st, .int id)
      | none =>
        ({ st with stringDict := st.stringDict ++ [(s, st.nextStringId)], nextStringId := satAdd1 st.nextStringId },
         .int st.nextStringId)
    else (st, .str s)
  | .arr l =>
    let (st', l') := compressArr st l
    (st', .arr l')
  | v => (st, v)

def compressArr (st : State) : List JValue → State × List JValue
  | [] => (st, [])
  | v :: vs =>
    let (st', v') := compressValue st v
    let (st'', vs') := compressArr st' vs
    (st'', v' :: vs')

end

/-- possible_keys of find_original_key. -/
def possibleKeys : String → List String
  | "t" => ["https://atomicdata.dev/properties/isA"]
  | "p" => ["https://atomicdata.dev/properties/parent"]
  | "lc" => ["https://atomicdata.dev/properties/lastCommit"]
  | "cn" => ["https://common.terraphim.io/01jxw2jx8qze6yakh4fz24mnhy/property/company-name", "company-name"]
  | "cd" => ["https://common.terraphim.io/01jxw2jx8qze6yakh4fz24mnhy/property/company-description", "company-description"]
  | "yi" => ["https://common.terraphim.io/01jxw2jx8qze6yakh4fz24mnhy/property/year-of-incorporation", "year-of-incorporation"]
  | _ => []

/-- find_original_key: exact match, then the static reverse candidates,
then the first object key (in map order) that abbreviates to the target. -/
def findOriginalKey (o : List (String × JValue)) (ab : String) : Option String :=
  if (o.lookup ab).isSome then some ab
  else
    match (possibleKeys ab).find? (fun k => (o.lookup k).isSome) with
    | some k => some k
    | none => (o.find? (fun kv => abbreviateField kv.1 = ab)).map (fun kv => kv.1)

/-- or_insert of the first analysis pass: first occurrence fixes the
field type. -/
def orInsert (k : String) (v : Char) (acc : List (String × Char)) : List (String × Char) :=
  if (acc.lookup k).isSome then acc else acc ++ [(k, v)]

/-- First pass of convert_to_tabular: collect unique short field names
with their first-seen compact type. -/
def fieldAnalysisFirst : List JValue → List (String × Char) → List (String × Char)
  | [], acc => acc
  | r :: rest, acc =>
    match r with
    | .obj o =>
      fieldAnalysisFirst rest
        (o.foldl (fun a kv => orInsert (abbreviateField kv.1) (inferCompactType kv.2) a) acc)
    | _ => fieldAnalysisFirst rest acc

/-- Append a cell to the named column. -/
def colAppend (k : String) (cell : JValue) : List (String × List JValue) → List (String × List JValue)
  | [] => [(k, [cell])]
  | (k', cs) :: tl => if k = k' then (k', cs ++ [cell]) :: tl else (k', cs) :: colAppend k cell tl

/-- Second pass, one object row: for each analysed field, push the
compressed value or a null cell. -/
def fillFields (st : State) (o : List (String × JValue)) :
    List (String × Char) → List (String × List JValue) → State × List (String × List JValue)
  | [], cols => (st, cols)
  | (f, _) :: rest, cols =>
    let value := (findOriginalKey o f).bind (fun k => o.lookup k)
    match value with
    | some v =>
      let (st', cell) := compressValue st v
      fillFields st' o rest (colAppend f cell cols)
    | none => fillFields st o rest (colAppend f .null cols)

/-- Second pass of convert_to_tabular over all rows; non-object rows
push nothing. -/
def fillAll (st : State) (fields : List (String × Char)) :
    List JValue → List (String × List JValue) → State × List (String × List JValue)
  | [], cols => (st, cols)
  | r :: rest, cols =>
    match r with
    | .obj o =>
      let (st', cols') := fillFields st o fields cols
      fillAll st' fields rest cols'
    | _ => fillAll st fields rest cols

/-- convert_to_tabular. -/
def convertToTabular (st : State) (resources : List JValue) :
    State × TabularData × List (String × Char) :=
  match resources with
  | [] => (st, ⟨0, []⟩, [])
  | _ =>
    let fields := fieldAnalysisFirst resources []
    let cols0 := fields.map (fun f => (f.1, ([] : List JValue)))
    let (st', cols) := fillAll st fields resources cols0
    (st', ⟨resources.length, cols.map (fun p => (p.1, JValue.arr p.2))⟩, fields)

/-- Grouping loop of compact: a missing or non-string resource_type falls
back to the "unknown" group. -/
def groupFold : List JValue → List (String × List JValue) → List (String × List JValue)
  | [], acc => acc
  | r :: rest, acc =>
    let rt := ((r.get? "resource_type").bind JValue.asStr).getD "unknown"
    let shortType := shortenResourceType rt
    groupFold rest (appendToGroup shortType r acc)
where
  appendToGroup (k : String) (r : JValue) : List (String × List JValue) → List (String × List JValue)
    | [] => [(k, [r])]
    | (k', rs) :: tl => if k = k' then (k', rs ++ [r]) :: tl else (k', rs) :: appendToGroup k r tl

/-- Schema merge step of compact. -/
def mergeSchema (sc : Schema) (fields : List (String × Char)) : Schema :=
  fields.foldl
    (fun acc fv =>
      { types := aupdate fv.1 fv.2 acc.types,
        order := if acc.order.contains fv.1 then acc.order else acc.order ++ [fv.1] })
    sc

/-- Conversion loop of compact over the groups. -/
def convertGroups (st : State) (sc : Schema) (acc : List (String × TabularData)) :
    List (String × List JValue) → State × Schema × List (String × TabularData)
  | [] => (st, sc, acc)
  | (typeName, resources) :: rest =>
    let (st', tabular, fields) := convertToTabular st resources
    convertGroups st' (mergeSchema sc fields) (acc ++ [(typeName, tabular)]) rest

/-- Serde serialization of a u8-keyed dictionary (integer keys become
JSON string keys). -/
def dictToJ (d : List (Nat × String)) : JValue :=
  .obj (d.map (fun p => (natStr p.1, .str p.2)))

/-- Serde serialization of the optional dictionaries (None is null). -/
def optDictToJ : Option (List (Nat × String)) → JValue
  | none => .null
  | some d => dictToJ d

/-- Serde serialization of the Schema struct. -/
def schemaToJ (sc : Schema) : JValue :=
  .obj [("types", .obj (sc.types.map (fun p => (p.1, .str (String.mk [p.2]))))),
        ("order", .arr (sc.order.map JValue.str))]

/-- Serde serialization of TabularData. -/
def tabularToJ (t : TabularData) : JValue :=
  .obj [("n", .int t.n), ("c", .obj t.c)]

/-- Serde serialization of CompactFormat (struct fields in declaration
order). -/
def formatToJ (f : CompactFormat) : JValue :=
  .obj [("s", schemaToJ f.s),
        ("d", .obj (f.d.map (fun p => (p.1, tabularToJ p.2)))),
        ("u", optDictToJ f.u),
        ("t", optDictToJ f.t),
        ("stats", .obj [("orig", .int f.stats.orig), ("comp", .int f.stats.comp),
                        ("ratio", .float f.stats.ratioVal)])]

/-- TrulyEfficientCompactor::compact. -/
def compact (x : JValue) : CompactFormat :=
  let originalSize := jlen x
  let subs := ((x.get? "subresources").bind JValue.asArray).getD []
  let grouped := groupFold subs []
  let (st, schema, compactData) := convertGroups new ⟨[], []⟩ [] grouped
  let fmt0 : CompactFormat :=
    { s := schema,
      d := compactData,
      u := if st.urlDict = [] then none else some (DC.reverseLookupOf st.urlDict),
      t := if st.stringDict = [] then none else some (DC.reverseLookupOf st.stringDict),
      stats := ⟨originalSize, 0, 0⟩ }
  let compactSize := jlen (formatToJ fmt0)
  { fmt0 with
      stats := ⟨originalSize, compactSize,
        if originalSize > 0 then ((originalSize : Rat) - (compactSize : Rat)) / (originalSize : Rat)
        else 0⟩ }

mutual

def decompressValue (u t : Option (List (Nat × String))) : JValue → JValue
  | .int n =>
    if 0 ≤ n ∧ n < 2 ^ 64 then
      let id := (n % 256).toNat
      match u.bind (fun d => d.lookup id) with
      | some url => .str url
      | none =>
        match t.bind (fun d => d.lookup id) with
        | some text => .str text
        | none => .int n
    else .int n
  | .arr l => .arr (decompressArr u t l)
  | v => v

def decompressArr (u t : Option (List (Nat × String))) : List JValue → List JValue
  | [] => []
  | v :: vs => decompressValue u t v :: decompressArr u t vs

end

/-- expand_field_name. -/
def expandFieldName (ab : String) : String :=
  if ab = "t" then "https://atomicdata.dev/properties/isA"
  else if ab = "p" then "https://atomicdata.dev/properties/parent"
  else if ab = "lc" then "https://atomicdata.dev/properties/lastCommit"
  else if ab = "cn" then "https://common.terraphim.io/01jxw2jx8qze6yakh4fz24mnhy/property/company-name"
  else if ab = "cd" then "https://common.terraphim.io/01jxw2jx8qze6yakh4fz24mnhy/property/company-description"
  else if ab = "bw" then "https://common.terraphim.io/01jxw2jx8qze6yakh4fz24mnhy/property/business-website"
  else if ab = "yi" then "https://common.terraphim.io/01jxw2jx8qze6yakh4fz24mnhy/property/year-of-incorporation"
  else if ab = "cr" then "https://common.terraphim.io/01jxw2jx8qze6yakh4fz24mnhy/property/country-of-registration"
  else if ab = "rn" then "https://common.terraphim.io/01jxw2jx8qze6yakh4fz24mnhy/property/company-registration-number"
  else if ab = "u" then "url"
  else if ab = "rt" then "resource_type"
  else if ab = "jf" then "json_format"
  else if ab = "jaf" then "json_ad_format"
  else if ab = "tf" then "turtle_format"
  else if ab = "fe" then "fetch_errors"
  else ab

/-- Row reconstruction loop of reconstruct: template resource_type first,
then each non-null cell at the row index, decompressed and inserted under
the expanded field name. -/
def reconstructRow (fmt : CompactFormat) (typeName : String) (tabular : TabularData) (i : Nat) : JValue :=
  let base := objInsert "resource_type"
    (.str ("https://common.terraphim.io/01jxw2jx8qze6yakh4fz24mnhy/class/"
      ++ charReplace typeName '_' '-' ++ "-step")) []
  .obj (tabular.c.foldl
    (fun resource col =>
      match (col.2.asArray).bind (fun values => values.get? i) with
      | some cell =>
        if cell = .null then resource
        else objInsert (expandFieldName col.1) (decompressValue fmt.u fmt.t cell) resource
      | none => resource)
    base)

/-- TrulyEfficientCompactor::reconstruct. -/
def reconstruct (fmt : CompactFormat) : JValue :=
  .obj [("subresources",
    .arr (fmt.d.flatMap (fun g => (List.range g.2.n).map (reconstructRow fmt g.1 g.2))))]

end TC

/-! Model of serde_json::from_str for Value: a recursive-descent parser.
Numbers without fraction or exponent become the integer arms (u64 for
non-negative below 2^64, i64 for negatives down to -2^63, the float arm
otherwise); numbers with fraction or exponent become the float arm,
modelled as the exact rational (f64 rounding is not modelled).  Objects
are assembled by sorted map insertion, as serde_json::Map does. -/

/-- JSON whitespace. -/
def isWsChar (c : Char) : Bool := c = ' ' || c = '\x09' || c = '\x0a' || c = '\x0d'

/-- Skip JSON whitespace. -/
def skipWs (cs : List Char) : List Char := cs.dropWhile isWsChar

/-- Hexadecimal digit value. -/
def hexVal (c : Char) : Option Nat :=
  if '0' ≤ c ∧ c ≤ '9' then some (c.toNat - 48)
  else if 'a' ≤ c ∧ c ≤ 'f' then some (c.toNat - 87)
  else if 'A' ≤ c ∧ c ≤ 'F' then some (c.toNat - 55)
  else none

/-- Decimal digit test. -/
def isDigitChar (c : Char) : Bool := '0' ≤ c && c ≤ '9'

/-- Accumulate decimal digits. -/
def digitsToNat (ds : List Char) : Nat := ds.foldl (fun a c => a * 10 + (c.toNat - 48)) 0

/-- Parse a JSON string body after the opening quote, returning the
unescaped characters and the remainder after the closing quote. -/
def parseStrBody : List Char → Option (List Char × List Char)
  | [] => none
  | c :: rest =>
    if c = '"' then some ([], rest)
    else if c = '\\' then
      match rest with
      | [] => none
      | e :: rest2 =>
        if e = '"' then (parseStrBody rest2).map (fun p => ('"' :: p.1, p.2))
        else if e = '\\' then (parseStrBody rest2).map (fun p => ('\\' :: p.1, p.2))
        else if e = '/' then (parseStrBody rest2).map (fun p => ('/' :: p.1, p.2))
        else if e = 'b' then (parseStrBody rest2).map (fun p => ('\x08' :: p.1, p.2))
        else if e = 'f' then (parseStrBody rest2).map (fun p => ('\x0c' :: p.1, p.2))
        else if e = 'n' then (parseStrBody rest2).map (fun p => ('\x0a' :: p.1, p.2))
        else if e = 'r' then (parseStrBody rest2).map (fun p => ('\x0d' :: p.1, p.2))
        else if e = 't' then (parseStrBody rest2).map (fun p => ('\x09' :: p.1, p.2))
        else if e = 'u' then
          match rest2 with
          | h1 :: h2 :: h3 :: h4 :: rest3 =>
            match hexVal h1, hexVal h2, hexVal h3, hexVal h4 with
            | some a, some b, some cc, some d =>
              (parseStrBody rest3).map
                (fun p => (Char.ofNat (((a * 16 + b) * 16 + cc) * 16 + d) :: p.1, p.2))
            | _, _, _, _ => none
          | _ => none
        else none
    else if c.toNat < 0x20 then none
    else (parseStrBody rest).map (fun p => (c :: p.1, p.2))

/-- Parse the body of a JSON number after the optional sign. -/
def parseNumCore (neg : Bool) (cs1 : List Char) : Option (JValue × List Char) :=
  let intPart := cs1.takeWhile isDigitChar
  let cs2 := cs1.dropWhile isDigitChar
  if intPart = [] then none
  else
    let i : Nat := digitsToNat intPart
    let hasFrac : Bool := cs2.head? = some '.'
    let fracPart := if hasFrac then cs2.tail.takeWhile isDigitChar else []
    let cs3 := if hasFrac then cs2.tail.dropWhile isDigitChar else cs2
    if hasFrac ∧ fracPart = [] then none
    else
      let hasExp : Bool := cs3.head? = some 'e' || cs3.head? = some 'E'
      let expNeg : Bool := hasExp && cs3.tail.head? = some '-'
      let expBody := if hasExp then
          (if cs3.tail.head? = some '-' ∨ cs3.tail.head? = some '+' then cs3.tail.tail else cs3.tail)
        else []
      let expPart := expBody.takeWhile isDigitChar
      let cs4 := if hasExp then expBody.dropWhile isDigitChar else cs3
      if hasExp ∧ expPart = [] then none
      else if ¬hasFrac ∧ ¬hasExp then
        let n : Int := if neg then -(i : Int) else (i : Int)
        if (0 ≤ n ∧ n < 2 ^ 64) ∨ (-(2 ^ 63) ≤ n ∧ n < 0) then some (.int n, cs2)
        else some (.float (n : Rat), cs2)
      else
        let mag : Rat := (i : Rat) + (digitsToNat fracPart : Rat) / ((10 : Rat) ^ fracPart.length)
        let e : Int := if expNeg then -(digitsToNat expPart : Int) else (digitsToNat expPart : Int)
        let q : Rat := (if neg then -mag else mag) * (10 : Rat) ^ e
        some (.float q, cs4)

/-- Parse a JSON number (serde grammar, with the leading-zero restriction
relaxed; unreachable for serializer output, which never emits leading
zeros). -/
def parseNum : List Char → Option (JValue × List Char)
  | [] => none
  | c :: tl => if c = '-' then parseNumCore true tl else parseNumCore false (c :: tl)

mutual

def pVal : Nat → List Char → Option (JValue × List Char)
  | 0, _ => none
  | fuel + 1, cs =>
    match skipWs cs with
    | [] => none
    | c :: tl =>
      if c = 'n' then
        if ['u', 'l', 'l'].isPrefixOf tl then some (.null, tl.drop 3) else none
      else if c = 't' then
        if ['r', 'u', 'e'].isPrefixOf tl then some (.bool true, tl.drop 3) else none
      else if c = 'f' then
        if ['a', 'l', 's', 'e'].isPrefixOf tl then some (.bool false, tl.drop 4) else none
      else if c = '"' then
        (parseStrBody tl).map (fun p => (.str (String.mk p.1), p.2))
      else if c = '[' then
        match skipWs tl with
        | ']' :: r2 => some (.arr [], r2)
        | _ => (pElems fuel tl).map (fun p => (.arr p.1, p.2))
      else if c = '\x7b' then
        match skipWs tl with
        | '\x7d' :: r2 => some (.obj [], r2)
        | _ => (pMems fuel tl []).map (fun p => (.obj p.1, p.2))
      else parseNum (c :: tl)

def pElems : Nat → List Char → Option (List JValue × List Char)
  | 0, _ => none
  | fuel + 1, cs =>
    match pVal fuel cs with
    | none => none
    | some (v, rest) =>
      match skipWs rest with
      | [] => none
      | c :: r2 =>
        if c = ',' then (pElems fuel r2).map (fun p => (v :: p.1, p.2))
        else if c = ']' then some ([v], r2)
        else none

def pMems : Nat → List Char → List (String × JValue) → Option (List (String × JValue) × List Char)
  | 0, _, _ => none
  | fuel + 1, cs, acc =>
    match skipWs cs with
    | [] => none
    | c :: tl =>
      if c = '"' then
        match parseStrBody tl with
        | none => none
        | some (kcs, r1) =>
          match skipWs r1 with
          | [] => none
          | c2 :: r2 =>
            if c2 = ':' then
              match pVal fuel r2 with
              | none => none
              | some (v, r3) =>
                let acc2 := objInsert (String.mk kcs) v acc
                match skipWs r3 with
                | [] => none
                | c3 :: r4 =>
                  if c3 = ',' then pMems fuel r4 acc2
                  else if c3 = '\x7d' then some (acc2, r4)
                  else none
            else none
      else none

end

/-- serde_json::from_str for Value: parse, then require only whitespace
to remain. -/
def jparse (s : String) : Option JValue :=
  match pVal (2 * s.length + 2) s.data with
  | some (v, rest) => if skipWs rest = [] then some v else none
  | none => none

namespace EC

/-! Model of EfficientCompactor (efficient_compactor.rs): the columnar
compactor with u16 dictionaries (ids modelled as Nat; the id counters
only match the source while they stay within u16, which the round-trip
theorem assumes explicitly). -/

/-- FieldType. -/
inductive FieldType where
  | str : FieldType
  | int : FieldType
  | float : FieldType
  | bool : FieldType
  | url : FieldType
  | json : FieldType
  | array (t : FieldType) : FieldType
  deriving Repr, DecidableEq

/-- Compactor state (url_dict, string_dict, next ids). -/
structure State where
  urlDict : List (String × Nat)
  stringDict : List (String × Nat)
  nextUrlId : Nat
  nextStringId : Nat
  deriving Repr, DecidableEq

/-- EfficientCompactor::new. -/
def new : State := ⟨[], [], 1, 1⟩

/-- CompressionStats of efficient_compactor.rs. -/
structure Stats where
  originalSize : Nat
  compactedSize : Nat
  ratioVal : Rat
  urlsDeduplicated : Nat
  stringsDeduplicated : Nat
  propertiesAbbreviated : Nat
  resourcesProcessed : Nat
  deriving Repr, DecidableEq

/-- init_property_abbreviations, in source insertion order. -/
def propertyAbbrevs : List (String × String) :=
  [ ("https://atomicdata.dev/properties/isA", "t"),
    ("https://atomicdata.dev/properties/parent", "p"),
    ("https://atomicdata.dev/properties/lastCommit", "lc"),
    ("https://common.terraphim.io/01jxw2jx8qze6yakh4fz24mnhy/property/company-name", "cn"),
    ("https://common.terraphim.io/01jxw2jx8qze6yakh4fz24mnhy/property/company-description", "cd"),
    ("https://common.terraphim.io/01jxw2jx8qze6yakh4fz24mnhy/property/business-website", "bw"),
    ("https://common.terraphim.io/01jxw2jx8qze6yakh4fz24mnhy/property/year-of-incorporation", "yi"),
    ("https://common.terraphim.io/01jxw2jx8qze6yakh4fz24mnhy/property/company-registration-number", "rn"),
    ("https://common.terraphim.io/01jxw2jx8qze6yakh4fz24mnhy/property/country-of-registration", "cr") ]

/-- extract_type_name: last path segment, replace("-step", "") (string
pattern, all occurrences), replace('-', '_') (char pattern). -/
def extractTypeName (s : String) : String :=
  charReplace (rustReplaceS (DC.lastSegD "unknown" s) "-step" "") '-' '_'

/-- abbreviate_property: static table hit abbreviates and counts, miss
passes the key through unchanged. -/
def abbreviateProperty (stats : Stats) (property : String) : Stats × String :=
  match propertyAbbrevs.lookup property with
  | some ab => ({ stats with propertiesAbbreviated := stats.propertiesAbbreviated + 1 }, ab)
  | none => (stats, property)

/-- intern_url. -/
def internUrl (st : State) (stats : Stats) (url : String) : State × Stats × Nat :=
  match st.urlDict.lookup url with
  | some id => (st, stats, id)
  | none =>
    ({ st with urlDict := st.urlDict ++ [(url, st.nextUrlId)], nextUrlId := st.nextUrlId + 1 },
     { stats with urlsDeduplicated := stats.urlsDeduplicated + 1 }, st.nextUrlId)

/-- intern_string. -/
def internString (st : State) (stats : Stats) (s : String) : State × Stats × Nat :=
  match st.stringDict.lookup s with
  | some id => (st, stats, id)
  | none =>
    ({ st with stringDict := st.stringDict ++ [(s, st.nextStringId)], nextStringId := st.nextStringId + 1 },
     { stats with stringsDeduplicated := stats.stringsDeduplicated + 1 }, st.nextStringId)

/-- infer_field_type. -/
def inferFieldType : JValue → FieldType
  | .str s => if strIsPrefix "https://" s || strIsPrefix "http://" s then .url else .str
  | .int n => if -(2 ^ 63) ≤ n ∧ n < 2 ^ 63 then .int else .float
  | .float _ => .float
  | .bool _ => .bool
  | .arr _ => .json
  | .obj _ => .json
  | .null => .str

/-- find_original_key: exact match first, then the static table
(abbreviation matches and the full key is present). -/
def findOriginalKey (o : List (String × JValue)) (fieldName : String) : Option String :=
  if (o.lookup fieldName).isSome then some fieldName
  else
    (propertyAbbrevs.find? (fun p => p.2 = fieldName ∧ (o.lookup p.1).isSome)).map (fun p => p.1)

/-- Resolved value of a field for one record: find_original_key then
obj.get. -/
def findVal (o : List (String × JValue)) (fieldName : String) : Option JValue :=
  (findOriginalKey o fieldName).bind (fun k => o.lookup k)

/-- Field analysis pass of convert_to_columnar: abbreviated name mapped
to the type of the last observed value (HashMap::insert overwrites). -/
def allFields (stats : Stats) : List JValue → List (String × FieldType) → Stats × List (String × FieldType)
  | [], acc => (stats, acc)
  | r :: rest, acc =>
    match r with
    | .obj o =>
      let (stats', acc') := o.foldl
        (fun sa kv =>
          let (s', f) := abbreviateProperty sa.1 kv.1
          (s', aupdate f (inferFieldType kv.2) sa.2))
        (stats, acc)
      allFields stats' rest acc'
    | _ => allFields stats rest acc

/-- TypedResourceGroup (bool columns carry no nulls). -/
structure Group where
  count : Nat
  strCols : List (String × List (Option Nat))
  intCols : List (String × List (Option Int))
  floatCols : List (String × List (Option Rat))
  boolCols : List (String × List Bool)
  urlCols : List (String × List (Option Nat))
  jsonCols : List (String × List (Option Nat))
  deriving Repr, DecidableEq

/-- Append a cell to a named column. -/
def cpush {α : Type} (k : String) (cell : α) : List (String × List α) → List (String × List α)
  | [] => [(k, [cell])]
  | (k', cs) :: tl => if k = k' then (k', cs ++ [cell]) :: tl else (k', cs) :: cpush k cell tl

/-- One step of the column-initialisation loop of convert_to_columnar
(the catch-all arm lands in json_cols). -/
def initColStep (g : Group) (fv : String × FieldType) : Group :=
  match fv.2 with
  | .str => { g with strCols := g.strCols ++ [(fv.1, [])] }
  | .int => { g with intCols := g.intCols ++ [(fv.1, [])] }
  | .float => { g with floatCols := g.floatCols ++ [(fv.1, [])] }
  | .bool => { g with boolCols := g.boolCols ++ [(fv.1, [])] }
  | .url => { g with urlCols := g.urlCols ++ [(fv.1, [])] }
  | .json => { g with jsonCols := g.jsonCols ++ [(fv.1, [])] }
  | .array _ => { g with jsonCols := g.jsonCols ++ [(fv.1, [])] }

/-- Column initialisation of convert_to_columnar: one empty column per
analysed field in its kind. -/
def initColumns (count : Nat) (fields : List (String × FieldType)) : Group :=
  fields.foldl initColStep ⟨count, [], [], [], [], [], []⟩

/-- Fill step for one record and one analysed field (the match of the
fill loop; the Array catch-all pushes nothing). -/
def fillField (st : State) (stats : Stats) (g : Group) (o : List (String × JValue))
    (f : String) (t : FieldType) : State × Stats × Group :=
  let value := findVal o f
  match t with
  | .str =>
    match value.bind JValue.asStr with
    | some s =>
      let (st', stats', id) := internString st stats s
      (st', stats', { g with strCols := cpush f (some id) g.strCols })
    | none => (st, stats, { g with strCols := cpush f none g.strCols })
  | .int => (st, stats, { g with intCols := cpush f (value.bind JValue.asI64) g.intCols })
  | .float => (st, stats, { g with floatCols := cpush f (value.bind JValue.asF64) g.floatCols })
  | .bool => (st, stats, { g with boolCols := cpush f ((value.bind JValue.asBool).getD false) g.boolCols })
  | .url =>
    match value.bind JValue.asStr with
    | some s =>
      let (st', stats', id) := internUrl st stats s
      (st', stats', { g with urlCols := cpush f (some id) g.urlCols })
    | none => (st, stats, { g with urlCols := cpush f none g.urlCols })
  | .json =>
    match value with
    | some v =>
      let (st', stats', id) := internString st stats (jser v)
      (st', stats', { g with jsonCols := cpush f (some id) g.jsonCols })
    | none => (st, stats, { g with jsonCols := cpush f none g.jsonCols })
  | .array _ => (st, stats, g)

/-- Fill loop over the analysed fields for one record. -/
def fillResource (st : State) (stats : Stats) (g : Group) (o : List (String × JValue)) :
    List (String × FieldType) → State × Stats × Group
  | [] => (st, stats, g)
  | (f, t) :: rest =>
    let (st', stats', g') := fillField st stats g o f t
    fillResource st' stats' g' o rest

/-- Fill loop over the records of a group (non-object records push
nothing). -/
def fillLoop (st : State) (stats : Stats) (fields : List (String × FieldType)) :
    List JValue → Group → State × Stats × Group
  | [], g => (st, stats, g)
  | r :: rest, g =>
    match r with
    | .obj o =>
      let (st', stats', g') := fillResource st stats g o fields
      fillLoop st' stats' fields rest g'
    | _ => fillLoop st stats fields rest g

/-- convert_to_columnar. -/
def convertToColumnar (st : State) (stats : Stats) (resources : List JValue) :
    State × Stats × Group :=
  let (stats1, fields) := allFields stats resources []
  fillLoop st stats1 fields resources (initColumns resources.length fields)

/-- ResourceSchema. -/
structure ResourceSchema where
  required : List String
  optional : List String
  types : List (String × FieldType)
  deriving Repr, DecidableEq

/-- infer_schema (keys are the raw, unabbreviated field names). -/
def inferSchema (resources : List JValue) : ResourceSchema :=
  let fc := resources.foldl
    (fun acc r =>
      match r with
      | .obj o =>
        o.foldl
          (fun a kv =>
            (aupdate kv.1 (inferFieldType kv.2) a.1,
             aupdate kv.1 (((a.2.lookup kv.1).getD 0) + 1) a.2))
          acc
      | _ => acc)
    (([] : List (String × FieldType)), ([] : List (String × Nat)))
  let total := resources.length
  { required := (fc.2.filter (fun p => p.2 = total)).map (fun p => p.1),
    optional := (fc.2.filter (fun p => p.2 ≠ total)).map (fun p => p.1),
    types := fc.1 }

/-- Schema, data, dictionaries and stats of EfficientCompactedData. -/
structure CompactionSchema where
  resourceTypes : List (String × ResourceSchema)
  fieldTypes : List (String × FieldType)
  deriving Repr, DecidableEq

/-- Lookup dictionaries of the artifact. -/
structure Dictionaries where
  urls : List (Nat × String)
  strings : List (Nat × String)
  properties : List (String × String)
  deriving Repr, DecidableEq

/-- EfficientCompactedData. -/
structure Compacted where
  schema : CompactionSchema
  data : List (String × Group)
  dictionaries : Dictionaries
  stats : Stats
  deriving Repr, DecidableEq

/-- Grouping loop of compact_comprehensive_data: only records carrying a
string resource_type are grouped and counted. -/
def groupRecords (stats : Stats) : List JValue → List (String × List JValue) →
    Stats × List (String × List JValue)
  | [], acc => (stats, acc)
  | r :: rest, acc =>
    match (r.get? "resource_type").bind JValue.asStr with
    | some rt =>
      groupRecords { stats with resourcesProcessed := stats.resourcesProcessed + 1 } rest
        (appendToGroup (extractTypeName rt) r acc)
    | none => groupRecords stats rest acc
where
  appendToGroup (k : String) (r : JValue) : List (String × List JValue) → List (String × List JValue)
    | [] => [(k, [r])]
    | (k', rs) :: tl => if k = k' then (k', rs ++ [r]) :: tl else (k', rs) :: appendToGroup k r tl

/-- Conversion loop of compact_comprehensive_data over the groups. -/
def convertGroups (st : State) (stats : Stats) (data : List (String × Group))
    (schema : List (String × ResourceSchema)) :
    List (String × List JValue) → State × Stats × List (String × Group) × List (String × ResourceSchema)
  | [] => (st, stats, data, schema)
  | (typeName, resources) :: rest =>
    let (st', stats', group) := convertToColumnar st stats resources
    convertGroups st' stats' (data ++ [(typeName, group)])
      (aupdate typeName (inferSchema resources) schema) rest

/-- Serde serialization of FieldType (unit variants as strings, Array as
an externally tagged object). -/
def fieldTypeToJ : FieldType → JValue
  | .str => .str "Str"
  | .int => .str "Int"
  | .float => .str "Float"
  | .bool => .str "Bool"
  | .url => .str "Url"
  | .json => .str "Json"
  | .array t => .obj [("Array", fieldTypeToJ t)]

/-- Serde serialization of an optional-cell column. -/
def optColToJ {α : Type} (f : α → JValue) (col : List (Option α)) : JValue :=
  .arr (col.map (fun c => match c with
    | some x => f x
    | none => .null))

/-- Serde serialization of a TypedResourceGroup. -/
def groupToJ (g : Group) : JValue :=
  .obj [("count", .int g.count),
        ("str_cols", .obj (g.strCols.map (fun p => (p.1, optColToJ (fun (n : Nat) => JValue.int n) p.2)))),
        ("int_cols", .obj (g.intCols.map (fun p => (p.1, optColToJ (fun (n : Int) => JValue.int n) p.2)))),
        ("float_cols", .obj (g.floatCols.map (fun p => (p.1, optColToJ (fun q => JValue.float q) p.2)))),
        ("bool_cols", .obj (g.boolCols.map (fun p => (p.1, .arr (p.2.map JValue.bool))))),
        ("url_cols", .obj (g.urlCols.map (fun p => (p.1, optColToJ (fun (n : Nat) => JValue.int n) p.2)))),
        ("json_cols", .obj (g.jsonCols.map (fun p => (p.1, optColToJ (fun (n : Nat) => JValue.int n) p.2))))]

/-- Serde serialization of a ResourceSchema. -/
def resourceSchemaToJ (rs : ResourceSchema) : JValue :=
  .obj [("required", .arr (rs.required.map JValue.str)),
        ("optional", .arr (rs.optional.map JValue.str)),
        ("types", .obj (rs.types.map (fun p => (p.1, fieldTypeToJ p.2))))]

/-- Serde serialization of the stats struct. -/
def statsToJ (s : Stats) : JValue :=
  .obj [("original_size", .int s.originalSize),
        ("compacted_size", .int s.compactedSize),
        ("compression_ratio", .float s.ratioVal),
        ("urls_deduplicated", .int s.urlsDeduplicated),
        ("strings_deduplicated", .int s.stringsDeduplicated),
        ("properties_abbreviated", .int s.propertiesAbbreviated),
        ("resources_processed", .int s.resourcesProcessed)]

/-- Serde serialization of EfficientCompactedData (struct fields in
declaration order). -/
def compactedToJ (c : Compacted) : JValue :=
  .obj [("schema", .obj [("resource_types", .obj (c.schema.resourceTypes.map (fun p => (p.1, resourceSchemaToJ p.2)))),
                         ("field_types", .obj (c.schema.fieldTypes.map (fun p => (p.1, fieldTypeToJ p.2))))]),
        ("data", .obj [("resources", .obj (c.data.map (fun p => (p.1, groupToJ p.2))))]),
        ("dictionaries", .obj [("urls", TC.dictToJ c.dictionaries.urls),
                               ("strings", TC.dictToJ c.dictionaries.strings),
                               ("properties", .obj (c.dictionaries.properties.map (fun p => (p.1, .str p.2))))]),
        ("stats", statsToJ c.stats)]

/-- EfficientCompactor::compact_comprehensive_data. -/
def compactComprehensiveData (x : JValue) : Compacted :=
  let originalSize := jlen x
  let stats0 : Stats := ⟨originalSize, 0, 0, 0, 0, 0, 0⟩
  let subs := ((x.get? "subresources").bind JValue.asArray).getD []
  let (stats1, groups) := groupRecords stats0 subs []
  let (st, stats2, data, schema) := convertGroups new stats1 [] [] groups
  let compacted0 : Compacted :=
    { schema := ⟨schema, []⟩,
      data := data,
      dictionaries :=
        ⟨DC.reverseLookupOf st.urlDict, DC.reverseLookupOf st.stringDict,
         propertyAbbrevs.map (fun p => (p.2, p.1))⟩,
      stats := stats2 }
  let compactedSize := jlen (compactedToJ compacted0)
  let newRatio : Rat :=
    if originalSize > 0 then ((originalSize : Rat) - (compactedSize : Rat)) / (originalSize : Rat)
    else 0
  { compacted0 with
      stats := { stats2 with compactedSize := compactedSize, ratioVal := newRatio } }

/-- Final compactor state of a run (exposed so that theorems can state
the u16 id bound under which the Nat model matches the source). -/
def finalState (x : JValue) : State :=
  let stats0 : Stats := ⟨jlen x, 0, 0, 0, 0, 0, 0⟩
  let subs := ((x.get? "subresources").bind JValue.asArray).getD []
  let (stats1, groups) := groupRecords stats0 subs []
  (convertGroups new stats1 [] [] groups).1

/-- Key expansion at decode time: dictionaries.properties or the short
name itself. -/
def expandKey (properties : List (String × String)) (f : String) : String :=
  (properties.lookup f).getD f

/-- Row reconstruction of reconstruct_data: the templated resource_type,
then the string, url, int, float, bool and json columns in source order;
null cells and unresolvable dictionary codes are skipped. -/
def reconstructRow (c : Compacted) (typeName : String) (g : Group) (i : Nat) : JValue :=
  let props := c.dictionaries.properties
  let base := objInsert "resource_type"
    (.str ("https://common.terraphim.io/01jxw2jx8qze6yakh4fz24mnhy/class/"
      ++ charReplace typeName '_' '-' ++ "-step")) []
  let withStr := g.strCols.foldl
    (fun res col =>
      match col.2.get? i with
      | some (some id) =>
        match c.dictionaries.strings.lookup id with
        | some s => objInsert (expandKey props col.1) (.str s) res
        | none => res
      | _ => res)
    base
  let withUrl := g.urlCols.foldl
    (fun res col =>
      match col.2.get? i with
      | some (some id) =>
        match c.dictionaries.urls.lookup id with
        | some s => objInsert (expandKey props col.1) (.str s) res
        | none => res
      | _ => res)
    withStr
  let withInt := g.intCols.foldl
    (fun res col =>
      match col.2.get? i with
      | some (some n) => objInsert (expandKey props col.1) (.int n) res
      | _ => res)
    withUrl
  let withFloat := g.floatCols.foldl
    (fun res col =>
      match col.2.get? i with
      | some (some q) => objInsert (expandKey props col.1) (.float q) res
      | _ => res)
    withInt
  let withBool := g.boolCols.foldl
    (fun res col =>
      match col.2.get? i with
      | some b => objInsert (expandKey props col.1) (.bool b) res
      | none => res)
    withFloat
  let withJson := g.jsonCols.foldl
    (fun res col =>
      match col.2.get? i with
      | some (some id) =>
        match c.dictionaries.strings.lookup id with
        | some js =>
          match jparse js with
          | some v => objInsert (expandKey props col.1) v res
          | none => objInsert (expandKey props col.1) (.str js) res
        | none => res
      | _ => res)
    withBool
  .obj withJson

/-- EfficientCompactor::reconstruct_data. -/
def reconstructData (c : Compacted) : JValue :=
  .obj [("subresources",
    .arr (c.data.flatMap (fun g => (List.range g.2.count).map (reconstructRow c g.1 g.2))))]

end EC

/-- The subresources array of an input (missing or non-array becomes
empty, as in all three compactors). -/
def subsOf (x : JValue) : List JValue := ((x.get? "subresources").bind JValue.asArray).getD []

/-- A record carrying a string resource_type field. -/
def hasStrRT (r : JValue) : Bool := ((r.get? "resource_type").bind JValue.asStr).isSome

/-- Field list of a record (empty for non-objects). -/
def recPairs (r : JValue) : List (String × JValue) := (r.asObject).getD []

/-- Keys strictly sorted (the invariant of a serde_json::Map). -/
def keysSorted : List (String × JValue) → Bool
  | [] => true
  | [_] => true
  | (k1, _) :: (k2, v2) :: tl => strLt k1 k2 && keysSorted ((k2, v2) :: tl)

mutual

def jwf : JValue → Bool
  | .null => true
  | .bool _ => true
  | .int n => decide (-(2 ^ 63) ≤ n ∧ n < 2 ^ 64)
  | .float q => (ratDecExp q).isSome
  | .str _ => true
  | .arr l => jwfArr l
  | .obj o => keysSorted o && jwfObj o

def jwfArr : List JValue → Bool
  | [] => true
  | v :: vs => jwf v && jwfArr vs

def jwfObj : List (String × JValue) → Bool
  | [] => true
  | (_, v) :: kvs => jwf v && jwfObj kvs

end

/-- Fuel-driven scan that removes every occurrence of a pattern, the
direct reading of "each occurrence removed". -/
def scanRemoveFuel (pat : List Char) : Nat → List Char → List Char
  | 0, l => l
  | _ + 1, [] => []
  | fuel + 1, l@(c :: rest) =>
    if pat.isPrefixOf l then scanRemoveFuel pat fuel (l.drop pat.length)
    else c :: scanRemoveFuel pat fuel rest

/-- Removal of every occurrence of a pattern. -/
def scanRemove (pat l : List Char) : List Char := scanRemoveFuel pat (l.length + 1) l

namespace Spec

/-! Definitions written from the words of the specification and of the
claims, to be compared with the source-derived definitions above. -/

/-- TypeTag derivation as claim C7 states it: last path segment, exactly
the trailing "-step" suffix stripped, hyphens to underscores. -/
def typeTagTrailing (s : String) : String :=
  let seg := (DC.lastSegD "unknown" s).data
  let stripped := if "-step".data.isSuffixOf seg then seg.take (seg.length - 5) else seg
  String.mk (stripped.map (fun c => if c = '-' then '_' else c))

/-- TypeTag derivation as amended: last path segment, every occurrence of
"-step" removed (non-overlapping, left to right), hyphens to
underscores. -/
def typeTagAllOcc (dflt : String) (s : String) : String :=
  String.mk ((scanRemove "-step".data (DC.lastSegD dflt s).data).map
    (fun c => if c = '-' then '_' else c))

/-- Pure abbreviation of the columnar compactor (static table hit or
identity). -/
def abbrevName (k : String) : String := (EC.propertyAbbrevs.lookup k).getD k

/-- Types of all observed values of a (short) field name across a group,
in record order and, within a record, in map order. -/
def occTypes (resources : List JValue) (f : String) : List EC.FieldType :=
  resources.flatMap (fun r =>
    ((recPairs r).filter (fun kv => abbrevName kv.1 = f)).map (fun kv => EC.inferFieldType kv.2))

/-- The type of the last record (and last field in map order) observed
carrying the field: the amended type-fixing rule of the columnar
compactor. -/
def lastTypeOf (resources : List JValue) (f : String) : Option EC.FieldType :=
  (occTypes resources f).getLast?

/-- The type of the first observed value of a field: the type-fixing rule
as claim C4 states it. -/
def firstTypeOf (resources : List JValue) (f : String) : Option EC.FieldType :=
  (occTypes resources f).head?

/-- Observed compact types in the aggressive compactor. -/
def occTypesTC (resources : List JValue) (f : String) : List Char :=
  resources.flatMap (fun r =>
    ((recPairs r).filter (fun kv => TC.abbreviateField kv.1 = f)).map
      (fun kv => TC.inferCompactType kv.2))

/-- The first observed compact type: the type-fixing rule of the
aggressive compactor. -/
def firstTypeOfTC (resources : List JValue) (f : String) : Option Char :=
  (occTypesTC resources f).head?

/-- Canonical keys of the static abbreviation table. -/
def staticDomain : List String := EC.propertyAbbrevs.map (fun p => p.1)

/-- Short keys of the static abbreviation table. -/
def staticShorts : List String := EC.propertyAbbrevs.map (fun p => p.2)

/-- A field name within the static table, or one that the run records
identically (left unchanged and not colliding with a short key), so that
decode-side expansion recovers it from the artifact alone. -/
def goodKey (k : String) : Bool := staticDomain.contains k || !(staticShorts.contains k)

/-- The hypothesis of claim C1 as stated: every record is an object with
a string resource_type and every field name lies within the static table
plus the recorded (identity-resolvable) field-name table. -/
def ClaimHypC1 (x : JValue) : Bool :=
  (subsOf x).all (fun r =>
    match r with
    | .obj o =>
      (match o.lookup "resource_type" with
       | some (.str _) => true
       | _ => false) && o.all (fun kv => goodKey kv.1)
    | _ => false)

/-- Record equality as a set of (canonical-key, value) pairs. -/
def sameRecord (r r' : JValue) : Prop :=
  (∀ p ∈ recPairs r, p ∈ recPairs r') ∧ (∀ p ∈ recPairs r', p ∈ recPairs r)

/-- The round-trip property of claim C1: every original record has a
reconstructed record with an equal set of (canonical-key, value) pairs,
independent of row order. -/
def RoundTripOK (x : JValue) : Prop :=
  ∀ r ∈ subsOf x,
    ∃ r' ∈ subsOf (EC.reconstructData (EC.compactComprehensiveData x)), sameRecord r r'

/-- Groups as formed by the columnar compactor (independent of the stats
thread). -/
def groupsOfEC (x : JValue) : List (String × List JValue) :=
  (EC.groupRecords ⟨0, 0, 0, 0, 0, 0, 0⟩ (subsOf x) []).2

/-- Shape consistency within each group: a field name carries values of
one shape only (no type conflicts). -/
def consistentGroups (x : JValue) : Bool :=
  (groupsOfEC x).all (fun g =>
    g.2.all (fun r => g.2.all (fun r' =>
      (recPairs r).all (fun kv => (recPairs r').all (fun kv' =>
        abbrevName kv.1 ≠ abbrevName kv'.1 ||
          decide (EC.inferFieldType kv.2 = EC.inferFieldType kv'.2))))))

/-- Bool-typed fields are present in every record of their group (the
absent-bool-becomes-false asymmetry is excluded). -/
def boolsPresent (x : JValue) : Bool :=
  (groupsOfEC x).all (fun g =>
    ((EC.allFields ⟨0, 0, 0, 0, 0, 0, 0⟩ g.2 []).2).all (fun ft =>
      ft.2 ≠ EC.FieldType.bool ||
        g.2.all (fun r => (EC.findVal (recPairs r) ft.1).isSome)))

/-- The amended hypothesis of claim C1: the claim's own field-name
condition, plus the conditions forced by counterexamples (well-formed
sorted records, no null field values and no top-level integers beyond
i64 — both are typed Str/Float and cannot round-trip —, no type
conflicts, no absent Bool fields) and the u16 dictionary-width bound
under which the Nat model of the id counters matches the source. -/
def AmendedHypC1 (x : JValue) : Bool :=
  (subsOf x).all (fun r =>
    match r with
    | .obj o =>
      (match o.lookup "resource_type" with
       | some (.str _) => true
       | _ => false) &&
      keysSorted o &&
      o.all (fun kv => goodKey kv.1) &&
      o.all (fun kv => kv.2 ≠ JValue.null && jwf kv.2 &&
        (match kv.2 with
         | .int n => decide (-(2 ^ 63) ≤ n ∧ n < 2 ^ 63)
         | _ => true))
    | _ => false) &&
  consistentGroups x && boolsPresent x &&
  decide ((EC.finalState x).nextUrlId ≤ 65535) &&
  decide ((EC.finalState x).nextStringId ≤ 65535)

/-- Group row invariant for a columnar artifact. -/
def ECGroupInv (c : EC.Compacted) : Prop :=
  ∀ g ∈ c.data,
    (∀ col ∈ g.2.strCols, col.2.length = g.2.count) ∧
    (∀ col ∈ g.2.intCols, col.2.length = g.2.count) ∧
    (∀ col ∈ g.2.floatCols, col.2.length = g.2.count) ∧
    (∀ col ∈ g.2.boolCols, col.2.length = g.2.count) ∧
    (∀ col ∈ g.2.urlCols, col.2.length = g.2.count) ∧
    (∀ col ∈ g.2.jsonCols, col.2.length = g.2.count)

/-- Length of a column stored as a Value array. -/
def colLen : JValue → Option Nat
  | .arr l => some l.length
  | _ => none

/-- Group row invariant for an aggressive artifact (every column array
has the group's row count). -/
def TCGroupInv (fmt : TC.CompactFormat) : Prop :=
  ∀ g ∈ fmt.d, ∀ col ∈ g.2.c, colLen col.2 = some g.2.n

end Spec

/-- Interning run over a list of string values (folds the aggressive
compactor's compress_value). -/
def TC.compressRun (l : List String) : TC.State :=
  l.foldl (fun st s => (TC.compressValue st (.str s)).1) TC.new

namespace Inv

/-! Proof-support invariants for the columnar compactor's dictionaries
and column fill. -/

/-- Dictionary invariant maintained by interning: codes are exactly
1..length in insertion order and the interned strings are distinct. -/
def DictInv (d : List (String × Nat)) (next : Nat) : Prop :=
  next = d.length + 1 ∧ d.map Prod.snd = List.range' 1 d.length ∧ (d.map Prod.fst).Nodup

/-- State invariant for both dictionaries. -/
def StInv (st : EC.State) : Prop :=
  DictInv st.urlDict st.nextUrlId ∧ DictInv st.stringDict st.nextStringId

/-- Dictionaries only grow during a run. -/
def StLE (st st' : EC.State) : Prop :=
  st.urlDict <+: st'.urlDict ∧ st.stringDict <+: st'.stringDict

/-- Cell specification for a Str column against a (final) string
dictionary. -/
def CellStr (dict : List (String × Nat)) (o : List (String × JValue)) (f : String)
    (cell : Option Nat) : Prop :=
  match (EC.findVal o f).bind JValue.asStr with
  | none => cell = none
  | some s => ∃ c, cell = some c ∧ dict.lookup s = some c

/-- Cell specification for a Url column against a (final) url
dictionary. -/
def CellUrl (dict : List (String × Nat)) (o : List (String × JValue)) (f : String)
    (cell : Option Nat) : Prop :=
  match (EC.findVal o f).bind JValue.asStr with
  | none => cell = none
  | some s => ∃ c, cell = some c ∧ dict.lookup s = some c

/-- Cell specification for a Json column: the serialized value is
interned into the string dictionary. -/
def CellJson (dict : List (String × Nat)) (o : List (String × JValue)) (f : String)
    (cell : Option Nat) : Prop :=
  match EC.findVal o f with
  | none => cell = none
  | some v => ∃ c, cell = some c ∧ dict.lookup (jser v) = some c

/-- Full column specification for one analysed field against the final
state, relating each cell to the record at its row index. -/
def ColOK (st : EC.State) (os : List (List (String × JValue))) (g : EC.Group)
    (f : String) : EC.FieldType → Prop
  | .str => ∃ cells, g.strCols.lookup f = some cells ∧ cells.length = os.length ∧
      ∀ i o cell, os.get? i = some o → cells.get? i = some cell → CellStr st.stringDict o f cell
  | .url => ∃ cells, g.urlCols.lookup f = some cells ∧ cells.length = os.length ∧
      ∀ i o cell, os.get? i = some o → cells.get? i = some cell → CellUrl st.urlDict o f cell
  | .json => ∃ cells, g.jsonCols.lookup f = some cells ∧ cells.length = os.length ∧
      ∀ i o cell, os.get? i = some o → cells.get? i = some cell → CellJson st.stringDict o f cell
  | .int => ∃ cells, g.intCols.lookup f = some cells ∧ cells.length = os.length ∧
      ∀ i o cell, os.get? i = some o → cells.get? i = some cell →
        cell = (EC.findVal o f).bind JValue.asI64
  | .float => ∃ cells, g.floatCols.lookup f = some cells ∧ cells.length = os.length ∧
      ∀ i o cell, os.get? i = some o → cells.get? i = some cell →
        cell = (EC.findVal o f).bind JValue.asF64
  | .bool => ∃ cells, g.boolCols.lookup f = some cells ∧ cells.length = os.length ∧
      ∀ i o cell, os.get? i = some o → cells.get? i = some cell →
        cell = ((EC.findVal o f).bind JValue.asBool).getD false
  | .array _ => True

end Inv

/-- Counterexample input for claim C1: one record whose only domain field
carries a null value (its field names are all within the static table or
identity-recorded). -/
def cexC1 : JValue :=
  .obj [("subresources", .arr [
    .obj [("https://atomicdata.dev/properties/parent", .null),
          ("resource_type", .str "https://x/class/a-step")]])]

/-- Witness input for the amended claim C1: a static-table field, an
unchanged field and an integer field. -/
def witC1 : JValue :=
  .obj [("subresources", .arr [
    .obj [("https://atomicdata.dev/properties/parent", .str "https://u1"),
          ("n", .int 5),
          ("resource_type", .str "https://x/class/a-step")]])]

/-- Counterexample input for claim C3: a group ("unknown") holding an
object row and a non-object row in the aggressive compactor. -/
def cexC3 : JValue := .obj [("subresources", .arr [.obj [("a", .int 1)], .int 42])]

/-- Counterexample input for claim C4: the same field is numeric in the
first record and text in the second record of one group. -/
def cexC4 : JValue :=
  .obj [("subresources", .arr [
    .obj [("a", .int 5), ("resource_type", .str "https://x/class/s-step")],
    .obj [("a", .str "y"), ("resource_type", .str "https://x/class/s-step")]])]

/-- Failing input for claim C5: structural grouping makes the compacted
JSON longer than the original (45 characters grow to 59). -/
def cexC5 : JValue := .obj [("subresources", .arr [.obj [("resource_type", .str "a-step")]])]

/-- Counterexample input for claim C6: a single record with no
resource_type field. -/
def cexC6 : JValue := .obj [("subresources", .arr [.obj [("a", .int 1)]])]

/-- Counterexample input for claim C8: a Bool-typed field present in the
first record of a group and absent from the second. -/
def cexC8 : JValue :=
  .obj [("subresources", .arr [
    .obj [("b", .bool true), ("resource_type", .str "https://x/class/g-step")],
    .obj [("resource_type", .str "https://x/class/g-step")]])]

/-- Counterexample input for claim C9: a subresource holding the string
value "T" but no resource_type field, which the structural compaction of
the naive compactor deletes wholesale. -/
def cexC9 : JValue := .obj [("subresources", .arr [.obj [("a", .str "T")]])]

/-- Input for claim C10: a URL field (which receives dictionary code 1)
next to an integer field holding the literal 1. -/
def inC10 : JValue :=
  .obj [("subresources", .arr [.obj [("n", .int 1), ("u", .str "https://e.com")]])]

/-- 256 distinct URLs, enough to exhaust the u8 code space of the
aggressive compactor. -/
def urls256 : List String := (List.range 256).map (fun n => "https://" ++ natStr n)

/-- Name and cell count of a column: the shadow the row-invariant
lemmas track. -/
def flen {α : Type} (c : String × List α) : String × Nat := (c.1, c.2.length)

/-- Effect on the shadow of appending one cell to the named column
(cpush of the columnar compactor, col_append of the aggressive one). -/
def cpushLen (k : String) : List (String × Nat) → List (String × Nat)
  | [] => [(k, 1)]
  | (k', n) :: tl => if k = k' then (k', n + 1) :: tl else (k', n) :: cpushLen k tl

/-- The analysed field names of one column kind, in analysis order. -/
def kindNames (fields : List (String × EC.FieldType)) (t : EC.FieldType) : List String :=
  (fields.filter (fun fc => fc.2 = t)).map Prod.fst

/-- Shadow invariant of a columnar group: every column kind holds
exactly the analysed fields of that kind, each with j cells. -/
def GroupShadow (g : EC.Group) (fields : List (String × EC.FieldType)) (j : Nat) : Prop :=
  g.strCols.map flen = (kindNames fields .str).map (fun k => (k, j)) ∧
  g.intCols.map flen = (kindNames fields .int).map (fun k => (k, j)) ∧
  g.floatCols.map flen = (kindNames fields .float).map (fun k => (k, j)) ∧
  g.boolCols.map flen = (kindNames fields .bool).map (fun k => (k, j)) ∧
  g.urlCols.map flen = (kindNames fields .url).map (fun k => (k, j)) ∧
  g.jsonCols.map flen = (kindNames fields .json).map (fun k => (k, j))

mutual

/-- Fuel sufficient for pVal to parse the serialization of a value. -/
def jfuel : JValue → Nat
  | .null => 1
  | .bool _ => 1
  | .int _ => 1
  | .float _ => 1
  | .str _ => 1
  | .arr l => 1 + jfuelElems l
  | .obj o => 1 + jfuelMems o

/-- Fuel sufficient for pElems on a serialized element list. -/
def jfuelElems : List JValue → Nat
  | [] => 1
  | v :: vs => 1 + max (jfuel v) (jfuelElems vs)

/-- Fuel sufficient for pMems on a serialized member list. -/
def jfuelMems : List (String × JValue) → Nat
  | [] => 1
  | (_, v) :: kvs => 1 + max (jfuel v) (jfuelMems kvs)

end

/-- Witness input for the group row invariant: two object subresources
of one type. -/
def witC3 : JValue :=
  .obj [("subresources", .arr
    [.obj [("a", .int 1), ("resource_type", .str "https://x/class/s")],
     .obj [("b", .str "z"), ("resource_type", .str "https://x/class/s")]])]

instance (r r' : JValue) : Decidable (Spec.sameRecord r r') :=
  inferInstanceAs (Decidable ((∀ p ∈ recPairs r, p ∈ recPairs r') ∧ (∀ p ∈ recPairs r', p ∈ recPairs r)))

instance (x : JValue) : Decidable (Spec.RoundTripOK x) :=
  inferInstanceAs (Decidable (∀ r ∈ subsOf x,
    ∃ r' ∈ subsOf (EC.reconstructData (EC.compactComprehensiveData x)), Spec.sameRecord r r'))

namespace Rec

/-- The (key, value) pair one string column contributes to a reconstructed
row: present and dictionary-resolvable cells only. -/
def pickStr (strings : List (Nat × String)) (props : List (String × String)) (i : Nat)
    (col : String × List (Option Nat)) : Option (String × JValue) :=
  match col.2.get? i with
  | some (some id) => (strings.lookup id).map (fun s => (EC.expandKey props col.1, JValue.str s))
  | _ => none

/-- The pair one url column contributes. -/
def pickUrl (urls : List (Nat × String)) (props : List (String × String)) (i : Nat)
    (col : String × List (Option Nat)) : Option (String × JValue) :=
  match col.2.get? i with
  | some (some id) => (urls.lookup id).map (fun s => (EC.expandKey props col.1, JValue.str s))
  | _ => none

/-- The pair one int column contributes. -/
def pickInt (props : List (String × String)) (i : Nat)
    (col : String × List (Option Int)) : Option (String × JValue) :=
  match col.2.get? i with
  | some (some n) => some (EC.expandKey props col.1, JValue.int n)
  | _ => none

/-- The pair one float column contributes. -/
def pickFloat (props : List (String × String)) (i : Nat)
    (col : String × List (Option Rat)) : Option (String × JValue) :=
  match col.2.get? i with
  | some (some q) => some (EC.expandKey props col.1, JValue.float q)
  | _ => none

/-- The pair one bool column contributes (every in-range row has one,
booleans being stored bare). -/
def pickBool (props : List (String × String)) (i : Nat)
    (col : String × List Bool) : Option (String × JValue) :=
  match col.2.get? i with
  | some b => some (EC.expandKey props col.1, JValue.bool b)
  | none => none

/-- The pair one json column contributes (an unparsable dictionary entry
falls back to the raw string). -/
def pickJson (strings : List (Nat × String)) (props : List (String × String)) (i : Nat)
    (col : String × List (Option Nat)) : Option (String × JValue) :=
  match col.2.get? i with
  | some (some id) =>
    (strings.lookup id).map (fun js => (EC.expandKey props col.1,
      match jparse js with
      | some v => v
      | none => JValue.str js))
  | _ => none

/-- One column-kind fold of reconstruct_data, abstracted over the pair
each column contributes. -/
def insFold {β : Type} (pick : String × List β → Option (String × JValue))
    (cols : List (String × List β)) (res : List (String × JValue)) : List (String × JValue) :=
  cols.foldl (fun r col => match pick col with
    | some kv => objInsert kv.1 kv.2 r
    | none => r) res

end Rec

/-- C5: the DataCompactor compression-ratio step subtracts the compacted
size from the original size in usize before the float cast; on this
input the structural grouping makes the compacted JSON (59 characters)
longer than the original (45 characters), so the subtraction underflows
(panic in debug builds, wrap to a huge positive value in release builds)
instead of completing with a non-positive ratio; the model returns none
there. -/
theorem claim5_dc_ratio_underflow :
    DC.compactComprehensiveData cexC5 = none ∧ jlen cexC5 = 45 ∧
    jlen (DC.compactValue DC.new ⟨45, 0, 0, 0, 0, 0⟩ (DC.applyStructuralCompaction cexC5)).2.2 = 59 :=
  ⟨by decide, by decide, by decide⟩

/-- C1 counterexample: this record's field names all satisfy the claim's
field-name hypothesis, but its null-valued parent field is typed Str,
stored as a null cell and dropped by reconstruct_data, so no
reconstructed record has an equal set of (canonical-key, value) pairs. -/
theorem claim1_counterexample : Spec.ClaimHypC1 cexC1 = true ∧ ¬ Spec.RoundTripOK cexC1 :=
  ⟨by decide, by decide⟩

/-- C3 counterexample: in the aggressive compactor a non-object
subresource joins the "unknown" group (raising its row count) yet
contributes no cells, so the "a" column has 1 cell against a count of
2. -/
theorem claim3_counterexample :
    (TC.compact cexC3).d = [("unknown", ⟨2, [("a", .arr [.int 1])]⟩)] ∧
    ¬ Spec.TCGroupInv (TC.compact cexC3) := by
  constructor
  · decide
  · intro h
    have := h ("unknown", ⟨2, [("a", .arr [.int 1])]⟩) (by decide) ("a", .arr [.int 1]) (by decide)
    simp [Spec.colLen] at this

/-- C4 counterexample: in the columnar compactor the field "a" is
numeric in the first record and text in the second of the same group;
the artifact declares it a Str column (the last record wins, not the
first) and the first record's cell is null. -/
theorem claim4_counterexample :
    Spec.firstTypeOf
      [.obj [("a", .int 5), ("resource_type", .str "https://x/class/s-step")],
       .obj [("a", .str "y"), ("resource_type", .str "https://x/class/s-step")]] "a"
      = some EC.FieldType.int ∧
    (EC.compactComprehensiveData cexC4).data =
      [("s", ⟨2, [("a", [none, some 1])], [], [], [], [("resource_type", [some 1, some 1])], []⟩)] :=
  ⟨by decide, by decide⟩

/-- C6 counterexample: a record with no resource_type field is not
dropped by the aggressive compactor; it is grouped under "unknown" and
its data appears in the artifact. -/
theorem claim6_counterexample :
    hasStrRT (.obj [("a", .int 1)]) = false ∧
    (TC.compact cexC6).d = [("unknown", ⟨1, [("a", .arr [.int 1])]⟩)] :=
  ⟨by decide, by decide⟩

/-- C7 counterexample: extract_type_name removes the non-trailing
"-step" of a-step-plan (the claim says only a trailing suffix is
stripped), and the aggressive shortener additionally truncates to 8
characters. -/
theorem claim7_counterexample :
    EC.extractTypeName "https://x/class/a-step-plan" = "a_plan" ∧
    Spec.typeTagTrailing "https://x/class/a-step-plan" = "a_step_plan" ∧
    TC.shortenResourceType "https://x/class/management-governance" = "manageme" ∧
    Spec.typeTagTrailing "https://x/class/management-governance" = "management_governance" :=
  ⟨by decide, by decide, by decide, by decide⟩

/-- C8 counterexample: in the aggressive compactor the Bool-typed field
"b", absent from the second record of its group, is stored as a null
cell, not as the literal false. -/
theorem claim8_counterexample :
    (TC.compact cexC8).s.types.lookup "b" = some 'b' ∧
    (TC.compact cexC8).d =
      [("g", ⟨2, [("b", .arr [.bool true, .null]), ("rt", .arr [.int 1, .int 1])]⟩)] :=
  ⟨by decide, by decide⟩

/-- C9 counterexample: this input's subresource holds the original string
value "T", yet the round trip does not return it as a boolean — the
record has no resource_type, so apply_structural_compaction deletes it
wholesale and the decompressed output contains no "a" field at all. The
claim's universal quantification over every input containing a "T"/"F"
string therefore fails. -/
theorem claim9_counterexample :
    subsOf cexC9 = [.obj [("a", .str "T")]] ∧
    (DC.compactComprehensiveData cexC9).map DC.decompress
      = some (.obj [("subresources_grouped", .obj [])]) :=
  ⟨by decide, by decide⟩

/-- C9 (amended): DataCompactor encodes booleans as the strings "T"/"F"
and its decoder maps every "T"/"F" string cell back to a boolean,
whatever the dictionaries; hence an original string value "T" or "F"
that survives compaction comes back as a boolean, not as the original
string — shown at the input whose "T"/"F" value reaches the artifact.
Records deleted by the structural compaction never return the value at
all. -/
theorem claim9_tf_aliasing_amended :
    (∀ (u t : List (Nat × String)) (s : String), s = "T" ∨ s = "F" →
      DC.decompressValue u t (JValue.str s) = JValue.bool (s == "T")) ∧
    (∀ s : String, s = "T" ∨ s = "F" →
      (DC.compactComprehensiveData (.obj [("a", .str s)])).map DC.decompress
        = some (.obj [("a", .bool (s == "T"))]) ∧
      JValue.str s ≠ JValue.bool (s == "T")) := by
  constructor
  · intro u t s h
    rcases h with h | h <;> subst h <;> simp [DC.decompressValue]
  · intro s h
    rcases h with h | h <;> subst h <;> exact ⟨by decide, by decide⟩

/-- C9 witness: both conjuncts of the amended theorem applied at the
concrete value "T" (with empty dictionaries for the decoder conjunct). -/
theorem claim9_witness :
    DC.decompressValue [] [] (JValue.str "T") = JValue.bool true ∧
    (DC.compactComprehensiveData (.obj [("a", .str "T")])).map DC.decompress
      = some (.obj [("a", .bool true)]) ∧
    JValue.str "T" ≠ JValue.bool true :=
  ⟨claim9_tf_aliasing_amended.1 [] [] "T" (Or.inl rfl),
   (claim9_tf_aliasing_amended.2 "T" (Or.inl rfl)).1,
   (claim9_tf_aliasing_amended.2 "T" (Or.inl rfl)).2⟩

/-- C10: the aggressive decoder truncates every unsigned-integer cell to
8 bits before the dictionary lookups (adding 256 to a code never changes
the decode), and on this input the original integer literal 1 is
reconstructed as the dictionary string "https://e.com" assigned code 1,
not as the number 1. -/
theorem claim10_decode_aliasing :
    (∀ (u t : Option (List (Nat × String))) (n : Int) (url : String),
      0 ≤ n ∧ n < 2 ^ 64 → u.bind (fun d => d.lookup (n % 256).toNat) = some url →
      TC.decompressValue u t (.int n) = .str url) ∧
    ((subsOf inC10).head?.bind (fun r => r.get? "n")) = some (.int 1) ∧
    TC.reconstruct (TC.compact inC10) =
      .obj [("subresources", .arr [
        .obj [("n", .str "https://e.com"),
              ("resource_type", .str "https://common.terraphim.io/01jxw2jx8qze6yakh4fz24mnhy/class/unknown-step"),
              ("url", .str "https://e.com")]])] := by
  refine ⟨?_, by decide, by decide⟩
  intro u t n url hrange hfound
  simp only [TC.decompressValue, hrange, if_pos, and_self, hfound]

/-- C10 witness: the truncation conjunct applied at the 8-bit-aliased
code 257, which resolves through code 1. -/
theorem claim10_witness :
    ((0 : Int) ≤ 257 ∧ (257 : Int) < 2 ^ 64) ∧
    (some [(1, "https://e.com")]).bind
      (fun d => d.lookup ((257 : Int) % 256).toNat) = some "https://e.com" ∧
    TC.decompressValue (some [(1, "https://e.com")]) none (.int 257) = .str "https://e.com" :=
  ⟨by decide, by decide,
   claim10_decode_aliasing.1 (some [(1, "https://e.com")]) none 257 "https://e.com"
     (by decide) (by decide)⟩

/-! Association list and digit-rendering lemmas. -/

theorem lookup_append_left {α : Type} (k : String) (l1 l2 : List (String × α)) (c : α)
    (h : l1.lookup k = some c) : (l1 ++ l2).lookup k = some c := by
  induction l1 with
  | nil => simp [List.lookup] at h
  | cons hd tl ih =>
    simp only [List.lookup, List.cons_append] at h ⊢
    by_cases hk : k == hd.1
    · simpa [hk] using h
    · simp only [hk] at h ⊢
      exact ih h

theorem lookup_append_right {α : Type} (k : String) (l1 l2 : List (String × α))
    (h : l1.lookup k = none) : (l1 ++ l2).lookup k = l2.lookup k := by
  induction l1 with
  | nil => simp
  | cons hd tl ih =>
    simp only [List.lookup, List.cons_append] at h ⊢
    by_cases hk : k == hd.1
    · simp [hk] at h
    · simp only [hk] at h ⊢
      exact ih h

theorem lookup_eq_none_iff {α : Type} (k : String) (l : List (String × α)) :
    l.lookup k = none ↔ k ∉ l.map Prod.fst := by
  induction l with
  | nil => simp [List.lookup]
  | cons hd tl ih =>
    simp only [List.lookup, List.map_cons, List.mem_cons]
    by_cases hk : k = hd.1
    · simp [hk]
    · have : (k == hd.1) = false := by simp [hk]
      simp [this, ih, hk]

theorem lookup_mem {α : Type} (k : String) (l : List (String × α)) (c : α)
    (h : l.lookup k = some c) : (k, c) ∈ l := by
  induction l with
  | nil => simp [List.lookup] at h
  | cons hd tl ih =>
    simp only [List.lookup] at h
    by_cases hk : k == hd.1
    · simp only [hk] at h
      have hk2 : k = hd.1 := by simpa using hk
      have hc : hd.2 = c := by simpa using h
      cases hd
      simp_all
    · simp only [hk] at h
      exact List.mem_cons_of_mem _ (ih h)

theorem mem_lookup {α : Type} (k : String) (l : List (String × α)) (c : α)
    (hnd : (l.map Prod.fst).Nodup) (h : (k, c) ∈ l) : l.lookup k = some c := by
  induction l with
  | nil => simp at h
  | cons hd tl ih =>
    simp only [List.map_cons, List.nodup_cons] at hnd
    rcases List.mem_cons.mp h with h | h
    · cases h
      simp [List.lookup]
    · have hne : k ≠ hd.1 := by
        intro he
        exact hnd.1 (he ▸ (List.mem_map.mpr ⟨(k, c), h, rfl⟩))
      have : (k == hd.1) = false := by simp [hne]
      simp only [List.lookup, this]
      exact ih hnd.2 h

theorem lookup_prefix {α : Type} (k : String) (l1 l2 : List (String × α)) (c : α)
    (hpre : l1 <+: l2) (h : l1.lookup k = some c) : l2.lookup k = some c := by
  rcases hpre with ⟨t, rfl⟩
  exact lookup_append_left k l1 t c h

/-! Digit rendering and parsing. -/

theorem digitChar_spec (d : Nat) (h : d < 10) :
    isDigitChar (digitChar d) = true ∧ (digitChar d).toNat = 48 + d ∧ digitChar d ≠ '-' ∧
    digitChar d ≠ '.' ∧ digitChar d ≠ 'e' ∧ digitChar d ≠ 'E' := by
  interval_cases d <;> exact ⟨by decide, by decide, by decide, by decide, by decide, by decide⟩

theorem natDigitsFuel_indep (f1 : Nat) : ∀ (f2 n : Nat), n < f1 → n < f2 →
    natDigitsFuel f1 n = natDigitsFuel f2 n := by
  induction f1 with
  | zero => intro f2 n h; omega
  | succ f ih =>
    intro f2 n h1 h2
    match f2, h2 with
    | f2 + 1, h2 =>
      simp only [natDigitsFuel]
      by_cases h10 : n < 10
      · simp [h10]
      · simp only [h10, if_false]
        have hd : n / 10 < n := Nat.div_lt_self (by omega) (by omega)
        rw [ih f2 (n / 10) (by omega) (by omega)]

theorem natDigits_eq (n : Nat) :
    natDigits n = if n < 10 then [digitChar n] else natDigits (n / 10) ++ [digitChar (n % 10)] := by
  by_cases h10 : n < 10
  · simp [natDigits, natDigitsFuel, h10]
  · simp only [h10, if_false]
    show natDigitsFuel (n + 1) n = _
    have h1 : natDigitsFuel (n + 1) n = natDigitsFuel n (n / 10) ++ [digitChar (n % 10)] := by
      simp only [natDigitsFuel, h10, if_false]
    rw [h1]
    have hd : n / 10 < n := Nat.div_lt_self (by omega) (by omega)
    rw [natDigitsFuel_indep n (n / 10 + 1) (n / 10) (by omega) (by omega)]
    rfl

theorem natDigits_ne_nil (n : Nat) : natDigits n ≠ [] := by
  rw [natDigits_eq]
  by_cases h10 : n < 10 <;> simp [h10]

theorem natDigits_all_digit (n : Nat) : ∀ c ∈ natDigits n, isDigitChar c = true := by
  induction n using Nat.strong_induction_on with
  | _ n ih =>
    rw [natDigits_eq]
    by_cases h10 : n < 10
    · simp only [h10, if_true, List.mem_singleton]
      rintro c rfl
      exact (digitChar_spec n h10).1
    · simp only [h10, if_false]
      intro c hc
      rcases List.mem_append.mp hc with hc | hc
      · exact ih (n / 10) (Nat.div_lt_self (by omega) (by omega)) c hc
      · rcases List.mem_singleton.mp hc with rfl
        exact (digitChar_spec (n % 10) (Nat.mod_lt _ (by omega))).1

theorem digitsToNat_append (l1 l2 : List Char) :
    digitsToNat (l1 ++ l2) = digitsToNat l1 * 10 ^ l2.length + digitsToNat l2 := by
  induction l2 using List.reverseRecOn with
  | nil => simp [digitsToNat]
  | append_singleton l2 c ih =>
    unfold digitsToNat at *
    simp only [List.foldl_append, List.foldl_cons, List.foldl_nil, ← List.append_assoc] at *
    rw [ih]
    simp only [List.length_append, List.length_singleton, pow_succ, pow_one]
    ring

theorem digitsToNat_natDigits (n : Nat) : digitsToNat (natDigits n) = n := by
  induction n using Nat.strong_induction_on with
  | _ n ih =>
    rw [natDigits_eq]
    by_cases h10 : n < 10
    · simp only [h10, if_true]
      unfold digitsToNat
      simp [(digitChar_spec n h10).2.1]
    · simp only [h10, if_false]
      rw [digitsToNat_append]
      rw [ih (n / 10) (Nat.div_lt_self (by omega) (by omega))]
      have hm := (digitChar_spec (n % 10) (Nat.mod_lt _ (by omega))).2.1
      unfold digitsToNat
      simp only [List.length_singleton, List.foldl_cons, List.foldl_nil, hm]
      omega

theorem natStr_injective (a b : Nat) (h : natStr a = natStr b) : a = b := by
  have : natDigits a = natDigits b := congrArg String.data h
  calc a = digitsToNat (natDigits a) := (digitsToNat_natDigits a).symm
    _ = digitsToNat (natDigits b) := by rw [this]
    _ = b := digitsToNat_natDigits b

/-! Interning behaviour of the aggressive compactor's u8 dictionary. -/

theorem TC_compress_str_urlDict_pfx (st : TC.State) (s : String) :
    st.urlDict <+: (TC.compressValue st (.str s)).1.urlDict := by
  simp only [TC.compressValue]
  by_cases hp : strIsPrefix "http" s = true
  · rw [if_pos hp]
    cases h : st.urlDict.lookup s with
    | some id => simp [h]
    | none => simp only [h]; exact List.prefix_append _ _
  · rw [if_neg hp]
    by_cases hl : s.length > 50
    · rw [if_pos hl]
      cases h : st.stringDict.lookup s with
      | some id => simp [h]
      | none => simp [h]
    · rw [if_neg hl]

theorem TC_foldUrl_pfx : ∀ (l : List String) (st : TC.State),
    st.urlDict <+: (l.foldl (fun st s => (TC.compressValue st (.str s)).1) st).urlDict := by
  intro l
  induction l with
  | nil => intro st; simp
  | cons s0 rest ih =>
    intro st
    simp only [List.foldl_cons]
    exact (TC_compress_str_urlDict_pfx st s0).trans (ih _)

theorem TC_compress_url_fresh (st : TC.State) (s : String)
    (hp : strIsPrefix "http" s = true) (hf : st.urlDict.lookup s = none) :
    (TC.compressValue st (.str s)).1 =
      { st with urlDict := st.urlDict ++ [(s, st.nextUrlId)], nextUrlId := TC.satAdd1 st.nextUrlId } := by
  simp [TC.compressValue, hp, hf]

theorem TC_compressRun_fresh : ∀ (l : List String) (st : TC.State),
    (∀ s ∈ l, strIsPrefix "http" s = true) →
    (∀ s ∈ l, st.urlDict.lookup s = none) →
    l.Nodup → st.nextUrlId ≤ 255 →
    ∀ j s, l.get? j = some s →
      (l.foldl (fun st s => (TC.compressValue st (.str s)).1) st).urlDict.lookup s
        = some (min (st.nextUrlId + j) 255) := by
  intro l
  induction l with
  | nil => intro st _ _ _ _ j s h; simp at h
  | cons s0 rest ih =>
    intro st hp hf hnd hb j s hj
    have hstep := TC_compress_url_fresh st s0 (hp s0 (by simp)) (hf s0 (by simp))
    simp only [List.foldl_cons, hstep]
    set st1 : TC.State :=
      { st with urlDict := st.urlDict ++ [(s0, st.nextUrlId)], nextUrlId := TC.satAdd1 st.nextUrlId }
      with hst1
    match j, hj with
    | 0, hj =>
      have hs : s = s0 := by simpa using hj.symm
      subst hs
      have h1 : st1.urlDict.lookup s = some st.nextUrlId := by
        rw [hst1]
        simp only []
        rw [lookup_append_right s st.urlDict [(s, st.nextUrlId)] (hf s (by simp))]
        simp [List.lookup]
      have h2 := lookup_prefix s st1.urlDict _ st.nextUrlId (TC_foldUrl_pfx rest st1) h1
      rw [h2]
      congr 1
      omega
    | j + 1, hj =>
      have hj' : rest.get? j = some s := by simpa using hj
      have hmem : s ∈ rest := List.get?_mem hj'
      have hp' : ∀ t ∈ rest, strIsPrefix "http" t = true := fun t ht => hp t (by simp [ht])
      have hf' : ∀ t ∈ rest, st1.urlDict.lookup t = none := by
        intro t ht
        rw [hst1]
        simp only []
        rw [lookup_append_right t st.urlDict [(s0, st.nextUrlId)] (hf t (by simp [ht]))]
        have hne : t ≠ s0 := by
          rintro rfl
          exact (List.nodup_cons.mp hnd).1 ht
        have hne2 : (t == s0) = false := by simp [hne]
        simp [List.lookup, hne2]
      have hb' : st1.nextUrlId ≤ 255 := by
        rw [hst1]
        simp [TC.satAdd1]
      have := ih st1 hp' hf' (List.nodup_cons.mp hnd).2 hb' j s hj'
      rw [this]
      congr 1
      have : st1.nextUrlId = min (st.nextUrlId + 1) 255 := by rw [hst1]; simp [TC.satAdd1]
      omega

theorem urls256_get (j : Nat) (h : j < 256) : urls256.get? j = some ("https://" ++ natStr j) := by
  unfold urls256
  rw [List.get?_map, List.get?_range h]
  rfl

theorem urls256_prefix : ∀ s ∈ urls256, strIsPrefix "http" s = true := by
  intro s hs
  rcases List.mem_map.mp hs with ⟨n, _, rfl⟩
  show ("http".data.isPrefixOf ("https://" ++ natStr n).data) = true
  rw [String.data_append]
  rw [List.isPrefixOf_iff_prefix]
  exact (show "http".data <+: "https://".data from ⟨"s://".data, by decide⟩).trans
    (List.prefix_append _ _)

theorem urls256_nodup : urls256.Nodup := by
  unfold urls256
  refine List.Nodup.map ?_ (List.nodup_range 256)
  intro a b hab
  apply natStr_injective
  have hd := congrArg String.data hab
  rw [String.data_append, String.data_append] at hd
  exact String.ext (List.append_cancel_left hd)

/-- C2: interning in the aggressive compactor saturates instead of
reporting exhaustion: after the 255th distinct URL the id counter sticks
at 255, so the 255th and 256th distinct URLs both receive code 255 —
silent aliasing of two distinct values, with no error or fallback. -/
theorem claim2_saturating_alias :
    (TC.compressRun urls256).urlDict.lookup "https://254" = some 255 ∧
    (TC.compressRun urls256).urlDict.lookup "https://255" = some 255 ∧
    ("https://254" : String) ≠ "https://255" := by
  have h254 := TC_compressRun_fresh urls256 TC.new urls256_prefix
    (by intro s _; rfl) urls256_nodup (by decide) 254 ("https://" ++ natStr 254)
    (urls256_get 254 (by norm_num))
  have h255 := TC_compressRun_fresh urls256 TC.new urls256_prefix
    (by intro s _; rfl) urls256_nodup (by decide) 255 ("https://" ++ natStr 255)
    (urls256_get 255 (by norm_num))
  refine ⟨?_, ?_, by decide⟩
  · have : ("https://" ++ natStr 254 : String) = "https://254" := by decide
    rw [this] at h254
    rw [TC.compressRun, h254]
    decide
  · have : ("https://" ++ natStr 255 : String) = "https://255" := by decide
    rw [this] at h255
    rw [TC.compressRun, h255]
    decide

/-! Equivalence of str::replace (split and join) with direct scan
removal and with character mapping. -/

theorem intercalate_nil_eq_join (xs : List (List Char)) :
    List.intercalate ([] : List Char) xs = xs.flatten := by
  induction xs with
  | nil => simp [List.intercalate]
  | cons x xs ih =>
    cases xs with
    | nil => simp [List.intercalate]
    | cons y ys =>
      simp only [List.intercalate, List.intersperse] at ih ⊢
      simp_all

theorem intercalate_singleton (x : List Char) (s : List Char) :
    List.intercalate s [x] = x := by
  simp [List.intercalate]

theorem splitOnFuel_ne_nil (pat : List Char) (fuel : Nat) (l acc : List Char) :
    splitOnFuel pat fuel l acc ≠ [] := by
  match fuel, l with
  | 0, l => simp [splitOnFuel]
  | fuel + 1, [] => simp [splitOnFuel]
  | fuel + 1, c :: rest =>
    simp only [splitOnFuel]
    by_cases hp : pat.isPrefixOf (c :: rest)
    · simp [hp]
    · simp only [hp, if_false]
      exact splitOnFuel_ne_nil pat fuel rest (c :: acc)

theorem intercalate_cons_of_ne_nil (s x : List Char) (xs : List (List Char)) (h : xs ≠ []) :
    List.intercalate s (x :: xs) = x ++ s ++ List.intercalate s xs := by
  cases xs with
  | nil => exact absurd rfl h
  | cons y ys => simp [List.intercalate, List.intersperse]

theorem join_splitOnFuel (pat : List Char) :
    ∀ (fuel : Nat) (l acc : List Char),
      (splitOnFuel pat fuel l acc).flatten = acc.reverse ++ scanRemoveFuel pat fuel l := by
  intro fuel
  induction fuel with
  | zero => intro l acc; simp [splitOnFuel, scanRemoveFuel]
  | succ fuel ih =>
    intro l acc
    match l with
    | [] => simp [splitOnFuel, scanRemoveFuel]
    | c :: rest =>
      simp only [splitOnFuel, scanRemoveFuel]
      by_cases hp : pat.isPrefixOf (c :: rest) = true
      · simp only [hp, if_true, List.flatten_cons]
        rw [ih]
        simp
      · have hp2 : pat.isPrefixOf (c :: rest) = false := Bool.not_eq_true _ ▸ eq_false_of_ne_true hp
        simp only [hp2, Bool.false_eq_true, if_false]
        rw [ih]
        simp

theorem rustReplace_empty_eq_scanRemove (pat l : List Char) :
    rustReplace l pat [] = scanRemove pat l := by
  unfold rustReplace rustSplit scanRemove
  rw [intercalate_nil_eq_join, join_splitOnFuel]
  simp

theorem intercalate_splitOnFuel_char (a b : Char) :
    ∀ (fuel : Nat) (l acc : List Char), l.length < fuel →
      List.intercalate [b] (splitOnFuel [a] fuel l acc)
        = acc.reverse ++ l.map (fun c => if c = a then b else c) := by
  intro fuel
  induction fuel with
  | zero => intro l acc h; omega
  | succ fuel ih =>
    intro l acc h
    match l with
    | [] => simp [splitOnFuel, intercalate_singleton]
    | c :: rest =>
      simp only [splitOnFuel]
      have hpre : ([a].isPrefixOf (c :: rest)) = (a == c) := by
        simp [List.isPrefixOf]
      by_cases hac : a = c
      · have : ([a].isPrefixOf (c :: rest)) = true := by simp [hpre, hac]
        simp only [this, if_true, List.length_singleton, List.drop_succ_cons, List.drop_zero]
        rw [intercalate_cons_of_ne_nil _ _ _ (splitOnFuel_ne_nil _ _ _ _)]
        have hlen : rest.length < fuel := by simpa using h
        rw [ih rest [] hlen]
        subst hac
        simp
      · have : ([a].isPrefixOf (c :: rest)) = false := by simp [hpre, hac]
        simp only [this, Bool.false_eq_true, if_false]
        have hlen : rest.length < fuel := by simpa using h
        rw [ih rest (c :: acc) hlen]
        have : (if c = a then b else c) = c := by simp [Ne.symm hac]
        simp [this]

theorem rustReplace_char_eq_map (a b : Char) (l : List Char) :
    rustReplace l [a] [b] = l.map (fun c => if c = a then b else c) := by
  unfold rustReplace rustSplit
  rw [intercalate_splitOnFuel_char a b (l.length + 1) l [] (by omega)]
  simp

/-- C7 (amended): the three type-tag derivations agree with "last path
segment, every occurrence of -step removed (left to right,
non-overlapping), hyphens to underscores"; the structural and columnar
compactors compute exactly that, and the aggressive compactor
additionally truncates the result to its first 8 characters. -/
theorem claim7_typetag_amended (s : String) :
    EC.extractTypeName s = Spec.typeTagAllOcc "unknown" s ∧
    DC.typeNameOf s = EC.extractTypeName s ∧
    TC.shortenResourceType s = String.mk ((Spec.typeTagAllOcc "unk" s).data.take 8) := by
  have key : ∀ d : String,
      charReplace (rustReplaceS (DC.lastSegD d s) "-step" "") '-' '_' = Spec.typeTagAllOcc d s := by
    intro d
    unfold charReplace rustReplaceS Spec.typeTagAllOcc
    congr 1
    show (rustReplace (DC.lastSegD d s).data "-step".data "".data).map _ = _
    rw [show ("".data : List Char) = [] from rfl]
    rw [rustReplace_empty_eq_scanRemove]
  refine ⟨key "unknown", ?_, ?_⟩
  · show rustReplaceS (rustReplaceS (DC.lastSegD "unknown" s) "-step" "") "-" "_"
      = EC.extractTypeName s
    unfold EC.extractTypeName charReplace rustReplaceS
    congr 1
    rw [show ("-".data : List Char) = ['-'] from rfl, show ("_".data : List Char) = ['_'] from rfl]
    exact rustReplace_char_eq_map '-' '_' _
  · show String.mk ((charReplace (rustReplaceS (DC.lastSegD "unk" s) "-step" "") '-' '_').data.take 8)
      = _
    rw [key "unk"]

/-! Type-fixing characterisation: HashMap::insert keeps the last observed
type, entry().or_insert keeps the first. -/

theorem getLast?_cons_or {α : Type} (x : α) (xs : List α) :
    (x :: xs).getLast? = xs.getLast?.or (some x) := by
  cases xs with
  | nil => rfl
  | cons y ys =>
    have h : ((y :: ys).getLast?) ≠ none := fun hc => by
      simpa using List.getLast?_eq_none_iff.mp hc
    obtain ⟨a, ha⟩ := Option.ne_none_iff_exists'.mp h
    rw [List.getLast?_cons_cons, ha]
    rfl

theorem getLast?_append_or {α : Type} (l1 l2 : List α) :
    (l1 ++ l2).getLast? = l2.getLast?.or l1.getLast? := by
  induction l1 with
  | nil => simp
  | cons x xs ih =>
    rw [List.cons_append, getLast?_cons_or, ih, getLast?_cons_or, Option.or_assoc]

theorem aupdate_lookup {α : Type} (k k' : String) (v : α) (l : List (String × α)) :
    (aupdate k' v l).lookup k = if k = k' then some v else l.lookup k := by
  induction l with
  | nil =>
    simp only [aupdate, List.lookup]
    by_cases h : k = k'
    · have hb : (k == k') = true := by simp [h]
      simp [hb, h]
    · have hb : (k == k') = false := by simp [h]
      simp [hb, h]
  | cons hd tl ih =>
    simp only [aupdate]
    by_cases h1 : k' = hd.1
    · rw [if_pos h1]
      by_cases h2 : k = k'
      · have hb : (k == k') = true := by simp [h2]
        simp [List.lookup, hb, h2]
      · have hb : (k == k') = false := by simp [h2]
        have hbh : (k == hd.1) = false := by simp [h1 ▸ h2]
        simp [List.lookup, hb, hbh, h2]
    · rw [if_neg h1]
      simp only [List.lookup]
      by_cases h2 : k = hd.1
      · have hb : (k == hd.1) = true := by simp [h2]
        have hne : k ≠ k' := fun he => h1 (by rw [← he, h2])
        simp [hb, hne]
      · have hb : (k == hd.1) = false := by simp [h2]
        simp [hb, ih]

theorem abbreviateProperty_snd (st : EC.Stats) (k : String) :
    (EC.abbreviateProperty st k).2 = Spec.abbrevName k := by
  unfold EC.abbreviateProperty Spec.abbrevName
  cases h : EC.propertyAbbrevs.lookup k <;> simp [h]

theorem recTypes_lookup (o : List (String × JValue)) :
    ∀ (st : EC.Stats) (acc : List (String × EC.FieldType)) (f : String),
      ((o.foldl (fun sa kv =>
          let p := EC.abbreviateProperty sa.1 kv.1
          (p.1, aupdate p.2 (EC.inferFieldType kv.2) sa.2)) (st, acc)).2).lookup f
        = ((o.filter (fun kv => Spec.abbrevName kv.1 = f)).map
            (fun kv => EC.inferFieldType kv.2)).getLast?.or (acc.lookup f) := by
  induction o with
  | nil => intro st acc f; simp
  | cons kv rest ih =>
    intro st acc f
    simp only [List.foldl_cons]
    rw [ih]
    by_cases hf : Spec.abbrevName kv.1 = f
    · have hd : (decide (Spec.abbrevName kv.1 = f)) = true := by simp [hf]
      simp only [List.filter_cons, hd, if_true, List.map_cons, getLast?_cons_or, Option.or_assoc]
      congr 1
      rw [abbreviateProperty_snd, hf, aupdate_lookup]
      simp
    · have hd : (decide (Spec.abbrevName kv.1 = f)) = false := by simp [hf]
      simp only [List.filter_cons, hd, if_false]
      congr 1
      rw [abbreviateProperty_snd, aupdate_lookup]
      simp [Ne.symm hf]

theorem allFields_lookup : ∀ (resources : List JValue) (stats : EC.Stats)
    (acc : List (String × EC.FieldType)) (f : String),
    ((EC.allFields stats resources acc).2).lookup f
      = (Spec.occTypes resources f).getLast?.or (acc.lookup f) := by
  intro resources
  induction resources with
  | nil => intro stats acc f; simp [EC.allFields, Spec.occTypes]
  | cons r rest ih =>
    intro stats acc f
    match r with
    | .obj o =>
      show ((EC.allFields _ rest _).2).lookup f = _
      rw [ih]
      have hrec := recTypes_lookup o stats acc f
      rw [hrec]
      have : Spec.occTypes (JValue.obj o :: rest) f
          = ((o.filter (fun kv => Spec.abbrevName kv.1 = f)).map
              (fun kv => EC.inferFieldType kv.2)) ++ Spec.occTypes rest f := by
        simp [Spec.occTypes, recPairs, JValue.asObject]
      rw [this, getLast?_append_or, Option.or_assoc]
    | .null | .bool _ | .int _ | .float _ | .str _ | .arr _ =>
      show ((EC.allFields _ rest _).2).lookup f = _
      rw [ih]
      simp [Spec.occTypes, recPairs, JValue.asObject]

theorem orInsert_lookup (k f : String) (v : Char) (acc : List (String × Char)) :
    (TC.orInsert k v acc).lookup f
      = (acc.lookup f).or (if f = k then some v else none) := by
  unfold TC.orInsert
  by_cases hk : (acc.lookup k).isSome
  · rw [if_pos hk]
    by_cases hf : f = k
    · subst hf
      obtain ⟨c, hc⟩ := Option.isSome_iff_exists.mp hk
      simp [hc]
    · cases h : acc.lookup f <;> simp [Option.or, hf]
  · rw [if_neg hk]
    by_cases hf : f = k
    · subst hf
      have : acc.lookup f = none := Option.not_isSome_iff_eq_none.mp hk
      rw [lookup_append_right _ _ _ this, this]
      simp [List.lookup]
    · by_cases h : (acc.lookup f).isSome
      · obtain ⟨c, hc⟩ := Option.isSome_iff_exists.mp h
        rw [lookup_append_left _ _ _ _ hc, hc]
        rfl
      · have hn : acc.lookup f = none := Option.not_isSome_iff_eq_none.mp h
        rw [lookup_append_right _ _ _ hn, hn]
        have : (f == k) = false := by simp [hf]
        simp [List.lookup, this, hf]

theorem recTypesTC_lookup (o : List (String × JValue)) :
    ∀ (acc : List (String × Char)) (f : String),
      (o.foldl (fun a kv => TC.orInsert (TC.abbreviateField kv.1) (TC.inferCompactType kv.2) a) acc).lookup f
        = (acc.lookup f).or (((o.filter (fun kv => TC.abbreviateField kv.1 = f)).map
            (fun kv => TC.inferCompactType kv.2)).head?) := by
  induction o with
  | nil => intro acc f; simp
  | cons kv rest ih =>
    intro acc f
    simp only [List.foldl_cons]
    rw [ih, orInsert_lookup]
    by_cases hf : f = TC.abbreviateField kv.1
    · have hd : (decide (TC.abbreviateField kv.1 = f)) = true := by simp [hf]
      simp only [List.filter_cons, hd, if_true, List.map_cons, List.head?_cons, hf, if_pos rfl,
        Option.or_assoc]
      congr 1
    · have hd : (decide (TC.abbreviateField kv.1 = f)) = false := by simp [Ne.symm hf]
      simp only [List.filter_cons, hd, if_false, if_neg hf]
      simp

theorem fieldAnalysisFirst_lookup : ∀ (resources : List JValue) (acc : List (String × Char))
    (f : String),
    (TC.fieldAnalysisFirst resources acc).lookup f
      = (acc.lookup f).or (Spec.occTypesTC resources f).head? := by
  intro resources
  induction resources with
  | nil => intro acc f; simp [TC.fieldAnalysisFirst, Spec.occTypesTC]
  | cons r rest ih =>
    intro acc f
    match r with
    | .obj o =>
      show (TC.fieldAnalysisFirst rest _).lookup f = _
      rw [ih, recTypesTC_lookup]
      have : Spec.occTypesTC (JValue.obj o :: rest) f
          = ((o.filter (fun kv => TC.abbreviateField kv.1 = f)).map
              (fun kv => TC.inferCompactType kv.2)) ++ Spec.occTypesTC rest f := by
        simp [Spec.occTypesTC, recPairs, JValue.asObject]
      rw [this, List.head?_append, Option.or_assoc]
    | .null | .bool _ | .int _ | .float _ | .str _ | .arr _ =>
      show (TC.fieldAnalysisFirst rest _).lookup f = _
      rw [ih]
      simp [Spec.occTypesTC, recPairs, JValue.asObject]

/-- C4 (amended): the column type of the columnar compactor is fixed by
the last record (and last field in map order) observed carrying the
field, because HashMap::insert overwrites; the aggressive compactor's
schema char is fixed by the first observed value, because
entry().or_insert keeps the first; and a record whose value cannot be
coerced to the declared type contributes a null cell (the Str-typed fill
stores None exactly when the resolved value is not a string). -/
theorem claim4_type_fixing_amended (resources : List JValue) (f : String) (stats : EC.Stats) :
    ((EC.allFields stats resources []).2).lookup f = Spec.lastTypeOf resources f ∧
    (TC.fieldAnalysisFirst resources []).lookup f = Spec.firstTypeOfTC resources f ∧
    (∀ (st : EC.State) (sts : EC.Stats) (g : EC.Group) (o : List (String × JValue)),
      ∃ cell, (EC.fillField st sts g o f .str).2.2.strCols = EC.cpush f cell g.strCols ∧
        (cell = none ↔ ((EC.findVal o f).bind JValue.asStr) = none)) := by
  refine ⟨?_, ?_, ?_⟩
  · rw [allFields_lookup]
    simp [Spec.lastTypeOf, List.lookup]
  · rw [fieldAnalysisFirst_lookup]
    simp [Spec.firstTypeOfTC, List.lookup]
  · intro st sts g o
    unfold EC.fillField
    cases h : (EC.findVal o f).bind JValue.asStr with
    | none => exact ⟨none, by simp [h], by simp⟩
    | some s => exact ⟨some (EC.internString st sts s).2.2, by simp [h], by simp [h]⟩

/-! Grouping behaviour of the three compactors for records without a
string resource_type. -/

theorem mem_objInsert_elim (kv : String × JValue) (k : String) (v : JValue)
    (m : List (String × JValue)) (h : kv ∈ objInsert k v m) : kv = (k, v) ∨ kv ∈ m := by
  induction m with
  | nil => simpa [objInsert] using h
  | cons hd tl ih =>
    simp only [objInsert] at h
    by_cases h1 : k = hd.1
    · rw [if_pos h1] at h
      rcases List.mem_cons.mp h with h | h
      · exact Or.inl h
      · exact Or.inr (List.mem_cons_of_mem _ h)
    · rw [if_neg h1] at h
      by_cases h2 : strLt k hd.1
      · rw [if_pos h2] at h
        rcases List.mem_cons.mp h with h | h
        · exact Or.inl h
        · exact Or.inr h
      · rw [if_neg h2] at h
        rcases List.mem_cons.mp h with h | h
        · exact Or.inr (by simp [h])
        · rcases ih h with h | h
          · exact Or.inl h
          · exact Or.inr (List.mem_cons_of_mem _ h)

theorem EC_appendToGroup_members (m : List (String × List JValue)) (k : String) (r0 : JValue) :
    ∀ g ∈ EC.groupRecords.appendToGroup k r0 m, ∀ r ∈ g.2, (∃ g' ∈ m, r ∈ g'.2) ∨ r = r0 := by
  induction m with
  | nil =>
    intro g hg r hr
    simp only [EC.groupRecords.appendToGroup, List.mem_singleton] at hg
    subst hg
    rcases List.mem_singleton.mp hr with rfl
    exact Or.inr rfl
  | cons hd tl ih =>
    obtain ⟨hk, hrs⟩ := hd
    intro g hg r hr
    simp only [EC.groupRecords.appendToGroup] at hg
    by_cases h1 : k = hk
    · rw [if_pos h1] at hg
      rcases List.mem_cons.mp hg with rfl | hg
      · rcases List.mem_append.mp hr with hr | hr
        · exact Or.inl ⟨(hk, hrs), by simp, hr⟩
        · exact Or.inr (List.mem_singleton.mp hr)
      · exact Or.inl ⟨g, by simp [hg], hr⟩
    · rw [if_neg h1] at hg
      rcases List.mem_cons.mp hg with rfl | hg
      · exact Or.inl ⟨(hk, hrs), by simp, hr⟩
      · rcases ih g hg r hr with ⟨g', hg', hr'⟩ | h
        · exact Or.inl ⟨g', by simp [hg'], hr'⟩
        · exact Or.inr h

theorem EC_groupRecords_members : ∀ (subs : List JValue) (stats : EC.Stats)
    (acc : List (String × List JValue)),
    (∀ g ∈ acc, ∀ r ∈ g.2, hasStrRT r = true) →
    ∀ g ∈ (EC.groupRecords stats subs acc).2, ∀ r ∈ g.2, hasStrRT r = true := by
  intro subs
  induction subs with
  | nil => intro stats acc hacc; simpa [EC.groupRecords] using hacc
  | cons r0 rest ih =>
    intro stats acc hacc
    simp only [EC.groupRecords]
    cases h : (r0.get? "resource_type").bind JValue.asStr with
    | some rt =>
      refine ih _ _ ?_
      intro g hg r hr
      rcases EC_appendToGroup_members acc (EC.extractTypeName rt) r0 g hg r hr with ⟨g', hg', hr'⟩ | rfl
      · exact hacc g' hg' r hr'
      · simp [hasStrRT, h]
    | none => exact ih _ _ hacc

theorem EC_groupRecords_count : ∀ (subs : List JValue) (stats : EC.Stats)
    (acc : List (String × List JValue)),
    (EC.groupRecords stats subs acc).1.resourcesProcessed
      = stats.resourcesProcessed + subs.countP hasStrRT := by
  intro subs
  induction subs with
  | nil => intro stats acc; simp [EC.groupRecords]
  | cons r0 rest ih =>
    intro stats acc
    simp only [EC.groupRecords]
    cases h : (r0.get? "resource_type").bind JValue.asStr with
    | some rt =>
      rw [ih]
      have : hasStrRT r0 = true := by simp [hasStrRT, h]
      simp only [List.countP_cons, this, if_pos rfl]
      simp
      omega
    | none =>
      rw [ih]
      have : hasStrRT r0 = false := by simp [hasStrRT, h]
      simp [List.countP_cons, this]

theorem internString_rp (st : EC.State) (stats : EC.Stats) (s : String) :
    (EC.internString st stats s).2.1.resourcesProcessed = stats.resourcesProcessed := by
  unfold EC.internString
  cases h : st.stringDict.lookup s <;> simp [h]

theorem internUrl_rp (st : EC.State) (stats : EC.Stats) (s : String) :
    (EC.internUrl st stats s).2.1.resourcesProcessed = stats.resourcesProcessed := by
  unfold EC.internUrl
  cases h : st.urlDict.lookup s <;> simp [h]

theorem fillField_rp (st : EC.State) (stats : EC.Stats) (g : EC.Group)
    (o : List (String × JValue)) (f : String) (t : EC.FieldType) :
    (EC.fillField st stats g o f t).2.1.resourcesProcessed = stats.resourcesProcessed := by
  unfold EC.fillField
  cases t with
  | str =>
    cases h : (EC.findVal o f).bind JValue.asStr with
    | none => simp [h]
    | some s => simp [h, internString_rp]
  | url =>
    cases h : (EC.findVal o f).bind JValue.asStr with
    | none => simp [h]
    | some s => simp [h, internUrl_rp]
  | json =>
    cases h : EC.findVal o f with
    | none => simp [h]
    | some v => simp [h, internString_rp]
  | int => simp
  | float => simp
  | bool => simp
  | array t => simp

theorem fillResource_rp (fields : List (String × EC.FieldType)) :
    ∀ (st : EC.State) (stats : EC.Stats) (g : EC.Group) (o : List (String × JValue)),
    (EC.fillResource st stats g o fields).2.1.resourcesProcessed = stats.resourcesProcessed := by
  induction fields with
  | nil => intro st stats g o; simp [EC.fillResource]
  | cons ft rest ih =>
    intro st stats g o
    obtain ⟨f, t⟩ := ft
    simp only [EC.fillResource]
    rw [ih]
    exact fillField_rp st stats g o f t

theorem fillLoop_rp (fields : List (String × EC.FieldType)) :
    ∀ (resources : List JValue) (st : EC.State) (stats : EC.Stats) (g : EC.Group),
    (EC.fillLoop st stats fields resources g).2.1.resourcesProcessed = stats.resourcesProcessed := by
  intro resources
  induction resources with
  | nil => intro st stats g; simp [EC.fillLoop]
  | cons r rest ih =>
    intro st stats g
    match r with
    | .obj o =>
      show (EC.fillLoop _ _ _ rest _).2.1.resourcesProcessed = _
      rw [ih]
      exact fillResource_rp fields _ stats g o
    | .null | .bool _ | .int _ | .float _ | .str _ | .arr _ => exact ih _ _ _

theorem abbreviateProperty_rp (st : EC.Stats) (k : String) :
    (EC.abbreviateProperty st k).1.resourcesProcessed = st.resourcesProcessed := by
  unfold EC.abbreviateProperty
  cases h : EC.propertyAbbrevs.lookup k <;> simp [h]

theorem allFields_rp : ∀ (resources : List JValue) (stats : EC.Stats)
    (acc : List (String × EC.FieldType)),
    (EC.allFields stats resources acc).1.resourcesProcessed = stats.resourcesProcessed := by
  intro resources
  induction resources with
  | nil => intro stats acc; simp [EC.allFields]
  | cons r rest ih =>
    intro stats acc
    match r with
    | .obj o =>
      show (EC.allFields _ rest _).1.resourcesProcessed = _
      rw [ih]
      show (o.foldl _ (stats, acc)).1.resourcesProcessed = _
      clear ih
      induction o generalizing stats acc with
      | nil => rfl
      | cons kv tl ih2 =>
        simp only [List.foldl_cons]
        rw [ih2]
        exact abbreviateProperty_rp stats kv.1
    | .null | .bool _ | .int _ | .float _ | .str _ | .arr _ => exact ih _ _

theorem convertGroups_rp : ∀ (groups : List (String × List JValue)) (st : EC.State)
    (stats : EC.Stats) (data : List (String × EC.Group)) (schema : List (String × EC.ResourceSchema)),
    (EC.convertGroups st stats data schema groups).2.1.resourcesProcessed
      = stats.resourcesProcessed := by
  intro groups
  induction groups with
  | nil => intro st stats data schema; simp [EC.convertGroups]
  | cons g rest ih =>
    intro st stats data schema
    obtain ⟨tn, resources⟩ := g
    show (EC.convertGroups _ _ _ _ rest).2.1.resourcesProcessed = _
    rw [ih]
    rw [fillLoop_rp, allFields_rp]

theorem DC_mapPush_no_new (k : String) (sub : JValue) (m : List (String × JValue)) (r : JValue)
    (hacc : ∀ kv ∈ m, ∀ a, kv.2 = JValue.arr a → r ∉ a) (hne : r ≠ sub) :
    ∀ kv ∈ DC.mapPush k sub m, ∀ a, kv.2 = JValue.arr a → r ∉ a := by
  intro kv hkv a ha hra
  unfold DC.mapPush at hkv
  cases hl : m.lookup k with
  | some w =>
    rw [hl] at hkv
    cases w
    case arr a0 =>
      rcases mem_objInsert_elim kv _ _ _ hkv with heq | hkv
      · rw [heq] at ha
        simp only [] at ha
        cases ha
        rcases List.mem_append.mp hra with hra | hra
        · exact hacc _ (lookup_mem _ _ _ hl) a0 rfl hra
        · exact hne (List.mem_singleton.mp hra)
      · exact hacc kv hkv a ha hra
    all_goals exact hacc kv hkv a ha hra
  | none =>
    rw [hl] at hkv
    rcases mem_objInsert_elim kv _ _ _ hkv with heq | hkv
    · rw [heq] at ha
      simp only [] at ha
      cases ha
      exact hne (List.mem_singleton.mp hra)
    · exact hacc kv hkv a ha hra

theorem DC_groupSubs_no_rt : ∀ (subs : List JValue) (grouped : List (String × JValue)) (r : JValue),
    (∀ kv ∈ grouped, ∀ a, kv.2 = JValue.arr a → r ∉ a) →
    hasStrRT r = false →
    ∀ kv ∈ DC.groupSubs subs grouped, ∀ a, kv.2 = JValue.arr a → r ∉ a := by
  intro subs
  induction subs with
  | nil => intro grouped r hacc _; simpa [DC.groupSubs] using hacc
  | cons sub rest ih =>
    intro grouped r hacc hrt
    cases sub
    case obj so =>
      cases h : so.lookup "resource_type" with
      | some v =>
        cases v
        case str rt =>
          rw [show DC.groupSubs (JValue.obj so :: rest) grouped
              = DC.groupSubs rest (DC.mapPush (DC.typeNameOf rt) (JValue.obj so) grouped) by
            simp [DC.groupSubs, h]]
          refine ih _ r ?_ hrt
          have hne : r ≠ JValue.obj so := by
            intro he
            rw [he] at hrt
            simp [hasStrRT, JValue.get?, h, JValue.asStr] at hrt
          exact DC_mapPush_no_new _ _ _ _ hacc hne
        all_goals
          rw [show DC.groupSubs (JValue.obj so :: rest) grouped = DC.groupSubs rest grouped by
            simp [DC.groupSubs, h]]
          exact ih _ r hacc hrt
      | none =>
        rw [show DC.groupSubs (JValue.obj so :: rest) grouped = DC.groupSubs rest grouped by
          simp [DC.groupSubs, h]]
        exact ih _ r hacc hrt
    all_goals exact ih _ r hacc hrt

theorem TC_appendToGroup_sum (m : List (String × List JValue)) (k : String) (r : JValue) :
    ((TC.groupFold.appendToGroup k r m).map (fun g => g.2.length)).sum
      = ((m.map (fun g => g.2.length)).sum) + 1 := by
  induction m with
  | nil => simp [TC.groupFold.appendToGroup]
  | cons hd tl ih =>
    obtain ⟨hk, hrs⟩ := hd
    simp only [TC.groupFold.appendToGroup]
    by_cases h1 : k = hk
    · rw [if_pos h1]
      simp
      omega
    · rw [if_neg h1]
      simp only [List.map_cons, List.sum_cons, ih]
      omega

theorem TC_groupFold_sum : ∀ (subs : List JValue) (acc : List (String × List JValue)),
    ((TC.groupFold subs acc).map (fun g => g.2.length)).sum
      = (acc.map (fun g => g.2.length)).sum + subs.length := by
  intro subs
  induction subs with
  | nil => intro acc; simp [TC.groupFold]
  | cons r rest ih =>
    intro acc
    show ((TC.groupFold rest _).map _).sum = _
    rw [ih, TC_appendToGroup_sum]
    simp
    omega

/-- C6 (amended): a record without a string resource_type is dropped from
grouping by the columnar compactor, whose processed counter counts exactly
the records that do carry one, and such a record never appears in any
group array built by the naive compactor's structural grouping; the
aggressive compactor instead drops nothing — the sizes of its groups
always sum to the number of subresources, typeless records landing in the
"unknown" group. None of the three errors on such a record. -/
theorem claim6_missing_type_amended (x r : JValue) (hr : hasStrRT r = false) :
    (∀ g ∈ Spec.groupsOfEC x, r ∉ g.2) ∧
    (EC.compactComprehensiveData x).stats.resourcesProcessed = (subsOf x).countP hasStrRT ∧
    (∀ kv ∈ DC.groupSubs (subsOf x) [], ∀ a, kv.2 = JValue.arr a → r ∉ a) ∧
    ((TC.groupFold (subsOf x) []).map (fun g => g.2.length)).sum = (subsOf x).length := by
  refine ⟨?_, ?_, ?_, ?_⟩
  · intro g hg hmem
    have := EC_groupRecords_members (subsOf x) ⟨0, 0, 0, 0, 0, 0, 0⟩ [] (by simp) g hg r hmem
    rw [hr] at this
    exact Bool.false_ne_true this
  · have h1 : (EC.compactComprehensiveData x).stats.resourcesProcessed
        = (EC.convertGroups EC.new (EC.groupRecords ⟨jlen x, 0, 0, 0, 0, 0, 0⟩ (subsOf x) []).1
            [] [] (EC.groupRecords ⟨jlen x, 0, 0, 0, 0, 0, 0⟩ (subsOf x) []).2).2.1.resourcesProcessed := rfl
    rw [h1, convertGroups_rp, EC_groupRecords_count]
    simp
  · exact DC_groupSubs_no_rt (subsOf x) [] r (by simp) hr
  · rw [TC_groupFold_sum]
    simp

/-- C6 witness: the amended theorem instantiated at the typeless record of
cexC6. -/
theorem claim6_witness :
    hasStrRT (.obj [("a", .int 1)]) = false ∧
    ((∀ g ∈ Spec.groupsOfEC cexC6, (JValue.obj [("a", .int 1)]) ∉ g.2) ∧
     (EC.compactComprehensiveData cexC6).stats.resourcesProcessed
       = (subsOf cexC6).countP hasStrRT ∧
     (∀ kv ∈ DC.groupSubs (subsOf cexC6) [], ∀ a, kv.2 = JValue.arr a
       → (JValue.obj [("a", .int 1)]) ∉ a) ∧
     ((TC.groupFold (subsOf cexC6) []).map (fun g => g.2.length)).sum
       = (subsOf cexC6).length) :=
  ⟨by decide, claim6_missing_type_amended cexC6 (.obj [("a", .int 1)]) (by decide)⟩

/-! Column-length shadows: the row-count invariant of the columnar and
aggressive artifacts is proved on (name, length) images of the column
lists. -/

theorem cpush_shadow {α : Type} (k : String) (cell : α) :
    ∀ cols : List (String × List α),
    (EC.cpush k cell cols).map flen = cpushLen k (cols.map flen) := by
  intro cols
  induction cols with
  | nil => rfl
  | cons hd tl ih =>
    obtain ⟨k', cs⟩ := hd
    simp only [EC.cpush, cpushLen, List.map_cons, flen]
    by_cases h : k = k'
    · rw [if_pos h, if_pos h]
      simp [flen]
    · rw [if_neg h, if_neg h]
      simp [flen, ih]

theorem colAppend_shadow (k : String) (cell : JValue) :
    ∀ cols : List (String × List JValue),
    (TC.colAppend k cell cols).map flen = cpushLen k (cols.map flen) := by
  intro cols
  induction cols with
  | nil => rfl
  | cons hd tl ih =>
    obtain ⟨k', cs⟩ := hd
    simp only [TC.colAppend, cpushLen, List.map_cons, flen]
    by_cases h : k = k'
    · rw [if_pos h, if_pos h]
      simp [flen]
    · rw [if_neg h, if_neg h]
      simp [flen, ih]

theorem foldl_cpushLen_head (ns : List String) :
    ∀ (k : String) (n : Nat) (sh : List (String × Nat)), k ∉ ns →
    ns.foldl (fun s j => cpushLen j s) ((k, n) :: sh)
      = (k, n) :: ns.foldl (fun s j => cpushLen j s) sh := by
  induction ns with
  | nil => intro k n sh _; rfl
  | cons j rest ih =>
    intro k n sh hk
    have hjk : j ≠ k := fun h => hk (by simp [h])
    simp only [List.foldl_cons]
    rw [show cpushLen j ((k, n) :: sh) = (k, n) :: cpushLen j sh by
      simp [cpushLen, hjk]]
    exact ih k n _ (fun h => hk (by simp [h]))

theorem foldl_cpushLen_exact : ∀ (ns : List String) (sh : List (String × Nat)),
    sh.map Prod.fst = ns → ns.Nodup →
    ns.foldl (fun s j => cpushLen j s) sh = sh.map (fun p => (p.1, p.2 + 1)) := by
  intro ns
  induction ns with
  | nil =>
    intro sh h _
    rw [List.map_eq_nil_iff.mp h]
    rfl
  | cons k rest ih =>
    intro sh h hnd
    match sh, h with
    | (k0, n) :: sh', h =>
      have hk0 : k0 = k := by simpa using congrArg List.head? h
      have hsh' : sh'.map Prod.fst = rest := by simpa using congrArg List.tail h
      subst hk0
      simp only [List.foldl_cons]
      rw [show cpushLen k0 ((k0, n) :: sh') = (k0, n + 1) :: sh' by simp [cpushLen]]
      rw [foldl_cpushLen_head rest k0 (n + 1) sh' (by simp at hnd; exact hnd.1)]
      rw [ih sh' hsh' (List.Nodup.of_cons hnd)]
      simp

theorem cols_len_of_shadow {α : Type} (cols : List (String × List α)) (ns : List String)
    (L : Nat) (h : cols.map flen = ns.map (fun k => (k, L))) :
    ∀ c ∈ cols, c.2.length = L := by
  intro c hc
  have : flen c ∈ ns.map (fun k => (k, L)) := by
    rw [← h]
    exact List.mem_map_of_mem _ hc
  rcases List.mem_map.mp this with ⟨k, _, hk⟩
  have := congrArg Prod.snd hk
  simpa [flen] using this.symm

theorem kindNames_cons (f : String) (t K : EC.FieldType) (rest : List (String × EC.FieldType)) :
    kindNames ((f, t) :: rest) K
      = if t = K then f :: kindNames rest K else kindNames rest K := by
  by_cases h : t = K <;> simp [kindNames, List.filter_cons, h]

theorem kindNames_nodup (fields : List (String × EC.FieldType))
    (hnd : (fields.map Prod.fst).Nodup) (K : EC.FieldType) : (kindNames fields K).Nodup :=
  hnd.sublist ((List.filter_sublist fields).map Prod.fst)

theorem fillField_shadow (st : EC.State) (stats : EC.Stats) (g : EC.Group)
    (o : List (String × JValue)) (f : String) (t : EC.FieldType) :
    (((EC.fillField st stats g o f t).2.2.strCols).map flen
      = if t = EC.FieldType.str then cpushLen f (g.strCols.map flen) else g.strCols.map flen) ∧
    (((EC.fillField st stats g o f t).2.2.intCols).map flen
      = if t = EC.FieldType.int then cpushLen f (g.intCols.map flen) else g.intCols.map flen) ∧
    (((EC.fillField st stats g o f t).2.2.floatCols).map flen
      = if t = EC.FieldType.float then cpushLen f (g.floatCols.map flen) else g.floatCols.map flen) ∧
    (((EC.fillField st stats g o f t).2.2.boolCols).map flen
      = if t = EC.FieldType.bool then cpushLen f (g.boolCols.map flen) else g.boolCols.map flen) ∧
    (((EC.fillField st stats g o f t).2.2.urlCols).map flen
      = if t = EC.FieldType.url then cpushLen f (g.urlCols.map flen) else g.urlCols.map flen) ∧
    (((EC.fillField st stats g o f t).2.2.jsonCols).map flen
      = if t = EC.FieldType.json then cpushLen f (g.jsonCols.map flen) else g.jsonCols.map flen) ∧
    (EC.fillField st stats g o f t).2.2.count = g.count := by
  cases t with
  | str =>
    cases h : (EC.findVal o f).bind JValue.asStr with
    | none => simp [EC.fillField, h, cpush_shadow]
    | some s => simp [EC.fillField, h, cpush_shadow]
  | int => simp [EC.fillField, cpush_shadow]
  | float => simp [EC.fillField, cpush_shadow]
  | bool => simp [EC.fillField, cpush_shadow]
  | url =>
    cases h : (EC.findVal o f).bind JValue.asStr with
    | none => simp [EC.fillField, h, cpush_shadow]
    | some s => simp [EC.fillField, h, cpush_shadow]
  | json =>
    cases h : EC.findVal o f with
    | none => simp [EC.fillField, h, cpush_shadow]
    | some v => simp [EC.fillField, h, cpush_shadow]
  | array t2 => simp [EC.fillField]

theorem fillResource_shadow : ∀ (fields : List (String × EC.FieldType)) (st : EC.State)
    (stats : EC.Stats) (g : EC.Group) (o : List (String × JValue)),
    (((EC.fillResource st stats g o fields).2.2.strCols).map flen
      = (kindNames fields .str).foldl (fun s j => cpushLen j s) (g.strCols.map flen)) ∧
    (((EC.fillResource st stats g o fields).2.2.intCols).map flen
      = (kindNames fields .int).foldl (fun s j => cpushLen j s) (g.intCols.map flen)) ∧
    (((EC.fillResource st stats g o fields).2.2.floatCols).map flen
      = (kindNames fields .float).foldl (fun s j => cpushLen j s) (g.floatCols.map flen)) ∧
    (((EC.fillResource st stats g o fields).2.2.boolCols).map flen
      = (kindNames fields .bool).foldl (fun s j => cpushLen j s) (g.boolCols.map flen)) ∧
    (((EC.fillResource st stats g o fields).2.2.urlCols).map flen
      = (kindNames fields .url).foldl (fun s j => cpushLen j s) (g.urlCols.map flen)) ∧
    (((EC.fillResource st stats g o fields).2.2.jsonCols).map flen
      = (kindNames fields .json).foldl (fun s j => cpushLen j s) (g.jsonCols.map flen)) ∧
    (EC.fillResource st stats g o fields).2.2.count = g.count := by
  intro fields
  induction fields with
  | nil => intro st stats g o; simp [EC.fillResource, kindNames]
  | cons ft rest ih =>
    intro st stats g o
    obtain ⟨f, t⟩ := ft
    have hstep : EC.fillResource st stats g o ((f, t) :: rest)
        = EC.fillResource (EC.fillField st stats g o f t).1 (EC.fillField st stats g o f t).2.1
            (EC.fillField st stats g o f t).2.2 o rest := rfl
    have hf := fillField_shadow st stats g o f t
    have hr := ih (EC.fillField st stats g o f t).1 (EC.fillField st stats g o f t).2.1
      (EC.fillField st stats g o f t).2.2 o
    rw [hstep]
    refine ⟨?_, ?_, ?_, ?_, ?_, ?_, ?_⟩
    · rw [hr.1, hf.1, kindNames_cons]
      by_cases ht : t = EC.FieldType.str
      · rw [if_pos ht, if_pos ht, List.foldl_cons]
      · rw [if_neg ht, if_neg ht]
    · rw [hr.2.1, hf.2.1, kindNames_cons]
      by_cases ht : t = EC.FieldType.int
      · rw [if_pos ht, if_pos ht, List.foldl_cons]
      · rw [if_neg ht, if_neg ht]
    · rw [hr.2.2.1, hf.2.2.1, kindNames_cons]
      by_cases ht : t = EC.FieldType.float
      · rw [if_pos ht, if_pos ht, List.foldl_cons]
      · rw [if_neg ht, if_neg ht]
    · rw [hr.2.2.2.1, hf.2.2.2.1, kindNames_cons]
      by_cases ht : t = EC.FieldType.bool
      · rw [if_pos ht, if_pos ht, List.foldl_cons]
      · rw [if_neg ht, if_neg ht]
    · rw [hr.2.2.2.2.1, hf.2.2.2.2.1, kindNames_cons]
      by_cases ht : t = EC.FieldType.url
      · rw [if_pos ht, if_pos ht, List.foldl_cons]
      · rw [if_neg ht, if_neg ht]
    · rw [hr.2.2.2.2.2.1, hf.2.2.2.2.2.1, kindNames_cons]
      by_cases ht : t = EC.FieldType.json
      · rw [if_pos ht, if_pos ht, List.foldl_cons]
      · rw [if_neg ht, if_neg ht]
    · rw [hr.2.2.2.2.2.2, hf.2.2.2.2.2.2]

theorem fillLoop_shadow (fields : List (String × EC.FieldType))
    (hnd : (fields.map Prod.fst).Nodup) :
    ∀ (resources : List JValue), (∀ r ∈ resources, (JValue.asObject r).isSome = true) →
    ∀ (st : EC.State) (stats : EC.Stats) (g : EC.Group) (j : Nat),
    GroupShadow g fields j →
    GroupShadow (EC.fillLoop st stats fields resources g).2.2 fields (j + resources.length) ∧
    (EC.fillLoop st stats fields resources g).2.2.count = g.count := by
  intro resources
  induction resources with
  | nil =>
    intro _ st stats g j hg
    exact ⟨by simpa [EC.fillLoop] using hg, rfl⟩
  | cons r rest ih =>
    intro hobj st stats g j hg
    match r, hobj r (by simp) with
    | .obj o, _ =>
      have hstep : EC.fillLoop st stats fields (JValue.obj o :: rest) g
          = EC.fillLoop (EC.fillResource st stats g o fields).1
              (EC.fillResource st stats g o fields).2.1 fields rest
              (EC.fillResource st stats g o fields).2.2 := rfl
      have hfr := fillResource_shadow fields st stats g o
      have hone : ∀ K : EC.FieldType, ∀ cols : List (String × Nat),
          cols = (kindNames fields K).map (fun k => (k, j)) →
          (kindNames fields K).foldl (fun s i => cpushLen i s) cols
            = (kindNames fields K).map (fun k => (k, j + 1)) := by
        intro K cols hc
        rw [hc, foldl_cpushLen_exact (kindNames fields K) _
          (by simp [Function.comp_def]) (kindNames_nodup fields hnd K)]
        simp
      have hg' : GroupShadow (EC.fillResource st stats g o fields).2.2 fields (j + 1) := by
        obtain ⟨h1, h2, h3, h4, h5, h6⟩ := hg
        exact ⟨by rw [hfr.1]; exact hone _ _ h1,
               by rw [hfr.2.1]; exact hone _ _ h2,
               by rw [hfr.2.2.1]; exact hone _ _ h3,
               by rw [hfr.2.2.2.1]; exact hone _ _ h4,
               by rw [hfr.2.2.2.2.1]; exact hone _ _ h5,
               by rw [hfr.2.2.2.2.2.1]; exact hone _ _ h6⟩
      rw [hstep]
      have := ih (fun r' hr' => hobj r' (by simp [hr'])) (EC.fillResource st stats g o fields).1
        (EC.fillResource st stats g o fields).2.1 (EC.fillResource st stats g o fields).2.2
        (j + 1) hg'
      refine ⟨?_, ?_⟩
      · have hlen : j + 1 + rest.length = j + (JValue.obj o :: rest).length := by
          simp
          omega
        rw [← hlen]
        exact this.1
      · rw [this.2, hfr.2.2.2.2.2.2]

theorem initColStep_foldl : ∀ (fields : List (String × EC.FieldType)),
    (∀ fc ∈ fields, ∀ t2, fc.2 ≠ EC.FieldType.array t2) →
    ∀ g : EC.Group,
    ((fields.foldl EC.initColStep g).strCols
      = g.strCols ++ (fields.filter (fun fc => fc.2 = EC.FieldType.str)).map (fun fc => (fc.1, []))) ∧
    ((fields.foldl EC.initColStep g).intCols
      = g.intCols ++ (fields.filter (fun fc => fc.2 = EC.FieldType.int)).map (fun fc => (fc.1, []))) ∧
    ((fields.foldl EC.initColStep g).floatCols
      = g.floatCols ++ (fields.filter (fun fc => fc.2 = EC.FieldType.float)).map (fun fc => (fc.1, []))) ∧
    ((fields.foldl EC.initColStep g).boolCols
      = g.boolCols ++ (fields.filter (fun fc => fc.2 = EC.FieldType.bool)).map (fun fc => (fc.1, []))) ∧
    ((fields.foldl EC.initColStep g).urlCols
      = g.urlCols ++ (fields.filter (fun fc => fc.2 = EC.FieldType.url)).map (fun fc => (fc.1, []))) ∧
    ((fields.foldl EC.initColStep g).jsonCols
      = g.jsonCols ++ (fields.filter (fun fc => fc.2 = EC.FieldType.json)).map (fun fc => (fc.1, []))) ∧
    (fields.foldl EC.initColStep g).count = g.count := by
  intro fields
  induction fields with
  | nil => intro _ g; simp
  | cons ft rest ih =>
    intro hna g
    obtain ⟨f, t⟩ := ft
    have hrest := ih (fun fc hfc => hna fc (by simp [hfc]))
    simp only [List.foldl_cons, List.filter_cons]
    cases t with
    | str => simp only [EC.initColStep]; rw [(hrest _).1, (hrest _).2.1, (hrest _).2.2.1,
        (hrest _).2.2.2.1, (hrest _).2.2.2.2.1, (hrest _).2.2.2.2.2.1]; simp [(hrest _).2.2.2.2.2.2]
    | int => simp only [EC.initColStep]; rw [(hrest _).1, (hrest _).2.1, (hrest _).2.2.1,
        (hrest _).2.2.2.1, (hrest _).2.2.2.2.1, (hrest _).2.2.2.2.2.1]; simp [(hrest _).2.2.2.2.2.2]
    | float => simp only [EC.initColStep]; rw [(hrest _).1, (hrest _).2.1, (hrest _).2.2.1,
        (hrest _).2.2.2.1, (hrest _).2.2.2.2.1, (hrest _).2.2.2.2.2.1]; simp [(hrest _).2.2.2.2.2.2]
    | bool => simp only [EC.initColStep]; rw [(hrest _).1, (hrest _).2.1, (hrest _).2.2.1,
        (hrest _).2.2.2.1, (hrest _).2.2.2.2.1, (hrest _).2.2.2.2.2.1]; simp [(hrest _).2.2.2.2.2.2]
    | url => simp only [EC.initColStep]; rw [(hrest _).1, (hrest _).2.1, (hrest _).2.2.1,
        (hrest _).2.2.2.1, (hrest _).2.2.2.2.1, (hrest _).2.2.2.2.2.1]; simp [(hrest _).2.2.2.2.2.2]
    | json => simp only [EC.initColStep]; rw [(hrest _).1, (hrest _).2.1, (hrest _).2.2.1,
        (hrest _).2.2.2.1, (hrest _).2.2.2.2.1, (hrest _).2.2.2.2.2.1]; simp [(hrest _).2.2.2.2.2.2]
    | array t2 => exact absurd rfl (hna (f, .array t2) (by simp) t2)

theorem initColumns_shadow (count : Nat) (fields : List (String × EC.FieldType))
    (hna : ∀ fc ∈ fields, ∀ t2, fc.2 ≠ EC.FieldType.array t2) :
    GroupShadow (EC.initColumns count fields) fields 0 ∧
    (EC.initColumns count fields).count = count := by
  have h := initColStep_foldl fields hna ⟨count, [], [], [], [], [], []⟩
  unfold EC.initColumns
  refine ⟨⟨?_, ?_, ?_, ?_, ?_, ?_⟩, ?_⟩
  · rw [h.1]; simp [kindNames, flen, Function.comp]
  · rw [h.2.1]; simp [kindNames, flen, Function.comp]
  · rw [h.2.2.1]; simp [kindNames, flen, Function.comp]
  · rw [h.2.2.2.1]; simp [kindNames, flen, Function.comp]
  · rw [h.2.2.2.2.1]; simp [kindNames, flen, Function.comp]
  · rw [h.2.2.2.2.2.1]; simp [kindNames, flen, Function.comp]
  · exact h.2.2.2.2.2.2

theorem aupdate_keys_mem {α : Type} (k s : String) (v : α) : ∀ m : List (String × α),
    (s ∈ (aupdate k v m).map Prod.fst ↔ s = k ∨ s ∈ m.map Prod.fst) := by
  intro m
  induction m with
  | nil => simp [aupdate]
  | cons hd tl ih =>
    obtain ⟨k', v'⟩ := hd
    simp only [aupdate]
    by_cases h : k = k'
    · rw [if_pos h]
      subst h
      simp
    · rw [if_neg h]
      simp only [List.map_cons, List.mem_cons, ih]
      tauto

theorem aupdate_keys_nodup {α : Type} (k : String) (v : α) : ∀ m : List (String × α),
    (m.map Prod.fst).Nodup → ((aupdate k v m).map Prod.fst).Nodup := by
  intro m
  induction m with
  | nil => intro _; simp [aupdate]
  | cons hd tl ih =>
    obtain ⟨k', v'⟩ := hd
    intro hnd
    simp only [List.map_cons, List.nodup_cons] at hnd
    simp only [aupdate]
    by_cases h : k = k'
    · rw [if_pos h]
      subst h
      simp only [List.map_cons, List.nodup_cons]
      exact hnd
    · rw [if_neg h]
      simp only [List.map_cons, List.nodup_cons]
      refine ⟨?_, ih hnd.2⟩
      rw [aupdate_keys_mem]
      rintro (h1 | h1)
      · exact h (h1.symm)
      · exact hnd.1 h1

theorem aupdate_mem_val {α : Type} (k : String) (v : α) : ∀ (m : List (String × α))
    (p : String × α), p ∈ aupdate k v m → p.2 = v ∨ p ∈ m := by
  intro m
  induction m with
  | nil => intro p hp; simp [aupdate] at hp; simp [hp]
  | cons hd tl ih =>
    obtain ⟨k', v'⟩ := hd
    intro p hp
    simp only [aupdate] at hp
    by_cases h : k = k'
    · rw [if_pos h] at hp
      rcases List.mem_cons.mp hp with rfl | hp
      · exact Or.inl rfl
      · exact Or.inr (List.mem_cons_of_mem _ hp)
    · rw [if_neg h] at hp
      rcases List.mem_cons.mp hp with rfl | hp
      · exact Or.inr (by simp)
      · rcases ih p hp with h1 | h1
        · exact Or.inl h1
        · exact Or.inr (List.mem_cons_of_mem _ h1)

theorem inferFieldType_no_array (v : JValue) (t2 : EC.FieldType) :
    EC.inferFieldType v ≠ EC.FieldType.array t2 := by
  cases v <;> simp [EC.inferFieldType] <;> split <;> simp

theorem allFields_obj_fold_nodup (o : List (String × JValue)) :
    ∀ (stats : EC.Stats) (acc : List (String × EC.FieldType)),
    (acc.map Prod.fst).Nodup →
    (((o.foldl
        (fun sa kv =>
          ((EC.abbreviateProperty sa.1 kv.1).1,
           aupdate (EC.abbreviateProperty sa.1 kv.1).2 (EC.inferFieldType kv.2) sa.2))
        (stats, acc)).2).map Prod.fst).Nodup := by
  induction o with
  | nil => intro stats acc h; exact h
  | cons kv tl ih =>
    intro stats acc h
    simp only [List.foldl_cons]
    exact ih _ _ (aupdate_keys_nodup _ _ _ h)

theorem allFields_obj_fold_noarr (o : List (String × JValue)) :
    ∀ (stats : EC.Stats) (acc : List (String × EC.FieldType)),
    (∀ fc ∈ acc, ∀ t2, fc.2 ≠ EC.FieldType.array t2) →
    ∀ fc ∈ (o.foldl
        (fun sa kv =>
          ((EC.abbreviateProperty sa.1 kv.1).1,
           aupdate (EC.abbreviateProperty sa.1 kv.1).2 (EC.inferFieldType kv.2) sa.2))
        (stats, acc)).2, ∀ t2, fc.2 ≠ EC.FieldType.array t2 := by
  induction o with
  | nil => intro stats acc h; exact h
  | cons kv tl ih =>
    intro stats acc h
    simp only [List.foldl_cons]
    refine ih _ _ ?_
    intro fc hfc t2
    rcases aupdate_mem_val _ _ _ fc hfc with h1 | h1
    · rw [h1]; exact inferFieldType_no_array _ _
    · exact h fc h1 t2

theorem allFields_keys_nodup : ∀ (resources : List JValue) (stats : EC.Stats)
    (acc : List (String × EC.FieldType)), (acc.map Prod.fst).Nodup →
    (((EC.allFields stats resources acc).2).map Prod.fst).Nodup := by
  intro resources
  induction resources with
  | nil => intro stats acc h; simpa [EC.allFields] using h
  | cons r rest ih =>
    intro stats acc h
    match r with
    | .obj o =>
      show (((EC.allFields _ rest _).2).map Prod.fst).Nodup
      exact ih _ _ (allFields_obj_fold_nodup o stats acc h)
    | .null | .bool _ | .int _ | .float _ | .str _ | .arr _ => exact ih _ _ h

theorem allFields_no_array : ∀ (resources : List JValue) (stats : EC.Stats)
    (acc : List (String × EC.FieldType)),
    (∀ fc ∈ acc, ∀ t2, fc.2 ≠ EC.FieldType.array t2) →
    ∀ fc ∈ (EC.allFields stats resources acc).2, ∀ t2, fc.2 ≠ EC.FieldType.array t2 := by
  intro resources
  induction resources with
  | nil => intro stats acc h; simpa [EC.allFields] using h
  | cons r rest ih =>
    intro stats acc h
    match r with
    | .obj o =>
      show ∀ fc ∈ (EC.allFields _ rest _).2, _
      exact ih _ _ (allFields_obj_fold_noarr o stats acc h)
    | .null | .bool _ | .int _ | .float _ | .str _ | .arr _ => exact ih _ _ h

theorem EC_convertToColumnar_inv (st : EC.State) (stats : EC.Stats) (resources : List JValue)
    (hobj : ∀ r ∈ resources, (JValue.asObject r).isSome = true) :
    ((EC.convertToColumnar st stats resources).2.2.count = resources.length) ∧
    (∀ col ∈ (EC.convertToColumnar st stats resources).2.2.strCols,
      col.2.length = resources.length) ∧
    (∀ col ∈ (EC.convertToColumnar st stats resources).2.2.intCols,
      col.2.length = resources.length) ∧
    (∀ col ∈ (EC.convertToColumnar st stats resources).2.2.floatCols,
      col.2.length = resources.length) ∧
    (∀ col ∈ (EC.convertToColumnar st stats resources).2.2.boolCols,
      col.2.length = resources.length) ∧
    (∀ col ∈ (EC.convertToColumnar st stats resources).2.2.urlCols,
      col.2.length = resources.length) ∧
    (∀ col ∈ (EC.convertToColumnar st stats resources).2.2.jsonCols,
      col.2.length = resources.length) := by
  have hstep : EC.convertToColumnar st stats resources
      = EC.fillLoop st (EC.allFields stats resources []).1 (EC.allFields stats resources []).2
          resources (EC.initColumns resources.length (EC.allFields stats resources []).2) := rfl
  have hnd : (((EC.allFields stats resources []).2).map Prod.fst).Nodup :=
    allFields_keys_nodup resources stats [] (by simp)
  have hna : ∀ fc ∈ (EC.allFields stats resources []).2, ∀ t2, fc.2 ≠ EC.FieldType.array t2 :=
    allFields_no_array resources stats [] (by simp)
  have hinit := initColumns_shadow resources.length (EC.allFields stats resources []).2 hna
  have hfl := fillLoop_shadow (EC.allFields stats resources []).2 hnd resources hobj
    st (EC.allFields stats resources []).1 (EC.initColumns resources.length
      (EC.allFields stats resources []).2) 0 hinit.1
  rw [hstep]
  obtain ⟨⟨h1, h2, h3, h4, h5, h6⟩, hcnt⟩ := hfl
  refine ⟨by rw [hcnt, hinit.2], ?_, ?_, ?_, ?_, ?_, ?_⟩
  · exact cols_len_of_shadow _ _ _ (by simpa using h1)
  · exact cols_len_of_shadow _ _ _ (by simpa using h2)
  · exact cols_len_of_shadow _ _ _ (by simpa using h3)
  · exact cols_len_of_shadow _ _ _ (by simpa using h4)
  · exact cols_len_of_shadow _ _ _ (by simpa using h5)
  · exact cols_len_of_shadow _ _ _ (by simpa using h6)

theorem EC_convertGroups_data : ∀ (groups : List (String × List JValue)) (st : EC.State)
    (stats : EC.Stats) (data : List (String × EC.Group))
    (schema : List (String × EC.ResourceSchema)),
    ∀ p ∈ (EC.convertGroups st stats data schema groups).2.2.1,
      p ∈ data ∨ ∃ st0 stats0 tn rs, (tn, rs) ∈ groups ∧
        p = (tn, (EC.convertToColumnar st0 stats0 rs).2.2) := by
  intro groups
  induction groups with
  | nil => intro st stats data schema p hp; exact Or.inl (by simpa [EC.convertGroups] using hp)
  | cons g rest ih =>
    intro st stats data schema p hp
    obtain ⟨tn, rs⟩ := g
    have hstep : EC.convertGroups st stats data schema ((tn, rs) :: rest)
        = EC.convertGroups (EC.convertToColumnar st stats rs).1
            (EC.convertToColumnar st stats rs).2.1
            (data ++ [(tn, (EC.convertToColumnar st stats rs).2.2)])
            (aupdate tn (EC.inferSchema rs) schema) rest := rfl
    rw [hstep] at hp
    rcases ih _ _ _ _ p hp with hmem | ⟨st0, stats0, tn0, rs0, hin, hpe⟩
    · rcases List.mem_append.mp hmem with hmem | hmem
      · exact Or.inl hmem
      · exact Or.inr ⟨st, stats, tn, rs, by simp, List.mem_singleton.mp hmem⟩
    · exact Or.inr ⟨st0, stats0, tn0, rs0, by simp [hin], hpe⟩

theorem hasStrRT_obj (r : JValue) (h : hasStrRT r = true) : (JValue.asObject r).isSome = true := by
  cases r <;> simp [hasStrRT, JValue.get?, JValue.asObject] at h ⊢

theorem TC_appendToGroup_members (m : List (String × List JValue)) (k : String) (r0 : JValue) :
    ∀ g ∈ TC.groupFold.appendToGroup k r0 m, ∀ r ∈ g.2, (∃ g' ∈ m, r ∈ g'.2) ∨ r = r0 := by
  induction m with
  | nil =>
    intro g hg r hr
    simp only [TC.groupFold.appendToGroup, List.mem_singleton] at hg
    subst hg
    rcases List.mem_singleton.mp hr with rfl
    exact Or.inr rfl
  | cons hd tl ih =>
    obtain ⟨hk, hrs⟩ := hd
    intro g hg r hr
    simp only [TC.groupFold.appendToGroup] at hg
    by_cases h1 : k = hk
    · rw [if_pos h1] at hg
      rcases List.mem_cons.mp hg with rfl | hg
      · rcases List.mem_append.mp hr with hr | hr
        · exact Or.inl ⟨(hk, hrs), by simp, hr⟩
        · exact Or.inr (List.mem_singleton.mp hr)
      · exact Or.inl ⟨g, by simp [hg], hr⟩
    · rw [if_neg h1] at hg
      rcases List.mem_cons.mp hg with rfl | hg
      · exact Or.inl ⟨(hk, hrs), by simp, hr⟩
      · rcases ih g hg r hr with ⟨g', hg', hr'⟩ | h
        · exact Or.inl ⟨g', by simp [hg'], hr'⟩
        · exact Or.inr h

theorem TC_groupFold_members : ∀ (subs : List JValue) (acc : List (String × List JValue)),
    ∀ g ∈ TC.groupFold subs acc, ∀ r ∈ g.2, (∃ g' ∈ acc, r ∈ g'.2) ∨ r ∈ subs := by
  intro subs
  induction subs with
  | nil => intro acc g hg r hr; exact Or.inl ⟨g, by simpa [TC.groupFold] using hg, hr⟩
  | cons r0 rest ih =>
    intro acc g hg r hr
    have hstep : TC.groupFold (r0 :: rest) acc
        = TC.groupFold rest (TC.groupFold.appendToGroup
            (TC.shortenResourceType (((r0.get? "resource_type").bind JValue.asStr).getD "unknown"))
            r0 acc) := rfl
    rw [hstep] at hg
    rcases ih _ g hg r hr with ⟨g', hg', hr'⟩ | hmem
    · rcases TC_appendToGroup_members acc _ r0 g' hg' r hr' with ⟨g2, hg2, hr2⟩ | rfl
      · exact Or.inl ⟨g2, hg2, hr2⟩
      · exact Or.inr (by simp)
    · exact Or.inr (by simp [hmem])

theorem orInsert_keys_nodup (k : String) (v : Char) (acc : List (String × Char))
    (h : (acc.map Prod.fst).Nodup) : ((TC.orInsert k v acc).map Prod.fst).Nodup := by
  unfold TC.orInsert
  cases hl : acc.lookup k with
  | some c => simpa [hl] using h
  | none =>
    simp only [Option.isSome_none, Bool.false_eq_true, if_false, List.map_append]
    rw [List.nodup_append]
    refine ⟨h, by simp, ?_⟩
    intro s hs
    simp only [List.map_cons, List.map_nil, List.mem_singleton]
    intro he
    subst he
    exact ((lookup_eq_none_iff s acc).mp hl) hs

theorem fieldAnalysisFirst_obj_fold_nodup (o : List (String × JValue)) :
    ∀ acc : List (String × Char), (acc.map Prod.fst).Nodup →
    (((o.foldl (fun a kv => TC.orInsert (TC.abbreviateField kv.1) (TC.inferCompactType kv.2) a)
        acc)).map Prod.fst).Nodup := by
  induction o with
  | nil => intro acc h; exact h
  | cons kv tl ih =>
    intro acc h
    simp only [List.foldl_cons]
    exact ih _ (orInsert_keys_nodup _ _ _ h)

theorem fieldAnalysisFirst_keys_nodup : ∀ (resources : List JValue)
    (acc : List (String × Char)), (acc.map Prod.fst).Nodup →
    ((TC.fieldAnalysisFirst resources acc).map Prod.fst).Nodup := by
  intro resources
  induction resources with
  | nil => intro acc h; simpa [TC.fieldAnalysisFirst] using h
  | cons r rest ih =>
    intro acc h
    match r with
    | .obj o =>
      show ((TC.fieldAnalysisFirst rest _).map Prod.fst).Nodup
      exact ih _ (fieldAnalysisFirst_obj_fold_nodup o acc h)
    | .null | .bool _ | .int _ | .float _ | .str _ | .arr _ => exact ih _ h

theorem fillFields_shadow : ∀ (fields : List (String × Char)) (st : TC.State)
    (o : List (String × JValue)) (cols : List (String × List JValue)),
    ((TC.fillFields st o fields cols).2).map flen
      = (fields.map Prod.fst).foldl (fun s j => cpushLen j s) (cols.map flen) := by
  intro fields
  induction fields with
  | nil => intro st o cols; simp [TC.fillFields]
  | cons ft rest ih =>
    intro st o cols
    obtain ⟨f, t⟩ := ft
    simp only [List.map_cons, List.foldl_cons]
    cases hv : (TC.findOriginalKey o f).bind (fun k => o.lookup k) with
    | some v =>
      have hstep : TC.fillFields st o ((f, t) :: rest) cols
          = TC.fillFields (TC.compressValue st v).1 o rest
              (TC.colAppend f (TC.compressValue st v).2 cols) := by
        show (match (TC.findOriginalKey o f).bind (fun k => o.lookup k) with
          | some v =>
            TC.fillFields (TC.compressValue st v).1 o rest
              (TC.colAppend f (TC.compressValue st v).2 cols)
          | none => TC.fillFields st o rest (TC.colAppend f JValue.null cols)) = _
        rw [hv]
      rw [hstep, ih, colAppend_shadow]
    | none =>
      have hstep : TC.fillFields st o ((f, t) :: rest) cols
          = TC.fillFields st o rest (TC.colAppend f JValue.null cols) := by
        show (match (TC.findOriginalKey o f).bind (fun k => o.lookup k) with
          | some v =>
            TC.fillFields (TC.compressValue st v).1 o rest
              (TC.colAppend f (TC.compressValue st v).2 cols)
          | none => TC.fillFields st o rest (TC.colAppend f JValue.null cols)) = _
        rw [hv]
      rw [hstep, ih, colAppend_shadow]

theorem fillAll_shadow (fields : List (String × Char))
    (hnd : (fields.map Prod.fst).Nodup) :
    ∀ (resources : List JValue), (∀ r ∈ resources, (JValue.asObject r).isSome = true) →
    ∀ (st : TC.State) (cols : List (String × List JValue)) (j : Nat),
    cols.map flen = (fields.map Prod.fst).map (fun k => (k, j)) →
    ((TC.fillAll st fields resources cols).2).map flen
      = (fields.map Prod.fst).map (fun k => (k, j + resources.length)) := by
  intro resources
  induction resources with
  | nil =>
    intro _ st cols j hc
    simpa [TC.fillAll] using hc
  | cons r rest ih =>
    intro hobj st cols j hc
    match r, hobj r (by simp) with
    | .obj o, _ =>
      have hstep : TC.fillAll st fields (JValue.obj o :: rest) cols
          = TC.fillAll (TC.fillFields st o fields cols).1 fields rest
              (TC.fillFields st o fields cols).2 := rfl
      rw [hstep]
      have hone : ((TC.fillFields st o fields cols).2).map flen
          = (fields.map Prod.fst).map (fun k => (k, j + 1)) := by
        rw [fillFields_shadow, hc,
          foldl_cpushLen_exact (fields.map Prod.fst) _ (by simp [Function.comp_def]) hnd]
        simp
      have := ih (fun r' hr' => hobj r' (by simp [hr'])) (TC.fillFields st o fields cols).1
        (TC.fillFields st o fields cols).2 (j + 1) hone
      rw [this]
      have : j + 1 + rest.length = j + (JValue.obj o :: rest).length := by simp; omega
      rw [this]

theorem TC_convertToTabular_inv (st : TC.State) (resources : List JValue)
    (hobj : ∀ r ∈ resources, (JValue.asObject r).isSome = true) :
    ∀ col ∈ (TC.convertToTabular st resources).2.1.c,
      Spec.colLen col.2 = some (TC.convertToTabular st resources).2.1.n := by
  match resources with
  | [] => intro col hcol; simp [TC.convertToTabular] at hcol
  | r0 :: rs =>
    intro col hcol
    have hstep : TC.convertToTabular st (r0 :: rs)
        = (((TC.fillAll st (TC.fieldAnalysisFirst (r0 :: rs) []) (r0 :: rs)
              ((TC.fieldAnalysisFirst (r0 :: rs) []).map (fun f => (f.1, ([] : List JValue))))).1),
           ⟨(r0 :: rs).length,
            ((TC.fillAll st (TC.fieldAnalysisFirst (r0 :: rs) []) (r0 :: rs)
              ((TC.fieldAnalysisFirst (r0 :: rs) []).map (fun f => (f.1, ([] : List JValue))))).2).map
              (fun p => (p.1, JValue.arr p.2))⟩,
           TC.fieldAnalysisFirst (r0 :: rs) []) := rfl
    rw [hstep] at hcol ⊢
    simp only at hcol ⊢
    have hnd : ((TC.fieldAnalysisFirst (r0 :: rs) []).map Prod.fst).Nodup :=
      fieldAnalysisFirst_keys_nodup (r0 :: rs) [] (by simp)
    have hsh := fillAll_shadow (TC.fieldAnalysisFirst (r0 :: rs) []) hnd (r0 :: rs) hobj st
      ((TC.fieldAnalysisFirst (r0 :: rs) []).map (fun f => (f.1, ([] : List JValue)))) 0
      (by simp [flen, Function.comp_def])
    rcases List.mem_map.mp hcol with ⟨p, hp, hpe⟩
    have hsh' : ((TC.fillAll st (TC.fieldAnalysisFirst (r0 :: rs) []) (r0 :: rs)
          ((TC.fieldAnalysisFirst (r0 :: rs) []).map (fun f => (f.1, ([] : List JValue))))).2).map flen
        = ((TC.fieldAnalysisFirst (r0 :: rs) []).map Prod.fst).map
            (fun k => (k, rs.length + 1)) := by
      rw [hsh]
      simp
    have hlen := cols_len_of_shadow _ _ _ hsh' p hp
    rw [← hpe]
    simp [Spec.colLen, hlen]

theorem TC_convertGroups_data : ∀ (groups : List (String × List JValue)) (st : TC.State)
    (sc : TC.Schema) (acc : List (String × TC.TabularData)),
    ∀ p ∈ (TC.convertGroups st sc acc groups).2.2,
      p ∈ acc ∨ ∃ st0 tn rs, (tn, rs) ∈ groups ∧
        p = (tn, (TC.convertToTabular st0 rs).2.1) := by
  intro groups
  induction groups with
  | nil => intro st sc acc p hp; exact Or.inl (by simpa [TC.convertGroups] using hp)
  | cons g rest ih =>
    intro st sc acc p hp
    obtain ⟨tn, rs⟩ := g
    have hstep : TC.convertGroups st sc acc ((tn, rs) :: rest)
        = TC.convertGroups (TC.convertToTabular st rs).1
            (TC.mergeSchema sc (TC.convertToTabular st rs).2.2)
            (acc ++ [(tn, (TC.convertToTabular st rs).2.1)]) rest := rfl
    rw [hstep] at hp
    rcases ih _ _ _ p hp with hmem | ⟨st0, tn0, rs0, hin, hpe⟩
    · rcases List.mem_append.mp hmem with hmem | hmem
      · exact Or.inl hmem
      · exact Or.inr ⟨st, tn, rs, by simp, List.mem_singleton.mp hmem⟩
    · exact Or.inr ⟨st0, tn0, rs0, by simp [hin], hpe⟩

/-- C3 (amended): in the columnar compactor the group row invariant
holds for every input — every column of every produced group has exactly
`count` cells, because grouped records always carry a string
resource_type and are therefore objects, and each object row pushes one
cell into every analysed column of its kind. In the aggressive
compactor it holds provided every subresource is an object; a non-object
subresource raises its group's row count while pushing no cells (see the
counterexample). -/
theorem claim3_group_inv_amended (x : JValue) :
    Spec.ECGroupInv (EC.compactComprehensiveData x) ∧
    ((∀ r ∈ subsOf x, (JValue.asObject r).isSome = true) →
      Spec.TCGroupInv (TC.compact x)) := by
  constructor
  · intro g hg
    have hdata : (EC.compactComprehensiveData x).data
        = (EC.convertGroups EC.new
            (EC.groupRecords ⟨jlen x, 0, 0, 0, 0, 0, 0⟩ (subsOf x) []).1 [] []
            (EC.groupRecords ⟨jlen x, 0, 0, 0, 0, 0, 0⟩ (subsOf x) []).2).2.2.1 := rfl
    rw [hdata] at hg
    rcases EC_convertGroups_data _ _ _ _ _ g hg with hmem | ⟨st0, stats0, tn, rs, hin, hpe⟩
    · exact absurd hmem (List.not_mem_nil g)
    · have hobj : ∀ r ∈ rs, (JValue.asObject r).isSome = true := by
        intro r hr
        exact hasStrRT_obj r
          (EC_groupRecords_members (subsOf x) ⟨jlen x, 0, 0, 0, 0, 0, 0⟩ [] (by simp)
            (tn, rs) hin r hr)
      have hinv := EC_convertToColumnar_inv st0 stats0 rs hobj
      have hg2 : g.2 = (EC.convertToColumnar st0 stats0 rs).2.2 := by rw [hpe]
      rw [hg2, hinv.1]
      exact ⟨hinv.2.1, hinv.2.2.1, hinv.2.2.2.1, hinv.2.2.2.2.1, hinv.2.2.2.2.2.1,
        hinv.2.2.2.2.2.2⟩
  · intro hobj g hg col hcol
    have hdata : (TC.compact x).d
        = (TC.convertGroups TC.new ⟨[], []⟩ [] (TC.groupFold (subsOf x) [])).2.2 := rfl
    rw [hdata] at hg
    rcases TC_convertGroups_data _ _ _ _ g hg with hmem | ⟨st0, tn, rs, hin, hpe⟩
    · exact absurd hmem (List.not_mem_nil g)
    · have hobjs : ∀ r ∈ rs, (JValue.asObject r).isSome = true := by
        intro r hr
        rcases TC_groupFold_members (subsOf x) [] (tn, rs) hin r hr with ⟨g', hg', _⟩ | hmem
        · exact absurd hg' (List.not_mem_nil g')
        · exact hobj r hmem
      have hg2 : g.2 = (TC.convertToTabular st0 rs).2.1 := by rw [hpe]
      rw [hg2] at hcol ⊢
      exact TC_convertToTabular_inv st0 rs hobjs col hcol

/-- C3 witness: the amended theorem at witC3, whose two subresources are
both objects. -/
theorem claim3_witness :
    (∀ r ∈ subsOf witC3, (JValue.asObject r).isSome = true) ∧
    Spec.ECGroupInv (EC.compactComprehensiveData witC3) ∧
    Spec.TCGroupInv (TC.compact witC3) :=
  ⟨by decide, (claim3_group_inv_amended witC3).1,
   (claim3_group_inv_amended witC3).2 (by decide)⟩

/-- C8 (amended): when a field is absent from a record, the columnar
compactor's Bool-typed fill appends the literal false to the bool column
(whose cells are bare booleans and cannot hold a null), while the
aggressive compactor's fill appends a null cell for the absent field —
the documented false-default holds only in the columnar compactor. -/
theorem claim8_bool_absence_amended (o : List (String × JValue)) (f : String)
    (hEC : EC.findVal o f = none)
    (hTC : (TC.findOriginalKey o f).bind (fun k => o.lookup k) = none) :
    (∀ (st : EC.State) (stats : EC.Stats) (g : EC.Group),
      (EC.fillField st stats g o f EC.FieldType.bool).2.2.boolCols
        = EC.cpush f false g.boolCols) ∧
    (∀ (st : TC.State) (t : Char) (rest : List (String × Char))
        (cols : List (String × List JValue)),
      TC.fillFields st o ((f, t) :: rest) cols
        = TC.fillFields st o rest (TC.colAppend f JValue.null cols)) := by
  constructor
  · intro st stats g
    simp [EC.fillField, hEC]
  · intro st t rest cols
    show (match (TC.findOriginalKey o f).bind (fun k => o.lookup k) with
      | some v =>
        TC.fillFields (TC.compressValue st v).1 o rest
          (TC.colAppend f (TC.compressValue st v).2 cols)
      | none => TC.fillFields st o rest (TC.colAppend f JValue.null cols)) = _
    rw [hTC]

/-- C8 witness: the amended theorem at a one-field record from which the
field "b" is absent. -/
theorem claim8_witness :
    EC.findVal [("a", JValue.int 1)] "b" = none ∧
    (TC.findOriginalKey [("a", JValue.int 1)] "b").bind
      (fun k => List.lookup k [("a", JValue.int 1)]) = none ∧
    ((∀ (st : EC.State) (stats : EC.Stats) (g : EC.Group),
      (EC.fillField st stats g [("a", JValue.int 1)] "b" EC.FieldType.bool).2.2.boolCols
        = EC.cpush "b" false g.boolCols) ∧
    (∀ (st : TC.State) (t : Char) (rest : List (String × Char))
        (cols : List (String × List JValue)),
      TC.fillFields st [("a", JValue.int 1)] (("b", t) :: rest) cols
        = TC.fillFields st [("a", JValue.int 1)] rest (TC.colAppend "b" JValue.null cols))) :=
  ⟨by decide, by decide, claim8_bool_absence_amended _ _ (by decide) (by decide)⟩

/-! Order lemmas for the BTreeMap key order and sorted-insert
structure. -/

theorem charListLt_trans : ∀ (a b c : List Char), charListLt a b = true →
    charListLt b c = true → charListLt a c = true := by
  intro a
  induction a with
  | nil =>
    intro b c hab hbc
    cases b with
    | nil => simp [charListLt] at hab
    | cons bh bt =>
      cases c with
      | nil => simp [charListLt] at hbc
      | cons ch ct => simp [charListLt]
  | cons ah at' ih =>
    intro b c hab hbc
    cases b with
    | nil => simp [charListLt] at hab
    | cons bh bt =>
      cases c with
      | nil => simp [charListLt] at hbc
      | cons ch ct =>
        simp only [charListLt] at hab hbc ⊢
        by_cases h1 : ah.toNat < bh.toNat
        · by_cases h2 : bh.toNat < ch.toNat
          · rw [if_pos (by omega)]
          · rw [if_neg h2] at hbc
            by_cases h3 : ch.toNat < bh.toNat
            · rw [if_pos h3] at hbc
              exact absurd hbc (by simp)
            · rw [if_pos (by omega)]
        · rw [if_neg h1] at hab
          by_cases h4 : bh.toNat < ah.toNat
          · rw [if_pos h4] at hab
            exact absurd hab (by simp)
          · rw [if_neg h4] at hab
            by_cases h2 : bh.toNat < ch.toNat
            · rw [if_pos (by omega)]
            · rw [if_neg h2] at hbc
              by_cases h5 : ch.toNat < bh.toNat
              · rw [if_pos h5] at hbc
                exact absurd hbc (by simp)
              · rw [if_neg h5] at hbc
                rw [if_neg (by omega), if_neg (by omega)]
                exact ih bt ct hab hbc

theorem charListLt_irrefl : ∀ a : List Char, charListLt a a = false := by
  intro a
  induction a with
  | nil => rfl
  | cons ah at' ih => simp [charListLt, ih]

theorem strLt_trans (a b c : String) (hab : strLt a b = true) (hbc : strLt b c = true) :
    strLt a c = true := charListLt_trans a.data b.data c.data hab hbc

theorem strLt_ne (a b : String) (h : strLt a b = true) : a ≠ b := by
  intro he
  subst he
  rw [show strLt a a = charListLt a.data a.data from rfl, charListLt_irrefl] at h
  exact absurd h (by simp)

theorem keysSorted_cons (kv : String × JValue) (tl : List (String × JValue))
    (h : keysSorted (kv :: tl) = true) :
    keysSorted tl = true ∧ ∀ p ∈ tl, strLt kv.1 p.1 = true := by
  induction tl generalizing kv with
  | nil => exact ⟨rfl, by simp⟩
  | cons hd tl2 ih =>
    obtain ⟨k1, v1⟩ := kv
    obtain ⟨k2, v2⟩ := hd
    have h1 : strLt k1 k2 = true ∧ keysSorted ((k2, v2) :: tl2) = true := by
      simpa [keysSorted] using h
    have h2 := ih (k2, v2) h1.2
    refine ⟨h1.2, ?_⟩
    intro p hp
    rcases List.mem_cons.mp hp with rfl | hp
    · exact h1.1
    · exact strLt_trans _ _ _ h1.1 (h2.2 p hp)

theorem keysSorted_nodup (o : List (String × JValue)) (h : keysSorted o = true) :
    (o.map Prod.fst).Nodup := by
  induction o with
  | nil => simp
  | cons kv tl ih =>
    have hc := keysSorted_cons kv tl h
    simp only [List.map_cons, List.nodup_cons]
    refine ⟨?_, ih hc.1⟩
    intro hmem
    rcases List.mem_map.mp hmem with ⟨p, hp, hpe⟩
    exact (strLt_ne _ _ (hc.2 p hp)) hpe.symm

theorem objInsert_lookup (k k' : String) (v : JValue) : ∀ m : List (String × JValue),
    (objInsert k v m).lookup k' = if k' = k then some v else m.lookup k' := by
  intro m
  induction m with
  | nil =>
    by_cases h : k' = k
    · simp [objInsert, List.lookup, h]
    · have hb : (k' == k) = false := by simp [h]
      simp [objInsert, List.lookup, hb, h]
  | cons hd tl ih =>
    obtain ⟨k0, v0⟩ := hd
    simp only [objInsert]
    by_cases h1 : k = k0
    · subst h1
      by_cases h : k' = k
      · simp [List.lookup, h]
      · have hb : (k' == k) = false := by simp [h]
        simp [List.lookup, hb, h]
    · rw [if_neg h1]
      by_cases h2 : strLt k k0
      · rw [if_pos h2]
        by_cases h : k' = k
        · simp [List.lookup, h]
        · simp only [List.lookup, if_neg h]
          have : (k' == k) = false := by simp [h]
          simp [this]
      · rw [if_neg h2]
        by_cases h : k' = k0
        · subst h
          have : k' ≠ k := fun he => h1 (he.symm)
          simp [List.lookup, this]
        · have hne : (k' == k0) = false := by simp [h]
          simp only [List.lookup, hne]
          exact ih

theorem objInsert_gt_append (k : String) (v : JValue) : ∀ m : List (String × JValue),
    (∀ p ∈ m, strLt p.1 k = true) → objInsert k v m = m ++ [(k, v)] := by
  intro m
  induction m with
  | nil => intro _; rfl
  | cons hd tl ih =>
    intro hall
    obtain ⟨k0, v0⟩ := hd
    have hlt : strLt k0 k = true := hall (k0, v0) (by simp)
    have hne : k ≠ k0 := fun he => (strLt_ne k0 k hlt) he.symm
    have hnlt : strLt k k0 = false := by
      by_cases h : strLt k k0 = true
      · exact absurd (strLt_ne _ _ (strLt_trans _ _ _ h hlt) rfl) (by simp)
      · simpa using h
    simp only [objInsert, if_neg hne, hnlt, Bool.false_eq_true, if_false]
    rw [ih (fun p hp => hall p (by simp [hp]))]
    simp

theorem charListLt_or : ∀ a b : List Char, a = b ∨ charListLt a b = true ∨ charListLt b a = true := by
  intro a
  induction a with
  | nil =>
    intro b
    cases b with
    | nil => exact Or.inl rfl
    | cons bh bt => exact Or.inr (Or.inl (by simp [charListLt]))
  | cons ah at' ih =>
    intro b
    cases b with
    | nil => exact Or.inr (Or.inr (by simp [charListLt]))
    | cons bh bt =>
      by_cases h1 : ah.toNat < bh.toNat
      · exact Or.inr (Or.inl (by simp [charListLt, h1]))
      · by_cases h2 : bh.toNat < ah.toNat
        · exact Or.inr (Or.inr (by simp [charListLt, h2]))
        · have h3 : ah.toNat = bh.toNat := by omega
          have he : ah = bh := Char.ext (UInt32.ext (by simpa [Char.toNat] using h3))
          subst he
          rcases ih bt with rfl | hlt | hgt
          · exact Or.inl rfl
          · exact Or.inr (Or.inl (by simp [charListLt, hlt]))
          · exact Or.inr (Or.inr (by simp [charListLt, hgt]))

theorem strLt_or (a b : String) : a = b ∨ strLt a b = true ∨ strLt b a = true := by
  rcases charListLt_or a.data b.data with he | h | h
  · exact Or.inl (String.ext he)
  · exact Or.inr (Or.inl h)
  · exact Or.inr (Or.inr h)

theorem keysSorted_cons_of (k0 : String) (v0 : JValue) (l : List (String × JValue))
    (hs : keysSorted l = true) (hall : ∀ p ∈ l, strLt k0 p.1 = true) :
    keysSorted ((k0, v0) :: l) = true := by
  cases l with
  | nil => rfl
  | cons hd tl =>
    obtain ⟨k2, v2⟩ := hd
    simp only [keysSorted, Bool.and_eq_true]
    exact ⟨hall (k2, v2) (by simp), hs⟩

theorem objInsert_sorted (k : String) (v : JValue) : ∀ m : List (String × JValue),
    keysSorted m = true → keysSorted (objInsert k v m) = true := by
  intro m
  induction m with
  | nil => intro _; rfl
  | cons hd tl ih =>
    intro hs
    obtain ⟨k0, v0⟩ := hd
    have hc := keysSorted_cons (k0, v0) tl hs
    simp only [objInsert]
    by_cases h1 : k = k0
    · subst h1
      rw [if_pos rfl]
      exact keysSorted_cons_of k v tl hc.1 hc.2
    · rw [if_neg h1]
      by_cases h2 : strLt k k0
      · rw [if_pos h2]
        refine keysSorted_cons_of k v _ hs ?_
        intro p hp
        rcases List.mem_cons.mp hp with rfl | hp
        · exact h2
        · exact strLt_trans _ _ _ h2 (hc.2 p hp)
      · rw [if_neg h2]
        have hgt : strLt k0 k = true := by
          rcases strLt_or k k0 with he | h | h
          · exact absurd he h1
          · exact absurd h h2
          · exact h
        refine keysSorted_cons_of k0 v0 _ (ih hc.1) ?_
        intro p hp
        rcases mem_objInsert_elim p k v tl hp with rfl | hp
        · exact hgt
        · exact hc.2 p hp

/-! String-literal roundtrip: parseStrBody inverts escapeStr. -/

theorem hexVal_hexDigit (d : Nat) (h : d < 16) : hexVal (hexDigit d) = some d := by
  interval_cases d <;> decide

theorem psb_quote (xs : List Char) : parseStrBody ('"' :: xs) = some ([], xs) := by
  conv_lhs => unfold parseStrBody
  simp

theorem psb_esc_quote (xs : List Char) :
    parseStrBody ('\\' :: '"' :: xs) = (parseStrBody xs).map (fun p => ('"' :: p.1, p.2)) := by
  conv_lhs => unfold parseStrBody
  simp

theorem psb_esc_bs (xs : List Char) :
    parseStrBody ('\\' :: '\\' :: xs) = (parseStrBody xs).map (fun p => ('\\' :: p.1, p.2)) := by
  conv_lhs => unfold parseStrBody
  simp

theorem psb_esc_b (xs : List Char) :
    parseStrBody ('\\' :: 'b' :: xs) = (parseStrBody xs).map (fun p => ('\x08' :: p.1, p.2)) := by
  conv_lhs => unfold parseStrBody
  simp

theorem psb_esc_t (xs : List Char) :
    parseStrBody ('\\' :: 't' :: xs) = (parseStrBody xs).map (fun p => ('\x09' :: p.1, p.2)) := by
  conv_lhs => unfold parseStrBody
  simp

theorem psb_esc_n (xs : List Char) :
    parseStrBody ('\\' :: 'n' :: xs) = (parseStrBody xs).map (fun p => ('\x0a' :: p.1, p.2)) := by
  conv_lhs => unfold parseStrBody
  simp

theorem psb_esc_f (xs : List Char) :
    parseStrBody ('\\' :: 'f' :: xs) = (parseStrBody xs).map (fun p => ('\x0c' :: p.1, p.2)) := by
  conv_lhs => unfold parseStrBody
  simp

theorem psb_esc_r (xs : List Char) :
    parseStrBody ('\\' :: 'r' :: xs) = (parseStrBody xs).map (fun p => ('\x0d' :: p.1, p.2)) := by
  conv_lhs => unfold parseStrBody
  simp

theorem psb_esc_u (h1 h2 h3 h4 : Char) (a b c3 d : Nat) (xs : List Char)
    (e1 : hexVal h1 = some a) (e2 : hexVal h2 = some b) (e3 : hexVal h3 = some c3)
    (e4 : hexVal h4 = some d) :
    parseStrBody ('\\' :: 'u' :: h1 :: h2 :: h3 :: h4 :: xs)
      = (parseStrBody xs).map
          (fun p => (Char.ofNat (((a * 16 + b) * 16 + c3) * 16 + d) :: p.1, p.2)) := by
  conv_lhs => unfold parseStrBody
  simp [e1, e2, e3, e4]

theorem psb_raw (c : Char) (xs : List Char) (h1 : c ≠ '"') (h2 : c ≠ '\\')
    (h3 : ¬c.toNat < 0x20) :
    parseStrBody (c :: xs) = (parseStrBody xs).map (fun p => (c :: p.1, p.2)) := by
  conv_lhs => unfold parseStrBody
  rw [if_neg h1, if_neg h2, if_neg h3]

theorem parseStrBody_escape : ∀ (l rest : List Char),
    parseStrBody (l.flatMap escapeChar ++ '"' :: rest) = some (l, rest) := by
  intro l
  induction l with
  | nil => intro rest; simpa using psb_quote rest
  | cons c tl ih =>
    intro rest
    simp only [List.flatMap_cons, List.append_assoc]
    by_cases h1 : c = '"'
    · subst h1
      rw [show escapeChar '"' = ['\\', '"'] from rfl]
      simp [psb_esc_quote, ih]
    · by_cases h2 : c = '\\'
      · subst h2
        rw [show escapeChar '\\' = ['\\', '\\'] from rfl]
        simp [psb_esc_bs, ih]
      · by_cases h3 : c = '\x08'
        · subst h3
          rw [show escapeChar '\x08' = ['\\', 'b'] from rfl]
          simp [psb_esc_b, ih]
        · by_cases h4 : c = '\x09'
          · subst h4
            rw [show escapeChar '\x09' = ['\\', 't'] from rfl]
            simp [psb_esc_t, ih]
          · by_cases h5 : c = '\x0a'
            · subst h5
              rw [show escapeChar '\x0a' = ['\\', 'n'] from rfl]
              simp [psb_esc_n, ih]
            · by_cases h6 : c = '\x0c'
              · subst h6
                rw [show escapeChar '\x0c' = ['\\', 'f'] from rfl]
                simp [psb_esc_f, ih]
              · by_cases h7 : c = '\x0d'
                · subst h7
                  rw [show escapeChar '\x0d' = ['\\', 'r'] from rfl]
                  simp [psb_esc_r, ih]
                · by_cases h8 : c.toNat < 0x20
                  · rw [show escapeChar c
                        = ['\\', 'u', '0', '0', hexDigit (c.toNat / 16), hexDigit (c.toNat % 16)] by
                      unfold escapeChar
                      rw [if_neg h1, if_neg h2, if_neg h3, if_neg h4, if_neg h5, if_neg h6,
                        if_neg h7, if_pos h8]]
                    rw [show (['\\', 'u', '0', '0', hexDigit (c.toNat / 16),
                        hexDigit (c.toNat % 16)] : List Char)
                        ++ (tl.flatMap escapeChar ++ '"' :: rest)
                      = '\\' :: 'u' :: '0' :: '0' :: hexDigit (c.toNat / 16)
                        :: hexDigit (c.toNat % 16) :: (tl.flatMap escapeChar ++ '"' :: rest) by
                      simp]
                    rw [psb_esc_u '0' '0' (hexDigit (c.toNat / 16)) (hexDigit (c.toNat % 16))
                      0 0 (c.toNat / 16) (c.toNat % 16) _ (by decide) (by decide)
                      (hexVal_hexDigit _ (by omega)) (hexVal_hexDigit _ (by omega))]
                    rw [ih]
                    have hn : ((0 * 16 + 0) * 16 + c.toNat / 16) * 16 + c.toNat % 16 = c.toNat := by
                      omega
                    rw [hn, Char.ofNat_toNat]
                    rfl
                  · rw [show escapeChar c = [c] by
                      unfold escapeChar
                      rw [if_neg h1, if_neg h2, if_neg h3, if_neg h4, if_neg h5, if_neg h6,
                        if_neg h7, if_neg h8]]
                    rw [show ([c] : List Char) ++ (tl.flatMap escapeChar ++ '"' :: rest)
                      = c :: (tl.flatMap escapeChar ++ '"' :: rest) by simp]
                    rw [psb_raw c _ h1 h2 h8, ih]
                    rfl

/-! Number roundtrip: parseNum inverts intStr and floatRender. -/

theorem takeWhile_all_append (p : Char → Bool) : ∀ (l r : List Char),
    (∀ c ∈ l, p c = true) → (∀ c, r.head? = some c → p c = false) →
    (l ++ r).takeWhile p = l ∧ (l ++ r).dropWhile p = r := by
  intro l
  induction l with
  | nil =>
    intro r _ hr
    cases r with
    | nil => exact ⟨rfl, rfl⟩
    | cons c r' =>
      have := hr c rfl
      simp [List.takeWhile, List.dropWhile, this]
  | cons c tl ih =>
    intro r hl hr
    have hc : p c = true := hl c (by simp)
    have := ih r (fun c' hc' => hl c' (by simp [hc'])) hr
    simp [List.takeWhile, List.dropWhile, hc, this.1, this.2]

theorem digit_ne (c : Char) (h : isDigitChar c = true) :
    c ≠ '-' ∧ c ≠ '.' ∧ c ≠ 'e' ∧ c ≠ 'E' := by
  refine ⟨?_, ?_, ?_, ?_⟩ <;> intro he <;> subst he <;> exact absurd h (by decide)

theorem parseNumCore_nat (m : Nat) (rest : List Char) (hm : (m : Int) < 2 ^ 64)
    (hb : ∀ c, rest.head? = some c → isDigitChar c = false ∧ c ≠ '.' ∧ c ≠ 'e' ∧ c ≠ 'E') :
    parseNumCore false (natDigits m ++ rest) = some (.int (m : Int), rest) := by
  have htw := takeWhile_all_append isDigitChar (natDigits m) rest (natDigits_all_digit m)
    (fun c hc => (hb c hc).1)
  have hdot : ¬ rest.head? = some '.' := fun hr => absurd rfl (hb '.' hr).2.1
  have he1 : ¬ rest.head? = some 'e' := fun hr => absurd rfl (hb 'e' hr).2.2.1
  have hE1 : ¬ rest.head? = some 'E' := fun hr => absurd rfl (hb 'E' hr).2.2.2
  unfold parseNumCore
  rw [htw.1, htw.2]
  simp only [natDigits_ne_nil, if_false, digitsToNat_natDigits]
  have hm' : m < 18446744073709551616 := by exact_mod_cast hm
  simp [hdot, he1, hE1, hm']

theorem parseNumCore_negnat (m : Nat) (rest : List Char) (h1 : 1 ≤ m)
    (hm : (m : Int) ≤ 2 ^ 63)
    (hb : ∀ c, rest.head? = some c → isDigitChar c = false ∧ c ≠ '.' ∧ c ≠ 'e' ∧ c ≠ 'E') :
    parseNumCore true (natDigits m ++ rest) = some (.int (-(m : Int)), rest) := by
  have htw := takeWhile_all_append isDigitChar (natDigits m) rest (natDigits_all_digit m)
    (fun c hc => (hb c hc).1)
  have hdot : ¬ rest.head? = some '.' := fun hr => absurd rfl (hb '.' hr).2.1
  have he1 : ¬ rest.head? = some 'e' := fun hr => absurd rfl (hb 'e' hr).2.2.1
  have hE1 : ¬ rest.head? = some 'E' := fun hr => absurd rfl (hb 'E' hr).2.2.2
  unfold parseNumCore
  rw [htw.1, htw.2]
  simp only [natDigits_ne_nil, if_false, digitsToNat_natDigits]
  have hc1 : ¬(0 ≤ -(m : Int) ∧ -(m : Int) < 2 ^ 64) := by
    intro hcc
    omega
  have hc2 : -(2 ^ 63) ≤ -(m : Int) ∧ -(m : Int) < 0 := by omega
  simp [hdot, he1, hE1, hc1, hc2]
  omega

theorem parseNum_int (n : Int) (rest : List Char) (hlo : -(2 ^ 63) ≤ n) (hhi : n < 2 ^ 64)
    (hb : ∀ c, rest.head? = some c → isDigitChar c = false ∧ c ≠ '.' ∧ c ≠ 'e' ∧ c ≠ 'E') :
    parseNum ((intStr n).data ++ rest) = some (.int n, rest) := by
  by_cases hneg : n < 0
  · have hdata : (intStr n).data = '-' :: natDigits (-n).toNat := by
      simp [intStr, hneg, natStr, String.data_append]
    rw [hdata]
    rw [show parseNum ('-' :: natDigits (-n).toNat ++ rest)
        = parseNumCore true (natDigits (-n).toNat ++ rest) by
      unfold parseNum
      simp]
    rw [parseNumCore_negnat (-n).toNat rest (by omega) (by omega) hb]
    rw [show -(((-n).toNat : Nat) : Int) = n by omega]
  · have hdata : (intStr n).data = natDigits n.toNat := by
      simp [intStr, hneg, natStr]
    rw [hdata]
    cases hnd : natDigits n.toNat with
    | nil => exact absurd hnd (natDigits_ne_nil _)
    | cons c ds =>
      have hdig : isDigitChar c = true := natDigits_all_digit _ c (by rw [hnd]; simp)
      have hnm : c ≠ '-' := (digit_ne c hdig).1
      show parseNum (c :: (ds ++ rest)) = _
      have hp : parseNum (c :: (ds ++ rest)) = parseNumCore false (c :: (ds ++ rest)) := by
        unfold parseNum
        simp [hnm]
      rw [hp]
      rw [show c :: (ds ++ rest) = natDigits n.toNat ++ rest by rw [hnd]; simp]
      rw [parseNumCore_nat n.toNat rest (by omega) hb]
      rw [show ((n.toNat : Nat) : Int) = n by omega]

theorem digitsToNat_replicate_zero : ∀ j : Nat, digitsToNat (List.replicate j '0') = 0 := by
  intro j
  induction j with
  | zero => rfl
  | succ j ih =>
    show digitsToNat ('0' :: List.replicate j '0') = 0
    have : ('0' :: List.replicate j '0') = [('0' : Char)] ++ List.replicate j '0' := by simp
    rw [this, digitsToNat_append, ih]
    simp [digitsToNat]

theorem natDigits_length_le : ∀ (k n : Nat), n < 10 ^ k → 1 ≤ k →
    (natDigits n).length ≤ k := by
  intro k
  induction k with
  | zero => intro n h h1; omega
  | succ k ih =>
    intro n h _
    rw [natDigits_eq]
    by_cases h10 : n < 10
    · rw [if_pos h10]
      simp
    · rw [if_neg h10]
      have hk1 : 1 ≤ k := by
        by_contra hk
        have : k = 0 := by omega
        subst this
        simp at h
        omega
      have : n / 10 < 10 ^ k := by
        have := Nat.pow_succ 10 k
        omega
      have := ih (n / 10) this hk1
      simp
      omega

theorem padZeros_spec (k f : Nat) (hf : f < 10 ^ k) (hk : 1 ≤ k) :
    (padZeros k f).length = k ∧ digitsToNat (padZeros k f) = f ∧
    (∀ c ∈ padZeros k f, isDigitChar c = true) := by
  have hlen := natDigits_length_le k f hf hk
  refine ⟨?_, ?_, ?_⟩
  · simp [padZeros]
    omega
  · unfold padZeros
    rw [digitsToNat_append, digitsToNat_replicate_zero, digitsToNat_natDigits]
    simp
  · intro c hc
    unfold padZeros at hc
    rcases List.mem_append.mp hc with hc | hc
    · rw [List.eq_of_mem_replicate hc]
      decide
    · exact natDigits_all_digit f c hc

theorem ratDecExp_spec (p : Rat) (k : Nat) (h : ratDecExp p = some k) :
    (p * (10 ^ k : Rat)).den = 1 := by
  unfold ratDecExp at h
  have := List.find?_some h
  simpa using this

theorem ratDecExp_neg (q : Rat) : ratDecExp (-q) = ratDecExp q := by
  unfold ratDecExp
  congr 1
  funext k
  rw [show -q * (10 ^ k : Rat) = -(q * (10 ^ k : Rat)) by ring]
  rw [Rat.neg_den]

theorem parseNumCore_frac (neg : Bool) (I : Nat) (frac rest : List Char)
    (hfr : frac ≠ []) (hdig : ∀ c ∈ frac, isDigitChar c = true)
    (hb : ∀ c, rest.head? = some c → isDigitChar c = false ∧ c ≠ '.' ∧ c ≠ 'e' ∧ c ≠ 'E') :
    parseNumCore neg (natDigits I ++ '.' :: (frac ++ rest))
      = some (.float (if neg then
            -((I : Rat) + (digitsToNat frac : Rat) / (10 : Rat) ^ frac.length)
          else (I : Rat) + (digitsToNat frac : Rat) / (10 : Rat) ^ frac.length), rest) := by
  have htw := takeWhile_all_append isDigitChar (natDigits I) ('.' :: (frac ++ rest))
    (natDigits_all_digit I) (by intro c hc; simp at hc; subst hc; decide)
  have htw2 := takeWhile_all_append isDigitChar frac rest hdig (fun c hc => (hb c hc).1)
  have he1 : ¬ rest.head? = some 'e' := fun hr => absurd rfl (hb 'e' hr).2.2.1
  have hE1 : ¬ rest.head? = some 'E' := fun hr => absurd rfl (hb 'E' hr).2.2.2
  unfold parseNumCore
  rw [htw.1, htw.2]
  simp only [natDigits_ne_nil, if_false, digitsToNat_natDigits, List.head?_cons,
    List.tail_cons, htw2.1, htw2.2]
  simp [hfr, he1, hE1]
  rw [show digitsToNat [] = 0 from rfl]
  cases neg <;> simp

theorem parseNumCore_floatRenderPos (neg : Bool) (p : Rat) (hp : 0 ≤ p) (k : Nat)
    (hk : ratDecExp p = some k) (rest : List Char)
    (hb : ∀ c, rest.head? = some c → isDigitChar c = false ∧ c ≠ '.' ∧ c ≠ 'e' ∧ c ≠ 'E') :
    parseNumCore neg ((floatRenderPos p).data ++ rest)
      = some (.float (if neg then -p else p), rest) := by
  by_cases hk0 : k = 0
  · subst hk0
    rw [show floatRenderPos p = natStr p.num.toNat ++ ".0" by
      simp [floatRenderPos, hk]]
    have hden : p.den = 1 := by
      have := ratDecExp_spec p 0 hk
      simpa using this
    have hnum : 0 ≤ p.num := Rat.num_nonneg.mpr hp
    rw [show (natStr p.num.toNat ++ ".0").data
        = natDigits p.num.toNat ++ ['.', '0'] by simp [natStr]]
    rw [show (natDigits p.num.toNat ++ ['.', '0']) ++ rest
        = natDigits p.num.toNat ++ '.' :: ((['0'] : List Char) ++ rest) by simp]
    rw [parseNumCore_frac neg p.num.toNat ['0'] rest (by simp) (by decide) hb]
    have hIp : ((p.num.toNat : Nat) : Rat) = p := by
      have h1 : ((p.num.toNat : Nat) : Int) = p.num := Int.toNat_of_nonneg hnum
      have h2 : ((p.num : Int) : Rat) = p := by
        conv_rhs => rw [← Rat.num_div_den p]
        rw [hden]
        simp
      rw [show ((p.num.toNat : Nat) : Rat) = (((p.num.toNat : Nat) : Int) : Rat) by push_cast; ring]
      rw [h1, h2]
    rw [show digitsToNat ['0'] = 0 from rfl]
    rw [hIp]
    simp
  · rw [show floatRenderPos p
        = natStr ((p * (10 ^ k : Rat)).num.toNat / 10 ^ k) ++ "."
          ++ String.mk (padZeros k ((p * (10 ^ k : Rat)).num.toNat % 10 ^ k)) by
      simp [floatRenderPos, hk, hk0]]
    have hden := ratDecExp_spec p k hk
    have hnum0 : 0 ≤ (p * (10 ^ k : Rat)).num := Rat.num_nonneg.mpr (by positivity)
    have hmI : (((p * (10 ^ k : Rat)).num.toNat : Nat) : Int) = (p * (10 ^ k : Rat)).num :=
      Int.toNat_of_nonneg hnum0
    have hq : (((p * (10 ^ k : Rat)).num : Int) : Rat) = p * (10 ^ k : Rat) := by
      conv_rhs => rw [← Rat.num_div_den (p * (10 ^ k : Rat))]
      rw [hden]
      simp
    have hmr : (((p * (10 ^ k : Rat)).num.toNat : Nat) : Rat) = p * (10 ^ k : Rat) := by
      rw [show (((p * (10 ^ k : Rat)).num.toNat : Nat) : Rat)
          = ((((p * (10 ^ k : Rat)).num.toNat : Nat) : Int) : Rat) by push_cast; ring]
      rw [hmI, hq]
    have hps := padZeros_spec k ((p * (10 ^ k : Rat)).num.toNat % 10 ^ k)
      (Nat.mod_lt _ (by positivity)) (by omega)
    have hdata : (natStr ((p * (10 ^ k : Rat)).num.toNat / 10 ^ k) ++ "."
        ++ String.mk (padZeros k ((p * (10 ^ k : Rat)).num.toNat % 10 ^ k))).data
        = natDigits ((p * (10 ^ k : Rat)).num.toNat / 10 ^ k)
          ++ '.' :: padZeros k ((p * (10 ^ k : Rat)).num.toNat % 10 ^ k) := by
      simp [natStr, String.data_append]
    rw [hdata]
    rw [show (natDigits ((p * (10 ^ k : Rat)).num.toNat / 10 ^ k)
          ++ '.' :: padZeros k ((p * (10 ^ k : Rat)).num.toNat % 10 ^ k)) ++ rest
        = natDigits ((p * (10 ^ k : Rat)).num.toNat / 10 ^ k)
          ++ '.' :: (padZeros k ((p * (10 ^ k : Rat)).num.toNat % 10 ^ k) ++ rest) by simp]
    rw [parseNumCore_frac neg _ _ rest (by
        intro he
        have := hps.1
        rw [he] at this
        simp at this
        omega) hps.2.2 hb]
    rw [hps.2.1, hps.1]
    have hmag : ((((p * (10 ^ k : Rat)).num.toNat / 10 ^ k : Nat)) : Rat)
        + (((p * (10 ^ k : Rat)).num.toNat % 10 ^ k : Nat) : Rat) / (10 : Rat) ^ k = p := by
      have hsplit : ((p * (10 ^ k : Rat)).num.toNat : Nat)
          = 10 ^ k * ((p * (10 ^ k : Rat)).num.toNat / 10 ^ k)
            + (p * (10 ^ k : Rat)).num.toNat % 10 ^ k := (Nat.div_add_mod _ _).symm
      have h10 : ((10 : Rat) ^ k) ≠ 0 := by positivity
      field_simp
      have := hmr
      rw [hsplit] at this
      push_cast at this ⊢
      linarith [this]
    rw [hmag]

theorem floatRenderPos_head (p : Rat) (k : Nat) (hk : ratDecExp p = some k) :
    ∃ c ds, (floatRenderPos p).data = c :: ds ∧ isDigitChar c = true := by
  by_cases hk0 : k = 0
  · subst hk0
    rw [show floatRenderPos p = natStr p.num.toNat ++ ".0" by simp [floatRenderPos, hk]]
    cases hnd : natDigits p.num.toNat with
    | nil => exact absurd hnd (natDigits_ne_nil _)
    | cons c ds =>
      refine ⟨c, ds ++ ['.', '0'], ?_, ?_⟩
      · rw [show (natStr p.num.toNat ++ ".0").data = natDigits p.num.toNat ++ ['.', '0'] by
          simp [natStr]]
        rw [hnd]
        simp
      · exact natDigits_all_digit _ c (by rw [hnd]; simp)
  · rw [show floatRenderPos p
        = natStr ((p * (10 ^ k : Rat)).num.toNat / 10 ^ k) ++ "."
          ++ String.mk (padZeros k ((p * (10 ^ k : Rat)).num.toNat % 10 ^ k)) by
      simp [floatRenderPos, hk, hk0]]
    cases hnd : natDigits ((p * (10 ^ k : Rat)).num.toNat / 10 ^ k) with
    | nil => exact absurd hnd (natDigits_ne_nil _)
    | cons c ds =>
      refine ⟨c, ds ++ '.' :: padZeros k ((p * (10 ^ k : Rat)).num.toNat % 10 ^ k), ?_, ?_⟩
      · rw [show (natStr ((p * (10 ^ k : Rat)).num.toNat / 10 ^ k) ++ "."
            ++ String.mk (padZeros k ((p * (10 ^ k : Rat)).num.toNat % 10 ^ k))).data
            = natDigits ((p * (10 ^ k : Rat)).num.toNat / 10 ^ k)
              ++ '.' :: padZeros k ((p * (10 ^ k : Rat)).num.toNat % 10 ^ k) by
          simp [natStr, String.data_append]]
        rw [hnd]
        simp
      · exact natDigits_all_digit _ c (by rw [hnd]; simp)

theorem parseNum_float (q : Rat) (rest : List Char) (hk : (ratDecExp q).isSome = true)
    (hb : ∀ c, rest.head? = some c → isDigitChar c = false ∧ c ≠ '.' ∧ c ≠ 'e' ∧ c ≠ 'E') :
    parseNum ((floatRender q).data ++ rest) = some (.float q, rest) := by
  rcases Option.isSome_iff_exists.mp hk with ⟨k, hkk⟩
  by_cases hq : q < 0
  · rw [show (floatRender q).data = '-' :: (floatRenderPos (-q)).data by
      simp [floatRender, hq, String.data_append]]
    rw [show ('-' :: (floatRenderPos (-q)).data) ++ rest
        = '-' :: ((floatRenderPos (-q)).data ++ rest) by simp]
    rw [show parseNum ('-' :: ((floatRenderPos (-q)).data ++ rest))
        = parseNumCore true ((floatRenderPos (-q)).data ++ rest) by
      unfold parseNum
      simp]
    rw [parseNumCore_floatRenderPos true (-q) (by linarith) k (by rw [ratDecExp_neg]; exact hkk)
      rest hb]
    simp
  · rw [show floatRender q = floatRenderPos q by simp [floatRender, hq]]
    rcases floatRenderPos_head q k hkk with ⟨c, ds, hds, hdig⟩
    rw [hds]
    rw [show (c :: ds) ++ rest = c :: (ds ++ rest) by simp]
    rw [show parseNum (c :: (ds ++ rest)) = parseNumCore false (c :: (ds ++ rest)) by
      unfold parseNum
      simp [(digit_ne c hdig).1]]
    rw [show c :: (ds ++ rest) = (floatRenderPos q).data ++ rest by rw [hds]; simp]
    rw [parseNumCore_floatRenderPos false q (by linarith) k hkk rest hb]
    simp

/-! The mutual parser-serializer roundtrip. -/

theorem skipWs_cons (c : Char) (tl : List Char) (h : isWsChar c = false) :
    skipWs (c :: tl) = c :: tl := by
  simp [skipWs, List.dropWhile, h]

theorem digit_ne2 (c : Char) (h : isDigitChar c = true) :
    c ≠ 'n' ∧ c ≠ 't' ∧ c ≠ 'f' ∧ c ≠ '"' ∧ c ≠ '[' ∧ c ≠ '\x7b' ∧ isWsChar c = false := by
  refine ⟨?_, ?_, ?_, ?_, ?_, ?_, ?_⟩
  · intro he; subst he; exact absurd h (by decide)
  · intro he; subst he; exact absurd h (by decide)
  · intro he; subst he; exact absurd h (by decide)
  · intro he; subst he; exact absurd h (by decide)
  · intro he; subst he; exact absurd h (by decide)
  · intro he; subst he; exact absurd h (by decide)
  · have h1 : c ≠ ' ' := by intro he; subst he; exact absurd h (by decide)
    have h2 : c ≠ '\x09' := by intro he; subst he; exact absurd h (by decide)
    have h3 : c ≠ '\x0a' := by intro he; subst he; exact absurd h (by decide)
    have h4 : c ≠ '\x0d' := by intro he; subst he; exact absurd h (by decide)
    simp [isWsChar, h1, h2, h3, h4]

theorem jfuel_pos (v : JValue) : 1 ≤ jfuel v := by
  cases v <;> simp [jfuel]

theorem jfuelElems_pos (l : List JValue) : 1 ≤ jfuelElems l := by
  cases l <;> simp [jfuelElems]

theorem jfuelMems_pos (o : List (String × JValue)) : 1 ≤ jfuelMems o := by
  cases o with
  | nil => simp [jfuelMems]
  | cons kv tl => obtain ⟨k, v⟩ := kv; simp [jfuelMems]

theorem bnd_of_head (c : Char) (h : isDigitChar c = false ∧ c ≠ '.' ∧ c ≠ 'e' ∧ c ≠ 'E')
    (xs : List Char) :
    ∀ c', (c :: xs).head? = some c' → isDigitChar c' = false ∧ c' ≠ '.' ∧ c' ≠ 'e' ∧ c' ≠ 'E' := by
  intro c' hc'
  simp at hc'
  subst hc'
  exact h

theorem jser_head (v : JValue) (hwf : jwf v = true) :
    ∃ c ds, (jser v).data = c :: ds ∧ isWsChar c = false ∧ c ≠ ']' ∧ c ≠ '\x7d' := by
  cases v with
  | null => exact ⟨'n', ['u', 'l', 'l'], rfl, by decide, by decide, by decide⟩
  | bool b =>
    cases b
    · exact ⟨'f', ['a', 'l', 's', 'e'], rfl, by decide, by decide, by decide⟩
    · exact ⟨'t', ['r', 'u', 'e'], rfl, by decide, by decide, by decide⟩
  | str s => exact ⟨'"', (escapeStr s).data ++ ['"'], by simp [jser, jstr, String.data_append], by decide, by decide, by decide⟩
  | arr l => exact ⟨'[', (jserArr l).data ++ [']'], by simp [jser, String.data_append], by decide, by decide, by decide⟩
  | obj o => exact ⟨'\x7b', (jserObj o).data ++ ['\x7d'], by simp [jser, String.data_append], by decide, by decide, by decide⟩
  | int n =>
    show ∃ c ds, (intStr n).data = c :: ds ∧ _
    by_cases hneg : n < 0
    · refine ⟨'-', natDigits (-n).toNat, ?_, by decide, by decide, by decide⟩
      simp [intStr, hneg, natStr, String.data_append]
    · cases hnd : natDigits n.toNat with
      | nil => exact absurd hnd (natDigits_ne_nil _)
      | cons c ds =>
        have hdig : isDigitChar c = true := natDigits_all_digit _ c (by rw [hnd]; simp)
        refine ⟨c, ds, ?_, (digit_ne2 c hdig).2.2.2.2.2.2, ?_, ?_⟩
        · rw [show (intStr n).data = natDigits n.toNat by simp [intStr, hneg, natStr]]
          exact hnd
        · intro he; subst he; exact absurd hdig (by decide)
        · intro he; subst he; exact absurd hdig (by decide)
  | float q =>
    show ∃ c ds, (floatRender q).data = c :: ds ∧ _
    have hk : (ratDecExp q).isSome = true := by simpa [jwf] using hwf
    rcases Option.isSome_iff_exists.mp hk with ⟨k, hkk⟩
    by_cases hq : q < 0
    · refine ⟨'-', (floatRenderPos (-q)).data, ?_, by decide, by decide, by decide⟩
      simp [floatRender, hq, String.data_append]
    · rcases floatRenderPos_head q k hkk with ⟨c, ds, hds, hdig⟩
      refine ⟨c, ds, ?_, (digit_ne2 c hdig).2.2.2.2.2.2, ?_, ?_⟩
      · rw [show floatRender q = floatRenderPos q by simp [floatRender, hq]]
        exact hds
      · intro he; subst he; exact absurd hdig (by decide)
      · intro he; subst he; exact absurd hdig (by decide)

theorem pVal_num_dispatch (fuel : Nat) (c : Char) (tl : List Char)
    (h : isDigitChar c = true ∨ c = '-') :
    pVal (fuel + 1) (c :: tl) = parseNum (c :: tl) := by
  have hws : isWsChar c = false := by
    rcases h with h | rfl
    · exact (digit_ne2 c h).2.2.2.2.2.2
    · decide
  have hn : c ≠ 'n' := by
    rcases h with h | rfl
    · exact (digit_ne2 c h).1
    · decide
  have ht : c ≠ 't' := by
    rcases h with h | rfl
    · exact (digit_ne2 c h).2.1
    · decide
  have hf : c ≠ 'f' := by
    rcases h with h | rfl
    · exact (digit_ne2 c h).2.2.1
    · decide
  have hq : c ≠ '"' := by
    rcases h with h | rfl
    · exact (digit_ne2 c h).2.2.2.1
    · decide
  have hbr : c ≠ '[' := by
    rcases h with h | rfl
    · exact (digit_ne2 c h).2.2.2.2.1
    · decide
  have hcb : c ≠ '\x7b' := by
    rcases h with h | rfl
    · exact (digit_ne2 c h).2.2.2.2.2.1
    · decide
  unfold pVal
  rw [skipWs_cons c tl hws]
  simp [hn, ht, hf, hq, hbr, hcb]

theorem strMk_data (s : String) : String.mk s.data = s := rfl

theorem intStr_head (n : Int) :
    ∃ c ds, (intStr n).data = c :: ds ∧ (isDigitChar c = true ∨ c = '-') := by
  by_cases hneg : n < 0
  · exact ⟨'-', natDigits (-n).toNat, by simp [intStr, hneg, natStr, String.data_append],
      Or.inr rfl⟩
  · cases hnd : natDigits n.toNat with
    | nil => exact absurd hnd (natDigits_ne_nil _)
    | cons c ds =>
      refine ⟨c, ds, ?_, Or.inl (natDigits_all_digit _ c (by rw [hnd]; simp))⟩
      rw [show (intStr n).data = natDigits n.toNat by simp [intStr, hneg, natStr]]
      exact hnd

theorem floatRender_head (q : Rat) (k : Nat) (hk : ratDecExp q = some k) :
    ∃ c ds, (floatRender q).data = c :: ds ∧ (isDigitChar c = true ∨ c = '-') := by
  by_cases hq : q < 0
  · exact ⟨'-', (floatRenderPos (-q)).data, by simp [floatRender, hq, String.data_append],
      Or.inr rfl⟩
  · rcases floatRenderPos_head q k hk with ⟨c, ds, hds, hdig⟩
    refine ⟨c, ds, ?_, Or.inl hdig⟩
    rw [show floatRender q = floatRenderPos q by simp [floatRender, hq]]
    exact hds

theorem pVal_null_step (fuel : Nat) (tl : List Char) :
    pVal (fuel + 1) ('n' :: tl)
      = (if ['u', 'l', 'l'].isPrefixOf tl then some (.null, tl.drop 3) else none) := rfl

theorem pVal_true_step (fuel : Nat) (tl : List Char) :
    pVal (fuel + 1) ('t' :: tl)
      = (if ['r', 'u', 'e'].isPrefixOf tl then some (.bool true, tl.drop 3) else none) := rfl

theorem pVal_false_step (fuel : Nat) (tl : List Char) :
    pVal (fuel + 1) ('f' :: tl)
      = (if ['a', 'l', 's', 'e'].isPrefixOf tl then some (.bool false, tl.drop 4) else none) := rfl

theorem pVal_str_step (fuel : Nat) (tl : List Char) :
    pVal (fuel + 1) ('"' :: tl)
      = (parseStrBody tl).map (fun p => (.str (String.mk p.1), p.2)) := rfl

theorem pVal_arr_step (fuel : Nat) (tl : List Char) :
    pVal (fuel + 1) ('[' :: tl)
      = (match skipWs tl with
         | ']' :: r2 => some (.arr [], r2)
         | _ => (pElems fuel tl).map (fun p => (.arr p.1, p.2))) := rfl

theorem pVal_obj_step (fuel : Nat) (tl : List Char) :
    pVal (fuel + 1) ('\x7b' :: tl)
      = (match skipWs tl with
         | '\x7d' :: r2 => some (.obj [], r2)
         | _ => (pMems fuel tl []).map (fun p => (.obj p.1, p.2))) := rfl

theorem pElems_step (fuel : Nat) (cs : List Char) :
    pElems (fuel + 1) cs
      = (match pVal fuel cs with
         | none => none
         | some (v, rest) =>
           match skipWs rest with
           | [] => none
           | c :: r2 =>
             if c = ',' then (pElems fuel r2).map (fun p => (v :: p.1, p.2))
             else if c = ']' then some ([v], r2)
             else none) := rfl

theorem pMems_step (fuel : Nat) (cs : List Char) (acc : List (String × JValue)) :
    pMems (fuel + 1) cs acc
      = (match skipWs cs with
         | [] => none
         | c :: tl =>
           if c = '"' then
             match parseStrBody tl with
             | none => none
             | some (kcs, r1) =>
               match skipWs r1 with
               | [] => none
               | c2 :: r2 =>
                 if c2 = ':' then
                   match pVal fuel r2 with
                   | none => none
                   | some (v, r3) =>
                     match skipWs r3 with
                     | [] => none
                     | c3 :: r4 =>
                       if c3 = ',' then pMems fuel r4 (objInsert (String.mk kcs) v acc)
                       else if c3 = '\x7d' then some (objInsert (String.mk kcs) v acc, r4)
                       else none
                 else none
           else none) := rfl

mutual

theorem pVal_jser : ∀ (v : JValue), jwf v = true → ∀ (fuel : Nat) (rest : List Char),
    jfuel v ≤ fuel →
    (∀ c, rest.head? = some c → isDigitChar c = false ∧ c ≠ '.' ∧ c ≠ 'e' ∧ c ≠ 'E') →
    pVal fuel ((jser v).data ++ rest) = some (v, rest)
  | .null, _, fuel, rest, hfu, _ => by
    obtain ⟨f, rfl⟩ : ∃ f, fuel = f + 1 := ⟨fuel - 1, by
      have := jfuel_pos .null
      omega⟩
    show pVal (f + 1) ('n' :: (['u', 'l', 'l'] ++ rest)) = _
    rw [pVal_null_step]
    simp [List.isPrefixOf_iff_prefix, List.prefix_append]
  | .bool true, _, fuel, rest, hfu, _ => by
    obtain ⟨f, rfl⟩ : ∃ f, fuel = f + 1 := ⟨fuel - 1, by
      have := jfuel_pos (.bool true)
      omega⟩
    show pVal (f + 1) ('t' :: (['r', 'u', 'e'] ++ rest)) = _
    rw [pVal_true_step]
    simp [List.isPrefixOf_iff_prefix, List.prefix_append]
  | .bool false, _, fuel, rest, hfu, _ => by
    obtain ⟨f, rfl⟩ : ∃ f, fuel = f + 1 := ⟨fuel - 1, by
      have := jfuel_pos (.bool false)
      omega⟩
    show pVal (f + 1) ('f' :: (['a', 'l', 's', 'e'] ++ rest)) = _
    rw [pVal_false_step]
    simp [List.isPrefixOf_iff_prefix, List.prefix_append]
  | .int n, hwf, fuel, rest, hfu, hb => by
    obtain ⟨f, rfl⟩ : ∃ f, fuel = f + 1 := ⟨fuel - 1, by
      have := jfuel_pos (.int n)
      omega⟩
    have hwf' : -(2 ^ 63) ≤ n ∧ n < 2 ^ 64 := by simpa [jwf] using hwf
    rcases intStr_head n with ⟨c, ds, hds, hcd⟩
    show pVal (f + 1) ((intStr n).data ++ rest) = _
    rw [hds, show (c :: ds) ++ rest = c :: (ds ++ rest) by simp,
      pVal_num_dispatch f c (ds ++ rest) hcd,
      show c :: (ds ++ rest) = (intStr n).data ++ rest by rw [hds]; simp,
      parseNum_int n rest hwf'.1 hwf'.2 hb]
  | .float q, hwf, fuel, rest, hfu, hb => by
    obtain ⟨f, rfl⟩ : ∃ f, fuel = f + 1 := ⟨fuel - 1, by
      have := jfuel_pos (.float q)
      omega⟩
    have hk : (ratDecExp q).isSome = true := by simpa [jwf] using hwf
    rcases Option.isSome_iff_exists.mp hk with ⟨k, hkk⟩
    rcases floatRender_head q k hkk with ⟨c, ds, hds, hcd⟩
    show pVal (f + 1) ((floatRender q).data ++ rest) = _
    rw [hds, show (c :: ds) ++ rest = c :: (ds ++ rest) by simp,
      pVal_num_dispatch f c (ds ++ rest) hcd,
      show c :: (ds ++ rest) = (floatRender q).data ++ rest by rw [hds]; simp,
      parseNum_float q rest hk hb]
  | .str s, _, fuel, rest, hfu, _ => by
    obtain ⟨f, rfl⟩ : ∃ f, fuel = f + 1 := ⟨fuel - 1, by
      have := jfuel_pos (.str s)
      omega⟩
    rw [show (jser (JValue.str s)).data ++ rest
        = '"' :: (s.data.flatMap escapeChar ++ '"' :: rest) by
      simp [jser, jstr, escapeStr, String.data_append]]
    rw [pVal_str_step]
    rw [parseStrBody_escape s.data rest]
    simp [strMk_data]
  | .arr l, hwf, fuel, rest, hfu, hb => by
    obtain ⟨f, rfl⟩ : ∃ f, fuel = f + 1 := ⟨fuel - 1, by
      have := jfuel_pos (.arr l)
      omega⟩
    cases l with
    | nil =>
      rw [show (jser (JValue.arr [])).data ++ rest = '[' :: (']' :: rest) by
        simp [jser, jserArr, String.data_append]]
      rw [pVal_arr_step]
      rw [skipWs_cons _ _ (by decide)]
      rfl
    | cons v vs =>
      have hwfv : jwf v = true ∧ jwfArr vs = true := by
        have h2 : jwfArr (v :: vs) = true := by simpa [jwf] using hwf
        simpa [jwfArr] using h2
      rw [show (jser (JValue.arr (v :: vs))).data ++ rest
          = '[' :: ((jserArr (v :: vs)).data ++ ']' :: rest) by
        simp [jser, String.data_append]]
      rw [pVal_arr_step]
      have hhead : ∃ c0 ds0, (jserArr (v :: vs)).data = c0 :: ds0 ∧ isWsChar c0 = false ∧
          c0 ≠ ']' ∧ c0 ≠ '\x7d' := by
        rcases jser_head v hwfv.1 with ⟨c0, ds0, hds0, hp1, hp2, hp3⟩
        cases vs with
        | nil => exact ⟨c0, ds0, by simp [jserArr, hds0], hp1, hp2, hp3⟩
        | cons v2 vs2 =>
          exact ⟨c0, ds0 ++ (',' :: (jserArr (v2 :: vs2)).data), by
            rw [show jserArr (v :: v2 :: vs2) = jser v ++ "," ++ jserArr (v2 :: vs2) from rfl]
            simp [String.data_append, hds0], hp1, hp2, hp3⟩
      rcases hhead with ⟨c0, ds0, hds0, hnws, hnrb, _⟩
      rw [show (jserArr (v :: vs)).data ++ ']' :: rest = c0 :: (ds0 ++ ']' :: rest) by
        rw [hds0]
        simp]
      rw [skipWs_cons c0 _ hnws]
      split
      · rename_i heq
        rw [List.cons.injEq] at heq
        exact absurd heq.1 hnrb
      · rw [show c0 :: (ds0 ++ ']' :: rest) = (jserArr (v :: vs)).data ++ ']' :: rest by
          rw [hds0]
          simp]
        rw [pElems_jser (v :: vs) (by simp) (by simp [jwfArr, hwfv.1, hwfv.2]) f rest (by
          have h3 : jfuel (.arr (v :: vs)) = 1 + jfuelElems (v :: vs) := rfl
          omega) hb]
        rfl
  | .obj o, hwf, fuel, rest, hfu, hb => by
    obtain ⟨f, rfl⟩ : ∃ f, fuel = f + 1 := ⟨fuel - 1, by
      have := jfuel_pos (.obj o)
      omega⟩
    cases o with
    | nil =>
      rw [show (jser (JValue.obj [])).data ++ rest = '\x7b' :: ('\x7d' :: rest) by
        simp [jser, jserObj, String.data_append]]
      rw [pVal_obj_step]
      rw [skipWs_cons _ _ (by decide)]
      rfl
    | cons kv tl =>
      obtain ⟨k, v⟩ := kv
      have hso : keysSorted ((k, v) :: tl) = true ∧ jwfObj ((k, v) :: tl) = true := by
        simpa [jwf] using hwf
      rw [show (jser (JValue.obj ((k, v) :: tl))).data ++ rest
          = '\x7b' :: ((jserObj ((k, v) :: tl)).data ++ '\x7d' :: rest) by
        simp [jser, String.data_append]]
      rw [pVal_obj_step]
      have hhead : ∃ ds0, (jserObj ((k, v) :: tl)).data = '"' :: ds0 := by
        cases tl with
        | nil =>
          refine ⟨k.data.flatMap escapeChar ++ '"' :: (':' :: (jser v).data), ?_⟩
          rw [show jserObj [(k, v)] = jstr k ++ ":" ++ jser v from rfl]
          simp [jstr, escapeStr, String.data_append]
        | cons kv2 tl2 =>
          refine ⟨k.data.flatMap escapeChar ++ '"' :: (':' :: ((jser v).data
            ++ ',' :: (jserObj (kv2 :: tl2)).data)), ?_⟩
          rw [show jserObj ((k, v) :: kv2 :: tl2)
              = jstr k ++ ":" ++ jser v ++ "," ++ jserObj (kv2 :: tl2) from rfl]
          simp [jstr, escapeStr, String.data_append]
      rcases hhead with ⟨ds0, hds0⟩
      rw [show (jserObj ((k, v) :: tl)).data ++ '\x7d' :: rest = '"' :: (ds0 ++ '\x7d' :: rest) by
        rw [hds0]
        simp]
      rw [skipWs_cons _ _ (by decide)]
      split
      · rename_i heq
        rw [List.cons.injEq] at heq
        exact absurd heq.1 (by decide)
      · rw [show ('"' : Char) :: (ds0 ++ '\x7d' :: rest)
            = (jserObj ((k, v) :: tl)).data ++ '\x7d' :: rest by
          rw [hds0]
          simp]
        rw [pMems_jser ((k, v) :: tl) (by simp) hso.1 hso.2 f rest [] (by
          have h3 : jfuel (.obj ((k, v) :: tl)) = 1 + jfuelMems ((k, v) :: tl) := rfl
          omega) hb (by simp)]
        simp

theorem pElems_jser : ∀ (l : List JValue), l ≠ [] → jwfArr l = true →
    ∀ (fuel : Nat) (rest : List Char), jfuelElems l ≤ fuel →
    (∀ c, rest.head? = some c → isDigitChar c = false ∧ c ≠ '.' ∧ c ≠ 'e' ∧ c ≠ 'E') →
    pElems fuel ((jserArr l).data ++ ']' :: rest) = some (l, rest)
  | [], h, _, _, _, _, _ => absurd rfl h
  | [v], _, hwfA, fuel, rest, hfu, hb => by
    obtain ⟨f, rfl⟩ : ∃ f, fuel = f + 1 := ⟨fuel - 1, by
      have := jfuelElems_pos [v]
      omega⟩
    have hwfv : jwf v = true := by simpa [jwfArr] using hwfA
    show pElems (f + 1) ((jser v).data ++ ']' :: rest) = _
    rw [pElems_step]
    rw [pVal_jser v hwfv f (']' :: rest) (by
      have h1 : jfuelElems [v] = 1 + max (jfuel v) (jfuelElems ([] : List JValue)) := rfl
      omega) (bnd_of_head ']' (by decide) rest)]
    simp [skipWs_cons ']' rest (by decide)]
  | v :: v2 :: vs, _, hwfA, fuel, rest, hfu, hb => by
    obtain ⟨f, rfl⟩ : ∃ f, fuel = f + 1 := ⟨fuel - 1, by
      have := jfuelElems_pos (v :: v2 :: vs)
      omega⟩
    have hwfv : jwf v = true ∧ jwfArr (v2 :: vs) = true := by simpa [jwfArr] using hwfA
    show pElems (f + 1) ((jser v ++ "," ++ jserArr (v2 :: vs)).data ++ ']' :: rest) = _
    rw [show (jser v ++ "," ++ jserArr (v2 :: vs)).data ++ ']' :: rest
        = (jser v).data ++ (',' :: ((jserArr (v2 :: vs)).data ++ ']' :: rest)) by
      simp [String.data_append]]
    rw [pElems_step]
    rw [pVal_jser v hwfv.1 f _ (by
      have h1 : jfuelElems (v :: v2 :: vs) = 1 + max (jfuel v) (jfuelElems (v2 :: vs)) := rfl
      omega) (bnd_of_head ',' (by decide) _)]
    have hrec : pElems f ((jserArr (v2 :: vs)).data ++ ']' :: rest) = some (v2 :: vs, rest) :=
      pElems_jser (v2 :: vs) (by simp) hwfv.2 f rest (by
        have h1 : jfuelElems (v :: v2 :: vs) = 1 + max (jfuel v) (jfuelElems (v2 :: vs)) := rfl
        omega) hb
    simp [skipWs_cons ',' _ (by decide), hrec]

theorem pMems_jser : ∀ (o : List (String × JValue)), o ≠ [] → keysSorted o = true →
    jwfObj o = true → ∀ (fuel : Nat) (rest : List Char) (acc : List (String × JValue)),
    jfuelMems o ≤ fuel →
    (∀ c, rest.head? = some c → isDigitChar c = false ∧ c ≠ '.' ∧ c ≠ 'e' ∧ c ≠ 'E') →
    (∀ p ∈ acc, ∀ q2 ∈ o, strLt p.1 q2.1 = true) →
    pMems fuel ((jserObj o).data ++ '\x7d' :: rest) acc = some (acc ++ o, rest)
  | [], h, _, _, _, _, _, _, _, _ => absurd rfl h
  | [(k, v)], _, _, hwfO, fuel, rest, acc, hfu, hb, hacc => by
    obtain ⟨f, rfl⟩ : ∃ f, fuel = f + 1 := ⟨fuel - 1, by
      have := jfuelMems_pos [(k, v)]
      omega⟩
    have hwfv : jwf v = true := by simpa [jwfObj] using hwfO
    show pMems (f + 1) ((jstr k ++ ":" ++ jser v).data ++ '\x7d' :: rest) acc = _
    rw [show (jstr k ++ ":" ++ jser v).data ++ '\x7d' :: rest
        = '"' :: (k.data.flatMap escapeChar ++ '"' :: (':' :: ((jser v).data ++ '\x7d' :: rest))) by
      simp [jstr, escapeStr, String.data_append]]
    rw [pMems_step]
    rw [skipWs_cons _ _ (by decide)]
    have hv : pVal f ((jser v).data ++ '\x7d' :: rest) = some (v, '\x7d' :: rest) :=
      pVal_jser v hwfv f ('\x7d' :: rest) (by
        have h1 : jfuelMems [(k, v)]
            = 1 + max (jfuel v) (jfuelMems ([] : List (String × JValue))) := rfl
        omega) (bnd_of_head '\x7d' (by decide) rest)
    have hoi : objInsert k v acc = acc ++ [(k, v)] :=
      objInsert_gt_append k v acc (fun p hp => hacc p hp (k, v) (by simp))
    simp only [if_pos (rfl : ('"' : Char) = '"')]
    rw [parseStrBody_escape k.data (':' :: ((jser v).data ++ '\x7d' :: rest))]
    simp [skipWs_cons ':' _ (by decide), hv, strMk_data, hoi,
      skipWs_cons '\x7d' rest (by decide)]
  | (k, v) :: kv2 :: tl, _, hs, hwfO, fuel, rest, acc, hfu, hb, hacc => by
    obtain ⟨f, rfl⟩ : ∃ f, fuel = f + 1 := ⟨fuel - 1, by
      have := jfuelMems_pos ((k, v) :: kv2 :: tl)
      omega⟩
    have hwfv : jwf v = true ∧ jwfObj (kv2 :: tl) = true := by simpa [jwfObj] using hwfO
    have hsc := keysSorted_cons (k, v) (kv2 :: tl) hs
    show pMems (f + 1) ((jstr k ++ ":" ++ jser v ++ "," ++ jserObj (kv2 :: tl)).data
      ++ '\x7d' :: rest) acc = _
    rw [show (jstr k ++ ":" ++ jser v ++ "," ++ jserObj (kv2 :: tl)).data ++ '\x7d' :: rest
        = '"' :: (k.data.flatMap escapeChar ++ '"' :: (':' :: ((jser v).data
            ++ ',' :: ((jserObj (kv2 :: tl)).data ++ '\x7d' :: rest)))) by
      simp [jstr, escapeStr, String.data_append]]
    rw [pMems_step]
    rw [skipWs_cons _ _ (by decide)]
    have hv : pVal f ((jser v).data ++ ',' :: ((jserObj (kv2 :: tl)).data ++ '\x7d' :: rest))
        = some (v, ',' :: ((jserObj (kv2 :: tl)).data ++ '\x7d' :: rest)) :=
      pVal_jser v hwfv.1 f _ (by
        have h1 : jfuelMems ((k, v) :: kv2 :: tl)
            = 1 + max (jfuel v) (jfuelMems (kv2 :: tl)) := rfl
        omega) (bnd_of_head ',' (by decide) _)
    have hoi : objInsert k v acc = acc ++ [(k, v)] :=
      objInsert_gt_append k v acc (fun p hp => hacc p hp (k, v) (by simp))
    have hrec : pMems f ((jserObj (kv2 :: tl)).data ++ '\x7d' :: rest) (acc ++ [(k, v)])
        = some ((acc ++ [(k, v)]) ++ (kv2 :: tl), rest) :=
      pMems_jser (kv2 :: tl) (by simp) hsc.1 hwfv.2 f rest (acc ++ [(k, v)]) (by
        have h1 : jfuelMems ((k, v) :: kv2 :: tl)
            = 1 + max (jfuel v) (jfuelMems (kv2 :: tl)) := rfl
        omega) hb (by
        intro p hp q2 hq2
        rcases List.mem_append.mp hp with hp | hp
        · exact hacc p hp q2 (by simp [hq2])
        · rw [List.mem_singleton.mp hp]
          exact hsc.2 q2 hq2)
    simp only [if_pos (rfl : ('"' : Char) = '"')]
    rw [parseStrBody_escape k.data (':' :: ((jser v).data
      ++ ',' :: ((jserObj (kv2 :: tl)).data ++ '\x7d' :: rest)))]
    simp [skipWs_cons ':' _ (by decide), hv, strMk_data, hoi,
      skipWs_cons ',' _ (by decide), hrec]

end

theorem floatRenderPos_pos (p : Rat) : 1 ≤ (floatRenderPos p).length := by
  cases hk : ratDecExp p with
  | none =>
    rw [show floatRenderPos p = "unrepresentable" by simp [floatRenderPos, hk]]
    decide
  | some k =>
    by_cases hk0 : k = 0
    · subst hk0
      rw [show floatRenderPos p = natStr p.num.toNat ++ ".0" by simp [floatRenderPos, hk]]
      have h1 : (".0" : String).length = 2 := rfl
      simp [String.length_append]
      omega
    · rw [show floatRenderPos p
          = natStr ((p * (10 ^ k : Rat)).num.toNat / 10 ^ k) ++ "."
            ++ String.mk (padZeros k ((p * (10 ^ k : Rat)).num.toNat % 10 ^ k)) by
        simp [floatRenderPos, hk, hk0]]
      have h1 : ("." : String).length = 1 := rfl
      simp [String.length_append]
      omega

theorem jlen_pos (v : JValue) : 1 ≤ jlen v := by
  cases v with
  | null => decide
  | bool b => cases b <;> decide
  | str s =>
    have h1 : ("\"" : String).length = 1 := rfl
    simp [jlen, jser, jstr, String.length_append]
    omega
  | arr l =>
    have h1 : ("[" : String).length = 1 := rfl
    have h2 : ("]" : String).length = 1 := rfl
    simp [jlen, jser, String.length_append]
    omega
  | obj o =>
    have h1 : ("\x7b" : String).length = 1 := rfl
    have h2 : ("\x7d" : String).length = 1 := rfl
    simp [jlen, jser, String.length_append]
    omega
  | int n =>
    rcases intStr_head n with ⟨c, ds, hds, _⟩
    show 1 ≤ (intStr n).length
    rw [show (intStr n).length = (intStr n).data.length from rfl, hds]
    simp
  | float q =>
    show 1 ≤ (floatRender q).length
    unfold floatRender
    by_cases hq : q < 0
    · rw [if_pos hq]
      have h2 : ("-" : String).length = 1 := rfl
      simp [String.length_append]
      omega
    · rw [if_neg hq]
      exact floatRenderPos_pos q

mutual

theorem jfuel_le : ∀ v : JValue, jfuel v ≤ 2 * jlen v
  | .null => by simp [jfuel]; have := jlen_pos .null; omega
  | .bool b => by simp [jfuel]; have := jlen_pos (.bool b); omega
  | .int n => by simp [jfuel]; have := jlen_pos (.int n); omega
  | .float q => by simp [jfuel]; have := jlen_pos (.float q); omega
  | .str s => by simp [jfuel]; have := jlen_pos (.str s); omega
  | .arr l => by
    have h1 := jfuelElems_le l
    have h2 : jlen (.arr l) = 2 + (jserArr l).length := by
      have hb1 : ("[" : String).length = 1 := rfl
      have hb2 : ("]" : String).length = 1 := rfl
      simp [jlen, jser, String.length_append]
      omega
    simp [jfuel]
    omega
  | .obj o => by
    have h1 := jfuelMems_le o
    have h2 : jlen (.obj o) = 2 + (jserObj o).length := by
      have hb1 : ("\x7b" : String).length = 1 := rfl
      have hb2 : ("\x7d" : String).length = 1 := rfl
      simp [jlen, jser, String.length_append]
      omega
    simp [jfuel]
    omega

theorem jfuelElems_le : ∀ l : List JValue, jfuelElems l ≤ 1 + 2 * (jserArr l).length
  | [] => by simp [jfuelElems]
  | [v] => by
    have h1 := jfuel_le v
    have h2 := jlen_pos v
    have h3 : (jserArr [v]).length = jlen v := rfl
    simp [jfuelElems, jfuelElems]
    rw [h3]
    simp [jlen] at h1 h2 ⊢
    omega
  | v :: v2 :: vs => by
    have h1 := jfuel_le v
    have h2 := jfuelElems_le (v2 :: vs)
    have h3 : (jserArr (v :: v2 :: vs)).length
        = jlen v + 1 + (jserArr (v2 :: vs)).length := by
      rw [show jserArr (v :: v2 :: vs) = jser v ++ "," ++ jserArr (v2 :: vs) from rfl]
      have hc : ("," : String).length = 1 := rfl
      simp [jlen, String.length_append]
      omega
    have h4 : jfuelElems (v :: v2 :: vs) = 1 + max (jfuel v) (jfuelElems (v2 :: vs)) := rfl
    omega

theorem jfuelMems_le : ∀ o : List (String × JValue), jfuelMems o ≤ 1 + 2 * (jserObj o).length
  | [] => by simp [jfuelMems]
  | [(k, v)] => by
    have h1 := jfuel_le v
    have h2 := jlen_pos v
    have h3 : (jserObj [(k, v)]).length = (jstr k).length + 1 + jlen v := by
      rw [show jserObj [(k, v)] = jstr k ++ ":" ++ jser v from rfl]
      have hc : (":" : String).length = 1 := rfl
      simp [jlen, String.length_append]
      omega
    have h4 : jfuelMems [(k, v)]
        = 1 + max (jfuel v) (jfuelMems ([] : List (String × JValue))) := rfl
    have h5 : jfuelMems ([] : List (String × JValue)) = 1 := rfl
    omega
  | (k, v) :: kv2 :: tl => by
    have h1 := jfuel_le v
    have h2 := jfuelMems_le (kv2 :: tl)
    have h3 : (jserObj ((k, v) :: kv2 :: tl)).length
        = (jstr k).length + 1 + jlen v + 1 + (jserObj (kv2 :: tl)).length := by
      rw [show jserObj ((k, v) :: kv2 :: tl)
          = jstr k ++ ":" ++ jser v ++ "," ++ jserObj (kv2 :: tl) from rfl]
      have hc : (":" : String).length = 1 := rfl
      have hd : ("," : String).length = 1 := rfl
      simp [jlen, String.length_append]
      omega
    have h4 : jfuelMems ((k, v) :: kv2 :: tl)
        = 1 + max (jfuel v) (jfuelMems (kv2 :: tl)) := rfl
    omega

end

theorem jparse_jser (v : JValue) (hwf : jwf v = true) : jparse (jser v) = some v := by
  unfold jparse
  have hfu : jfuel v ≤ 2 * (jser v).length + 2 := by
    have := jfuel_le v
    simp [jlen] at this
    omega
  have hp := pVal_jser v hwf (2 * (jser v).length + 2) [] hfu (by simp)
  rw [show (jser v).data ++ ([] : List Char) = (jser v).data by simp] at hp
  rw [hp]
  simp [skipWs]

/-! Dictionary invariants of the columnar compactor. -/

theorem StLE_refl (st : EC.State) : Inv.StLE st st := ⟨List.prefix_refl _, List.prefix_refl _⟩

theorem StLE_trans (a b c : EC.State) (h1 : Inv.StLE a b) (h2 : Inv.StLE b c) : Inv.StLE a c :=
  ⟨h1.1.trans h2.1, h1.2.trans h2.2⟩

theorem internString_spec (st : EC.State) (stats : EC.Stats) (s : String) :
    (EC.internString st stats s).1.stringDict.lookup s = some (EC.internString st stats s).2.2 ∧
    Inv.StLE st (EC.internString st stats s).1 ∧
    (EC.internString st stats s).1.urlDict = st.urlDict := by
  unfold EC.internString
  cases h : st.stringDict.lookup s with
  | some id => exact ⟨by simpa using h, StLE_refl st, rfl⟩
  | none =>
    refine ⟨?_, ⟨List.prefix_refl _, ⟨[(s, st.nextStringId)], rfl⟩⟩, rfl⟩
    show (st.stringDict ++ [(s, st.nextStringId)]).lookup s = _
    rw [lookup_append_right s _ _ h]
    simp [List.lookup]

theorem internUrl_spec (st : EC.State) (stats : EC.Stats) (s : String) :
    (EC.internUrl st stats s).1.urlDict.lookup s = some (EC.internUrl st stats s).2.2 ∧
    Inv.StLE st (EC.internUrl st stats s).1 ∧
    (EC.internUrl st stats s).1.stringDict = st.stringDict := by
  unfold EC.internUrl
  cases h : st.urlDict.lookup s with
  | some id => exact ⟨by simpa using h, StLE_refl st, rfl⟩
  | none =>
    refine ⟨?_, ⟨⟨[(s, st.nextUrlId)], rfl⟩, List.prefix_refl _⟩, rfl⟩
    show (st.urlDict ++ [(s, st.nextUrlId)]).lookup s = _
    rw [lookup_append_right s _ _ h]
    simp [List.lookup]

theorem DictInv_extend (d : List (String × Nat)) (next : Nat) (s : String)
    (hinv : Inv.DictInv d next) (h : d.lookup s = none) :
    Inv.DictInv (d ++ [(s, next)]) (next + 1) := by
  obtain ⟨h1, h2, h3⟩ := hinv
  refine ⟨by simp; omega, ?_, ?_⟩
  · rw [List.map_append, h2, h1]
    simp [List.range'_concat]
    omega
  · rw [List.map_append, List.nodup_append]
    refine ⟨h3, by simp, ?_⟩
    intro a ha
    simp only [List.map_cons, List.map_nil, List.mem_singleton]
    intro he
    subst he
    exact (lookup_eq_none_iff a d).mp h ha

theorem internString_inv (st : EC.State) (stats : EC.Stats) (s : String)
    (hinv : Inv.StInv st) : Inv.StInv (EC.internString st stats s).1 := by
  unfold EC.internString
  cases h : st.stringDict.lookup s with
  | some id => exact hinv
  | none => exact ⟨hinv.1, DictInv_extend _ _ s hinv.2 h⟩

theorem internUrl_inv (st : EC.State) (stats : EC.Stats) (s : String)
    (hinv : Inv.StInv st) : Inv.StInv (EC.internUrl st stats s).1 := by
  unfold EC.internUrl
  cases h : st.urlDict.lookup s with
  | some id => exact hinv
  | none => exact ⟨DictInv_extend _ _ s hinv.1 h, hinv.2⟩

theorem lookupN_mem (k : Nat) (l : List (Nat × String)) (c : String)
    (h : l.lookup k = some c) : (k, c) ∈ l := by
  induction l with
  | nil => simp [List.lookup] at h
  | cons hd tl ih =>
    obtain ⟨k0, c0⟩ := hd
    by_cases he : k = k0
    · subst he
      simp [List.lookup] at h
      simp [h]
    · have hb : (k == k0) = false := by simp [he]
      simp only [List.lookup, hb] at h
      exact List.mem_cons_of_mem _ (ih h)

theorem memN_lookup (k : Nat) (l : List (Nat × String)) (c : String)
    (hnd : (l.map Prod.fst).Nodup) (h : (k, c) ∈ l) : l.lookup k = some c := by
  induction l with
  | nil => simp at h
  | cons hd tl ih =>
    obtain ⟨k0, c0⟩ := hd
    simp only [List.map_cons, List.nodup_cons] at hnd
    rcases List.mem_cons.mp h with he | htl
    · rw [Prod.mk.injEq] at he
      obtain ⟨he1, he2⟩ := he
      subst he1
      subst he2
      simp [List.lookup]
    · have hne : k ≠ k0 := by
        intro he2
        subst he2
        exact hnd.1 (List.mem_map.mpr ⟨(k, c), htl, rfl⟩)
      have hb : (k == k0) = false := by simp [hne]
      simp only [List.lookup, hb]
      exact ih hnd.2 htl

theorem reverse_resolve (d : List (String × Nat)) (next : Nat) (hinv : Inv.DictInv d next)
    (s : String) (id : Nat) (hl : d.lookup s = some id) :
    (DC.reverseLookupOf d).lookup id = some s := by
  obtain ⟨_, h2, _⟩ := hinv
  have hmem : (s, id) ∈ d := lookup_mem s d id hl
  have hmem2 : (id, s) ∈ DC.reverseLookupOf d := by
    unfold DC.reverseLookupOf
    exact List.mem_map.mpr ⟨(s, id), hmem, rfl⟩
  refine memN_lookup id _ s ?_ hmem2
  unfold DC.reverseLookupOf
  rw [show (d.map (fun p => (p.2, p.1))).map Prod.fst = d.map Prod.snd by
    simp [List.map_map]]
  rw [h2]
  exact List.nodup_range' _ _

theorem fillField_st (st : EC.State) (stats : EC.Stats) (g : EC.Group)
    (o : List (String × JValue)) (f : String) (t : EC.FieldType) :
    Inv.StLE st (EC.fillField st stats g o f t).1 ∧
    (Inv.StInv st → Inv.StInv (EC.fillField st stats g o f t).1) := by
  cases t with
  | str =>
    cases h : (EC.findVal o f).bind JValue.asStr with
    | none =>
      simp only [EC.fillField, h]
      exact ⟨StLE_refl st, id⟩
    | some s =>
      simp only [EC.fillField, h]
      exact ⟨(internString_spec st stats s).2.1, internString_inv st stats s⟩
  | url =>
    cases h : (EC.findVal o f).bind JValue.asStr with
    | none =>
      simp only [EC.fillField, h]
      exact ⟨StLE_refl st, id⟩
    | some s =>
      simp only [EC.fillField, h]
      exact ⟨(internUrl_spec st stats s).2.1, internUrl_inv st stats s⟩
  | json =>
    cases h : EC.findVal o f with
    | none =>
      simp only [EC.fillField, h]
      exact ⟨StLE_refl st, id⟩
    | some v =>
      simp only [EC.fillField, h]
      exact ⟨(internString_spec st stats (jser v)).2.1, internString_inv st stats (jser v)⟩
  | int => exact ⟨StLE_refl st, id⟩
  | float => exact ⟨StLE_refl st, id⟩
  | bool => exact ⟨StLE_refl st, id⟩
  | array t2 => exact ⟨StLE_refl st, id⟩

theorem fillResource_st : ∀ (fields : List (String × EC.FieldType)) (st : EC.State)
    (stats : EC.Stats) (g : EC.Group) (o : List (String × JValue)),
    Inv.StLE st (EC.fillResource st stats g o fields).1 ∧
    (Inv.StInv st → Inv.StInv (EC.fillResource st stats g o fields).1) := by
  intro fields
  induction fields with
  | nil => intro st stats g o; exact ⟨StLE_refl st, id⟩
  | cons ft rest ih =>
    intro st stats g o
    obtain ⟨f, t⟩ := ft
    have hstep : EC.fillResource st stats g o ((f, t) :: rest)
        = EC.fillResource (EC.fillField st stats g o f t).1 (EC.fillField st stats g o f t).2.1
            (EC.fillField st stats g o f t).2.2 o rest := rfl
    rw [hstep]
    have h1 := fillField_st st stats g o f t
    have h2 := ih (EC.fillField st stats g o f t).1 (EC.fillField st stats g o f t).2.1
      (EC.fillField st stats g o f t).2.2 o
    exact ⟨StLE_trans _ _ _ h1.1 h2.1, fun hi => h2.2 (h1.2 hi)⟩

theorem fillLoop_st : ∀ (resources : List JValue) (st : EC.State) (stats : EC.Stats)
    (fields : List (String × EC.FieldType)) (g : EC.Group),
    Inv.StLE st (EC.fillLoop st stats fields resources g).1 ∧
    (Inv.StInv st → Inv.StInv (EC.fillLoop st stats fields resources g).1) := by
  intro resources
  induction resources with
  | nil => intro st stats fields g; exact ⟨StLE_refl st, id⟩
  | cons r rest ih =>
    intro st stats fields g
    match r with
    | .obj o =>
      have hstep : EC.fillLoop st stats fields (JValue.obj o :: rest) g
          = EC.fillLoop (EC.fillResource st stats g o fields).1
              (EC.fillResource st stats g o fields).2.1 fields rest
              (EC.fillResource st stats g o fields).2.2 := rfl
      rw [hstep]
      have h1 := fillResource_st fields st stats g o
      have h2 := ih (EC.fillResource st stats g o fields).1
        (EC.fillResource st stats g o fields).2.1 fields
        (EC.fillResource st stats g o fields).2.2
      exact ⟨StLE_trans _ _ _ h1.1 h2.1, fun hi => h2.2 (h1.2 hi)⟩
    | .null | .bool _ | .int _ | .float _ | .str _ | .arr _ => exact ih _ _ _ _

theorem convertToColumnar_st (st : EC.State) (stats : EC.Stats) (resources : List JValue) :
    Inv.StLE st (EC.convertToColumnar st stats resources).1 ∧
    (Inv.StInv st → Inv.StInv (EC.convertToColumnar st stats resources).1) := by
  have hstep : EC.convertToColumnar st stats resources
      = EC.fillLoop st (EC.allFields stats resources []).1 (EC.allFields stats resources []).2
          resources (EC.initColumns resources.length (EC.allFields stats resources []).2) := rfl
  rw [hstep]
  exact fillLoop_st resources st _ _ _

theorem convertGroups_st : ∀ (groups : List (String × List JValue)) (st : EC.State)
    (stats : EC.Stats) (data : List (String × EC.Group))
    (schema : List (String × EC.ResourceSchema)),
    Inv.StLE st (EC.convertGroups st stats data schema groups).1 ∧
    (Inv.StInv st → Inv.StInv (EC.convertGroups st stats data schema groups).1) := by
  intro groups
  induction groups with
  | nil => intro st stats data schema; exact ⟨StLE_refl st, id⟩
  | cons g rest ih =>
    intro st stats data schema
    obtain ⟨tn, rs⟩ := g
    have hstep : EC.convertGroups st stats data schema ((tn, rs) :: rest)
        = EC.convertGroups (EC.convertToColumnar st stats rs).1
            (EC.convertToColumnar st stats rs).2.1
            (data ++ [(tn, (EC.convertToColumnar st stats rs).2.2)])
            (aupdate tn (EC.inferSchema rs) schema) rest := rfl
    rw [hstep]
    have h1 := convertToColumnar_st st stats rs
    have h2 := ih (EC.convertToColumnar st stats rs).1 (EC.convertToColumnar st stats rs).2.1
      (data ++ [(tn, (EC.convertToColumnar st stats rs).2.2)])
      (aupdate tn (EC.inferSchema rs) schema)
    exact ⟨StLE_trans _ _ _ h1.1 h2.1, fun hi => h2.2 (h1.2 hi)⟩

theorem new_StInv : Inv.StInv EC.new := by
  refine ⟨⟨rfl, rfl, List.nodup_nil⟩, ⟨rfl, rfl, List.nodup_nil⟩⟩

theorem EC_convertGroups_data_st : ∀ (groups : List (String × List JValue)) (st : EC.State)
    (stats : EC.Stats) (data : List (String × EC.Group))
    (schema : List (String × EC.ResourceSchema)), Inv.StInv st →
    ∀ p ∈ (EC.convertGroups st stats data schema groups).2.2.1,
      p ∈ data ∨ ∃ st0 stats0 tn rs, (tn, rs) ∈ groups ∧
        p = (tn, (EC.convertToColumnar st0 stats0 rs).2.2) ∧
        Inv.StInv st0 ∧
        Inv.StLE (EC.convertToColumnar st0 stats0 rs).1
          (EC.convertGroups st stats data schema groups).1 := by
  intro groups
  induction groups with
  | nil => intro st stats data schema _ p hp; exact Or.inl (by simpa [EC.convertGroups] using hp)
  | cons g rest ih =>
    intro st stats data schema hinv p hp
    obtain ⟨tn, rs⟩ := g
    have hstep : EC.convertGroups st stats data schema ((tn, rs) :: rest)
        = EC.convertGroups (EC.convertToColumnar st stats rs).1
            (EC.convertToColumnar st stats rs).2.1
            (data ++ [(tn, (EC.convertToColumnar st stats rs).2.2)])
            (aupdate tn (EC.inferSchema rs) schema) rest := rfl
    rw [hstep] at hp ⊢
    have hinv1 : Inv.StInv (EC.convertToColumnar st stats rs).1 :=
      (convertToColumnar_st st stats rs).2 hinv
    rcases ih _ _ _ _ hinv1 p hp with hmem | ⟨st0, stats0, tn0, rs0, hin, hpe, hi0, hle0⟩
    · rcases List.mem_append.mp hmem with hmem | hmem
      · exact Or.inl hmem
      · refine Or.inr ⟨st, stats, tn, rs, by simp, List.mem_singleton.mp hmem, hinv, ?_⟩
        exact (convertGroups_st rest (EC.convertToColumnar st stats rs).1
          (EC.convertToColumnar st stats rs).2.1
          (data ++ [(tn, (EC.convertToColumnar st stats rs).2.2)])
          (aupdate tn (EC.inferSchema rs) schema)).1
    · exact Or.inr ⟨st0, stats0, tn0, rs0, by simp [hin], hpe, hi0, hle0⟩

/-! Key abbreviation and expansion under the claim's field-name
hypothesis. -/

theorem shorts_nodup : ((EC.propertyAbbrevs.map Prod.snd).Nodup) := by decide

theorem shorts_not_dom : ∀ ab ∈ EC.propertyAbbrevs.map Prod.snd,
    EC.propertyAbbrevs.lookup ab = none := by decide

theorem snd_inj (l : List (String × String)) (hnd : (l.map Prod.snd).Nodup)
    (a c b : String) (h1 : (a, b) ∈ l) (h2 : (c, b) ∈ l) : a = c := by
  induction l with
  | nil => simp at h1
  | cons hd tl ih =>
    obtain ⟨k0, v0⟩ := hd
    simp only [List.map_cons, List.nodup_cons] at hnd
    rcases List.mem_cons.mp h1 with he1 | h1' <;> rcases List.mem_cons.mp h2 with he2 | h2'
    · rw [Prod.mk.injEq] at he1 he2
      rw [he1.1, he2.1]
    · rw [Prod.mk.injEq] at he1
      exact absurd (List.mem_map.mpr ⟨(c, b), h2', by simp [← he1.2]⟩) hnd.1
    · rw [Prod.mk.injEq] at he2
      exact absurd (List.mem_map.mpr ⟨(a, b), h1', by simp [← he2.2]⟩) hnd.1
    · exact ih hnd.2 h1' h2'

theorem abbrevName_not_dom (k : String) :
    EC.propertyAbbrevs.lookup (Spec.abbrevName k) = none := by
  cases hk : EC.propertyAbbrevs.lookup k with
  | none => simpa [Spec.abbrevName, hk] using hk
  | some ab =>
    rw [show Spec.abbrevName k = ab by simp [Spec.abbrevName, hk]]
    exact shorts_not_dom ab (List.mem_map.mpr ⟨(k, ab), lookup_mem _ _ _ hk, rfl⟩)

theorem goodKey_static_mem (k ab : String) (hk : EC.propertyAbbrevs.lookup k = some ab) :
    ab ∈ EC.propertyAbbrevs.map Prod.snd :=
  List.mem_map.mpr ⟨(k, ab), lookup_mem _ _ _ hk, rfl⟩

theorem goodKey_of_short_false (ab : String) (hmem : ab ∈ EC.propertyAbbrevs.map Prod.snd) :
    Spec.goodKey ab = false := by
  have hdom : EC.propertyAbbrevs.lookup ab = none := shorts_not_dom ab hmem
  have h1 : ab ∉ Spec.staticDomain := by
    have := (lookup_eq_none_iff ab EC.propertyAbbrevs).mp hdom
    simpa [Spec.staticDomain] using this
  have h2 : ab ∈ Spec.staticShorts := by simpa [Spec.staticShorts] using hmem
  simp [Spec.goodKey, h1, h2]

theorem abbrev_inj (k1 k2 : String) (h1 : Spec.goodKey k1 = true) (h2 : Spec.goodKey k2 = true)
    (he : Spec.abbrevName k1 = Spec.abbrevName k2) : k1 = k2 := by
  cases hk1 : EC.propertyAbbrevs.lookup k1 with
  | none =>
    cases hk2 : EC.propertyAbbrevs.lookup k2 with
    | none => simpa [Spec.abbrevName, hk1, hk2] using he
    | some ab2 =>
      rw [show Spec.abbrevName k1 = k1 by simp [Spec.abbrevName, hk1],
        show Spec.abbrevName k2 = ab2 by simp [Spec.abbrevName, hk2]] at he
      subst he
      rw [goodKey_of_short_false k1 (goodKey_static_mem k2 k1 hk2)] at h1
      exact absurd h1 (by simp)
  | some ab1 =>
    cases hk2 : EC.propertyAbbrevs.lookup k2 with
    | none =>
      rw [show Spec.abbrevName k1 = ab1 by simp [Spec.abbrevName, hk1],
        show Spec.abbrevName k2 = k2 by simp [Spec.abbrevName, hk2]] at he
      subst he
      rw [goodKey_of_short_false ab1 (goodKey_static_mem k1 ab1 hk1)] at h2
      exact absurd h2 (by simp)
    | some ab2 =>
      rw [show Spec.abbrevName k1 = ab1 by simp [Spec.abbrevName, hk1],
        show Spec.abbrevName k2 = ab2 by simp [Spec.abbrevName, hk2]] at he
      subst he
      exact snd_inj EC.propertyAbbrevs shorts_nodup k1 k2 ab1
        (lookup_mem _ _ _ hk1) (lookup_mem _ _ _ hk2)

theorem expandKey_abbrev (k : String) (h : Spec.goodKey k = true) :
    EC.expandKey (EC.propertyAbbrevs.map (fun p => (p.2, p.1))) (Spec.abbrevName k) = k := by
  have hkeys : (EC.propertyAbbrevs.map (fun p => ((p.2 : String), (p.1 : String)))).map Prod.fst
      = EC.propertyAbbrevs.map Prod.snd := by
    simp [List.map_map]
  cases hk : EC.propertyAbbrevs.lookup k with
  | some ab =>
    rw [show Spec.abbrevName k = ab by simp [Spec.abbrevName, hk]]
    unfold EC.expandKey
    rw [mem_lookup ab _ k (by rw [hkeys]; exact shorts_nodup)
      (List.mem_map.mpr ⟨(k, ab), lookup_mem _ _ _ hk, rfl⟩)]
    rfl
  | none =>
    rw [show Spec.abbrevName k = k by simp [Spec.abbrevName, hk]]
    unfold EC.expandKey
    have hnm : (EC.propertyAbbrevs.map (fun p => (p.2, p.1))).lookup k = none := by
      rw [lookup_eq_none_iff, hkeys]
      intro hmem
      rw [goodKey_of_short_false k hmem] at h
      exact absurd h (by simp)
    rw [hnm]
    rfl

theorem dom_nodup : ((EC.propertyAbbrevs.map Prod.fst).Nodup) := by decide

theorem find?_table : ∀ (l : List (String × String)), (l.map Prod.snd).Nodup →
    ∀ (o : List (String × JValue)) (k ab : String), (k, ab) ∈ l →
    (o.lookup k).isSome = true →
    l.find? (fun p => p.2 = ab ∧ (o.lookup p.1).isSome) = some (k, ab) := by
  intro l
  induction l with
  | nil => intro _ o k ab hmem; simp at hmem
  | cons hd tl ih =>
    intro hnd o k ab hmem hsome
    obtain ⟨k0, ab0⟩ := hd
    simp only [List.map_cons, List.nodup_cons] at hnd
    rcases List.mem_cons.mp hmem with he | hmem'
    · rw [Prod.mk.injEq] at he
      obtain ⟨he1, he2⟩ := he
      subst he1
      subst he2
      apply List.find?_cons_of_pos
      simp [hsome]
    · have hne : ab0 ≠ ab := by
        intro he
        subst he
        exact hnd.1 (List.mem_map.mpr ⟨(k, ab0), hmem', rfl⟩)
      rw [List.find?_cons_of_neg]
      · exact ih hnd.2 o k ab hmem' hsome
      · simp [hne]

theorem findVal_abbrev (o : List (String × JValue)) (hnd : (o.map Prod.fst).Nodup)
    (hgood : ∀ kv ∈ o, Spec.goodKey kv.1 = true) (k : String) (v : JValue)
    (hmem : (k, v) ∈ o) : EC.findVal o (Spec.abbrevName k) = some v := by
  cases hk : EC.propertyAbbrevs.lookup k with
  | none =>
    rw [show Spec.abbrevName k = k by simp [Spec.abbrevName, hk]]
    unfold EC.findVal EC.findOriginalKey
    rw [mem_lookup k o v hnd hmem]
    simp [mem_lookup k o v hnd hmem]
  | some ab =>
    rw [show Spec.abbrevName k = ab by simp [Spec.abbrevName, hk]]
    unfold EC.findVal EC.findOriginalKey
    have hnab : o.lookup ab = none := by
      rw [lookup_eq_none_iff]
      intro hm
      rcases List.mem_map.mp hm with ⟨kv, hkv, hke⟩
      have hg := hgood kv hkv
      rw [hke] at hg
      rw [goodKey_of_short_false ab (goodKey_static_mem k ab hk)] at hg
      exact absurd hg (by simp)
    rw [hnab]
    rw [find?_table EC.propertyAbbrevs shorts_nodup o k ab (lookup_mem _ _ _ hk)
      (by simp [mem_lookup k o v hnd hmem])]
    simp [mem_lookup k o v hnd hmem]

theorem findVal_none_of (o : List (String × JValue))
    (hgood : ∀ kv ∈ o, Spec.goodKey kv.1 = true)
    (f : String) (hfdom : EC.propertyAbbrevs.lookup f = none)
    (hnone : ∀ kv ∈ o, Spec.abbrevName kv.1 ≠ f) :
    EC.findVal o f = none := by
  unfold EC.findVal EC.findOriginalKey
  have h1 : o.lookup f = none := by
    rw [lookup_eq_none_iff]
    intro hm
    rcases List.mem_map.mp hm with ⟨kv, hkv, hke⟩
    apply hnone kv hkv
    rw [hke]
    simp [Spec.abbrevName, hfdom]
  rw [h1]
  have h2 : EC.propertyAbbrevs.find? (fun p => p.2 = f ∧ (o.lookup p.1).isSome) = none := by
    rw [List.find?_eq_none]
    intro p hp
    simp only [Bool.not_eq_true, decide_eq_false_iff_not, not_and]
    intro hpf
    cases hw : List.lookup p.1 o with
    | none => rfl
    | some w =>
      exfalso
      apply hnone (p.1, w) (lookup_mem _ _ _ hw)
      show Spec.abbrevName p.1 = f
      have hlk : EC.propertyAbbrevs.lookup p.1 = some p.2 := by
        apply mem_lookup p.1 _ p.2 dom_nodup
        simpa using hp
      rw [show Spec.abbrevName p.1 = p.2 by simp [Spec.abbrevName, hlk]]
      exact hpf
  rw [h2]
  simp [h1]

theorem cpush_lookup_self {α : Type} (f : String) (cell : α) : ∀ cols : List (String × List α),
    (EC.cpush f cell cols).lookup f = some (((cols.lookup f).getD []) ++ [cell]) := by
  intro cols
  induction cols with
  | nil => simp [EC.cpush, List.lookup]
  | cons hd tl ih =>
    obtain ⟨k', cs⟩ := hd
    by_cases h : f = k'
    · subst h
      simp [EC.cpush, List.lookup]
    · have hb : (f == k') = false := by simp [h]
      simp [EC.cpush, List.lookup, h, hb, ih]

theorem cpush_lookup_other {α : Type} (f f' : String) (cell : α) (hne : f' ≠ f) :
    ∀ cols : List (String × List α), (EC.cpush f cell cols).lookup f' = cols.lookup f' := by
  intro cols
  induction cols with
  | nil =>
    have hb : (f' == f) = false := by simp [hne]
    simp [EC.cpush, List.lookup, hb]
  | cons hd tl ih =>
    obtain ⟨k', cs⟩ := hd
    by_cases h : f = k'
    · subst h
      have hb : (f' == f) = false := by simp [hne]
      simp [EC.cpush, List.lookup, hb]
    · by_cases h2 : f' = k'
      · subst h2
        simp [EC.cpush, List.lookup, h]
      · have hb2 : (f' == k') = false := by simp [h2]
        simp [EC.cpush, List.lookup, h, hb2, ih]

theorem CellStr_mono (d d' : List (String × Nat)) (o : List (String × JValue)) (f : String)
    (cell : Option Nat) (hpre : d <+: d') (h : Inv.CellStr d o f cell) :
    Inv.CellStr d' o f cell := by
  unfold Inv.CellStr at h ⊢
  cases hv : (EC.findVal o f).bind JValue.asStr with
  | none => simp only [hv] at h ⊢; exact h
  | some s =>
    simp only [hv] at h ⊢
    rcases h with ⟨c, hc, hl⟩
    exact ⟨c, hc, lookup_prefix s d d' c hpre hl⟩

theorem CellUrl_mono (d d' : List (String × Nat)) (o : List (String × JValue)) (f : String)
    (cell : Option Nat) (hpre : d <+: d') (h : Inv.CellUrl d o f cell) :
    Inv.CellUrl d' o f cell := by
  unfold Inv.CellUrl at h ⊢
  cases hv : (EC.findVal o f).bind JValue.asStr with
  | none => simp only [hv] at h ⊢; exact h
  | some s =>
    simp only [hv] at h ⊢
    rcases h with ⟨c, hc, hl⟩
    exact ⟨c, hc, lookup_prefix s d d' c hpre hl⟩

theorem CellJson_mono (d d' : List (String × Nat)) (o : List (String × JValue)) (f : String)
    (cell : Option Nat) (hpre : d <+: d') (h : Inv.CellJson d o f cell) :
    Inv.CellJson d' o f cell := by
  unfold Inv.CellJson at h ⊢
  cases hv : EC.findVal o f with
  | none => simp only [hv] at h ⊢; exact h
  | some v =>
    simp only [hv] at h ⊢
    rcases h with ⟨c, hc, hl⟩
    exact ⟨c, hc, lookup_prefix (jser v) d d' c hpre hl⟩

theorem ColOK_mono (st st' : EC.State) (os : List (List (String × JValue))) (g : EC.Group)
    (f : String) (t : EC.FieldType) (hle : Inv.StLE st st') (h : Inv.ColOK st os g f t) :
    Inv.ColOK st' os g f t := by
  cases t with
  | str =>
    rcases h with ⟨cells, h1, h2, h3⟩
    exact ⟨cells, h1, h2, fun i o cell hi hc => CellStr_mono _ _ o f cell hle.2 (h3 i o cell hi hc)⟩
  | url =>
    rcases h with ⟨cells, h1, h2, h3⟩
    exact ⟨cells, h1, h2, fun i o cell hi hc => CellUrl_mono _ _ o f cell hle.1 (h3 i o cell hi hc)⟩
  | json =>
    rcases h with ⟨cells, h1, h2, h3⟩
    exact ⟨cells, h1, h2, fun i o cell hi hc => CellJson_mono _ _ o f cell hle.2 (h3 i o cell hi hc)⟩
  | int => exact h
  | float => exact h
  | bool => exact h
  | array t2 => exact h

theorem fillField_frame (st : EC.State) (stats : EC.Stats) (g : EC.Group)
    (o : List (String × JValue)) (f : String) (t : EC.FieldType) :
    (EC.fillField st stats g o f t).2.2.count = g.count ∧
    (t ≠ EC.FieldType.str → (EC.fillField st stats g o f t).2.2.strCols = g.strCols) ∧
    (t ≠ EC.FieldType.int → (EC.fillField st stats g o f t).2.2.intCols = g.intCols) ∧
    (t ≠ EC.FieldType.float → (EC.fillField st stats g o f t).2.2.floatCols = g.floatCols) ∧
    (t ≠ EC.FieldType.bool → (EC.fillField st stats g o f t).2.2.boolCols = g.boolCols) ∧
    (t ≠ EC.FieldType.url → (EC.fillField st stats g o f t).2.2.urlCols = g.urlCols) ∧
    (t ≠ EC.FieldType.json → (EC.fillField st stats g o f t).2.2.jsonCols = g.jsonCols) := by
  cases t with
  | str =>
    cases h : (EC.findVal o f).bind JValue.asStr with
    | none => simp [EC.fillField, h]
    | some s => simp [EC.fillField, h]
  | url =>
    cases h : (EC.findVal o f).bind JValue.asStr with
    | none => simp [EC.fillField, h]
    | some s => simp [EC.fillField, h]
  | json =>
    cases h : EC.findVal o f with
    | none => simp [EC.fillField, h]
    | some v => simp [EC.fillField, h]
  | int => simp [EC.fillField]
  | float => simp [EC.fillField]
  | bool => simp [EC.fillField]
  | array t2 => simp [EC.fillField]

theorem fillField_cell (st : EC.State) (stats : EC.Stats) (g : EC.Group)
    (o : List (String × JValue)) (f : String) (t : EC.FieldType) :
    match t with
    | EC.FieldType.str => ∃ c, (EC.fillField st stats g o f t).2.2.strCols = EC.cpush f c g.strCols ∧
        Inv.CellStr (EC.fillField st stats g o f t).1.stringDict o f c
    | EC.FieldType.url => ∃ c, (EC.fillField st stats g o f t).2.2.urlCols = EC.cpush f c g.urlCols ∧
        Inv.CellUrl (EC.fillField st stats g o f t).1.urlDict o f c
    | EC.FieldType.json => ∃ c, (EC.fillField st stats g o f t).2.2.jsonCols = EC.cpush f c g.jsonCols ∧
        Inv.CellJson (EC.fillField st stats g o f t).1.stringDict o f c
    | EC.FieldType.int => (EC.fillField st stats g o f t).2.2.intCols
        = EC.cpush f ((EC.findVal o f).bind JValue.asI64) g.intCols
    | EC.FieldType.float => (EC.fillField st stats g o f t).2.2.floatCols
        = EC.cpush f ((EC.findVal o f).bind JValue.asF64) g.floatCols
    | EC.FieldType.bool => (EC.fillField st stats g o f t).2.2.boolCols
        = EC.cpush f (((EC.findVal o f).bind JValue.asBool).getD false) g.boolCols
    | EC.FieldType.array _ => (EC.fillField st stats g o f t).2.2 = g := by
  cases t with
  | str =>
    cases h : (EC.findVal o f).bind JValue.asStr with
    | none =>
      refine ⟨none, ?_, ?_⟩
      · simp [EC.fillField, h]
      · simp only [Inv.CellStr, h]
    | some s =>
      refine ⟨some (EC.internString st stats s).2.2, ?_, ?_⟩
      · simp [EC.fillField, h]
      · simp only [EC.fillField, h]
        simp only [Inv.CellStr, h]
        exact ⟨_, rfl, (internString_spec st stats s).1⟩
  | url =>
    cases h : (EC.findVal o f).bind JValue.asStr with
    | none =>
      refine ⟨none, ?_, ?_⟩
      · simp [EC.fillField, h]
      · simp only [Inv.CellUrl, h]
    | some s =>
      refine ⟨some (EC.internUrl st stats s).2.2, ?_, ?_⟩
      · simp [EC.fillField, h]
      · simp only [EC.fillField, h]
        simp only [Inv.CellUrl, h]
        exact ⟨_, rfl, (internUrl_spec st stats s).1⟩
  | json =>
    cases h : EC.findVal o f with
    | none =>
      refine ⟨none, ?_, ?_⟩
      · simp [EC.fillField, h]
      · simp only [Inv.CellJson, h]
    | some v =>
      refine ⟨some (EC.internString st stats (jser v)).2.2, ?_, ?_⟩
      · simp [EC.fillField, h]
      · simp only [EC.fillField, h]
        simp only [Inv.CellJson, h]
        exact ⟨_, rfl, (internString_spec st stats (jser v)).1⟩
  | int => simp [EC.fillField]
  | float => simp [EC.fillField]
  | bool => simp [EC.fillField]
  | array t2 => simp [EC.fillField]

theorem lookup_append_pres {α : Type} (f : String) (l1 l2 : List (String × α))
    (h : (l1.lookup f).isSome = true) : (l1 ++ l2).lookup f = l1.lookup f := by
  rcases Option.isSome_iff_exists.mp h with ⟨c, hc⟩
  rw [lookup_append_left f l1 l2 c hc, hc]

theorem lookup_append_one_ne {α : Type} (f f0 : String) (x : α) (l : List (String × α))
    (hne : f ≠ f0) (h : l.lookup f = none) : (l ++ [(f0, x)]).lookup f = none := by
  rw [lookup_append_right f l _ h]
  have hb : (f == f0) = false := by simp [hne]
  simp [List.lookup, hb]

theorem lookup_append_one_self {α : Type} (f : String) (x : α) (l : List (String × α))
    (h : l.lookup f = none) : (l ++ [(f, x)]).lookup f = some x := by
  rw [lookup_append_right f l _ h]
  simp [List.lookup]

theorem initColStep_le (g : EC.Group) (fv : String × EC.FieldType) (f : String) :
    ((g.strCols.lookup f).isSome = true →
      (EC.initColStep g fv).strCols.lookup f = g.strCols.lookup f) ∧
    ((g.intCols.lookup f).isSome = true →
      (EC.initColStep g fv).intCols.lookup f = g.intCols.lookup f) ∧
    ((g.floatCols.lookup f).isSome = true →
      (EC.initColStep g fv).floatCols.lookup f = g.floatCols.lookup f) ∧
    ((g.boolCols.lookup f).isSome = true →
      (EC.initColStep g fv).boolCols.lookup f = g.boolCols.lookup f) ∧
    ((g.urlCols.lookup f).isSome = true →
      (EC.initColStep g fv).urlCols.lookup f = g.urlCols.lookup f) ∧
    ((g.jsonCols.lookup f).isSome = true →
      (EC.initColStep g fv).jsonCols.lookup f = g.jsonCols.lookup f) := by
  obtain ⟨fn, ft⟩ := fv
  cases ft <;>
    refine ⟨?_, ?_, ?_, ?_, ?_, ?_⟩ <;>
    first
      | (intro hs; rfl)
      | (intro hs; exact lookup_append_pres f _ _ hs)

theorem initCols_pres : ∀ (fields : List (String × EC.FieldType)) (g : EC.Group) (f : String),
    ((g.strCols.lookup f).isSome = true →
      (fields.foldl EC.initColStep g).strCols.lookup f = g.strCols.lookup f) ∧
    ((g.intCols.lookup f).isSome = true →
      (fields.foldl EC.initColStep g).intCols.lookup f = g.intCols.lookup f) ∧
    ((g.floatCols.lookup f).isSome = true →
      (fields.foldl EC.initColStep g).floatCols.lookup f = g.floatCols.lookup f) ∧
    ((g.boolCols.lookup f).isSome = true →
      (fields.foldl EC.initColStep g).boolCols.lookup f = g.boolCols.lookup f) ∧
    ((g.urlCols.lookup f).isSome = true →
      (fields.foldl EC.initColStep g).urlCols.lookup f = g.urlCols.lookup f) ∧
    ((g.jsonCols.lookup f).isSome = true →
      (fields.foldl EC.initColStep g).jsonCols.lookup f = g.jsonCols.lookup f) := by
  intro fields
  induction fields with
  | nil =>
    intro g f
    exact ⟨fun _ => rfl, fun _ => rfl, fun _ => rfl, fun _ => rfl, fun _ => rfl, fun _ => rfl⟩
  | cons fv rest ih =>
    intro g f
    have hstep : ((fv :: rest).foldl EC.initColStep g)
        = rest.foldl EC.initColStep (EC.initColStep g fv) := rfl
    have hst := initColStep_le g fv f
    have ih2 := ih (EC.initColStep g fv) f
    refine ⟨?_, ?_, ?_, ?_, ?_, ?_⟩
    · intro hs
      rw [hstep, ih2.1 (by rw [hst.1 hs]; exact hs), hst.1 hs]
    · intro hs
      rw [hstep, ih2.2.1 (by rw [hst.2.1 hs]; exact hs), hst.2.1 hs]
    · intro hs
      rw [hstep, ih2.2.2.1 (by rw [hst.2.2.1 hs]; exact hs), hst.2.2.1 hs]
    · intro hs
      rw [hstep, ih2.2.2.2.1 (by rw [hst.2.2.2.1 hs]; exact hs), hst.2.2.2.1 hs]
    · intro hs
      rw [hstep, ih2.2.2.2.2.1 (by rw [hst.2.2.2.2.1 hs]; exact hs), hst.2.2.2.2.1 hs]
    · intro hs
      rw [hstep, ih2.2.2.2.2.2 (by rw [hst.2.2.2.2.2 hs]; exact hs), hst.2.2.2.2.2 hs]

theorem initCols_lookup : ∀ (fields : List (String × EC.FieldType)) (g : EC.Group)
    (f : String) (t : EC.FieldType),
    ((fields.map Prod.fst).Nodup) → (f, t) ∈ fields →
    g.strCols.lookup f = none → g.intCols.lookup f = none → g.floatCols.lookup f = none →
    g.boolCols.lookup f = none → g.urlCols.lookup f = none → g.jsonCols.lookup f = none →
    (match t with
     | EC.FieldType.str => (fields.foldl EC.initColStep g).strCols.lookup f = some []
     | EC.FieldType.int => (fields.foldl EC.initColStep g).intCols.lookup f = some []
     | EC.FieldType.float => (fields.foldl EC.initColStep g).floatCols.lookup f = some []
     | EC.FieldType.bool => (fields.foldl EC.initColStep g).boolCols.lookup f = some []
     | EC.FieldType.url => (fields.foldl EC.initColStep g).urlCols.lookup f = some []
     | EC.FieldType.json => (fields.foldl EC.initColStep g).jsonCols.lookup f = some []
     | EC.FieldType.array _ => True) := by
  intro fields
  induction fields with
  | nil =>
    intro g f t _ hmem
    exact absurd hmem (by simp)
  | cons fv rest ih =>
    intro g f t hnd hmem h1 h2 h3 h4 h5 h6
    obtain ⟨f0, t0⟩ := fv
    simp only [List.map_cons, List.nodup_cons] at hnd
    have hstep : (((f0, t0) :: rest).foldl EC.initColStep g)
        = rest.foldl EC.initColStep (EC.initColStep g (f0, t0)) := rfl
    rcases List.mem_cons.mp hmem with he | hm
    · rw [Prod.mk.injEq] at he
      obtain ⟨hef, het⟩ := he
      subst hef
      subst het
      have hpres := initCols_pres rest (EC.initColStep g (f, t)) f
      cases t with
      | str =>
        have hsome : (EC.initColStep g (f, EC.FieldType.str)).strCols.lookup f = some [] :=
          lookup_append_one_self f [] g.strCols h1
        rw [hstep, hpres.1 (by rw [hsome]; rfl), hsome]
      | int =>
        have hsome : (EC.initColStep g (f, EC.FieldType.int)).intCols.lookup f = some [] :=
          lookup_append_one_self f [] g.intCols h2
        rw [hstep, hpres.2.1 (by rw [hsome]; rfl), hsome]
      | float =>
        have hsome : (EC.initColStep g (f, EC.FieldType.float)).floatCols.lookup f = some [] :=
          lookup_append_one_self f [] g.floatCols h3
        rw [hstep, hpres.2.2.1 (by rw [hsome]; rfl), hsome]
      | bool =>
        have hsome : (EC.initColStep g (f, EC.FieldType.bool)).boolCols.lookup f = some [] :=
          lookup_append_one_self f [] g.boolCols h4
        rw [hstep, hpres.2.2.2.1 (by rw [hsome]; rfl), hsome]
      | url =>
        have hsome : (EC.initColStep g (f, EC.FieldType.url)).urlCols.lookup f = some [] :=
          lookup_append_one_self f [] g.urlCols h5
        rw [hstep, hpres.2.2.2.2.1 (by rw [hsome]; rfl), hsome]
      | json =>
        have hsome : (EC.initColStep g (f, EC.FieldType.json)).jsonCols.lookup f = some [] :=
          lookup_append_one_self f [] g.jsonCols h6
        rw [hstep, hpres.2.2.2.2.2 (by rw [hsome]; rfl), hsome]
      | array t2 => trivial
    · have hne : f ≠ f0 := by
        intro he
        subst he
        exact hnd.1 (List.mem_map_of_mem Prod.fst hm)
      have hn1 : (EC.initColStep g (f0, t0)).strCols.lookup f = none := by
        cases t0 <;> first | exact h1 | exact lookup_append_one_ne f f0 [] g.strCols hne h1
      have hn2 : (EC.initColStep g (f0, t0)).intCols.lookup f = none := by
        cases t0 <;> first | exact h2 | exact lookup_append_one_ne f f0 [] g.intCols hne h2
      have hn3 : (EC.initColStep g (f0, t0)).floatCols.lookup f = none := by
        cases t0 <;> first | exact h3 | exact lookup_append_one_ne f f0 [] g.floatCols hne h3
      have hn4 : (EC.initColStep g (f0, t0)).boolCols.lookup f = none := by
        cases t0 <;> first | exact h4 | exact lookup_append_one_ne f f0 [] g.boolCols hne h4
      have hn5 : (EC.initColStep g (f0, t0)).urlCols.lookup f = none := by
        cases t0 <;> first | exact h5 | exact lookup_append_one_ne f f0 [] g.urlCols hne h5
      have hn6 : (EC.initColStep g (f0, t0)).jsonCols.lookup f = none := by
        cases t0 <;> first | exact h6 | exact lookup_append_one_ne f f0 [] g.jsonCols hne h6
      rw [hstep]
      exact ih (EC.initColStep g (f0, t0)) f t hnd.2 hm hn1 hn2 hn3 hn4 hn5 hn6

theorem initColumns_colOK (count : Nat) (fields : List (String × EC.FieldType))
    (hnd : (fields.map Prod.fst).Nodup)
    (hna : ∀ fc ∈ fields, ∀ t2, fc.2 ≠ EC.FieldType.array t2) (st : EC.State) :
    ∀ ft ∈ fields, Inv.ColOK st [] (EC.initColumns count fields) ft.1 ft.2 := by
  intro ft hft
  obtain ⟨f, t⟩ := ft
  have h := initCols_lookup fields ⟨count, [], [], [], [], [], []⟩ f t hnd hft
    rfl rfl rfl rfl rfl rfl
  cases t with
  | str => exact ⟨[], h, rfl, fun i o cell hio _ => absurd hio (by simp)⟩
  | int => exact ⟨[], h, rfl, fun i o cell hio _ => absurd hio (by simp)⟩
  | float => exact ⟨[], h, rfl, fun i o cell hio _ => absurd hio (by simp)⟩
  | bool => exact ⟨[], h, rfl, fun i o cell hio _ => absurd hio (by simp)⟩
  | url => exact ⟨[], h, rfl, fun i o cell hio _ => absurd hio (by simp)⟩
  | json => exact ⟨[], h, rfl, fun i o cell hio _ => absurd hio (by simp)⟩
  | array t2 => exact absurd rfl (hna (f, EC.FieldType.array t2) hft t2)

theorem fillField_colOK_self (st : EC.State) (stats : EC.Stats) (g : EC.Group)
    (o : List (String × JValue)) (f : String) (t : EC.FieldType)
    (os : List (List (String × JValue))) (h : Inv.ColOK st os g f t) :
    Inv.ColOK (EC.fillField st stats g o f t).1 (os ++ [o])
      (EC.fillField st stats g o f t).2.2 f t := by
  have hle := (fillField_st st stats g o f t).1
  cases t with
  | str =>
    rcases h with ⟨cells, hl, hlen, hrow⟩
    rcases fillField_cell st stats g o f EC.FieldType.str with ⟨c, hcols, hcell⟩
    refine ⟨cells ++ [c], ?_, by simp [hlen], ?_⟩
    · rw [hcols, cpush_lookup_self, hl]
      rfl
    · intro i o' cell hio hic
      have hib : i < os.length + 1 := by
        rcases List.get?_eq_some.mp hio with ⟨hb, _⟩
        simpa using hb
      rcases Nat.lt_succ_iff_lt_or_eq.mp hib with hlt | heq
      · have h1 : os.get? i = some o' := by rw [← hio, List.get?_append hlt]
        have h2 : cells.get? i = some cell := by
          rw [← hic, List.get?_append (by rw [hlen]; exact hlt)]
        exact CellStr_mono _ _ o' f cell hle.2 (hrow i o' cell h1 h2)
      · subst heq
        have h1 : o' = o := by
          have := List.get?_concat_length os o
          rw [this] at hio
          exact ((Option.some.injEq _ _).mp hio).symm
        have h2 : cell = c := by
          have := List.get?_concat_length cells c
          rw [← hlen] at hic
          rw [this] at hic
          exact ((Option.some.injEq _ _).mp hic).symm
        subst h1
        subst h2
        exact hcell
  | url =>
    rcases h with ⟨cells, hl, hlen, hrow⟩
    rcases fillField_cell st stats g o f EC.FieldType.url with ⟨c, hcols, hcell⟩
    refine ⟨cells ++ [c], ?_, by simp [hlen], ?_⟩
    · rw [hcols, cpush_lookup_self, hl]
      rfl
    · intro i o' cell hio hic
      have hib : i < os.length + 1 := by
        rcases List.get?_eq_some.mp hio with ⟨hb, _⟩
        simpa using hb
      rcases Nat.lt_succ_iff_lt_or_eq.mp hib with hlt | heq
      · have h1 : os.get? i = some o' := by rw [← hio, List.get?_append hlt]
        have h2 : cells.get? i = some cell := by
          rw [← hic, List.get?_append (by rw [hlen]; exact hlt)]
        exact CellUrl_mono _ _ o' f cell hle.1 (hrow i o' cell h1 h2)
      · subst heq
        have h1 : o' = o := by
          have := List.get?_concat_length os o
          rw [this] at hio
          exact ((Option.some.injEq _ _).mp hio).symm
        have h2 : cell = c := by
          have := List.get?_concat_length cells c
          rw [← hlen] at hic
          rw [this] at hic
          exact ((Option.some.injEq _ _).mp hic).symm
        subst h1
        subst h2
        exact hcell
  | json =>
    rcases h with ⟨cells, hl, hlen, hrow⟩
    rcases fillField_cell st stats g o f EC.FieldType.json with ⟨c, hcols, hcell⟩
    refine ⟨cells ++ [c], ?_, by simp [hlen], ?_⟩
    · rw [hcols, cpush_lookup_self, hl]
      rfl
    · intro i o' cell hio hic
      have hib : i < os.length + 1 := by
        rcases List.get?_eq_some.mp hio with ⟨hb, _⟩
        simpa using hb
      rcases Nat.lt_succ_iff_lt_or_eq.mp hib with hlt | heq
      · have h1 : os.get? i = some o' := by rw [← hio, List.get?_append hlt]
        have h2 : cells.get? i = some cell := by
          rw [← hic, List.get?_append (by rw [hlen]; exact hlt)]
        exact CellJson_mono _ _ o' f cell hle.2 (hrow i o' cell h1 h2)
      · subst heq
        have h1 : o' = o := by
          have := List.get?_concat_length os o
          rw [this] at hio
          exact ((Option.some.injEq _ _).mp hio).symm
        have h2 : cell = c := by
          have := List.get?_concat_length cells c
          rw [← hlen] at hic
          rw [this] at hic
          exact ((Option.some.injEq _ _).mp hic).symm
        subst h1
        subst h2
        exact hcell
  | int =>
    rcases h with ⟨cells, hl, hlen, hrow⟩
    have hcols := fillField_cell st stats g o f EC.FieldType.int
    refine ⟨cells ++ [(EC.findVal o f).bind JValue.asI64], ?_, by simp [hlen], ?_⟩
    · rw [hcols, cpush_lookup_self, hl]
      rfl
    · intro i o' cell hio hic
      have hib : i < os.length + 1 := by
        rcases List.get?_eq_some.mp hio with ⟨hb, _⟩
        simpa using hb
      rcases Nat.lt_succ_iff_lt_or_eq.mp hib with hlt | heq
      · have h1 : os.get? i = some o' := by rw [← hio, List.get?_append hlt]
        have h2 : cells.get? i = some cell := by
          rw [← hic, List.get?_append (by rw [hlen]; exact hlt)]
        exact hrow i o' cell h1 h2
      · subst heq
        have h1 : o' = o := by
          have := List.get?_concat_length os o
          rw [this] at hio
          exact ((Option.some.injEq _ _).mp hio).symm
        have h2 : cell = (EC.findVal o f).bind JValue.asI64 := by
          have := List.get?_concat_length cells ((EC.findVal o f).bind JValue.asI64)
          rw [← hlen] at hic
          rw [this] at hic
          exact ((Option.some.injEq _ _).mp hic).symm
        rw [h1, h2]
  | float =>
    rcases h with ⟨cells, hl, hlen, hrow⟩
    have hcols := fillField_cell st stats g o f EC.FieldType.float
    refine ⟨cells ++ [(EC.findVal o f).bind JValue.asF64], ?_, by simp [hlen], ?_⟩
    · rw [hcols, cpush_lookup_self, hl]
      rfl
    · intro i o' cell hio hic
      have hib : i < os.length + 1 := by
        rcases List.get?_eq_some.mp hio with ⟨hb, _⟩
        simpa using hb
      rcases Nat.lt_succ_iff_lt_or_eq.mp hib with hlt | heq
      · have h1 : os.get? i = some o' := by rw [← hio, List.get?_append hlt]
        have h2 : cells.get? i = some cell := by
          rw [← hic, List.get?_append (by rw [hlen]; exact hlt)]
        exact hrow i o' cell h1 h2
      · subst heq
        have h1 : o' = o := by
          have := List.get?_concat_length os o
          rw [this] at hio
          exact ((Option.some.injEq _ _).mp hio).symm
        have h2 : cell = (EC.findVal o f).bind JValue.asF64 := by
          have := List.get?_concat_length cells ((EC.findVal o f).bind JValue.asF64)
          rw [← hlen] at hic
          rw [this] at hic
          exact ((Option.some.injEq _ _).mp hic).symm
        rw [h1, h2]
  | bool =>
    rcases h with ⟨cells, hl, hlen, hrow⟩
    have hcols := fillField_cell st stats g o f EC.FieldType.bool
    refine ⟨cells ++ [((EC.findVal o f).bind JValue.asBool).getD false], ?_, by simp [hlen], ?_⟩
    · rw [hcols, cpush_lookup_self, hl]
      rfl
    · intro i o' cell hio hic
      have hib : i < os.length + 1 := by
        rcases List.get?_eq_some.mp hio with ⟨hb, _⟩
        simpa using hb
      rcases Nat.lt_succ_iff_lt_or_eq.mp hib with hlt | heq
      · have h1 : os.get? i = some o' := by rw [← hio, List.get?_append hlt]
        have h2 : cells.get? i = some cell := by
          rw [← hic, List.get?_append (by rw [hlen]; exact hlt)]
        exact hrow i o' cell h1 h2
      · subst heq
        have h1 : o' = o := by
          have := List.get?_concat_length os o
          rw [this] at hio
          exact ((Option.some.injEq _ _).mp hio).symm
        have h2 : cell = ((EC.findVal o f).bind JValue.asBool).getD false := by
          have := List.get?_concat_length cells (((EC.findVal o f).bind JValue.asBool).getD false)
          rw [← hlen] at hic
          rw [this] at hic
          exact ((Option.some.injEq _ _).mp hic).symm
        rw [h1, h2]
  | array t2 => trivial

theorem fillField_colOK_other (st : EC.State) (stats : EC.Stats) (g : EC.Group)
    (o : List (String × JValue)) (f : String) (t : EC.FieldType) (f' : String)
    (t' : EC.FieldType) (os : List (List (String × JValue))) (hne : f' ≠ f)
    (h : Inv.ColOK st os g f' t') :
    Inv.ColOK (EC.fillField st stats g o f t).1 os (EC.fillField st stats g o f t).2.2 f' t' := by
  have hle := (fillField_st st stats g o f t).1
  have hfr := fillField_frame st stats g o f t
  have hstr : (EC.fillField st stats g o f t).2.2.strCols.lookup f' = g.strCols.lookup f' := by
    by_cases ht : t = EC.FieldType.str
    · subst ht
      rcases fillField_cell st stats g o f EC.FieldType.str with ⟨c, hcols, _⟩
      rw [hcols, cpush_lookup_other f f' c hne]
    · rw [hfr.2.1 ht]
  have hurl : (EC.fillField st stats g o f t).2.2.urlCols.lookup f' = g.urlCols.lookup f' := by
    by_cases ht : t = EC.FieldType.url
    · subst ht
      rcases fillField_cell st stats g o f EC.FieldType.url with ⟨c, hcols, _⟩
      rw [hcols, cpush_lookup_other f f' c hne]
    · rw [hfr.2.2.2.2.2.1 ht]
  have hjson : (EC.fillField st stats g o f t).2.2.jsonCols.lookup f' = g.jsonCols.lookup f' := by
    by_cases ht : t = EC.FieldType.json
    · subst ht
      rcases fillField_cell st stats g o f EC.FieldType.json with ⟨c, hcols, _⟩
      rw [hcols, cpush_lookup_other f f' c hne]
    · rw [hfr.2.2.2.2.2.2 ht]
  have hint : (EC.fillField st stats g o f t).2.2.intCols.lookup f' = g.intCols.lookup f' := by
    by_cases ht : t = EC.FieldType.int
    · subst ht
      have hcols := fillField_cell st stats g o f EC.FieldType.int
      rw [hcols, cpush_lookup_other f f' _ hne]
    · rw [hfr.2.2.1 ht]
  have hfloat : (EC.fillField st stats g o f t).2.2.floatCols.lookup f' = g.floatCols.lookup f' := by
    by_cases ht : t = EC.FieldType.float
    · subst ht
      have hcols := fillField_cell st stats g o f EC.FieldType.float
      rw [hcols, cpush_lookup_other f f' _ hne]
    · rw [hfr.2.2.2.1 ht]
  have hbool : (EC.fillField st stats g o f t).2.2.boolCols.lookup f' = g.boolCols.lookup f' := by
    by_cases ht : t = EC.FieldType.bool
    · subst ht
      have hcols := fillField_cell st stats g o f EC.FieldType.bool
      rw [hcols, cpush_lookup_other f f' _ hne]
    · rw [hfr.2.2.2.2.1 ht]
  cases t' with
  | str =>
    rcases h with ⟨cells, hl, hlen, hrow⟩
    exact ⟨cells, by rw [hstr]; exact hl, hlen,
      fun i o' cell hio hic => CellStr_mono _ _ o' f' cell hle.2 (hrow i o' cell hio hic)⟩
  | url =>
    rcases h with ⟨cells, hl, hlen, hrow⟩
    exact ⟨cells, by rw [hurl]; exact hl, hlen,
      fun i o' cell hio hic => CellUrl_mono _ _ o' f' cell hle.1 (hrow i o' cell hio hic)⟩
  | json =>
    rcases h with ⟨cells, hl, hlen, hrow⟩
    exact ⟨cells, by rw [hjson]; exact hl, hlen,
      fun i o' cell hio hic => CellJson_mono _ _ o' f' cell hle.2 (hrow i o' cell hio hic)⟩
  | int =>
    rcases h with ⟨cells, hl, hlen, hrow⟩
    exact ⟨cells, by rw [hint]; exact hl, hlen, hrow⟩
  | float =>
    rcases h with ⟨cells, hl, hlen, hrow⟩
    exact ⟨cells, by rw [hfloat]; exact hl, hlen, hrow⟩
  | bool =>
    rcases h with ⟨cells, hl, hlen, hrow⟩
    exact ⟨cells, by rw [hbool]; exact hl, hlen, hrow⟩
  | array t2 => trivial

theorem fillResource_frame : ∀ (fields : List (String × EC.FieldType)) (st : EC.State)
    (stats : EC.Stats) (g : EC.Group) (o : List (String × JValue)) (f' : String)
    (t' : EC.FieldType) (os : List (List (String × JValue))),
    f' ∉ fields.map Prod.fst →
    Inv.ColOK st os g f' t' →
    Inv.ColOK (EC.fillResource st stats g o fields).1 os
      (EC.fillResource st stats g o fields).2.2 f' t' := by
  intro fields
  induction fields with
  | nil => intro st stats g o f' t' os _ h; exact h
  | cons ft rest ih =>
    intro st stats g o f' t' os hnm h
    obtain ⟨f, t⟩ := ft
    have hstep : EC.fillResource st stats g o ((f, t) :: rest)
        = EC.fillResource (EC.fillField st stats g o f t).1 (EC.fillField st stats g o f t).2.1
            (EC.fillField st stats g o f t).2.2 o rest := rfl
    rw [hstep]
    simp only [List.map_cons, List.mem_cons, not_or] at hnm
    exact ih _ _ _ o f' t' os hnm.2
      (fillField_colOK_other st stats g o f t f' t' os hnm.1 h)

theorem fillResource_colOK : ∀ (fields : List (String × EC.FieldType)) (st : EC.State)
    (stats : EC.Stats) (g : EC.Group) (o : List (String × JValue))
    (os : List (List (String × JValue))),
    ((fields.map Prod.fst).Nodup) →
    (∀ ft ∈ fields, Inv.ColOK st os g ft.1 ft.2) →
    ∀ ft ∈ fields, Inv.ColOK (EC.fillResource st stats g o fields).1 (os ++ [o])
      (EC.fillResource st stats g o fields).2.2 ft.1 ft.2 := by
  intro fields
  induction fields with
  | nil => intro st stats g o os _ _ ft hft; exact absurd hft (by simp)
  | cons ft0 rest ih =>
    intro st stats g o os hnd hcol ft hft
    obtain ⟨f, t⟩ := ft0
    simp only [List.map_cons, List.nodup_cons] at hnd
    have hstep : EC.fillResource st stats g o ((f, t) :: rest)
        = EC.fillResource (EC.fillField st stats g o f t).1 (EC.fillField st stats g o f t).2.1
            (EC.fillField st stats g o f t).2.2 o rest := rfl
    rw [hstep]
    rcases List.mem_cons.mp hft with he | hm
    · subst he
      have hself := fillField_colOK_self st stats g o f t os (hcol (f, t) (by simp))
      exact fillResource_frame rest _ _ _ o f t (os ++ [o]) hnd.1 hself
    · have hcol' : ∀ ft' ∈ rest, Inv.ColOK (EC.fillField st stats g o f t).1 os
          (EC.fillField st stats g o f t).2.2 ft'.1 ft'.2 := by
        intro ft' hft'
        have hne : ft'.1 ≠ f := by
          intro he
          exact hnd.1 (he ▸ List.mem_map_of_mem Prod.fst hft')
        exact fillField_colOK_other st stats g o f t ft'.1 ft'.2 os hne
          (hcol ft' (by simp [hft']))
      exact ih _ _ _ o os hnd.2 hcol' ft hm

theorem fillLoop_colOK : ∀ (resources : List JValue) (st : EC.State) (stats : EC.Stats)
    (fields : List (String × EC.FieldType)) (g : EC.Group)
    (os : List (List (String × JValue))),
    ((fields.map Prod.fst).Nodup) →
    (∀ r ∈ resources, (JValue.asObject r).isSome = true) →
    (∀ ft ∈ fields, Inv.ColOK st os g ft.1 ft.2) →
    ∀ ft ∈ fields, Inv.ColOK (EC.fillLoop st stats fields resources g).1
      (os ++ resources.map (fun r => (JValue.asObject r).getD []))
      (EC.fillLoop st stats fields resources g).2.2 ft.1 ft.2 := by
  intro resources
  induction resources with
  | nil =>
    intro st stats fields g os _ _ hcol ft hft
    simpa [EC.fillLoop] using hcol ft hft
  | cons r rest ih =>
    intro st stats fields g os hnd hobj hcol ft hft
    match r, hobj r (by simp) with
    | .obj o, _ =>
      have hstep : EC.fillLoop st stats fields (JValue.obj o :: rest) g
          = EC.fillLoop (EC.fillResource st stats g o fields).1
              (EC.fillResource st stats g o fields).2.1 fields rest
              (EC.fillResource st stats g o fields).2.2 := rfl
      rw [hstep]
      have h1 := fillResource_colOK fields st stats g o os hnd hcol
      have h2 := ih (EC.fillResource st stats g o fields).1
        (EC.fillResource st stats g o fields).2.1 fields
        (EC.fillResource st stats g o fields).2.2 (os ++ [o]) hnd
        (fun r' hr' => hobj r' (by simp [hr'])) h1 ft hft
      have hl : (os ++ [o]) ++ rest.map (fun r => (JValue.asObject r).getD [])
          = os ++ (JValue.obj o :: rest).map (fun r => (JValue.asObject r).getD []) := by
        simp [JValue.asObject]
      rw [hl] at h2
      exact h2

theorem convertToColumnar_colOK (st : EC.State) (stats : EC.Stats) (resources : List JValue)
    (hobj : ∀ r ∈ resources, (JValue.asObject r).isSome = true) :
    ∀ ft ∈ (EC.allFields stats resources []).2,
      Inv.ColOK (EC.convertToColumnar st stats resources).1
        (resources.map (fun r => (JValue.asObject r).getD []))
        (EC.convertToColumnar st stats resources).2.2 ft.1 ft.2 := by
  have hstep : EC.convertToColumnar st stats resources
      = EC.fillLoop st (EC.allFields stats resources []).1 (EC.allFields stats resources []).2
          resources (EC.initColumns resources.length (EC.allFields stats resources []).2) := rfl
  rw [hstep]
  have hnd := allFields_keys_nodup resources stats [] (by simp)
  have hna := allFields_no_array resources stats [] (by simp)
  intro ft hft
  have h := fillLoop_colOK resources st (EC.allFields stats resources []).1
    (EC.allFields stats resources []).2
    (EC.initColumns resources.length (EC.allFields stats resources []).2) [] hnd hobj
    (initColumns_colOK resources.length (EC.allFields stats resources []).2 hnd hna st) ft hft
  simpa using h

theorem convertToColumnar_shadow (st : EC.State) (stats : EC.Stats) (resources : List JValue)
    (hobj : ∀ r ∈ resources, (JValue.asObject r).isSome = true) :
    GroupShadow (EC.convertToColumnar st stats resources).2.2
      (EC.allFields stats resources []).2 resources.length := by
  have hstep : EC.convertToColumnar st stats resources
      = EC.fillLoop st (EC.allFields stats resources []).1 (EC.allFields stats resources []).2
          resources (EC.initColumns resources.length (EC.allFields stats resources []).2) := rfl
  rw [hstep]
  have hnd := allFields_keys_nodup resources stats [] (by simp)
  have hna := allFields_no_array resources stats [] (by simp)
  have hinit := initColumns_shadow resources.length (EC.allFields stats resources []).2 hna
  have hfl := fillLoop_shadow (EC.allFields stats resources []).2 hnd resources hobj
    st (EC.allFields stats resources []).1
    (EC.initColumns resources.length (EC.allFields stats resources []).2) 0 hinit.1
  simpa using hfl.1

theorem nodup_fst_inj {α : Type} (l : List (String × α)) (hnd : (l.map Prod.fst).Nodup)
    (f : String) (a b : α) (h1 : (f, a) ∈ l) (h2 : (f, b) ∈ l) : a = b := by
  have e1 := mem_lookup f l a hnd h1
  have e2 := mem_lookup f l b hnd h2
  rw [e1] at e2
  exact (Option.some.injEq _ _).mp e2

theorem find?_fst_nodup {α : Type} : ∀ (l : List (String × α)) (k : String) (v : α),
    ((l.map Prod.fst).Nodup) → (k, v) ∈ l →
    l.find? (fun kv => kv.1 = k) = some (k, v) := by
  intro l
  induction l with
  | nil => intro k v _ h; simp at h
  | cons hd tl ih =>
    intro k v hnd hm
    obtain ⟨k0, v0⟩ := hd
    simp only [List.map_cons, List.nodup_cons] at hnd
    rcases List.mem_cons.mp hm with he | hm'
    · rw [Prod.mk.injEq] at he
      obtain ⟨he1, he2⟩ := he
      subst he1
      subst he2
      apply List.find?_cons_of_pos
      simp
    · have hne : k0 ≠ k := by
        intro he
        subst he
        exact hnd.1 (List.mem_map_of_mem Prod.fst hm')
      rw [List.find?_cons_of_neg]
      · exact ih k v hnd.2 hm'
      · simp [hne]

theorem find?_fst_none {α : Type} (l : List (String × α)) (k : String)
    (h : ∀ kv ∈ l, kv.1 ≠ k) : l.find? (fun kv => kv.1 = k) = none := by
  rw [List.find?_eq_none]
  intro x hx
  simp [h x hx]

theorem find?_fst_some {α : Type} (l : List (String × α)) (k : String) (kv : String × α)
    (h : l.find? (fun kv => kv.1 = k) = some kv) : kv ∈ l ∧ kv.1 = k := by
  refine ⟨List.mem_of_find?_eq_some h, ?_⟩
  have := List.find?_some h
  simpa using this

theorem names_of_shadow {α : Type} (cols : List (String × List α)) (ns : List String) (L : Nat)
    (h : cols.map flen = ns.map (fun k => (k, L))) : cols.map Prod.fst = ns := by
  have h2 := congrArg (List.map Prod.fst) h
  simpa [List.map_map, flen, Function.comp_def] using h2

theorem kindNames_mem (fields : List (String × EC.FieldType)) (t : EC.FieldType) (f : String) :
    f ∈ kindNames fields t ↔ (f, t) ∈ fields := by
  constructor
  · intro h
    rcases List.mem_map.mp h with ⟨fc, hfc, he⟩
    obtain ⟨a, b⟩ := fc
    have hf := List.mem_filter.mp hfc
    have ht : b = t := by simpa using hf.2
    have ha : a = f := he
    rw [← ht, ← ha]
    exact hf.1
  · intro h
    exact List.mem_map.mpr ⟨(f, t), List.mem_filter.mpr ⟨h, by simp⟩, rfl⟩

theorem domain_shorts_disjoint : ∀ s ∈ Spec.staticShorts, s ∉ Spec.staticDomain := by decide

theorem findOriginalKey_expand (o : List (String × JValue)) (f k0 : String)
    (hgood : ∀ kv ∈ o, Spec.goodKey kv.1 = true)
    (h : EC.findOriginalKey o f = some k0) :
    EC.expandKey (EC.propertyAbbrevs.map (fun p => (p.2, p.1))) f = k0 ∧
    (o.lookup k0).isSome = true := by
  unfold EC.findOriginalKey at h
  by_cases hex : (o.lookup f).isSome = true
  · rw [if_pos hex] at h
    have hk : k0 = f := by simpa using h.symm
    subst hk
    refine ⟨?_, hex⟩
    have hfmem : k0 ∈ o.map Prod.fst := by
      rcases Option.isSome_iff_exists.mp hex with ⟨v, hv⟩
      exact List.mem_map.mpr ⟨(k0, v), lookup_mem _ _ _ hv, rfl⟩
    rcases List.mem_map.mp hfmem with ⟨kv, hkv, hke⟩
    have hg : Spec.goodKey k0 = true := by rw [← hke]; exact hgood kv hkv
    have hnshort : k0 ∉ EC.propertyAbbrevs.map Prod.snd := by
      intro hmem
      rw [goodKey_of_short_false k0 hmem] at hg
      exact absurd hg (by simp)
    have hnone : (EC.propertyAbbrevs.map (fun p => (p.2, p.1))).lookup k0 = none := by
      rw [lookup_eq_none_iff]
      simpa [List.map_map, Function.comp_def] using hnshort
    simp [EC.expandKey, hnone]
  · rw [if_neg hex] at h
    rcases Option.map_eq_some'.mp h with ⟨p, hp, hpe⟩
    have hps : p.2 = f ∧ (o.lookup p.1).isSome = true := by
      simpa using List.find?_some hp
    have hmem := List.mem_of_find?_eq_some hp
    have hnd : ((EC.propertyAbbrevs.map (fun p => (p.2, p.1))).map Prod.fst).Nodup := by
      simpa [List.map_map, Function.comp_def] using shorts_nodup
    have hswap : (f, p.1) ∈ EC.propertyAbbrevs.map (fun p => (p.2, p.1)) := by
      refine List.mem_map.mpr ⟨p, hmem, ?_⟩
      rw [hps.1]
    have hlk := mem_lookup f _ p.1 hnd hswap
    constructor
    · rw [EC.expandKey, hlk]
      exact hpe
    · rw [← hpe]
      exact hps.2

theorem lastTypeOf_some_mem (rs : List JValue) (f : String) (t : EC.FieldType)
    (h : Spec.lastTypeOf rs f = some t) :
    ∃ r ∈ rs, ∃ kv ∈ recPairs r, Spec.abbrevName kv.1 = f ∧ EC.inferFieldType kv.2 = t := by
  unfold Spec.lastTypeOf at h
  have hmem : t ∈ Spec.occTypes rs f := List.mem_of_getLast?_eq_some h
  unfold Spec.occTypes at hmem
  rcases List.mem_flatMap.mp hmem with ⟨r, hr, hin⟩
  rcases List.mem_map.mp hin with ⟨kv, hkv, he⟩
  have hf := List.mem_filter.mp hkv
  exact ⟨r, hr, kv, hf.1, by simpa using hf.2, he⟩

theorem lastTypeOf_consistent (rs : List JValue)
    (hcons : ∀ r ∈ rs, ∀ r' ∈ rs, ∀ kv ∈ recPairs r, ∀ kv' ∈ recPairs r',
      Spec.abbrevName kv.1 = Spec.abbrevName kv'.1 →
      EC.inferFieldType kv.2 = EC.inferFieldType kv'.2)
    (r : JValue) (hr : r ∈ rs) (kv : String × JValue) (hkv : kv ∈ recPairs r) :
    Spec.lastTypeOf rs (Spec.abbrevName kv.1) = some (EC.inferFieldType kv.2) := by
  have hmem : EC.inferFieldType kv.2 ∈ Spec.occTypes rs (Spec.abbrevName kv.1) := by
    unfold Spec.occTypes
    exact List.mem_flatMap.mpr
      ⟨r, hr, List.mem_map.mpr ⟨kv, List.mem_filter.mpr ⟨hkv, by simp⟩, rfl⟩⟩
  have hne : Spec.occTypes rs (Spec.abbrevName kv.1) ≠ [] := List.ne_nil_of_mem hmem
  have hs : (Spec.occTypes rs (Spec.abbrevName kv.1)).getLast?.isSome :=
    List.getLast?_isSome.mpr hne
  rcases Option.isSome_iff_exists.mp hs with ⟨x, hx⟩
  have hxmem : x ∈ Spec.occTypes rs (Spec.abbrevName kv.1) := List.mem_of_getLast?_eq_some hx
  unfold Spec.occTypes at hxmem
  rcases List.mem_flatMap.mp hxmem with ⟨r', hr', hin⟩
  rcases List.mem_map.mp hin with ⟨kv', hkv', he⟩
  have hfkv' := List.mem_filter.mp hkv'
  have heq : EC.inferFieldType kv'.2 = EC.inferFieldType kv.2 :=
    hcons r' hr' r hr kv' hfkv'.1 kv hkv (by simpa using hfkv'.2)
  rw [Spec.lastTypeOf, hx, ← he, heq]

theorem pickStr_some (S : List (Nat × String)) (P : List (String × String)) (i : Nat)
    (col : String × List (Option Nat)) (kv : String × JValue)
    (h : Rec.pickStr S P i col = some kv) :
    ∃ id s, col.2.get? i = some (some id) ∧ S.lookup id = some s ∧
      kv = (EC.expandKey P col.1, JValue.str s) := by
  unfold Rec.pickStr at h
  cases hg : col.2.get? i with
  | none => rw [hg] at h; exact absurd h (by simp)
  | some oc =>
    cases oc with
    | none => rw [hg] at h; exact absurd h (by simp)
    | some id =>
      rw [hg] at h
      rcases Option.map_eq_some'.mp h with ⟨s, hl, he⟩
      exact ⟨id, s, rfl, hl, he.symm⟩

theorem pickUrl_some (S : List (Nat × String)) (P : List (String × String)) (i : Nat)
    (col : String × List (Option Nat)) (kv : String × JValue)
    (h : Rec.pickUrl S P i col = some kv) :
    ∃ id s, col.2.get? i = some (some id) ∧ S.lookup id = some s ∧
      kv = (EC.expandKey P col.1, JValue.str s) := by
  unfold Rec.pickUrl at h
  cases hg : col.2.get? i with
  | none => rw [hg] at h; exact absurd h (by simp)
  | some oc =>
    cases oc with
    | none => rw [hg] at h; exact absurd h (by simp)
    | some id =>
      rw [hg] at h
      rcases Option.map_eq_some'.mp h with ⟨s, hl, he⟩
      exact ⟨id, s, rfl, hl, he.symm⟩

theorem pickInt_some (P : List (String × String)) (i : Nat)
    (col : String × List (Option Int)) (kv : String × JValue)
    (h : Rec.pickInt P i col = some kv) :
    ∃ n : Int, col.2.get? i = some (some n) ∧ kv = (EC.expandKey P col.1, JValue.int n) := by
  unfold Rec.pickInt at h
  cases hg : col.2.get? i with
  | none => rw [hg] at h; exact absurd h (by simp)
  | some oc =>
    cases oc with
    | none => rw [hg] at h; exact absurd h (by simp)
    | some n =>
      rw [hg] at h
      exact ⟨n, rfl, by simpa using h.symm⟩

theorem pickFloat_some (P : List (String × String)) (i : Nat)
    (col : String × List (Option Rat)) (kv : String × JValue)
    (h : Rec.pickFloat P i col = some kv) :
    ∃ q : Rat, col.2.get? i = some (some q) ∧ kv = (EC.expandKey P col.1, JValue.float q) := by
  unfold Rec.pickFloat at h
  cases hg : col.2.get? i with
  | none => rw [hg] at h; exact absurd h (by simp)
  | some oc =>
    cases oc with
    | none => rw [hg] at h; exact absurd h (by simp)
    | some q =>
      rw [hg] at h
      exact ⟨q, rfl, by simpa using h.symm⟩

theorem pickBool_some (P : List (String × String)) (i : Nat)
    (col : String × List Bool) (kv : String × JValue)
    (h : Rec.pickBool P i col = some kv) :
    ∃ b : Bool, col.2.get? i = some b ∧ kv = (EC.expandKey P col.1, JValue.bool b) := by
  unfold Rec.pickBool at h
  cases hg : col.2.get? i with
  | none => rw [hg] at h; exact absurd h (by simp)
  | some b =>
    rw [hg] at h
    exact ⟨b, rfl, by simpa using h.symm⟩

theorem pickJson_some (S : List (Nat × String)) (P : List (String × String)) (i : Nat)
    (col : String × List (Option Nat)) (kv : String × JValue)
    (h : Rec.pickJson S P i col = some kv) :
    ∃ id js, col.2.get? i = some (some id) ∧ S.lookup id = some js ∧
      kv = (EC.expandKey P col.1,
        match jparse js with
        | some v => v
        | none => JValue.str js) := by
  unfold Rec.pickJson at h
  cases hg : col.2.get? i with
  | none => rw [hg] at h; exact absurd h (by simp)
  | some oc =>
    cases oc with
    | none => rw [hg] at h; exact absurd h (by simp)
    | some id =>
      rw [hg] at h
      rcases Option.map_eq_some'.mp h with ⟨js, hl, he⟩
      exact ⟨id, js, rfl, hl, he.symm⟩

theorem pickStr_eval (S : List (Nat × String)) (P : List (String × String)) (i : Nat)
    (col : String × List (Option Nat)) (id : Nat) (s : String)
    (hg : col.2.get? i = some (some id)) (hl : S.lookup id = some s) :
    Rec.pickStr S P i col = some (EC.expandKey P col.1, JValue.str s) := by
  have hg' : col.2[i]? = some (some id) := by rw [← List.get?_eq_getElem?]; exact hg
  simp [Rec.pickStr, hg', hl]

theorem pickUrl_eval (S : List (Nat × String)) (P : List (String × String)) (i : Nat)
    (col : String × List (Option Nat)) (id : Nat) (s : String)
    (hg : col.2.get? i = some (some id)) (hl : S.lookup id = some s) :
    Rec.pickUrl S P i col = some (EC.expandKey P col.1, JValue.str s) := by
  have hg' : col.2[i]? = some (some id) := by rw [← List.get?_eq_getElem?]; exact hg
  simp [Rec.pickUrl, hg', hl]

theorem pickInt_eval (P : List (String × String)) (i : Nat)
    (col : String × List (Option Int)) (n : Int) (hg : col.2.get? i = some (some n)) :
    Rec.pickInt P i col = some (EC.expandKey P col.1, JValue.int n) := by
  have hg' : col.2[i]? = some (some n) := by rw [← List.get?_eq_getElem?]; exact hg
  simp [Rec.pickInt, hg']

theorem pickFloat_eval (P : List (String × String)) (i : Nat)
    (col : String × List (Option Rat)) (q : Rat) (hg : col.2.get? i = some (some q)) :
    Rec.pickFloat P i col = some (EC.expandKey P col.1, JValue.float q) := by
  have hg' : col.2[i]? = some (some q) := by rw [← List.get?_eq_getElem?]; exact hg
  simp [Rec.pickFloat, hg']

theorem pickBool_eval (P : List (String × String)) (i : Nat)
    (col : String × List Bool) (b : Bool) (hg : col.2.get? i = some b) :
    Rec.pickBool P i col = some (EC.expandKey P col.1, JValue.bool b) := by
  have hg' : col.2[i]? = some b := by rw [← List.get?_eq_getElem?]; exact hg
  simp [Rec.pickBool, hg']

theorem pickJson_eval (S : List (Nat × String)) (P : List (String × String)) (i : Nat)
    (col : String × List (Option Nat)) (id : Nat) (js : String) (w : JValue)
    (hg : col.2.get? i = some (some id)) (hl : S.lookup id = some js)
    (hj : jparse js = some w) :
    Rec.pickJson S P i col = some (EC.expandKey P col.1, w) := by
  have hg' : col.2[i]? = some (some id) := by rw [← List.get?_eq_getElem?]; exact hg
  simp [Rec.pickJson, hg', hl, hj]

theorem pick_keys_sublist {β : Type} (pick : String × List β → Option (String × JValue))
    (keyOf : String × List β → String)
    (hp : ∀ col kv, pick col = some kv → kv.1 = keyOf col) :
    ∀ cols : List (String × List β),
      ((cols.filterMap pick).map Prod.fst).Sublist (cols.map keyOf) := by
  intro cols
  induction cols with
  | nil => simp
  | cons col tl ih =>
    cases hc : pick col with
    | none =>
      rw [List.filterMap_cons_none hc, List.map_cons]
      exact ih.cons _
    | some kv =>
      rw [List.filterMap_cons_some hc, List.map_cons, List.map_cons]
      rw [hp col kv hc]
      exact ih.cons₂ _

theorem insFold_append {β : Type} (pick : String × List β → Option (String × JValue))
    (cols : List (String × List β)) (col : String × List β) (res : List (String × JValue)) :
    Rec.insFold pick (cols ++ [col]) res
      = match pick col with
        | some kv => objInsert kv.1 kv.2 (Rec.insFold pick cols res)
        | none => Rec.insFold pick cols res := by
  unfold Rec.insFold
  rw [List.foldl_append]
  rfl

theorem insFold_lookup {β : Type} (pick : String × List β → Option (String × JValue)) :
    ∀ (cols : List (String × List β)) (res : List (String × JValue)) (key : String),
    (Rec.insFold pick cols res).lookup key =
      match (cols.filterMap pick).reverse.find? (fun kv => kv.1 = key) with
      | some kv => some kv.2
      | none => res.lookup key := by
  intro cols
  induction cols using List.reverseRecOn with
  | nil => intro res key; simp [Rec.insFold]
  | append_singleton cols col ih =>
    intro res key
    rw [insFold_append]
    cases hp : pick col with
    | none =>
      have hfm : ([col].filterMap pick) = [] := by simp [hp]
      rw [List.filterMap_append, hfm, List.append_nil]
      exact ih res key
    | some kv =>
      have hfm : ([col].filterMap pick) = [kv] := by simp [hp]
      rw [List.filterMap_append, hfm, List.reverse_append, List.reverse_singleton,
        List.singleton_append, objInsert_lookup]
      by_cases hk : key = kv.1
      · rw [if_pos hk, List.find?_cons_of_pos _ (by simp [hk.symm])]
      · have hk2 : ¬(kv.1 = key) := fun h => hk h.symm
        rw [if_neg hk, List.find?_cons_of_neg _ (by simp [hk2]), ih res key]

theorem insFold_sorted {β : Type} (pick : String × List β → Option (String × JValue)) :
    ∀ (cols : List (String × List β)) (res : List (String × JValue)),
    keysSorted res = true → keysSorted (Rec.insFold pick cols res) = true := by
  intro cols
  induction cols with
  | nil => intro res h; exact h
  | cons col tl ih =>
    intro res h
    have hstep : Rec.insFold pick (col :: tl) res
        = Rec.insFold pick tl (match pick col with
            | some kv => objInsert kv.1 kv.2 res
            | none => res) := rfl
    rw [hstep]
    cases hp : pick col with
    | none =>
      simp only [hp]
      exact ih res h
    | some kv =>
      simp only [hp]
      exact ih _ (objInsert_sorted kv.1 kv.2 res h)

theorem foldl_insFold {β : Type}
    (orig : List (String × JValue) → (String × List β) → List (String × JValue))
    (pick : String × List β → Option (String × JValue))
    (hp : ∀ res col, orig res col
      = match pick col with
        | some kv => objInsert kv.1 kv.2 res
        | none => res) :
    ∀ (cols : List (String × List β)) (r1 r2 : List (String × JValue)), r1 = r2 →
      cols.foldl orig r1 = Rec.insFold pick cols r2 := by
  intro cols
  induction cols with
  | nil => intro r1 r2 h; exact h
  | cons colx tl ih =>
    intro r1 r2 h
    subst h
    have hstep : Rec.insFold pick (colx :: tl) r1
        = Rec.insFold pick tl (match pick colx with
            | some kv => objInsert kv.1 kv.2 r1
            | none => r1) := rfl
    rw [List.foldl_cons, hstep, hp r1 colx]
    exact ih _ _ rfl

theorem reconstructRow_eq (c : EC.Compacted) (tn : String) (g : EC.Group) (i : Nat) :
    EC.reconstructRow c tn g i
      = JValue.obj
          (Rec.insFold (Rec.pickJson c.dictionaries.strings c.dictionaries.properties i) g.jsonCols
            (Rec.insFold (Rec.pickBool c.dictionaries.properties i) g.boolCols
              (Rec.insFold (Rec.pickFloat c.dictionaries.properties i) g.floatCols
                (Rec.insFold (Rec.pickInt c.dictionaries.properties i) g.intCols
                  (Rec.insFold (Rec.pickUrl c.dictionaries.urls c.dictionaries.properties i)
                    g.urlCols
                    (Rec.insFold (Rec.pickStr c.dictionaries.strings c.dictionaries.properties i)
                      g.strCols
                      (objInsert "resource_type"
                        (JValue.str
                          ("https://common.terraphim.io/01jxw2jx8qze6yakh4fz24mnhy/class/"
                            ++ charReplace tn '_' '-' ++ "-step")) []))))))) := by
  have hpS : ∀ (res : List (String × JValue)) (col : String × List (Option Nat)),
      (match col.2.get? i with
       | some (some id) =>
         match c.dictionaries.strings.lookup id with
         | some s => objInsert (EC.expandKey c.dictionaries.properties col.1) (JValue.str s) res
         | none => res
       | _ => res)
      = match Rec.pickStr c.dictionaries.strings c.dictionaries.properties i col with
        | some kv => objInsert kv.1 kv.2 res
        | none => res := by
    intro res col
    unfold Rec.pickStr
    cases col.2.get? i with
    | none => rfl
    | some oc =>
      cases oc with
      | none => rfl
      | some id =>
        show (match c.dictionaries.strings.lookup id with
              | some s =>
                objInsert (EC.expandKey c.dictionaries.properties col.1) (JValue.str s) res
              | none => res)
            = match Option.map
                (fun s => (EC.expandKey c.dictionaries.properties col.1, JValue.str s))
                (c.dictionaries.strings.lookup id) with
              | some kv => objInsert kv.1 kv.2 res
              | none => res
        cases c.dictionaries.strings.lookup id with
        | none => rfl
        | some s => rfl
  have hpU : ∀ (res : List (String × JValue)) (col : String × List (Option Nat)),
      (match col.2.get? i with
       | some (some id) =>
         match c.dictionaries.urls.lookup id with
         | some s => objInsert (EC.expandKey c.dictionaries.properties col.1) (JValue.str s) res
         | none => res
       | _ => res)
      = match Rec.pickUrl c.dictionaries.urls c.dictionaries.properties i col with
        | some kv => objInsert kv.1 kv.2 res
        | none => res := by
    intro res col
    unfold Rec.pickUrl
    cases col.2.get? i with
    | none => rfl
    | some oc =>
      cases oc with
      | none => rfl
      | some id =>
        show (match c.dictionaries.urls.lookup id with
              | some s =>
                objInsert (EC.expandKey c.dictionaries.properties col.1) (JValue.str s) res
              | none => res)
            = match Option.map
                (fun s => (EC.expandKey c.dictionaries.properties col.1, JValue.str s))
                (c.dictionaries.urls.lookup id) with
              | some kv => objInsert kv.1 kv.2 res
              | none => res
        cases c.dictionaries.urls.lookup id with
        | none => rfl
        | some s => rfl
  have hpI : ∀ (res : List (String × JValue)) (col : String × List (Option Int)),
      (match col.2.get? i with
       | some (some n) => objInsert (EC.expandKey c.dictionaries.properties col.1) (JValue.int n) res
       | _ => res)
      = match Rec.pickInt c.dictionaries.properties i col with
        | some kv => objInsert kv.1 kv.2 res
        | none => res := by
    intro res col
    unfold Rec.pickInt
    cases col.2.get? i with
    | none => rfl
    | some oc =>
      cases oc with
      | none => rfl
      | some n => rfl
  have hpF : ∀ (res : List (String × JValue)) (col : String × List (Option Rat)),
      (match col.2.get? i with
       | some (some q) =>
         objInsert (EC.expandKey c.dictionaries.properties col.1) (JValue.float q) res
       | _ => res)
      = match Rec.pickFloat c.dictionaries.properties i col with
        | some kv => objInsert kv.1 kv.2 res
        | none => res := by
    intro res col
    unfold Rec.pickFloat
    cases col.2.get? i with
    | none => rfl
    | some oc =>
      cases oc with
      | none => rfl
      | some q => rfl
  have hpB : ∀ (res : List (String × JValue)) (col : String × List Bool),
      (match col.2.get? i with
       | some b => objInsert (EC.expandKey c.dictionaries.properties col.1) (JValue.bool b) res
       | none => res)
      = match Rec.pickBool c.dictionaries.properties i col with
        | some kv => objInsert kv.1 kv.2 res
        | none => res := by
    intro res col
    unfold Rec.pickBool
    cases col.2.get? i with
    | none => rfl
    | some b => rfl
  have hpJ : ∀ (res : List (String × JValue)) (col : String × List (Option Nat)),
      (match col.2.get? i with
       | some (some id) =>
         match c.dictionaries.strings.lookup id with
         | some js =>
           match jparse js with
           | some v => objInsert (EC.expandKey c.dictionaries.properties col.1) v res
           | none => objInsert (EC.expandKey c.dictionaries.properties col.1) (JValue.str js) res
         | none => res
       | _ => res)
      = match Rec.pickJson c.dictionaries.strings c.dictionaries.properties i col with
        | some kv => objInsert kv.1 kv.2 res
        | none => res := by
    intro res col
    unfold Rec.pickJson
    cases col.2.get? i with
    | none => rfl
    | some oc =>
      cases oc with
      | none => rfl
      | some id =>
        show (match c.dictionaries.strings.lookup id with
              | some js =>
                match jparse js with
                | some v => objInsert (EC.expandKey c.dictionaries.properties col.1) v res
                | none =>
                  objInsert (EC.expandKey c.dictionaries.properties col.1) (JValue.str js) res
              | none => res)
            = match Option.map
                (fun js => (EC.expandKey c.dictionaries.properties col.1,
                  match jparse js with
                  | some v => v
                  | none => JValue.str js))
                (c.dictionaries.strings.lookup id) with
              | some kv => objInsert kv.1 kv.2 res
              | none => res
        cases c.dictionaries.strings.lookup id with
        | none => rfl
        | some js =>
          show (match jparse js with
                | some v => objInsert (EC.expandKey c.dictionaries.properties col.1) v res
                | none =>
                  objInsert (EC.expandKey c.dictionaries.properties col.1) (JValue.str js) res)
              = objInsert (EC.expandKey c.dictionaries.properties col.1)
                  (match jparse js with
                   | some v => v
                   | none => JValue.str js) res
          cases jparse js with
          | none => rfl
          | some v => rfl
  exact congrArg JValue.obj
    (foldl_insFold _ _ hpJ g.jsonCols _ _
      (foldl_insFold _ _ hpB g.boolCols _ _
        (foldl_insFold _ _ hpF g.floatCols _ _
          (foldl_insFold _ _ hpI g.intCols _ _
            (foldl_insFold _ _ hpU g.urlCols _ _
              (foldl_insFold _ _ hpS g.strCols _ _ rfl))))))

theorem groupRecords_snd_const : ∀ (subs : List JValue) (s1 s2 : EC.Stats)
    (acc : List (String × List JValue)),
    (EC.groupRecords s1 subs acc).2 = (EC.groupRecords s2 subs acc).2 := by
  intro subs
  induction subs with
  | nil => intro s1 s2 acc; rfl
  | cons r rest ih =>
    intro s1 s2 acc
    cases h : (r.get? "resource_type").bind JValue.asStr with
    | some rt =>
      simp only [EC.groupRecords, h]
      exact ih _ _ _
    | none =>
      simp only [EC.groupRecords, h]
      exact ih _ _ _

theorem appendToGroup_eq (k : String) (r0 : JValue) (k' : String) (rs0 : List JValue)
    (tl : List (String × List JValue)) :
    EC.groupRecords.appendToGroup k r0 ((k', rs0) :: tl)
      = if k = k' then (k', rs0 ++ [r0]) :: tl
        else (k', rs0) :: EC.groupRecords.appendToGroup k r0 tl := rfl

theorem appendToGroup_self (k : String) (r : JValue) : ∀ acc : List (String × List JValue),
    ∃ rs, (k, rs) ∈ EC.groupRecords.appendToGroup k r acc ∧ r ∈ rs := by
  intro acc
  induction acc with
  | nil => exact ⟨[r], by simp [EC.groupRecords.appendToGroup], by simp⟩
  | cons g tl ih =>
    obtain ⟨k', rs'⟩ := g
    by_cases h : k = k'
    · subst h
      refine ⟨rs' ++ [r], ?_, by simp⟩
      rw [appendToGroup_eq, if_pos rfl]
      simp
    · rcases ih with ⟨rs, hmem, hr⟩
      refine ⟨rs, ?_, hr⟩
      rw [appendToGroup_eq, if_neg h]
      exact List.mem_cons_of_mem _ hmem

theorem appendToGroup_mem (k : String) (r r0 : JValue) : ∀ (acc : List (String × List JValue))
    (tn : String) (rs : List JValue), (tn, rs) ∈ acc → r ∈ rs →
    ∃ rs', (tn, rs') ∈ EC.groupRecords.appendToGroup k r0 acc ∧ r ∈ rs' := by
  intro acc
  induction acc with
  | nil => intro tn rs h _; simp at h
  | cons g tl ih =>
    obtain ⟨k', rs0⟩ := g
    intro tn rs hmem hr
    by_cases h : k = k'
    · subst h
      rcases List.mem_cons.mp hmem with he | hm
      · rw [Prod.mk.injEq] at he
        obtain ⟨he1, he2⟩ := he
        subst he1
        subst he2
        refine ⟨rs ++ [r0], ?_, by simp [hr]⟩
        rw [appendToGroup_eq, if_pos rfl]
        simp
      · refine ⟨rs, ?_, hr⟩
        rw [appendToGroup_eq, if_pos rfl]
        exact List.mem_cons_of_mem _ hm
    · rcases List.mem_cons.mp hmem with he | hm
      · rw [Prod.mk.injEq] at he
        obtain ⟨he1, he2⟩ := he
        subst he1
        subst he2
        refine ⟨rs, ?_, hr⟩
        rw [appendToGroup_eq, if_neg h]
        simp
      · rcases ih tn rs hm hr with ⟨rs', hmem', hr'⟩
        refine ⟨rs', ?_, hr'⟩
        rw [appendToGroup_eq, if_neg h]
        exact List.mem_cons_of_mem _ hmem'

theorem groupRecords_mem_mono : ∀ (subs : List JValue) (stats : EC.Stats)
    (acc : List (String × List JValue)) (tn : String) (rs : List JValue) (r : JValue),
    (tn, rs) ∈ acc → r ∈ rs →
    ∃ rs', (tn, rs') ∈ (EC.groupRecords stats subs acc).2 ∧ r ∈ rs' := by
  intro subs
  induction subs with
  | nil =>
    intro stats acc tn rs r hmem hr
    exact ⟨rs, by simpa [EC.groupRecords] using hmem, hr⟩
  | cons r0 rest ih =>
    intro stats acc tn rs r hmem hr
    cases h : (r0.get? "resource_type").bind JValue.asStr with
    | some rt =>
      simp only [EC.groupRecords, h]
      rcases appendToGroup_mem (EC.extractTypeName rt) r r0 acc tn rs hmem hr with ⟨rs', hm', hr'⟩
      exact ih _ _ tn rs' r hm' hr'
    | none =>
      simp only [EC.groupRecords, h]
      exact ih _ _ tn rs r hmem hr

theorem groupRecords_complete : ∀ (subs : List JValue) (stats : EC.Stats)
    (acc : List (String × List JValue)) (r : JValue), r ∈ subs → hasStrRT r = true →
    ∃ tn rs, (tn, rs) ∈ (EC.groupRecords stats subs acc).2 ∧ r ∈ rs := by
  intro subs
  induction subs with
  | nil => intro _ _ r h _; simp at h
  | cons r0 rest ih =>
    intro stats acc r hmem hrt
    rcases List.mem_cons.mp hmem with he | hm
    · subst he
      rcases Option.isSome_iff_exists.mp (by simpa [hasStrRT] using hrt) with ⟨rt, hb⟩
      simp only [EC.groupRecords, hb]
      rcases appendToGroup_self (EC.extractTypeName rt) r acc with ⟨rs, hmemg, hr⟩
      rcases groupRecords_mem_mono rest _ _ _ rs r hmemg hr with ⟨rs', hm', hr'⟩
      exact ⟨EC.extractTypeName rt, rs', hm', hr'⟩
    · cases h : (r0.get? "resource_type").bind JValue.asStr with
      | some rt =>
        simp only [EC.groupRecords, h]
        exact ih _ _ r hm hrt
      | none =>
        simp only [EC.groupRecords, h]
        exact ih _ _ r hm hrt

theorem groupRecords_members_from : ∀ (subs : List JValue) (stats : EC.Stats)
    (acc : List (String × List JValue)),
    ∀ g ∈ (EC.groupRecords stats subs acc).2, ∀ r ∈ g.2,
      (∃ g0 ∈ acc, r ∈ g0.2) ∨ r ∈ subs := by
  intro subs
  induction subs with
  | nil =>
    intro stats acc g hg r hr
    exact Or.inl ⟨g, by simpa [EC.groupRecords] using hg, hr⟩
  | cons r0 rest ih =>
    intro stats acc g hg r hr
    cases h : (r0.get? "resource_type").bind JValue.asStr with
    | some rt =>
      simp only [EC.groupRecords, h] at hg
      rcases ih _ _ g hg r hr with ⟨g0, hg0, hr0⟩ | hin
      · rcases EC_appendToGroup_members acc (EC.extractTypeName rt) r0 g0 hg0 r hr0 with
          ⟨g1, hg1, hr1⟩ | he
        · exact Or.inl ⟨g1, hg1, hr1⟩
        · exact Or.inr (by simp [he])
      · exact Or.inr (by simp [hin])
    | none =>
      simp only [EC.groupRecords, h] at hg
      rcases ih _ _ g hg r hr with ⟨g0, hg0, hr0⟩ | hin
      · exact Or.inl ⟨g0, hg0, hr0⟩
      · exact Or.inr (by simp [hin])

theorem convertGroups_data_mono : ∀ (groups : List (String × List JValue)) (st : EC.State)
    (stats : EC.Stats) (data : List (String × EC.Group))
    (schema : List (String × EC.ResourceSchema)) (p : String × EC.Group),
    p ∈ data → p ∈ (EC.convertGroups st stats data schema groups).2.2.1 := by
  intro groups
  induction groups with
  | nil => intro st stats data schema p hp; simpa [EC.convertGroups] using hp
  | cons g rest ih =>
    intro st stats data schema p hp
    obtain ⟨tn, rs⟩ := g
    have hstep : EC.convertGroups st stats data schema ((tn, rs) :: rest)
        = EC.convertGroups (EC.convertToColumnar st stats rs).1
            (EC.convertToColumnar st stats rs).2.1
            (data ++ [(tn, (EC.convertToColumnar st stats rs).2.2)])
            (aupdate tn (EC.inferSchema rs) schema) rest := rfl
    rw [hstep]
    exact ih _ _ _ _ p (by simp [hp])

theorem convertGroups_complete : ∀ (groups : List (String × List JValue)) (st : EC.State)
    (stats : EC.Stats) (data : List (String × EC.Group))
    (schema : List (String × EC.ResourceSchema)), Inv.StInv st →
    ∀ tn rs, (tn, rs) ∈ groups →
    ∃ st0 stats0, Inv.StInv st0 ∧
      (tn, (EC.convertToColumnar st0 stats0 rs).2.2)
        ∈ (EC.convertGroups st stats data schema groups).2.2.1 ∧
      Inv.StLE (EC.convertToColumnar st0 stats0 rs).1
        (EC.convertGroups st stats data schema groups).1 := by
  intro groups
  induction groups with
  | nil => intro st stats data schema _ tn rs h; simp at h
  | cons g rest ih =>
    intro st stats data schema hinv tn rs hmem
    obtain ⟨tn0, rs0⟩ := g
    have hstep : EC.convertGroups st stats data schema ((tn0, rs0) :: rest)
        = EC.convertGroups (EC.convertToColumnar st stats rs0).1
            (EC.convertToColumnar st stats rs0).2.1
            (data ++ [(tn0, (EC.convertToColumnar st stats rs0).2.2)])
            (aupdate tn0 (EC.inferSchema rs0) schema) rest := rfl
    rw [hstep]
    rcases List.mem_cons.mp hmem with he | hm
    · rw [Prod.mk.injEq] at he
      obtain ⟨he1, he2⟩ := he
      subst he1
      subst he2
      refine ⟨st, stats, hinv, ?_, ?_⟩
      · exact convertGroups_data_mono rest _ _ _ _ _ (by simp)
      · exact (convertGroups_st rest _ _ _ _).1
    · exact ih _ _ _ _ ((convertToColumnar_st st stats rs0).2 hinv) tn rs hm

theorem findOriginalKey_abbrevName (o : List (String × JValue)) (f k0 : String)
    (hnotdom : EC.propertyAbbrevs.lookup f = none)
    (h : EC.findOriginalKey o f = some k0) :
    Spec.abbrevName k0 = f := by
  unfold EC.findOriginalKey at h
  by_cases hex : (o.lookup f).isSome = true
  · rw [if_pos hex] at h
    have hk : k0 = f := by simpa using h.symm
    subst hk
    simp [Spec.abbrevName, hnotdom]
  · rw [if_neg hex] at h
    rcases Option.map_eq_some'.mp h with ⟨p, hp, hpe⟩
    have hps : p.2 = f ∧ (o.lookup p.1).isSome = true := by
      simpa using List.find?_some hp
    have hmem := List.mem_of_find?_eq_some hp
    have hlk : EC.propertyAbbrevs.lookup p.1 = some p.2 := by
      apply mem_lookup p.1 _ p.2 dom_nodup
      simpa using hmem
    rw [← hpe]
    simp [Spec.abbrevName, hlk, hps.1]

theorem findVal_some_key (o : List (String × JValue)) (f : String) (v' : JValue)
    (hgood : ∀ kv ∈ o, Spec.goodKey kv.1 = true)
    (hnotdom : EC.propertyAbbrevs.lookup f = none)
    (h : EC.findVal o f = some v') :
    ∃ k0, EC.expandKey (EC.propertyAbbrevs.map (fun p => (p.2, p.1))) f = k0 ∧
      o.lookup k0 = some v' ∧ Spec.abbrevName k0 = f := by
  unfold EC.findVal at h
  rcases Option.bind_eq_some.mp h with ⟨k0, hfo, hlk0⟩
  rcases findOriginalKey_expand o f k0 hgood hfo with ⟨hexp, _⟩
  exact ⟨k0, hexp, hlk0, findOriginalKey_abbrevName o f k0 hnotdom hfo⟩

theorem fieldname_facts (rs : List JValue) (stats0 : EC.Stats)
    (hgoodall : ∀ r ∈ rs, ∀ kv ∈ recPairs r, Spec.goodKey kv.1 = true)
    (f : String) (t : EC.FieldType)
    (hndf : (((EC.allFields stats0 rs []).2).map Prod.fst).Nodup)
    (hft : (f, t) ∈ (EC.allFields stats0 rs []).2) :
    EC.propertyAbbrevs.lookup f = none ∧
    ∃ k2, Spec.goodKey k2 = true ∧ f = Spec.abbrevName k2 ∧
      EC.expandKey (EC.propertyAbbrevs.map (fun p => (p.2, p.1))) f = k2 := by
  have hlk0 := mem_lookup f _ t hndf hft
  have hlk : Spec.lastTypeOf rs f = some t := by
    have hall := allFields_lookup rs stats0 [] f
    rw [hlk0] at hall
    simpa [Spec.lastTypeOf] using hall.symm
  rcases lastTypeOf_some_mem rs f t hlk with ⟨r', hr', kv, hkv, habb, _⟩
  have hg := hgoodall r' hr' kv hkv
  have hnd : EC.propertyAbbrevs.lookup f = none := by
    rw [← habb]
    exact abbrevName_not_dom kv.1
  refine ⟨hnd, kv.1, hg, habb.symm, ?_⟩
  rw [← habb]
  exact expandKey_abbrev kv.1 hg

theorem allFields_lookup_last (rs : List JValue) (stats0 : EC.Stats) (f : String) :
    ((EC.allFields stats0 rs []).2).lookup f = Spec.lastTypeOf rs f := by
  have hall := allFields_lookup rs stats0 [] f
  simpa [Spec.lastTypeOf] using hall

theorem bucketS_inv (rs : List JValue) (stats0 : EC.Stats) (stfin : EC.State)
    (hfin : Inv.StInv stfin)
    (hgoodall : ∀ r ∈ rs, ∀ kv ∈ recPairs r, Spec.goodKey kv.1 = true)
    (hndf : (((EC.allFields stats0 rs []).2).map Prod.fst).Nodup)
    (cols : List (String × List (Option Nat)))
    (hnames : cols.map Prod.fst = kindNames (EC.allFields stats0 rs []).2 EC.FieldType.str)
    (hcolok : ∀ f, (f, EC.FieldType.str) ∈ (EC.allFields stats0 rs []).2 →
      ∃ cells, cols.lookup f = some cells ∧
        cells.length = (rs.map (fun r => (JValue.asObject r).getD [])).length ∧
        ∀ j o' cell, (rs.map (fun r => (JValue.asObject r).getD [])).get? j = some o' →
          cells.get? j = some cell → Inv.CellStr stfin.stringDict o' f cell)
    (i : Nat) (o : List (String × JValue))
    (hos : (rs.map (fun r => (JValue.asObject r).getD [])).get? i = some o)
    (hgood : ∀ kv ∈ o, Spec.goodKey kv.1 = true)
    (key : String) (kv : String × JValue)
    (hfind : (cols.filterMap (Rec.pickStr (DC.reverseLookupOf stfin.stringDict)
        (EC.propertyAbbrevs.map (fun p => (p.2, p.1))) i)).reverse.find?
        (fun kv => kv.1 = key) = some kv) :
    o.lookup key = some kv.2 ∧
    (Spec.abbrevName key, EC.FieldType.str) ∈ (EC.allFields stats0 rs []).2 := by
  have hndc : (cols.map Prod.fst).Nodup := by
    rw [hnames]
    exact kindNames_nodup _ hndf _
  rcases find?_fst_some _ _ _ hfind with ⟨hmemrev, hkeq⟩
  rw [List.mem_reverse] at hmemrev
  rcases List.mem_filterMap.mp hmemrev with ⟨col, hcolmem, hpick⟩
  rcases pickStr_some _ _ _ _ _ hpick with ⟨id, s, hg, hlkrev, hkve⟩
  have hmemname : col.1 ∈ kindNames (EC.allFields stats0 rs []).2 EC.FieldType.str := by
    rw [← hnames]
    exact List.mem_map_of_mem Prod.fst hcolmem
  have hft : (col.1, EC.FieldType.str) ∈ (EC.allFields stats0 rs []).2 :=
    (kindNames_mem _ _ _).mp hmemname
  rcases hcolok col.1 hft with ⟨cells, hlkc, hlen, hrowspec⟩
  have hcells : cells = col.2 := by
    have hm2 : cols.lookup col.1 = some col.2 := mem_lookup col.1 cols col.2 hndc hcolmem
    rw [hlkc] at hm2
    exact (Option.some.injEq _ _).mp hm2
  have hcell := hrowspec i o (some id) hos (by rw [hcells]; exact hg)
  unfold Inv.CellStr at hcell
  cases hv : (EC.findVal o col.1).bind JValue.asStr with
  | none =>
    simp only [hv] at hcell
    exact absurd hcell (by simp)
  | some s' =>
    simp only [hv] at hcell
    rcases hcell with ⟨cc, hccs, hdict⟩
    have hcc : cc = id := by simpa using hccs.symm
    subst hcc
    have hrev : (DC.reverseLookupOf stfin.stringDict).lookup cc = some s' :=
      reverse_resolve stfin.stringDict stfin.nextStringId hfin.2 s' cc hdict
    have hss : s = s' := by
      rw [hlkrev] at hrev
      exact (Option.some.injEq _ _).mp hrev
    subst hss
    rcases Option.bind_eq_some.mp hv with ⟨v', hfv, hstr⟩
    have hv' : v' = JValue.str s := by
      cases v' with
      | str a =>
        have ha : a = s := by simpa [JValue.asStr] using hstr
        rw [ha]
      | null => simp [JValue.asStr] at hstr
      | bool b => simp [JValue.asStr] at hstr
      | int n => simp [JValue.asStr] at hstr
      | float q => simp [JValue.asStr] at hstr
      | arr l => simp [JValue.asStr] at hstr
      | obj ob => simp [JValue.asStr] at hstr
    subst hv'
    have hnotdom : EC.propertyAbbrevs.lookup col.1 = none :=
      (fieldname_facts rs stats0 hgoodall col.1 EC.FieldType.str hndf hft).1
    rcases findVal_some_key o col.1 _ hgood hnotdom hfv with ⟨k0, hexp, hlk0, habk⟩
    have hkv1 : kv.1 = k0 := by
      rw [hkve]
      exact hexp
    have hkey0 : key = k0 := by rw [← hkeq, hkv1]
    constructor
    · rw [hkey0, hlk0, hkve]
    · rw [hkey0, habk]
      exact hft

theorem bucketU_inv (rs : List JValue) (stats0 : EC.Stats) (stfin : EC.State)
    (hfin : Inv.StInv stfin)
    (hgoodall : ∀ r ∈ rs, ∀ kv ∈ recPairs r, Spec.goodKey kv.1 = true)
    (hndf : (((EC.allFields stats0 rs []).2).map Prod.fst).Nodup)
    (cols : List (String × List (Option Nat)))
    (hnames : cols.map Prod.fst = kindNames (EC.allFields stats0 rs []).2 EC.FieldType.url)
    (hcolok : ∀ f, (f, EC.FieldType.url) ∈ (EC.allFields stats0 rs []).2 →
      ∃ cells, cols.lookup f = some cells ∧
        cells.length = (rs.map (fun r => (JValue.asObject r).getD [])).length ∧
        ∀ j o' cell, (rs.map (fun r => (JValue.asObject r).getD [])).get? j = some o' →
          cells.get? j = some cell → Inv.CellUrl stfin.urlDict o' f cell)
    (i : Nat) (o : List (String × JValue))
    (hos : (rs.map (fun r => (JValue.asObject r).getD [])).get? i = some o)
    (hgood : ∀ kv ∈ o, Spec.goodKey kv.1 = true)
    (key : String) (kv : String × JValue)
    (hfind : (cols.filterMap (Rec.pickUrl (DC.reverseLookupOf stfin.urlDict)
        (EC.propertyAbbrevs.map (fun p => (p.2, p.1))) i)).reverse.find?
        (fun kv => kv.1 = key) = some kv) :
    o.lookup key = some kv.2 ∧
    (Spec.abbrevName key, EC.FieldType.url) ∈ (EC.allFields stats0 rs []).2 := by
  have hndc : (cols.map Prod.fst).Nodup := by
    rw [hnames]
    exact kindNames_nodup _ hndf _
  rcases find?_fst_some _ _ _ hfind with ⟨hmemrev, hkeq⟩
  rw [List.mem_reverse] at hmemrev
  rcases List.mem_filterMap.mp hmemrev with ⟨col, hcolmem, hpick⟩
  rcases pickUrl_some _ _ _ _ _ hpick with ⟨id, s, hg, hlkrev, hkve⟩
  have hmemname : col.1 ∈ kindNames (EC.allFields stats0 rs []).2 EC.FieldType.url := by
    rw [← hnames]
    exact List.mem_map_of_mem Prod.fst hcolmem
  have hft : (col.1, EC.FieldType.url) ∈ (EC.allFields stats0 rs []).2 :=
    (kindNames_mem _ _ _).mp hmemname
  rcases hcolok col.1 hft with ⟨cells, hlkc, hlen, hrowspec⟩
  have hcells : cells = col.2 := by
    have hm2 : cols.lookup col.1 = some col.2 := mem_lookup col.1 cols col.2 hndc hcolmem
    rw [hlkc] at hm2
    exact (Option.some.injEq _ _).mp hm2
  have hcell := hrowspec i o (some id) hos (by rw [hcells]; exact hg)
  unfold Inv.CellUrl at hcell
  cases hv : (EC.findVal o col.1).bind JValue.asStr with
  | none =>
    simp only [hv] at hcell
    exact absurd hcell (by simp)
  | some s' =>
    simp only [hv] at hcell
    rcases hcell with ⟨cc, hccs, hdict⟩
    have hcc : cc = id := by simpa using hccs.symm
    subst hcc
    have hrev : (DC.reverseLookupOf stfin.urlDict).lookup cc = some s' :=
      reverse_resolve stfin.urlDict stfin.nextUrlId hfin.1 s' cc hdict
    have hss : s = s' := by
      rw [hlkrev] at hrev
      exact (Option.some.injEq _ _).mp hrev
    subst hss
    rcases Option.bind_eq_some.mp hv with ⟨v', hfv, hstr⟩
    have hv' : v' = JValue.str s := by
      cases v' with
      | str a =>
        have ha : a = s := by simpa [JValue.asStr] using hstr
        rw [ha]
      | null => simp [JValue.asStr] at hstr
      | bool b => simp [JValue.asStr] at hstr
      | int n => simp [JValue.asStr] at hstr
      | float q => simp [JValue.asStr] at hstr
      | arr l => simp [JValue.asStr] at hstr
      | obj ob => simp [JValue.asStr] at hstr
    subst hv'
    have hnotdom : EC.propertyAbbrevs.lookup col.1 = none :=
      (fieldname_facts rs stats0 hgoodall col.1 EC.FieldType.url hndf hft).1
    rcases findVal_some_key o col.1 _ hgood hnotdom hfv with ⟨k0, hexp, hlk0, habk⟩
    have hkv1 : kv.1 = k0 := by
      rw [hkve]
      exact hexp
    have hkey0 : key = k0 := by rw [← hkeq, hkv1]
    constructor
    · rw [hkey0, hlk0, hkve]
    · rw [hkey0, habk]
      exact hft

theorem bucketJ_inv (rs : List JValue) (stats0 : EC.Stats) (stfin : EC.State)
    (hfin : Inv.StInv stfin)
    (hgoodall : ∀ r ∈ rs, ∀ kv ∈ recPairs r, Spec.goodKey kv.1 = true)
    (hndf : (((EC.allFields stats0 rs []).2).map Prod.fst).Nodup)
    (cols : List (String × List (Option Nat)))
    (hnames : cols.map Prod.fst = kindNames (EC.allFields stats0 rs []).2 EC.FieldType.json)
    (hcolok : ∀ f, (f, EC.FieldType.json) ∈ (EC.allFields stats0 rs []).2 →
      ∃ cells, cols.lookup f = some cells ∧
        cells.length = (rs.map (fun r => (JValue.asObject r).getD [])).length ∧
        ∀ j o' cell, (rs.map (fun r => (JValue.asObject r).getD [])).get? j = some o' →
          cells.get? j = some cell → Inv.CellJson stfin.stringDict o' f cell)
    (i : Nat) (o : List (String × JValue))
    (hos : (rs.map (fun r => (JValue.asObject r).getD [])).get? i = some o)
    (hgood : ∀ kv ∈ o, Spec.goodKey kv.1 = true)
    (hwfvals : ∀ kv0 ∈ o, jwf kv0.2 = true)
    (key : String) (kv : String × JValue)
    (hfind : (cols.filterMap (Rec.pickJson (DC.reverseLookupOf stfin.stringDict)
        (EC.propertyAbbrevs.map (fun p => (p.2, p.1))) i)).reverse.find?
        (fun kv => kv.1 = key) = some kv) :
    o.lookup key = some kv.2 ∧
    (Spec.abbrevName key, EC.FieldType.json) ∈ (EC.allFields stats0 rs []).2 := by
  have hndc : (cols.map Prod.fst).Nodup := by
    rw [hnames]
    exact kindNames_nodup _ hndf _
  rcases find?_fst_some _ _ _ hfind with ⟨hmemrev, hkeq⟩
  rw [List.mem_reverse] at hmemrev
  rcases List.mem_filterMap.mp hmemrev with ⟨col, hcolmem, hpick⟩
  rcases pickJson_some _ _ _ _ _ hpick with ⟨id, js, hg, hlkrev, hkve⟩
  have hmemname : col.1 ∈ kindNames (EC.allFields stats0 rs []).2 EC.FieldType.json := by
    rw [← hnames]
    exact List.mem_map_of_mem Prod.fst hcolmem
  have hft : (col.1, EC.FieldType.json) ∈ (EC.allFields stats0 rs []).2 :=
    (kindNames_mem _ _ _).mp hmemname
  rcases hcolok col.1 hft with ⟨cells, hlkc, hlen, hrowspec⟩
  have hcells : cells = col.2 := by
    have hm2 : cols.lookup col.1 = some col.2 := mem_lookup col.1 cols col.2 hndc hcolmem
    rw [hlkc] at hm2
    exact (Option.some.injEq _ _).mp hm2
  have hcell := hrowspec i o (some id) hos (by rw [hcells]; exact hg)
  unfold Inv.CellJson at hcell
  cases hv : EC.findVal o col.1 with
  | none =>
    simp only [hv] at hcell
    exact absurd hcell (by simp)
  | some v' =>
    simp only [hv] at hcell
    rcases hcell with ⟨cc, hccs, hdict⟩
    have hcc : cc = id := by simpa using hccs.symm
    subst hcc
    have hrev : (DC.reverseLookupOf stfin.stringDict).lookup cc = some (jser v') :=
      reverse_resolve stfin.stringDict stfin.nextStringId hfin.2 (jser v') cc hdict
    have hjs : js = jser v' := by
      rw [hlkrev] at hrev
      exact (Option.some.injEq _ _).mp hrev
    subst hjs
    have hnotdom : EC.propertyAbbrevs.lookup col.1 = none :=
      (fieldname_facts rs stats0 hgoodall col.1 EC.FieldType.json hndf hft).1
    rcases findVal_some_key o col.1 v' hgood hnotdom hv with ⟨k0, hexp, hlk0, habk⟩
    have hwf : jwf v' = true := hwfvals (k0, v') (lookup_mem _ _ _ hlk0)
    have hkv : kv = (k0, v') := by
      rw [hkve, jparse_jser v' hwf, hexp]
    have hkey0 : key = k0 := by
      rw [← hkeq, hkv]
    constructor
    · rw [hkey0, hlk0, hkv]
    · rw [hkey0, habk]
      exact hft

theorem bucketI_inv (rs : List JValue) (stats0 : EC.Stats)
    (hgoodall : ∀ r ∈ rs, ∀ kv ∈ recPairs r, Spec.goodKey kv.1 = true)
    (hndf : (((EC.allFields stats0 rs []).2).map Prod.fst).Nodup)
    (cols : List (String × List (Option Int)))
    (hnames : cols.map Prod.fst = kindNames (EC.allFields stats0 rs []).2 EC.FieldType.int)
    (hcolok : ∀ f, (f, EC.FieldType.int) ∈ (EC.allFields stats0 rs []).2 →
      ∃ cells, cols.lookup f = some cells ∧
        cells.length = (rs.map (fun r => (JValue.asObject r).getD [])).length ∧
        ∀ j o' cell, (rs.map (fun r => (JValue.asObject r).getD [])).get? j = some o' →
          cells.get? j = some cell → cell = (EC.findVal o' f).bind JValue.asI64)
    (i : Nat) (o : List (String × JValue))
    (hos : (rs.map (fun r => (JValue.asObject r).getD [])).get? i = some o)
    (hgood : ∀ kv ∈ o, Spec.goodKey kv.1 = true)
    (key : String) (kv : String × JValue)
    (hfind : (cols.filterMap (Rec.pickInt
        (EC.propertyAbbrevs.map (fun p => (p.2, p.1))) i)).reverse.find?
        (fun kv => kv.1 = key) = some kv) :
    o.lookup key = some kv.2 ∧
    (Spec.abbrevName key, EC.FieldType.int) ∈ (EC.allFields stats0 rs []).2 := by
  have hndc : (cols.map Prod.fst).Nodup := by
    rw [hnames]
    exact kindNames_nodup _ hndf _
  rcases find?_fst_some _ _ _ hfind with ⟨hmemrev, hkeq⟩
  rw [List.mem_reverse] at hmemrev
  rcases List.mem_filterMap.mp hmemrev with ⟨col, hcolmem, hpick⟩
  rcases pickInt_some _ _ _ _ hpick with ⟨n, hg, hkve⟩
  have hmemname : col.1 ∈ kindNames (EC.allFields stats0 rs []).2 EC.FieldType.int := by
    rw [← hnames]
    exact List.mem_map_of_mem Prod.fst hcolmem
  have hft : (col.1, EC.FieldType.int) ∈ (EC.allFields stats0 rs []).2 :=
    (kindNames_mem _ _ _).mp hmemname
  rcases hcolok col.1 hft with ⟨cells, hlkc, hlen, hrowspec⟩
  have hcells : cells = col.2 := by
    have hm2 : cols.lookup col.1 = some col.2 := mem_lookup col.1 cols col.2 hndc hcolmem
    rw [hlkc] at hm2
    exact (Option.some.injEq _ _).mp hm2
  have hcell := hrowspec i o (some n) hos (by rw [hcells]; exact hg)
  rcases Option.bind_eq_some.mp hcell.symm with ⟨v', hfv, hint⟩
  have hv' : v' = JValue.int n := by
    cases v' with
    | int m =>
      rw [show JValue.asI64 (JValue.int m)
          = if -(2 ^ 63) ≤ m ∧ m < 2 ^ 63 then some m else none from rfl] at hint
      split at hint
      · have hm : m = n := by simpa using hint
        rw [hm]
      · simp at hint
    | null => simp [JValue.asI64] at hint
    | bool b => simp [JValue.asI64] at hint
    | float q => simp [JValue.asI64] at hint
    | str a => simp [JValue.asI64] at hint
    | arr l => simp [JValue.asI64] at hint
    | obj ob => simp [JValue.asI64] at hint
  subst hv'
  have hnotdom : EC.propertyAbbrevs.lookup col.1 = none :=
    (fieldname_facts rs stats0 hgoodall col.1 EC.FieldType.int hndf hft).1
  rcases findVal_some_key o col.1 _ hgood hnotdom hfv with ⟨k0, hexp, hlk0, habk⟩
  have hkv1 : kv.1 = k0 := by
    rw [hkve]
    exact hexp
  have hkey0 : key = k0 := by rw [← hkeq, hkv1]
  constructor
  · rw [hkey0, hlk0, hkve]
  · rw [hkey0, habk]
    exact hft

theorem bucketF_inv (rs : List JValue) (stats0 : EC.Stats)
    (hgoodall : ∀ r ∈ rs, ∀ kv ∈ recPairs r, Spec.goodKey kv.1 = true)
    (hndf : (((EC.allFields stats0 rs []).2).map Prod.fst).Nodup)
    (cols : List (String × List (Option Rat)))
    (hnames : cols.map Prod.fst = kindNames (EC.allFields stats0 rs []).2 EC.FieldType.float)
    (hcolok : ∀ f, (f, EC.FieldType.float) ∈ (EC.allFields stats0 rs []).2 →
      ∃ cells, cols.lookup f = some cells ∧
        cells.length = (rs.map (fun r => (JValue.asObject r).getD [])).length ∧
        ∀ j o' cell, (rs.map (fun r => (JValue.asObject r).getD [])).get? j = some o' →
          cells.get? j = some cell → cell = (EC.findVal o' f).bind JValue.asF64)
    (i : Nat) (o : List (String × JValue))
    (hos : (rs.map (fun r => (JValue.asObject r).getD [])).get? i = some o)
    (hgood : ∀ kv ∈ o, Spec.goodKey kv.1 = true)
    (hbnd : ∀ kv0 ∈ o, ∀ n : Int, kv0.2 = JValue.int n → -(2 ^ 63) ≤ n ∧ n < 2 ^ 63)
    (hlast : ∀ kv0 ∈ o, Spec.lastTypeOf rs (Spec.abbrevName kv0.1)
      = some (EC.inferFieldType kv0.2))
    (key : String) (kv : String × JValue)
    (hfind : (cols.filterMap (Rec.pickFloat
        (EC.propertyAbbrevs.map (fun p => (p.2, p.1))) i)).reverse.find?
        (fun kv => kv.1 = key) = some kv) :
    o.lookup key = some kv.2 ∧
    (Spec.abbrevName key, EC.FieldType.float) ∈ (EC.allFields stats0 rs []).2 := by
  have hndc : (cols.map Prod.fst).Nodup := by
    rw [hnames]
    exact kindNames_nodup _ hndf _
  rcases find?_fst_some _ _ _ hfind with ⟨hmemrev, hkeq⟩
  rw [List.mem_reverse] at hmemrev
  rcases List.mem_filterMap.mp hmemrev with ⟨col, hcolmem, hpick⟩
  rcases pickFloat_some _ _ _ _ hpick with ⟨q, hg, hkve⟩
  have hmemname : col.1 ∈ kindNames (EC.allFields stats0 rs []).2 EC.FieldType.float := by
    rw [← hnames]
    exact List.mem_map_of_mem Prod.fst hcolmem
  have hft : (col.1, EC.FieldType.float) ∈ (EC.allFields stats0 rs []).2 :=
    (kindNames_mem _ _ _).mp hmemname
  rcases hcolok col.1 hft with ⟨cells, hlkc, hlen, hrowspec⟩
  have hcells : cells = col.2 := by
    have hm2 : cols.lookup col.1 = some col.2 := mem_lookup col.1 cols col.2 hndc hcolmem
    rw [hlkc] at hm2
    exact (Option.some.injEq _ _).mp hm2
  have hcell := hrowspec i o (some q) hos (by rw [hcells]; exact hg)
  rcases Option.bind_eq_some.mp hcell.symm with ⟨v', hfv, hflt⟩
  have hnotdom : EC.propertyAbbrevs.lookup col.1 = none :=
    (fieldname_facts rs stats0 hgoodall col.1 EC.FieldType.float hndf hft).1
  rcases findVal_some_key o col.1 v' hgood hnotdom hfv with ⟨k0, hexp, hlk0, habk⟩
  have hmem0 : (k0, v') ∈ o := lookup_mem _ _ _ hlk0
  have htype : EC.inferFieldType v' = EC.FieldType.float := by
    have h1 := hlast (k0, v') hmem0
    rw [habk] at h1
    have h2 : Spec.lastTypeOf rs col.1 = some EC.FieldType.float := by
      rw [← allFields_lookup_last rs stats0 col.1]
      exact mem_lookup col.1 _ _ hndf hft
    rw [h1] at h2
    exact ((Option.some.injEq _ _).mp h2)
  have hv' : v' = JValue.float q := by
    cases v' with
    | float q' =>
      have hq : q' = q := by simpa [JValue.asF64] using hflt
      rw [hq]
    | int m =>
      exfalso
      have hb := hbnd (k0, JValue.int m) hmem0 m rfl
      rw [show EC.inferFieldType (JValue.int m)
          = if -(2 ^ 63) ≤ m ∧ m < 2 ^ 63 then EC.FieldType.int else EC.FieldType.float
          from rfl] at htype
      rw [if_pos hb] at htype
      exact absurd htype (by simp)
    | null => simp [JValue.asF64] at hflt
    | bool b => simp [JValue.asF64] at hflt
    | str a => simp [JValue.asF64] at hflt
    | arr l => simp [JValue.asF64] at hflt
    | obj ob => simp [JValue.asF64] at hflt
  subst hv'
  have hkv1 : kv.1 = k0 := by
    rw [hkve]
    exact hexp
  have hkey0 : key = k0 := by rw [← hkeq, hkv1]
  constructor
  · rw [hkey0, hlk0, hkve]
  · rw [hkey0, habk]
    exact hft

theorem bucketB_inv (rs : List JValue) (stats0 : EC.Stats)
    (hgoodall : ∀ r ∈ rs, ∀ kv ∈ recPairs r, Spec.goodKey kv.1 = true)
    (hndf : (((EC.allFields stats0 rs []).2).map Prod.fst).Nodup)
    (cols : List (String × List Bool))
    (hnames : cols.map Prod.fst = kindNames (EC.allFields stats0 rs []).2 EC.FieldType.bool)
    (hcolok : ∀ f, (f, EC.FieldType.bool) ∈ (EC.allFields stats0 rs []).2 →
      ∃ cells, cols.lookup f = some cells ∧
        cells.length = (rs.map (fun r => (JValue.asObject r).getD [])).length ∧
        ∀ j o' cell, (rs.map (fun r => (JValue.asObject r).getD [])).get? j = some o' →
          cells.get? j = some cell → cell = ((EC.findVal o' f).bind JValue.asBool).getD false)
    (i : Nat) (o : List (String × JValue))
    (hos : (rs.map (fun r => (JValue.asObject r).getD [])).get? i = some o)
    (hgood : ∀ kv ∈ o, Spec.goodKey kv.1 = true)
    (hlast : ∀ kv0 ∈ o, Spec.lastTypeOf rs (Spec.abbrevName kv0.1)
      = some (EC.inferFieldType kv0.2))
    (hbp : ∀ f, (f, EC.FieldType.bool) ∈ (EC.allFields stats0 rs []).2 →
      (EC.findVal o f).isSome = true)
    (key : String) (kv : String × JValue)
    (hfind : (cols.filterMap (Rec.pickBool
        (EC.propertyAbbrevs.map (fun p => (p.2, p.1))) i)).reverse.find?
        (fun kv => kv.1 = key) = some kv) :
    o.lookup key = some kv.2 ∧
    (Spec.abbrevName key, EC.FieldType.bool) ∈ (EC.allFields stats0 rs []).2 := by
  have hndc : (cols.map Prod.fst).Nodup := by
    rw [hnames]
    exact kindNames_nodup _ hndf _
  rcases find?_fst_some _ _ _ hfind with ⟨hmemrev, hkeq⟩
  rw [List.mem_reverse] at hmemrev
  rcases List.mem_filterMap.mp hmemrev with ⟨col, hcolmem, hpick⟩
  rcases pickBool_some _ _ _ _ hpick with ⟨b, hg, hkve⟩
  have hmemname : col.1 ∈ kindNames (EC.allFields stats0 rs []).2 EC.FieldType.bool := by
    rw [← hnames]
    exact List.mem_map_of_mem Prod.fst hcolmem
  have hft : (col.1, EC.FieldType.bool) ∈ (EC.allFields stats0 rs []).2 :=
    (kindNames_mem _ _ _).mp hmemname
  rcases hcolok col.1 hft with ⟨cells, hlkc, hlen, hrowspec⟩
  have hcells : cells = col.2 := by
    have hm2 : cols.lookup col.1 = some col.2 := mem_lookup col.1 cols col.2 hndc hcolmem
    rw [hlkc] at hm2
    exact (Option.some.injEq _ _).mp hm2
  have hcell := hrowspec i o b hos (by rw [hcells]; exact hg)
  rcases Option.isSome_iff_exists.mp (hbp col.1 hft) with ⟨v', hfv⟩
  have hnotdom : EC.propertyAbbrevs.lookup col.1 = none :=
    (fieldname_facts rs stats0 hgoodall col.1 EC.FieldType.bool hndf hft).1
  rcases findVal_some_key o col.1 v' hgood hnotdom hfv with ⟨k0, hexp, hlk0, habk⟩
  have hmem0 : (k0, v') ∈ o := lookup_mem _ _ _ hlk0
  have htype : EC.inferFieldType v' = EC.FieldType.bool := by
    have h1 := hlast (k0, v') hmem0
    rw [habk] at h1
    have h2 : Spec.lastTypeOf rs col.1 = some EC.FieldType.bool := by
      rw [← allFields_lookup_last rs stats0 col.1]
      exact mem_lookup col.1 _ _ hndf hft
    rw [h1] at h2
    exact ((Option.some.injEq _ _).mp h2)
  have hv' : v' = JValue.bool b := by
    cases v' with
    | bool b' =>
      have hb : b = b' := by
        rw [hfv] at hcell
        simpa [JValue.asBool] using hcell
      rw [hb]
    | int m =>
      exfalso
      rw [show EC.inferFieldType (JValue.int m)
          = if -(2 ^ 63) ≤ m ∧ m < 2 ^ 63 then EC.FieldType.int else EC.FieldType.float
          from rfl] at htype
      split at htype <;> exact absurd htype (by simp)
    | null => simp [EC.inferFieldType] at htype
    | float q => simp [EC.inferFieldType] at htype
    | str a =>
      exfalso
      rw [show EC.inferFieldType (JValue.str a)
          = if strIsPrefix "https://" a || strIsPrefix "http://" a then EC.FieldType.url
            else EC.FieldType.str from rfl] at htype
      split at htype <;> exact absurd htype (by simp)
    | arr l => simp [EC.inferFieldType] at htype
    | obj ob => simp [EC.inferFieldType] at htype
  subst hv'
  have hkv1 : kv.1 = k0 := by
    rw [hkve]
    exact hexp
  have hkey0 : key = k0 := by rw [← hkeq, hkv1]
  constructor
  · rw [hkey0, hlk0, hkve]
  · rw [hkey0, habk]
    exact hft

theorem recPairs_obj (o : List (String × JValue)) : recPairs (JValue.obj o) = o := rfl

theorem bucket_keys_nodup {β : Type} (rs : List JValue) (stats0 : EC.Stats)
    (hgoodall : ∀ r ∈ rs, ∀ kv ∈ recPairs r, Spec.goodKey kv.1 = true)
    (hndf : (((EC.allFields stats0 rs []).2).map Prod.fst).Nodup)
    (t : EC.FieldType) (cols : List (String × List β))
    (hnames : cols.map Prod.fst = kindNames (EC.allFields stats0 rs []).2 t)
    (pick : String × List β → Option (String × JValue))
    (hkey : ∀ col kv, pick col = some kv →
      kv.1 = EC.expandKey (EC.propertyAbbrevs.map (fun p => (p.2, p.1))) col.1) :
    ((cols.filterMap pick).map Prod.fst).Nodup := by
  have hsub := pick_keys_sublist pick
    (fun col => EC.expandKey (EC.propertyAbbrevs.map (fun p => (p.2, p.1))) col.1) hkey cols
  have hmm : cols.map (fun col => EC.expandKey (EC.propertyAbbrevs.map (fun p => (p.2, p.1))) col.1)
      = (cols.map Prod.fst).map (EC.expandKey (EC.propertyAbbrevs.map (fun p => (p.2, p.1)))) := by
    simp [List.map_map, Function.comp_def]
  have hnodup2 : (cols.map
      (fun col => EC.expandKey (EC.propertyAbbrevs.map (fun p => (p.2, p.1))) col.1)).Nodup := by
    rw [hmm, hnames]
    refine List.Nodup.map_on ?_ (kindNames_nodup _ hndf _)
    intro x hx y hy he
    have hxf : (x, t) ∈ (EC.allFields stats0 rs []).2 := (kindNames_mem _ _ _).mp hx
    have hyf : (y, t) ∈ (EC.allFields stats0 rs []).2 := (kindNames_mem _ _ _).mp hy
    rcases (fieldname_facts rs stats0 hgoodall x t hndf hxf).2 with ⟨kx, hgx, hex, hexx⟩
    rcases (fieldname_facts rs stats0 hgoodall y t hndf hyf).2 with ⟨ky, hgy, hey, hexy⟩
    rw [hexx, hexy] at he
    rw [hex, hey, he]
  exact hnodup2.sublist hsub

theorem cell_at_row {β : Type} (cells : List β) (rs : List JValue) (i : Nat)
    (hlen : cells.length = (rs.map (fun r => (JValue.asObject r).getD [])).length)
    (hilt : i < rs.length) : ∃ cell, cells.get? i = some cell := by
  cases hcg : cells.get? i with
  | some cell => exact ⟨cell, rfl⟩
  | none =>
    exfalso
    have h1 := List.get?_eq_none.mp hcg
    rw [hlen, List.length_map] at h1
    omega

theorem bucketS_find (rs : List JValue) (stats0 : EC.Stats) (stfin : EC.State)
    (hfin : Inv.StInv stfin)
    (hgoodall : ∀ r ∈ rs, ∀ kv ∈ recPairs r, Spec.goodKey kv.1 = true)
    (hndf : (((EC.allFields stats0 rs []).2).map Prod.fst).Nodup)
    (cols : List (String × List (Option Nat)))
    (hnames : cols.map Prod.fst = kindNames (EC.allFields stats0 rs []).2 EC.FieldType.str)
    (hcolok : ∀ f, (f, EC.FieldType.str) ∈ (EC.allFields stats0 rs []).2 →
      ∃ cells, cols.lookup f = some cells ∧
        cells.length = (rs.map (fun r => (JValue.asObject r).getD [])).length ∧
        ∀ j o' cell, (rs.map (fun r => (JValue.asObject r).getD [])).get? j = some o' →
          cells.get? j = some cell → Inv.CellStr stfin.stringDict o' f cell)
    (i : Nat) (o : List (String × JValue))
    (hos : (rs.map (fun r => (JValue.asObject r).getD [])).get? i = some o)
    (hgood : ∀ kv ∈ o, Spec.goodKey kv.1 = true)
    (hndo : (o.map Prod.fst).Nodup) (hilt : i < rs.length)
    (key : String) (s : String) (hkv : (key, JValue.str s) ∈ o)
    (hft : (Spec.abbrevName key, EC.FieldType.str) ∈ (EC.allFields stats0 rs []).2) :
    (cols.filterMap (Rec.pickStr (DC.reverseLookupOf stfin.stringDict)
        (EC.propertyAbbrevs.map (fun p => (p.2, p.1))) i)).reverse.find?
      (fun kv => kv.1 = key) = some (key, JValue.str s) := by
  have hgkey : Spec.goodKey key = true := hgood (key, JValue.str s) hkv
  have hfv : EC.findVal o (Spec.abbrevName key) = some (JValue.str s) :=
    findVal_abbrev o hndo hgood key _ hkv
  rcases hcolok (Spec.abbrevName key) hft with ⟨cells, hlk, hlen, hrowspec⟩
  rcases cell_at_row cells rs i hlen hilt with ⟨cell, hget⟩
  have hcell := hrowspec i o cell hos hget
  have hbind : (EC.findVal o (Spec.abbrevName key)).bind JValue.asStr = some s := by
    rw [hfv]
    rfl
  unfold Inv.CellStr at hcell
  simp only [hbind] at hcell
  rcases hcell with ⟨cc, hcc, hdict⟩
  subst hcc
  have hrev : (DC.reverseLookupOf stfin.stringDict).lookup cc = some s :=
    reverse_resolve stfin.stringDict stfin.nextStringId hfin.2 s cc hdict
  have hpick : Rec.pickStr (DC.reverseLookupOf stfin.stringDict)
      (EC.propertyAbbrevs.map (fun p => (p.2, p.1))) i (Spec.abbrevName key, cells)
      = some (key, JValue.str s) := by
    rw [pickStr_eval _ _ _ _ cc s hget hrev]
    rw [show EC.expandKey (EC.propertyAbbrevs.map (fun p => (p.2, p.1)))
        ((Spec.abbrevName key, cells) : String × List (Option Nat)).1 = key from
      expandKey_abbrev key hgkey]
  apply find?_fst_nodup
  · rw [List.map_reverse]
    refine List.nodup_reverse.mpr ?_
    refine bucket_keys_nodup rs stats0 hgoodall hndf EC.FieldType.str cols hnames _ ?_
    intro col kv h
    rcases pickStr_some _ _ _ _ _ h with ⟨id2, s2, _, _, he⟩
    rw [he]
  · rw [List.mem_reverse]
    exact List.mem_filterMap.mpr ⟨(Spec.abbrevName key, cells), lookup_mem _ _ _ hlk, hpick⟩

theorem bucketU_find (rs : List JValue) (stats0 : EC.Stats) (stfin : EC.State)
    (hfin : Inv.StInv stfin)
    (hgoodall : ∀ r ∈ rs, ∀ kv ∈ recPairs r, Spec.goodKey kv.1 = true)
    (hndf : (((EC.allFields stats0 rs []).2).map Prod.fst).Nodup)
    (cols : List (String × List (Option Nat)))
    (hnames : cols.map Prod.fst = kindNames (EC.allFields stats0 rs []).2 EC.FieldType.url)
    (hcolok : ∀ f, (f, EC.FieldType.url) ∈ (EC.allFields stats0 rs []).2 →
      ∃ cells, cols.lookup f = some cells ∧
        cells.length = (rs.map (fun r => (JValue.asObject r).getD [])).length ∧
        ∀ j o' cell, (rs.map (fun r => (JValue.asObject r).getD [])).get? j = some o' →
          cells.get? j = some cell → Inv.CellUrl stfin.urlDict o' f cell)
    (i : Nat) (o : List (String × JValue))
    (hos : (rs.map (fun r => (JValue.asObject r).getD [])).get? i = some o)
    (hgood : ∀ kv ∈ o, Spec.goodKey kv.1 = true)
    (hndo : (o.map Prod.fst).Nodup) (hilt : i < rs.length)
    (key : String) (s : String) (hkv : (key, JValue.str s) ∈ o)
    (hft : (Spec.abbrevName key, EC.FieldType.url) ∈ (EC.allFields stats0 rs []).2) :
    (cols.filterMap (Rec.pickUrl (DC.reverseLookupOf stfin.urlDict)
        (EC.propertyAbbrevs.map (fun p => (p.2, p.1))) i)).reverse.find?
      (fun kv => kv.1 = key) = some (key, JValue.str s) := by
  have hgkey : Spec.goodKey key = true := hgood (key, JValue.str s) hkv
  have hfv : EC.findVal o (Spec.abbrevName key) = some (JValue.str s) :=
    findVal_abbrev o hndo hgood key _ hkv
  rcases hcolok (Spec.abbrevName key) hft with ⟨cells, hlk, hlen, hrowspec⟩
  rcases cell_at_row cells rs i hlen hilt with ⟨cell, hget⟩
  have hcell := hrowspec i o cell hos hget
  have hbind : (EC.findVal o (Spec.abbrevName key)).bind JValue.asStr = some s := by
    rw [hfv]
    rfl
  unfold Inv.CellUrl at hcell
  simp only [hbind] at hcell
  rcases hcell with ⟨cc, hcc, hdict⟩
  subst hcc
  have hrev : (DC.reverseLookupOf stfin.urlDict).lookup cc = some s :=
    reverse_resolve stfin.urlDict stfin.nextUrlId hfin.1 s cc hdict
  have hpick : Rec.pickUrl (DC.reverseLookupOf stfin.urlDict)
      (EC.propertyAbbrevs.map (fun p => (p.2, p.1))) i (Spec.abbrevName key, cells)
      = some (key, JValue.str s) := by
    rw [pickUrl_eval _ _ _ _ cc s hget hrev]
    rw [show EC.expandKey (EC.propertyAbbrevs.map (fun p => (p.2, p.1)))
        ((Spec.abbrevName key, cells) : String × List (Option Nat)).1 = key from
      expandKey_abbrev key hgkey]
  apply find?_fst_nodup
  · rw [List.map_reverse]
    refine List.nodup_reverse.mpr ?_
    refine bucket_keys_nodup rs stats0 hgoodall hndf EC.FieldType.url cols hnames _ ?_
    intro col kv h
    rcases pickUrl_some _ _ _ _ _ h with ⟨id2, s2, _, _, he⟩
    rw [he]
  · rw [List.mem_reverse]
    exact List.mem_filterMap.mpr ⟨(Spec.abbrevName key, cells), lookup_mem _ _ _ hlk, hpick⟩

theorem bucketJ_find (rs : List JValue) (stats0 : EC.Stats) (stfin : EC.State)
    (hfin : Inv.StInv stfin)
    (hgoodall : ∀ r ∈ rs, ∀ kv ∈ recPairs r, Spec.goodKey kv.1 = true)
    (hndf : (((EC.allFields stats0 rs []).2).map Prod.fst).Nodup)
    (cols : List (String × List (Option Nat)))
    (hnames : cols.map Prod.fst = kindNames (EC.allFields stats0 rs []).2 EC.FieldType.json)
    (hcolok : ∀ f, (f, EC.FieldType.json) ∈ (EC.allFields stats0 rs []).2 →
      ∃ cells, cols.lookup f = some cells ∧
        cells.length = (rs.map (fun r => (JValue.asObject r).getD [])).length ∧
        ∀ j o' cell, (rs.map (fun r => (JValue.asObject r).getD [])).get? j = some o' →
          cells.get? j = some cell → Inv.CellJson stfin.stringDict o' f cell)
    (i : Nat) (o : List (String × JValue))
    (hos : (rs.map (fun r => (JValue.asObject r).getD [])).get? i = some o)
    (hgood : ∀ kv ∈ o, Spec.goodKey kv.1 = true)
    (hndo : (o.map Prod.fst).Nodup) (hilt : i < rs.length)
    (key : String) (v : JValue) (hkv : (key, v) ∈ o) (hwf : jwf v = true)
    (hft : (Spec.abbrevName key, EC.FieldType.json) ∈ (EC.allFields stats0 rs []).2) :
    (cols.filterMap (Rec.pickJson (DC.reverseLookupOf stfin.stringDict)
        (EC.propertyAbbrevs.map (fun p => (p.2, p.1))) i)).reverse.find?
      (fun kv => kv.1 = key) = some (key, v) := by
  have hgkey : Spec.goodKey key = true := hgood (key, v) hkv
  have hfv : EC.findVal o (Spec.abbrevName key) = some v :=
    findVal_abbrev o hndo hgood key _ hkv
  rcases hcolok (Spec.abbrevName key) hft with ⟨cells, hlk, hlen, hrowspec⟩
  rcases cell_at_row cells rs i hlen hilt with ⟨cell, hget⟩
  have hcell := hrowspec i o cell hos hget
  unfold Inv.CellJson at hcell
  simp only [hfv] at hcell
  rcases hcell with ⟨cc, hcc, hdict⟩
  subst hcc
  have hrev : (DC.reverseLookupOf stfin.stringDict).lookup cc = some (jser v) :=
    reverse_resolve stfin.stringDict stfin.nextStringId hfin.2 (jser v) cc hdict
  have hpick : Rec.pickJson (DC.reverseLookupOf stfin.stringDict)
      (EC.propertyAbbrevs.map (fun p => (p.2, p.1))) i (Spec.abbrevName key, cells)
      = some (key, v) := by
    rw [pickJson_eval _ _ _ _ cc (jser v) v hget hrev (jparse_jser v hwf)]
    rw [show EC.expandKey (EC.propertyAbbrevs.map (fun p => (p.2, p.1)))
        ((Spec.abbrevName key, cells) : String × List (Option Nat)).1 = key from
      expandKey_abbrev key hgkey]
  apply find?_fst_nodup
  · rw [List.map_reverse]
    refine List.nodup_reverse.mpr ?_
    refine bucket_keys_nodup rs stats0 hgoodall hndf EC.FieldType.json cols hnames _ ?_
    intro col kv h
    rcases pickJson_some _ _ _ _ _ h with ⟨id2, js2, _, _, he⟩
    rw [he]
  · rw [List.mem_reverse]
    exact List.mem_filterMap.mpr ⟨(Spec.abbrevName key, cells), lookup_mem _ _ _ hlk, hpick⟩

theorem bucketI_find (rs : List JValue) (stats0 : EC.Stats)
    (hgoodall : ∀ r ∈ rs, ∀ kv ∈ recPairs r, Spec.goodKey kv.1 = true)
    (hndf : (((EC.allFields stats0 rs []).2).map Prod.fst).Nodup)
    (cols : List (String × List (Option Int)))
    (hnames : cols.map Prod.fst = kindNames (EC.allFields stats0 rs []).2 EC.FieldType.int)
    (hcolok : ∀ f, (f, EC.FieldType.int) ∈ (EC.allFields stats0 rs []).2 →
      ∃ cells, cols.lookup f = some cells ∧
        cells.length = (rs.map (fun r => (JValue.asObject r).getD [])).length ∧
        ∀ j o' cell, (rs.map (fun r => (JValue.asObject r).getD [])).get? j = some o' →
          cells.get? j = some cell → cell = (EC.findVal o' f).bind JValue.asI64)
    (i : Nat) (o : List (String × JValue))
    (hos : (rs.map (fun r => (JValue.asObject r).getD [])).get? i = some o)
    (hgood : ∀ kv ∈ o, Spec.goodKey kv.1 = true)
    (hndo : (o.map Prod.fst).Nodup) (hilt : i < rs.length)
    (key : String) (n : Int) (hkv : (key, JValue.int n) ∈ o)
    (hbnds : -(2 ^ 63) ≤ n ∧ n < 2 ^ 63)
    (hft : (Spec.abbrevName key, EC.FieldType.int) ∈ (EC.allFields stats0 rs []).2) :
    (cols.filterMap (Rec.pickInt
        (EC.propertyAbbrevs.map (fun p => (p.2, p.1))) i)).reverse.find?
      (fun kv => kv.1 = key) = some (key, JValue.int n) := by
  have hgkey : Spec.goodKey key = true := hgood (key, JValue.int n) hkv
  have hfv : EC.findVal o (Spec.abbrevName key) = some (JValue.int n) :=
    findVal_abbrev o hndo hgood key _ hkv
  rcases hcolok (Spec.abbrevName key) hft with ⟨cells, hlk, hlen, hrowspec⟩
  rcases cell_at_row cells rs i hlen hilt with ⟨cell, hget⟩
  have hcell := hrowspec i o cell hos hget
  have hcv : cell = some n := by
    rw [hcell, hfv]
    show JValue.asI64 (JValue.int n) = some n
    rw [show JValue.asI64 (JValue.int n)
        = if -(2 ^ 63) ≤ n ∧ n < 2 ^ 63 then some n else none from rfl, if_pos hbnds]
  subst hcv
  have hpick : Rec.pickInt (EC.propertyAbbrevs.map (fun p => (p.2, p.1))) i
      (Spec.abbrevName key, cells) = some (key, JValue.int n) := by
    rw [pickInt_eval _ _ _ n hget]
    rw [show EC.expandKey (EC.propertyAbbrevs.map (fun p => (p.2, p.1)))
        ((Spec.abbrevName key, cells) : String × List (Option Int)).1 = key from
      expandKey_abbrev key hgkey]
  apply find?_fst_nodup
  · rw [List.map_reverse]
    refine List.nodup_reverse.mpr ?_
    refine bucket_keys_nodup rs stats0 hgoodall hndf EC.FieldType.int cols hnames _ ?_
    intro col kv h
    rcases pickInt_some _ _ _ _ h with ⟨n2, _, he⟩
    rw [he]
  · rw [List.mem_reverse]
    exact List.mem_filterMap.mpr ⟨(Spec.abbrevName key, cells), lookup_mem _ _ _ hlk, hpick⟩

theorem bucketF_find (rs : List JValue) (stats0 : EC.Stats)
    (hgoodall : ∀ r ∈ rs, ∀ kv ∈ recPairs r, Spec.goodKey kv.1 = true)
    (hndf : (((EC.allFields stats0 rs []).2).map Prod.fst).Nodup)
    (cols : List (String × List (Option Rat)))
    (hnames : cols.map Prod.fst = kindNames (EC.allFields stats0 rs []).2 EC.FieldType.float)
    (hcolok : ∀ f, (f, EC.FieldType.float) ∈ (EC.allFields stats0 rs []).2 →
      ∃ cells, cols.lookup f = some cells ∧
        cells.length = (rs.map (fun r => (JValue.asObject r).getD [])).length ∧
        ∀ j o' cell, (rs.map (fun r => (JValue.asObject r).getD [])).get? j = some o' →
          cells.get? j = some cell → cell = (EC.findVal o' f).bind JValue.asF64)
    (i : Nat) (o : List (String × JValue))
    (hos : (rs.map (fun r => (JValue.asObject r).getD [])).get? i = some o)
    (hgood : ∀ kv ∈ o, Spec.goodKey kv.1 = true)
    (hndo : (o.map Prod.fst).Nodup) (hilt : i < rs.length)
    (key : String) (q : Rat) (hkv : (key, JValue.float q) ∈ o)
    (hft : (Spec.abbrevName key, EC.FieldType.float) ∈ (EC.allFields stats0 rs []).2) :
    (cols.filterMap (Rec.pickFloat
        (EC.propertyAbbrevs.map (fun p => (p.2, p.1))) i)).reverse.find?
      (fun kv => kv.1 = key) = some (key, JValue.float q) := by
  have hgkey : Spec.goodKey key = true := hgood (key, JValue.float q) hkv
  have hfv : EC.findVal o (Spec.abbrevName key) = some (JValue.float q) :=
    findVal_abbrev o hndo hgood key _ hkv
  rcases hcolok (Spec.abbrevName key) hft with ⟨cells, hlk, hlen, hrowspec⟩
  rcases cell_at_row cells rs i hlen hilt with ⟨cell, hget⟩
  have hcell := hrowspec i o cell hos hget
  have hcv : cell = some q := by
    rw [hcell, hfv]
    rfl
  subst hcv
  have hpick : Rec.pickFloat (EC.propertyAbbrevs.map (fun p => (p.2, p.1))) i
      (Spec.abbrevName key, cells) = some (key, JValue.float q) := by
    rw [pickFloat_eval _ _ _ q hget]
    rw [show EC.expandKey (EC.propertyAbbrevs.map (fun p => (p.2, p.1)))
        ((Spec.abbrevName key, cells) : String × List (Option Rat)).1 = key from
      expandKey_abbrev key hgkey]
  apply find?_fst_nodup
  · rw [List.map_reverse]
    refine List.nodup_reverse.mpr ?_
    refine bucket_keys_nodup rs stats0 hgoodall hndf EC.FieldType.float cols hnames _ ?_
    intro col kv h
    rcases pickFloat_some _ _ _ _ h with ⟨q2, _, he⟩
    rw [he]
  · rw [List.mem_reverse]
    exact List.mem_filterMap.mpr ⟨(Spec.abbrevName key, cells), lookup_mem _ _ _ hlk, hpick⟩

theorem bucketB_find (rs : List JValue) (stats0 : EC.Stats)
    (hgoodall : ∀ r ∈ rs, ∀ kv ∈ recPairs r, Spec.goodKey kv.1 = true)
    (hndf : (((EC.allFields stats0 rs []).2).map Prod.fst).Nodup)
    (cols : List (String × List Bool))
    (hnames : cols.map Prod.fst = kindNames (EC.allFields stats0 rs []).2 EC.FieldType.bool)
    (hcolok : ∀ f, (f, EC.FieldType.bool) ∈ (EC.allFields stats0 rs []).2 →
      ∃ cells, cols.lookup f = some cells ∧
        cells.length = (rs.map (fun r => (JValue.asObject r).getD [])).length ∧
        ∀ j o' cell, (rs.map (fun r => (JValue.asObject r).getD [])).get? j = some o' →
          cells.get? j = some cell → cell = ((EC.findVal o' f).bind JValue.asBool).getD false)
    (i : Nat) (o : List (String × JValue))
    (hos : (rs.map (fun r => (JValue.asObject r).getD [])).get? i = some o)
    (hgood : ∀ kv ∈ o, Spec.goodKey kv.1 = true)
    (hndo : (o.map Prod.fst).Nodup) (hilt : i < rs.length)
    (key : String) (b : Bool) (hkv : (key, JValue.bool b) ∈ o)
    (hft : (Spec.abbrevName key, EC.FieldType.bool) ∈ (EC.allFields stats0 rs []).2) :
    (cols.filterMap (Rec.pickBool
        (EC.propertyAbbrevs.map (fun p => (p.2, p.1))) i)).reverse.find?
      (fun kv => kv.1 = key) = some (key, JValue.bool b) := by
  have hgkey : Spec.goodKey key = true := hgood (key, JValue.bool b) hkv
  have hfv : EC.findVal o (Spec.abbrevName key) = some (JValue.bool b) :=
    findVal_abbrev o hndo hgood key _ hkv
  rcases hcolok (Spec.abbrevName key) hft with ⟨cells, hlk, hlen, hrowspec⟩
  rcases cell_at_row cells rs i hlen hilt with ⟨cell, hget⟩
  have hcell := hrowspec i o cell hos hget
  have hcv : cell = b := by
    rw [hcell, hfv]
    rfl
  rw [hcv] at hget
  have hpick : Rec.pickBool (EC.propertyAbbrevs.map (fun p => (p.2, p.1))) i
      (Spec.abbrevName key, cells) = some (key, JValue.bool b) := by
    rw [pickBool_eval _ _ _ b hget]
    rw [show EC.expandKey (EC.propertyAbbrevs.map (fun p => (p.2, p.1)))
        ((Spec.abbrevName key, cells) : String × List Bool).1 = key from
      expandKey_abbrev key hgkey]
  apply find?_fst_nodup
  · rw [List.map_reverse]
    refine List.nodup_reverse.mpr ?_
    refine bucket_keys_nodup rs stats0 hgoodall hndf EC.FieldType.bool cols hnames _ ?_
    intro col kv h
    rcases pickBool_some _ _ _ _ h with ⟨b2, _, he⟩
    rw [he]
  · rw [List.mem_reverse]
    exact List.mem_filterMap.mpr ⟨(Spec.abbrevName key, cells), lookup_mem _ _ _ hlk, hpick⟩

theorem opt_none_of {α : Type} (x : Option α) (h : ∀ a, x = some a → False) : x = none := by
  cases hx : x with
  | none => rfl
  | some a => exact absurd (h a hx) (by simp)

theorem row_lookup
    (st0 : EC.State) (stats0 : EC.Stats) (rs : List JValue)
    (stfin : EC.State) (hfin : Inv.StInv stfin)
    (hle : Inv.StLE (EC.convertToColumnar st0 stats0 rs).1 stfin)
    (c : EC.Compacted) (tn : String)
    (hcs : c.dictionaries.strings = DC.reverseLookupOf stfin.stringDict)
    (hcu : c.dictionaries.urls = DC.reverseLookupOf stfin.urlDict)
    (hcp : c.dictionaries.properties = EC.propertyAbbrevs.map (fun p => (p.2, p.1)))
    (hrec : ∀ r ∈ rs, ∃ ob, r = JValue.obj ob ∧ keysSorted ob = true ∧
      (∀ kv ∈ ob, Spec.goodKey kv.1 = true) ∧
      (∀ kv ∈ ob, kv.2 ≠ JValue.null ∧ jwf kv.2 = true ∧
        (∀ n : Int, kv.2 = JValue.int n → -(2 ^ 63) ≤ n ∧ n < 2 ^ 63)))
    (hcons : ∀ r ∈ rs, ∀ r' ∈ rs, ∀ kv ∈ recPairs r, ∀ kv' ∈ recPairs r',
      Spec.abbrevName kv.1 = Spec.abbrevName kv'.1 →
      EC.inferFieldType kv.2 = EC.inferFieldType kv'.2)
    (hbool : ∀ f, Spec.lastTypeOf rs f = some EC.FieldType.bool →
      ∀ r ∈ rs, (EC.findVal (recPairs r) f).isSome = true)
    (i : Nat) (o : List (String × JValue)) (hi : rs.get? i = some (JValue.obj o))
    (hrto : (o.lookup "resource_type").isSome = true) :
    keysSorted (recPairs (EC.reconstructRow c tn
      (EC.convertToColumnar st0 stats0 rs).2.2 i)) = true ∧
    ∀ key, (recPairs (EC.reconstructRow c tn
      (EC.convertToColumnar st0 stats0 rs).2.2 i)).lookup key = o.lookup key := by
  have hOmem : (JValue.obj o) ∈ rs := List.get?_mem hi
  obtain ⟨ob, heo, hsorted0, hgood0, hvals0⟩ := hrec _ hOmem
  have hobeq : o = ob := by injection heo
  subst hobeq
  have hndo : (o.map Prod.fst).Nodup := keysSorted_nodup o hsorted0
  have hobj : ∀ r ∈ rs, (JValue.asObject r).isSome = true := by
    intro r hr
    rcases hrec r hr with ⟨ob2, he2, _⟩
    rw [he2]
    rfl
  have hgoodall : ∀ r ∈ rs, ∀ kv ∈ recPairs r, Spec.goodKey kv.1 = true := by
    intro r hr kv hkv
    rcases hrec r hr with ⟨ob2, he2, _, hg2, _⟩
    rw [he2] at hkv
    exact hg2 kv hkv
  have hndf : (((EC.allFields stats0 rs []).2).map Prod.fst).Nodup :=
    allFields_keys_nodup rs stats0 [] (by simp)
  have hcol : ∀ ft ∈ (EC.allFields stats0 rs []).2,
      Inv.ColOK stfin (rs.map (fun r => (JValue.asObject r).getD []))
        (EC.convertToColumnar st0 stats0 rs).2.2 ft.1 ft.2 :=
    fun ft hft => ColOK_mono _ _ _ _ _ _ hle (convertToColumnar_colOK st0 stats0 rs hobj ft hft)
  have hshadow := convertToColumnar_shadow st0 stats0 rs hobj
  have hnamesS := names_of_shadow _ _ _ hshadow.1
  have hnamesI := names_of_shadow _ _ _ hshadow.2.1
  have hnamesF := names_of_shadow _ _ _ hshadow.2.2.1
  have hnamesB := names_of_shadow _ _ _ hshadow.2.2.2.1
  have hnamesU := names_of_shadow _ _ _ hshadow.2.2.2.2.1
  have hnamesJ := names_of_shadow _ _ _ hshadow.2.2.2.2.2
  have hos : (rs.map (fun r => (JValue.asObject r).getD [])).get? i = some o := by
    rw [List.get?_map, hi]
    rfl
  have hilt : i < rs.length := by
    rcases List.get?_eq_some.mp hi with ⟨hb, _⟩
    exact hb
  have hlasto : ∀ kv ∈ o, Spec.lastTypeOf rs (Spec.abbrevName kv.1)
      = some (EC.inferFieldType kv.2) := by
    intro kv hkv
    exact lastTypeOf_consistent rs hcons (JValue.obj o) hOmem kv hkv
  have hbp : ∀ f, (f, EC.FieldType.bool) ∈ (EC.allFields stats0 rs []).2 →
      (EC.findVal o f).isSome = true := by
    intro f hf
    have hl : Spec.lastTypeOf rs f = some EC.FieldType.bool := by
      rw [← allFields_lookup_last rs stats0 f]
      exact mem_lookup f _ _ hndf hf
    exact hbool f hl (JValue.obj o) hOmem
  have hwfvals : ∀ kv0 ∈ o, jwf kv0.2 = true := fun kv0 h0 => (hvals0 kv0 h0).2.1
  have hbnd : ∀ kv0 ∈ o, ∀ n : Int, kv0.2 = JValue.int n → -(2 ^ 63) ≤ n ∧ n < 2 ^ 63 :=
    fun kv0 h0 n he => (hvals0 kv0 h0).2.2 n he
  rw [reconstructRow_eq, recPairs_obj, hcs, hcu, hcp]
  constructor
  · exact insFold_sorted _ _ _ (insFold_sorted _ _ _ (insFold_sorted _ _ _
      (insFold_sorted _ _ _ (insFold_sorted _ _ _ (insFold_sorted _ _ _
        (objInsert_sorted _ _ [] rfl))))))
  · intro key
    rw [insFold_lookup, insFold_lookup, insFold_lookup, insFold_lookup, insFold_lookup,
      insFold_lookup]
    have hbinvS := fun (kv' : String × JValue) hc2 =>
      bucketS_inv rs stats0 stfin hfin hgoodall hndf _ hnamesS
        (fun f hf => hcol (f, EC.FieldType.str) hf) i o hos hgood0 key kv' hc2
    have hbinvU := fun (kv' : String × JValue) hc2 =>
      bucketU_inv rs stats0 stfin hfin hgoodall hndf _ hnamesU
        (fun f hf => hcol (f, EC.FieldType.url) hf) i o hos hgood0 key kv' hc2
    have hbinvJ := fun (kv' : String × JValue) hc2 =>
      bucketJ_inv rs stats0 stfin hfin hgoodall hndf _ hnamesJ
        (fun f hf => hcol (f, EC.FieldType.json) hf) i o hos hgood0 hwfvals key kv' hc2
    have hbinvI := fun (kv' : String × JValue) hc2 =>
      bucketI_inv rs stats0 hgoodall hndf _ hnamesI
        (fun f hf => hcol (f, EC.FieldType.int) hf) i o hos hgood0 key kv' hc2
    have hbinvF := fun (kv' : String × JValue) hc2 =>
      bucketF_inv rs stats0 hgoodall hndf _ hnamesF
        (fun f hf => hcol (f, EC.FieldType.float) hf) i o hos hgood0 hbnd hlasto key kv' hc2
    have hbinvB := fun (kv' : String × JValue) hc2 =>
      bucketB_inv rs stats0 hgoodall hndf _ hnamesB
        (fun f hf => hcol (f, EC.FieldType.bool) hf) i o hos hgood0 hlasto hbp key kv' hc2
    cases hko : o.lookup key with
    | none =>
      have hkrt : key ≠ "resource_type" := by
        intro he
        subst he
        rw [hko] at hrto
        simp at hrto
      have hnS : _ = none := opt_none_of _ (fun kv' hc2 => by
        have h1 := (hbinvS kv' hc2).1
        rw [hko] at h1
        exact absurd h1 (by simp))
      have hnU : _ = none := opt_none_of _ (fun kv' hc2 => by
        have h1 := (hbinvU kv' hc2).1
        rw [hko] at h1
        exact absurd h1 (by simp))
      have hnJ : _ = none := opt_none_of _ (fun kv' hc2 => by
        have h1 := (hbinvJ kv' hc2).1
        rw [hko] at h1
        exact absurd h1 (by simp))
      have hnI : _ = none := opt_none_of _ (fun kv' hc2 => by
        have h1 := (hbinvI kv' hc2).1
        rw [hko] at h1
        exact absurd h1 (by simp))
      have hnF : _ = none := opt_none_of _ (fun kv' hc2 => by
        have h1 := (hbinvF kv' hc2).1
        rw [hko] at h1
        exact absurd h1 (by simp))
      have hnB : _ = none := opt_none_of _ (fun kv' hc2 => by
        have h1 := (hbinvB kv' hc2).1
        rw [hko] at h1
        exact absurd h1 (by simp))
      rw [hnJ, hnB, hnF, hnI, hnU, hnS]
      have hb : (key == "resource_type") = false := by simp [hkrt]
      simp [objInsert, List.lookup, hb]
    | some v =>
      have hkv : (key, v) ∈ o := lookup_mem _ _ _ hko
      have hgkey : Spec.goodKey key = true := hgood0 (key, v) hkv
      obtain ⟨hnn, hwfv, hbndv⟩ := hvals0 (key, v) hkv
      have hftkey : (Spec.abbrevName key, EC.inferFieldType v)
          ∈ (EC.allFields stats0 rs []).2 := by
        apply lookup_mem
        rw [allFields_lookup_last]
        exact hlasto (key, v) hkv
      cases v with
      | null => exact absurd rfl hnn
      | bool b =>
        have ht : EC.inferFieldType (JValue.bool b) = EC.FieldType.bool := rfl
        rw [ht] at hftkey
        have hnJ : _ = none := opt_none_of _ (fun kv' hc2 =>
          absurd (nodup_fst_inj _ hndf _ _ _ ((hbinvJ kv' hc2).2) hftkey) (by simp))
        have hfindB := bucketB_find rs stats0 hgoodall hndf _ hnamesB
          (fun f hf => hcol (f, EC.FieldType.bool) hf) i o hos hgood0 hndo hilt key b hkv hftkey
        rw [hnJ, hfindB]
      | int n =>
        have hb := hbndv n rfl
        have ht : EC.inferFieldType (JValue.int n) = EC.FieldType.int := by
          rw [show EC.inferFieldType (JValue.int n)
              = if -(2 ^ 63) ≤ n ∧ n < 2 ^ 63 then EC.FieldType.int else EC.FieldType.float
              from rfl, if_pos hb]
        rw [ht] at hftkey
        have hnJ : _ = none := opt_none_of _ (fun kv' hc2 =>
          absurd (nodup_fst_inj _ hndf _ _ _ ((hbinvJ kv' hc2).2) hftkey) (by simp))
        have hnB : _ = none := opt_none_of _ (fun kv' hc2 =>
          absurd (nodup_fst_inj _ hndf _ _ _ ((hbinvB kv' hc2).2) hftkey) (by simp))
        have hnF : _ = none := opt_none_of _ (fun kv' hc2 =>
          absurd (nodup_fst_inj _ hndf _ _ _ ((hbinvF kv' hc2).2) hftkey) (by simp))
        have hfindI := bucketI_find rs stats0 hgoodall hndf _ hnamesI
          (fun f hf => hcol (f, EC.FieldType.int) hf) i o hos hgood0 hndo hilt key n hkv hb hftkey
        rw [hnJ, hnB, hnF, hfindI]
      | float q =>
        have ht : EC.inferFieldType (JValue.float q) = EC.FieldType.float := rfl
        rw [ht] at hftkey
        have hnJ : _ = none := opt_none_of _ (fun kv' hc2 =>
          absurd (nodup_fst_inj _ hndf _ _ _ ((hbinvJ kv' hc2).2) hftkey) (by simp))
        have hnB : _ = none := opt_none_of _ (fun kv' hc2 =>
          absurd (nodup_fst_inj _ hndf _ _ _ ((hbinvB kv' hc2).2) hftkey) (by simp))
        have hfindF := bucketF_find rs stats0 hgoodall hndf _ hnamesF
          (fun f hf => hcol (f, EC.FieldType.float) hf) i o hos hgood0 hndo hilt key q hkv hftkey
        rw [hnJ, hnB, hfindF]
      | str a =>
        by_cases hpre : (strIsPrefix "https://" a || strIsPrefix "http://" a) = true
        · have ht : EC.inferFieldType (JValue.str a) = EC.FieldType.url := by
            rw [show EC.inferFieldType (JValue.str a)
                = if (strIsPrefix "https://" a || strIsPrefix "http://" a) = true
                  then EC.FieldType.url else EC.FieldType.str
                from rfl, if_pos hpre]
          rw [ht] at hftkey
          have hnJ : _ = none := opt_none_of _ (fun kv' hc2 =>
            absurd (nodup_fst_inj _ hndf _ _ _ ((hbinvJ kv' hc2).2) hftkey) (by simp))
          have hnB : _ = none := opt_none_of _ (fun kv' hc2 =>
            absurd (nodup_fst_inj _ hndf _ _ _ ((hbinvB kv' hc2).2) hftkey) (by simp))
          have hnF : _ = none := opt_none_of _ (fun kv' hc2 =>
            absurd (nodup_fst_inj _ hndf _ _ _ ((hbinvF kv' hc2).2) hftkey) (by simp))
          have hnI : _ = none := opt_none_of _ (fun kv' hc2 =>
            absurd (nodup_fst_inj _ hndf _ _ _ ((hbinvI kv' hc2).2) hftkey) (by simp))
          have hfindU := bucketU_find rs stats0 stfin hfin hgoodall hndf _ hnamesU
            (fun f hf => hcol (f, EC.FieldType.url) hf) i o hos hgood0 hndo hilt key a hkv hftkey
          rw [hnJ, hnB, hnF, hnI, hfindU]
        · have ht : EC.inferFieldType (JValue.str a) = EC.FieldType.str := by
            rw [show EC.inferFieldType (JValue.str a)
                = if (strIsPrefix "https://" a || strIsPrefix "http://" a) = true
                  then EC.FieldType.url else EC.FieldType.str
                from rfl, if_neg hpre]
          rw [ht] at hftkey
          have hnJ : _ = none := opt_none_of _ (fun kv' hc2 =>
            absurd (nodup_fst_inj _ hndf _ _ _ ((hbinvJ kv' hc2).2) hftkey) (by simp))
          have hnB : _ = none := opt_none_of _ (fun kv' hc2 =>
            absurd (nodup_fst_inj _ hndf _ _ _ ((hbinvB kv' hc2).2) hftkey) (by simp))
          have hnF : _ = none := opt_none_of _ (fun kv' hc2 =>
            absurd (nodup_fst_inj _ hndf _ _ _ ((hbinvF kv' hc2).2) hftkey) (by simp))
          have hnI : _ = none := opt_none_of _ (fun kv' hc2 =>
            absurd (nodup_fst_inj _ hndf _ _ _ ((hbinvI kv' hc2).2) hftkey) (by simp))
          have hnU : _ = none := opt_none_of _ (fun kv' hc2 =>
            absurd (nodup_fst_inj _ hndf _ _ _ ((hbinvU kv' hc2).2) hftkey) (by simp))
          have hfindS := bucketS_find rs stats0 stfin hfin hgoodall hndf _ hnamesS
            (fun f hf => hcol (f, EC.FieldType.str) hf) i o hos hgood0 hndo hilt key a hkv hftkey
          rw [hnJ, hnB, hnF, hnI, hnU, hfindS]
      | arr l =>
        have hfindJ := bucketJ_find rs stats0 stfin hfin hgoodall hndf _ hnamesJ
          (fun f hf => hcol (f, EC.FieldType.json) hf) i o hos hgood0 hndo hilt key
          (JValue.arr l) hkv hwfv hftkey
        rw [hfindJ]
      | obj ob2 =>
        have hfindJ := bucketJ_find rs stats0 stfin hfin hgoodall hndf _ hnamesJ
          (fun f hf => hcol (f, EC.FieldType.json) hf) i o hos hgood0 hndo hilt key
          (JValue.obj ob2) hkv hwfv hftkey
        rw [hfindJ]

/-- C1 (amended): under the amended hypothesis — every subresource a
well-formed sorted object carrying a string resource_type, with every
field name inside the static table or identity-recorded, no null values,
no top-level integers beyond i64, no type conflicts within a group, no
absent Bool-typed fields, and both dictionaries within the u16 id space —
the columnar compactor round-trips: reconstruct_data contains, for every
original record, a reconstructed record with an equal set of
(canonical-key, value) pairs. -/
theorem claim1_roundtrip_amended (x : JValue) (h : Spec.AmendedHypC1 x = true) :
    Spec.RoundTripOK x := by
  unfold Spec.AmendedHypC1 at h
  rw [Bool.and_eq_true, Bool.and_eq_true, Bool.and_eq_true, Bool.and_eq_true] at h
  obtain ⟨⟨⟨⟨hall, hconsb⟩, hboolb⟩, _⟩, _⟩ := h
  have hrecs : ∀ r' ∈ subsOf x, ∃ ob, r' = JValue.obj ob ∧
      (∃ s, ob.lookup "resource_type" = some (JValue.str s)) ∧
      keysSorted ob = true ∧ (∀ kv ∈ ob, Spec.goodKey kv.1 = true) ∧
      (∀ kv ∈ ob, kv.2 ≠ JValue.null ∧ jwf kv.2 = true ∧
        (∀ n : Int, kv.2 = JValue.int n → -(2 ^ 63) ≤ n ∧ n < 2 ^ 63)) := by
    intro r' hr'
    have hp := List.all_eq_true.mp hall r' hr'
    cases r' with
    | obj ob =>
      rw [Bool.and_eq_true, Bool.and_eq_true, Bool.and_eq_true] at hp
      obtain ⟨⟨⟨hrt, hsort⟩, hgood⟩, hvals⟩ := hp
      refine ⟨ob, rfl, ?_, hsort, ?_, ?_⟩
      · cases hlrt : ob.lookup "resource_type" with
        | some w =>
          cases w with
          | str s => exact ⟨s, rfl⟩
          | null => rw [hlrt] at hrt; simp at hrt
          | bool b => rw [hlrt] at hrt; simp at hrt
          | int n => rw [hlrt] at hrt; simp at hrt
          | float q => rw [hlrt] at hrt; simp at hrt
          | arr l => rw [hlrt] at hrt; simp at hrt
          | obj o2 => rw [hlrt] at hrt; simp at hrt
        | none => rw [hlrt] at hrt; simp at hrt
      · intro kv hkv
        have := List.all_eq_true.mp hgood kv hkv
        simpa using this
      · intro kv hkv
        have hv := List.all_eq_true.mp hvals kv hkv
        rw [Bool.and_eq_true, Bool.and_eq_true] at hv
        obtain ⟨⟨hv1, hv2⟩, hv3⟩ := hv
        refine ⟨by simpa using hv1, hv2, ?_⟩
        intro n he
        rw [he] at hv3
        simpa using hv3
    | null => simp at hp
    | bool b => simp at hp
    | int n => simp at hp
    | float q => simp at hp
    | str s => simp at hp
    | arr l => simp at hp
  intro r hr
  rcases hrecs r hr with ⟨ob, hre, ⟨s0, hrt0⟩, hsort0, hgood0x, hvals0x⟩
  subst hre
  have hhas : hasStrRT (JValue.obj ob) = true := by
    simp [hasStrRT, JValue.get?, hrt0, JValue.asStr]
  rcases groupRecords_complete (subsOf x) ⟨jlen x, 0, 0, 0, 0, 0, 0⟩ [] _ hr hhas with
    ⟨tn, rs, hmemg, hrmem⟩
  have hrs_subs : ∀ r' ∈ rs, r' ∈ subsOf x := by
    intro r' hr'
    rcases groupRecords_members_from (subsOf x) ⟨jlen x, 0, 0, 0, 0, 0, 0⟩ [] (tn, rs) hmemg
      r' hr' with ⟨g0, hg0, _⟩ | hin
    · simp at hg0
    · exact hin
  have hrecX : ∀ r' ∈ rs, ∃ ob2, r' = JValue.obj ob2 ∧ keysSorted ob2 = true ∧
      (∀ kv ∈ ob2, Spec.goodKey kv.1 = true) ∧
      (∀ kv ∈ ob2, kv.2 ≠ JValue.null ∧ jwf kv.2 = true ∧
        (∀ n : Int, kv.2 = JValue.int n → -(2 ^ 63) ≤ n ∧ n < 2 ^ 63)) := by
    intro r' hr'
    rcases hrecs r' (hrs_subs r' hr') with ⟨ob2, he2, _, hs2, hg2, hv2⟩
    exact ⟨ob2, he2, hs2, hg2, hv2⟩
  have hmemg0 : (tn, rs) ∈ Spec.groupsOfEC x := by
    unfold Spec.groupsOfEC
    rw [groupRecords_snd_const (subsOf x) ⟨0, 0, 0, 0, 0, 0, 0⟩ ⟨jlen x, 0, 0, 0, 0, 0, 0⟩ []]
    exact hmemg
  have hconsX : ∀ r1 ∈ rs, ∀ r2 ∈ rs, ∀ kv ∈ recPairs r1, ∀ kv' ∈ recPairs r2,
      Spec.abbrevName kv.1 = Spec.abbrevName kv'.1 →
      EC.inferFieldType kv.2 = EC.inferFieldType kv'.2 := by
    unfold Spec.consistentGroups at hconsb
    have h1 := List.all_eq_true.mp hconsb (tn, rs) hmemg0
    intro r1 h1m r2 h2m kv hkv kv' hkv' habb
    have h2 := List.all_eq_true.mp h1 r1 h1m
    have h3 := List.all_eq_true.mp h2 r2 h2m
    have h4 := List.all_eq_true.mp h3 kv hkv
    have h5 := List.all_eq_true.mp h4 kv' hkv'
    rw [Bool.or_eq_true] at h5
    rcases h5 with hl | hr5
    · exact absurd habb (by simpa using hl)
    · simpa using hr5
  have hboolX : ∀ f, Spec.lastTypeOf rs f = some EC.FieldType.bool →
      ∀ r' ∈ rs, (EC.findVal (recPairs r') f).isSome = true := by
    unfold Spec.boolsPresent at hboolb
    have h1 := List.all_eq_true.mp hboolb (tn, rs) hmemg0
    intro f hf r' hr'
    have hmemf : (f, EC.FieldType.bool) ∈ (EC.allFields ⟨0, 0, 0, 0, 0, 0, 0⟩ rs []).2 := by
      apply lookup_mem
      rw [allFields_lookup_last]
      exact hf
    have h2 := List.all_eq_true.mp h1 (f, EC.FieldType.bool) hmemf
    rw [Bool.or_eq_true] at h2
    rcases h2 with hl | hr2
    · simp at hl
    · exact List.all_eq_true.mp hr2 r' hr'
  rcases convertGroups_complete _ EC.new
    (EC.groupRecords ⟨jlen x, 0, 0, 0, 0, 0, 0⟩ (subsOf x) []).1 [] [] new_StInv tn rs hmemg
    with ⟨st0, stats0, hinv0, hdata, hleX⟩
  have hfinX : Inv.StInv (EC.convertGroups EC.new
      (EC.groupRecords ⟨jlen x, 0, 0, 0, 0, 0, 0⟩ (subsOf x) []).1 [] []
      (EC.groupRecords ⟨jlen x, 0, 0, 0, 0, 0, 0⟩ (subsOf x) []).2).1 :=
    (convertGroups_st _ _ _ _ _).2 new_StInv
  rcases List.get?_of_mem hrmem with ⟨i, hi⟩
  have hrto : (ob.lookup "resource_type").isSome = true := by
    rw [hrt0]
    rfl
  have hobjrs : ∀ r' ∈ rs, (JValue.asObject r').isSome = true := by
    intro r' hr'
    rcases hrecX r' hr' with ⟨ob2, he2, _⟩
    rw [he2]
    rfl
  have hrow := row_lookup st0 stats0 rs _ hfinX hleX (EC.compactComprehensiveData x) tn
    rfl rfl rfl hrecX hconsX hboolX i ob hi hrto
  have hndo : (ob.map Prod.fst).Nodup := keysSorted_nodup ob hsort0
  have hndw : ((recPairs (EC.reconstructRow (EC.compactComprehensiveData x) tn
      (EC.convertToColumnar st0 stats0 rs).2.2 i)).map Prod.fst).Nodup :=
    keysSorted_nodup _ hrow.1
  refine ⟨EC.reconstructRow (EC.compactComprehensiveData x) tn
    (EC.convertToColumnar st0 stats0 rs).2.2 i, ?_, ?_, ?_⟩
  · show _ ∈ (EC.compactComprehensiveData x).data.flatMap
      (fun g => (List.range g.2.count).map
        (EC.reconstructRow (EC.compactComprehensiveData x) g.1 g.2))
    refine List.mem_flatMap.mpr ⟨(tn, (EC.convertToColumnar st0 stats0 rs).2.2), hdata, ?_⟩
    refine List.mem_map.mpr ⟨i, ?_, rfl⟩
    rw [List.mem_range]
    have hcnt := (EC_convertToColumnar_inv st0 stats0 rs hobjrs).1
    rw [hcnt]
    rcases List.get?_eq_some.mp hi with ⟨hb, _⟩
    exact hb
  · intro p hp
    have hpl : ob.lookup p.1 = some p.2 := mem_lookup p.1 ob p.2 hndo hp
    have hlk := hrow.2 p.1
    rw [hpl] at hlk
    exact lookup_mem _ _ _ hlk
  · intro p hp
    have hpl : (recPairs (EC.reconstructRow (EC.compactComprehensiveData x) tn
        (EC.convertToColumnar st0 stats0 rs).2.2 i)).lookup p.1 = some p.2 :=
      mem_lookup p.1 _ p.2 hndw hp
    have hlk := hrow.2 p.1
    rw [hpl] at hlk
    exact lookup_mem _ _ _ hlk.symm

/-- C1 witness: the amended hypothesis holds at the concrete input witC1
(a static-table field, an unchanged field, an integer field) and the
amended round-trip theorem applies there. -/
theorem claim1_witness : Spec.AmendedHypC1 witC1 = true ∧ Spec.RoundTripOK witC1 :=
  ⟨by decide, claim1_roundtrip_amended witC1 (by decide)⟩
